import Mathlib

/-!
# A branch-and-bound search engine: `BTree` and its five frontiers

Shallow embedding of `btree.{h,cpp}`, `state.h`, `dfstree`, `brfstree`,
`bfstree`, `cbfstree` and `cdbfstree`.

Modelling conventions.

* `double` values are exact rationals (`ℚ`); rounding, NaN and infinities are
  outside the model.  `std::numeric_limits<double>::max()` and `::min()` are
  the exact rationals `dblMax` and `dblMin`.
* `int` values are `Int`; wrap-around of counters is not modelled.
* `State*` is an index (`Ptr`) into `BTree.heap`, the store of the state
  objects the engine holds on to.  A state handed to `processState` is a
  value; it receives its cell when it is stored.  `delete` is not modelled.
* The virtual methods of `State` are the fields of `Problem`.  A call of
  `branch` yields the list of engine calls the user code makes, in order.
* A C++ exception leaves the object mutated, so every operation returns the
  engine together with `Except Exn _`.
* `clock()` and `drand48()` are oracles (`Clock`, `CBFSData.draws`).
-/

namespace BnB

/-! ## Constants (`btree.h`, `state.h`, `cbfstree.h`) -/

/-- Pointer to a state object: an index into `BTree.heap`. -/
abbrev Ptr := Nat

/-- The constant `MIN` of btree.h. -/
def MIN : Int := 0

/-- The constant `MAX` of btree.h. -/
def MAX : Int := 1

/-- The tolerance of btree.h, `const double eps = 10e-05`. -/
def eps : ℚ := 10 / 100000

/-- Largest finite double, `std::numeric_limits<double>::max()`. -/
def dblMax : ℚ := (2 ^ 53 - 1) * 2 ^ 971

/-- Smallest positive normalised double, `std::numeric_limits<double>::min()`. -/
def dblMin : ℚ := 1 / 2 ^ 1022

/-- The constant `inf` of state.h. -/
def inf : ℚ := dblMax

/-- Selection method `STANDARD` of cbfstree.h. -/
def STANDARD : Int := 0

/-- Selection method `RANDOM_FROM_TOP_K` of cbfstree.h. -/
def RANDOM_FROM_TOP_K : Int := 1

/-- Selection method `K_BEST_AT_LEVEL` of cbfstree.h. -/
def K_BEST_AT_LEVEL : Int := 2

/-! ## States and the user's problem -/

/-- The member variables of `class State`, with the user's own data in `data`. -/
structure State (σ : Type) where
  id : Int
  parID : Int
  depth : Int
  timeToExplore : Int
  dominanceClassID : Int
  objValue : ℚ
  lowerBound : ℚ
  upperBound : ℚ
  dominated : Bool
  processed : Bool
  data : σ
  deriving DecidableEq

/-- The constructor `State::State()`. -/
def State.new {σ : Type} (d : σ) : State σ :=
  { id := 0, parID := -1, depth := 0, timeToExplore := 0, dominanceClassID := 1,
    objValue := 0, lowerBound := -inf, upperBound := inf,
    dominated := false, processed := false, data := d }

/-- What user code can read from the engine it is handed: `getGlobalLB`,
`getGlobalUB` and `getNumExploredStates`. -/
structure EngineView where
  globalLB : ℚ
  globalUB : ℚ
  numExploredStates : Int
  deriving DecidableEq

/-- One engine call made by the user's `branch`. -/
inductive Action (σ : Type) where
  | processState (s : State σ) (isRoot : Bool)
  | processHeuristicState (s : State σ)
  | abort
  deriving DecidableEq

/-- The virtual methods of `State` (and `getPriority`, which cdbfstree.cpp
calls although state.h has it commented out).  The method `clone`, which
state.h documents as the copy constructor, is the copy of the value. -/
structure Problem (σ : Type) where
  branch : State σ → EngineView → List (Action σ)
  computeBounds : State σ → EngineView → State σ
  assessDominance : State σ → State σ → State σ × State σ
  isTerminalState : State σ → Bool
  applyFinalPruningTests : State σ → EngineView → State σ
  lt : State σ → State σ → Bool
  getPriority : State σ → ℚ

/-! ## Statistics -/

/-- The member variables of `struct TreeStats`. -/
structure TreeStats where
  statesIdentified : Int
  statesExplored : Int
  statesStoredInTree : Int
  terminalStatesIdentified : Int
  heuristicStatesProcessed : Int
  statesPrunedByBoundsBeforeInsertion : Int
  statesPrunedByBoundsBeforeExploration : Int
  statesPrunedByDomBeforeInsertion : Int
  statesPrunedByDomBeforeExploration : Int
  timesBestStateWasUpdated : Int
  statesIdentifiedAtLastUpdate : Int
  statesExploredAtLastUpdate : Int
  statesStoredInTreeAtLastUpdate : Int
  numOptimalTerminalStatesIdentified : Int
  numOptimalHeuristicStatesProcessed : Int
  totalTime : ℚ
  timeToOpt : ℚ
  numIdentifiedAtLevel : List Int
  numExploredAtLevel : List Int
  numStoredAtLevel : List Int
  deriving DecidableEq

/-- The constructor `TreeStats::TreeStats()`; `timeToOpt`, which the source
leaves uninitialised, starts at 0. -/
def TreeStats.new : TreeStats :=
  { statesIdentified := 0, statesExplored := 0, statesStoredInTree := 0,
    terminalStatesIdentified := 0, heuristicStatesProcessed := 0,
    statesPrunedByBoundsBeforeInsertion := 0, statesPrunedByBoundsBeforeExploration := 0,
    statesPrunedByDomBeforeInsertion := 0, statesPrunedByDomBeforeExploration := 0,
    timesBestStateWasUpdated := 0, statesIdentifiedAtLastUpdate := 0,
    statesExploredAtLastUpdate := 0, statesStoredInTreeAtLastUpdate := 0,
    numOptimalTerminalStatesIdentified := 0, numOptimalHeuristicStatesProcessed := 0,
    totalTime := 0, timeToOpt := 0,
    numIdentifiedAtLevel := [], numExploredAtLevel := [], numStoredAtLevel := [] }

/-- The histogram update `while (depth >= v.size()) v.push_back(0); ++v[depth];`
for a depth that is not negative. -/
def bumpLevel (v : List Int) (depth : Nat) : List Int :=
  let w := v ++ List.replicate (depth + 1 - v.length) 0
  w.set depth (w.getD depth 0 + 1)

/-! ## Exceptions -/

/-- What ends an engine call early: the user's `AbortException`, the `Error`
thrown by `saveBestState` (with the two bounds it prints), behaviour the
language leaves undefined or that cannot end (`top()` of an empty container,
a histogram grown to a negative depth), and the end of the fuel of a loop. -/
inductive Exn where
  | abort
  | boundError (globalUpperBound globalLowerBound : ℚ)
  | undefined
  | outOfFuel
  deriving DecidableEq

/-! ## Frontier data -/

/-- A `state_priority_queue`, held as the list of its elements in the order of
insertion. -/
abbrev SPQ := List Ptr

/-- Scan for `priority_queue::top`: the best element seen so far is replaced
by a later one only when the comparator puts it strictly below. -/
def SPQ.best (lt : Ptr → Ptr → Bool) : Ptr → List Ptr → Ptr
  | b, [] => b
  | b, x :: xs => SPQ.best lt (if lt b x then x else b) xs

/-- The element `priority_queue::top` returns: a greatest element for the
comparator.  Which of several equal greatest elements it is depends on the
layout of the binary heap behind `std::priority_queue`, which the standard
leaves to the library.  This model takes the earliest inserted of them, as
the heap of libstdc++ does while fewer than four equal greatest elements wait;
from four on the heap may hand out another of them. -/
def SPQ.top (lt : Ptr → Ptr → Bool) : SPQ → Option Ptr
  | [] => none
  | x :: xs => some (SPQ.best lt x xs)

/-- The queue after `priority_queue::pop`. -/
def SPQ.pop (lt : Ptr → Ptr → Bool) (q : SPQ) : SPQ :=
  match SPQ.top lt q with
  | none => q
  | some b => q.erase b

/-- The queue after `priority_queue::push`. -/
def SPQ.push (q : SPQ) (p : Ptr) : SPQ := q ++ [p]

/-- The member variables of `CBFSTree`; a `state_priority_queue*` in
`nonEmptyLevelSPQs` is the index of its level in `unexploredStates`, and
`draws` holds the values `drand48()` will return. -/
structure CBFSData where
  unexploredStates : List SPQ
  nonEmptyLevelSPQs : List Nat
  selectionMethod : Int
  numToSelect : Int
  numExploredAtCurLevel : Int
  lastLevelExplored : Int
  draws : List ℚ
  deriving DecidableEq

/-- The member variables of `CDBFSTree`. -/
structure CDBFSData where
  unexploredStates : List SPQ
  nonEmptyLevelSPQs : List Nat
  nextBest : Option Ptr
  lastDiveLevel : Int
  lastLevelExplored : Int
  numUnexploredStates : Int
  deriving DecidableEq

/-- The frontier of the concrete tree class: `DFSTree` (a stack, top first),
`BrFSTree` (a queue, front first), `BFSTree`, `CBFSTree` or `CDBFSTree`. -/
inductive Frontier where
  | dfs (unexploredStates : List Ptr)
  | brfs (unexploredStates : List Ptr)
  | bfs (unexploredStates : SPQ)
  | cbfs (c : CBFSData)
  | cdbfs (c : CDBFSData)
  deriving DecidableEq

/-- What a pop hands back: the state, the container after the pop, and how
often `statesPrunedByDomBeforeExploration` was incremented on the way. -/
structure Popped (α : Type) where
  next : Ptr
  rest : α
  pruned : Nat
  deriving DecidableEq

/-- The loop of `DFSTree::getNextState`: `cur` is `nextState`, the list is the
stack below it. -/
def DFSTree.skipDominated (dom : Ptr → Bool) : Ptr → List Ptr → Nat → Popped (List Ptr)
  | cur, [], n => ⟨cur, [], n⟩
  | cur, x :: xs, n =>
    if dom cur then DFSTree.skipDominated dom x xs (n + 1) else ⟨cur, x :: xs, n⟩

/-- The function `DFSTree::getNextState` on the stack (top first); `none` is
`top()` of an empty stack. -/
def DFSTree.getNextState (dom : Ptr → Bool) : List Ptr → Option (Popped (List Ptr))
  | [] => none
  | x :: xs => some (DFSTree.skipDominated dom x xs 0)

/-- The function `DFSTree::saveStateForExploration`. -/
def DFSTree.saveStateForExploration (stack : List Ptr) (p : Ptr) : List Ptr := p :: stack

/-- The loop of `BrFSTree::getNextState`: `cur` is `nextState`, the list is the
queue behind it. -/
def BrFSTree.skipDominated (dom : Ptr → Bool) : Ptr → List Ptr → Nat → Popped (List Ptr)
  | cur, [], n => ⟨cur, [], n⟩
  | cur, x :: xs, n =>
    if dom cur then BrFSTree.skipDominated dom x xs (n + 1) else ⟨cur, x :: xs, n⟩

/-- The function `BrFSTree::getNextState` on the queue (front first). -/
def BrFSTree.getNextState (dom : Ptr → Bool) : List Ptr → Option (Popped (List Ptr))
  | [] => none
  | x :: xs => some (BrFSTree.skipDominated dom x xs 0)

/-- The function `BrFSTree::saveStateForExploration`. -/
def BrFSTree.saveStateForExploration (queue : List Ptr) (p : Ptr) : List Ptr := queue ++ [p]

/-- The loop of `BFSTree::getNextState`; the first argument bounds the number
of iterations (each one pops an element). -/
def BFSTree.skipDominated (lt : Ptr → Ptr → Bool) (dom : Ptr → Bool) :
    Nat → Ptr → SPQ → Nat → Popped SPQ
  | 0, cur, q, n => ⟨cur, q, n⟩
  | k + 1, cur, q, n =>
    if dom cur then
      match SPQ.top lt q with
      | none => ⟨cur, q, n⟩
      | some t => BFSTree.skipDominated lt dom k t (SPQ.pop lt q) (n + 1)
    else ⟨cur, q, n⟩

/-- The function `BFSTree::getNextState` on the priority queue. -/
def BFSTree.getNextState (lt : Ptr → Ptr → Bool) (dom : Ptr → Bool) (q : SPQ) :
    Option (Popped SPQ) :=
  match SPQ.top lt q with
  | none => none
  | some t => some (BFSTree.skipDominated lt dom q.length t (SPQ.pop lt q) 0)

/-- The function `BFSTree::saveStateForExploration`. -/
def BFSTree.saveStateForExploration (q : SPQ) (p : Ptr) : SPQ := SPQ.push q p

/-- The queue `*unexploredStates[lvl]`. -/
def levelQ (qs : List SPQ) (lvl : Nat) : SPQ := qs.getD lvl []

/-- The loop `while (unexploredStates.size() <= level) push_back(new queue)`. -/
def growLevels (qs : List SPQ) (level : Nat) : List SPQ :=
  qs ++ List.replicate (level + 1 - qs.length) []

/-- The pair `top(); pop();` on the queue of level `lvl`. -/
def CBFSTree.popLevel (lt : Ptr → Ptr → Bool) (c : CBFSData) (lvl : Nat) :
    Option (Ptr × CBFSData) :=
  match SPQ.top lt (levelQ c.unexploredStates lvl) with
  | none => none
  | some t =>
    some (t, { c with unexploredStates :=
                 c.unexploredStates.set lvl (SPQ.pop lt (levelQ c.unexploredStates lvl)) })

/-- The function `CBFSTree::levelThreshold`. -/
def CBFSTree.levelThreshold (c : CBFSData) (_level : Int) : Int := c.numToSelect

/-- The number of states in the level queues. -/
def totalSize (qs : List SPQ) : Nat := (qs.map List.length).sum

/-- The `while (nextState->isDominated())` loop of `getNextStateStandard` and
what follows it; `lvl` is `nextLevelSPQ`, `ns` is `nextState`. -/
def CBFSTree.standardLoop (lt : Ptr → Ptr → Bool) (dom : Ptr → Bool) (depth : Ptr → Int) :
    Nat → CBFSData → Nat → Ptr → Except Exn (Popped CBFSData)
  | 0, _, _, _ => .error .outOfFuel
  | k + 1, c, lvl, ns =>
    if dom ns then
      if (levelQ c.unexploredStates lvl).isEmpty then
        match c.nonEmptyLevelSPQs with
        | [] => .ok ⟨ns, { c with lastLevelExplored := depth ns }, 0⟩
        | l :: rest =>
          match CBFSTree.popLevel lt { c with nonEmptyLevelSPQs := rest } l with
          | none => .error .undefined
          | some (t, c1) => CBFSTree.standardLoop lt dom depth k c1 l t
      else
        match CBFSTree.popLevel lt c lvl with
        | none => .error .undefined
        | some (t, c1) => CBFSTree.standardLoop lt dom depth k c1 lvl t
    else
      let c1 := if (levelQ c.unexploredStates lvl).isEmpty then c
                else { c with nonEmptyLevelSPQs := c.nonEmptyLevelSPQs ++ [lvl] }
      .ok ⟨ns, { c1 with lastLevelExplored := depth ns }, 0⟩

/-- The function `CBFSTree::getNextStateStandard`. -/
def CBFSTree.getNextStateStandard (lt : Ptr → Ptr → Bool) (dom : Ptr → Bool)
    (depth : Ptr → Int) (c : CBFSData) : Except Exn (Popped CBFSData) :=
  match c.nonEmptyLevelSPQs with
  | [] => .error .undefined
  | lvl :: rest =>
    match CBFSTree.popLevel lt { c with nonEmptyLevelSPQs := rest } lvl with
    | none => .error .undefined
    | some (ns, c1) =>
      CBFSTree.standardLoop lt dom depth (totalSize c.unexploredStates + 1) c1 lvl ns

/-- The `while` loop of `getNextStateFromCurLevel` and what follows it; `lvl`
is `nextLevelSPQ`, the front of the list. -/
def CBFSTree.curLevelLoop (lt : Ptr → Ptr → Bool) (dom : Ptr → Bool) (depth : Ptr → Int) :
    Nat → CBFSData → Nat → Ptr → Except Exn (Popped CBFSData)
  | 0, _, _, _ => .error .outOfFuel
  | k + 1, c, lvl, ns =>
    if dom ns then
      if (levelQ c.unexploredStates lvl).isEmpty then
        let c1 := { c with nonEmptyLevelSPQs := c.nonEmptyLevelSPQs.tail,
                           numExploredAtCurLevel := 0 }
        match c1.nonEmptyLevelSPQs with
        | [] => .ok ⟨ns, { c1 with lastLevelExplored := depth ns }, 0⟩
        | l :: _ =>
          match CBFSTree.popLevel lt c1 l with
          | none => .error .undefined
          | some (t, c2) => CBFSTree.curLevelLoop lt dom depth k c2 l t
      else
        match CBFSTree.popLevel lt c lvl with
        | none => .error .undefined
        | some (t, c1) => CBFSTree.curLevelLoop lt dom depth k c1 lvl t
    else
      let c1 := { c with numExploredAtCurLevel := c.numExploredAtCurLevel + 1 }
      let c2 :=
        if (levelQ c1.unexploredStates lvl).isEmpty then
          { c1 with nonEmptyLevelSPQs := c1.nonEmptyLevelSPQs.tail, numExploredAtCurLevel := 0 }
        else if c1.numExploredAtCurLevel ≥ CBFSTree.levelThreshold c1 (depth ns) then
          { c1 with nonEmptyLevelSPQs := c1.nonEmptyLevelSPQs.tail ++ [lvl],
                    numExploredAtCurLevel := 0 }
        else c1
      .ok ⟨ns, { c2 with lastLevelExplored := depth ns }, 0⟩

/-- The function `CBFSTree::getNextStateFromCurLevel`. -/
def CBFSTree.getNextStateFromCurLevel (lt : Ptr → Ptr → Bool) (dom : Ptr → Bool)
    (depth : Ptr → Int) (c : CBFSData) : Except Exn (Popped CBFSData) :=
  match c.nonEmptyLevelSPQs with
  | [] => .error .undefined
  | lvl :: _ =>
    match CBFSTree.popLevel lt c lvl with
    | none => .error .undefined
    | some (ns, c1) =>
      CBFSTree.curLevelLoop lt dom depth (totalSize c.unexploredStates + 1) c1 lvl ns

/-- The call `std::remove(v.begin(), v.end(), x)` on a vector of pointers, whose
size it does not change: the elements other than `x` move to the front and the
cells behind them keep what they held. -/
def vectorRemove (v : List Ptr) (x : Ptr) : List Ptr :=
  let kept := v.filter (fun y => y != x)
  kept ++ v.drop kept.length

/-- The conversion `(int) q`, which rounds toward zero. -/
def truncate (q : ℚ) : Int := if 0 ≤ q then ⌊q⌋ else ⌈q⌉

/-- The call `drand48()`: the next value of the oracle (0 once it is used up). -/
def CBFSData.drand48 (c : CBFSData) : ℚ × CBFSData :=
  match c.draws with
  | [] => (0, c)
  | d :: ds => (d, { c with draws := ds })

/-- The element `v[index]` of a vector for an `int` index; `none` outside it. -/
def vectorAt (v : List Ptr) (index : Int) : Option Ptr :=
  if 0 ≤ index then v[index.toNat]? else none

/-- The first loop of `getNextStateRandomFromTopK`: move up to `k` best
elements of the queue to the back of `bestAtLevel`. -/
def CBFSTree.takeBest (lt : Ptr → Ptr → Bool) : Nat → SPQ → List Ptr → List Ptr × SPQ
  | 0, q, acc => (acc, q)
  | k + 1, q, acc =>
    match SPQ.top lt q with
    | none => (acc, q)
    | some t => CBFSTree.takeBest lt k (SPQ.pop lt q) (acc ++ [t])

/-- The `while (nextState->isDominated())` loop of `getNextStateRandomFromTopK`
and what follows it; `restart` is the call `getNextState()` made from inside
the loop, `n` counts the increments of `statesPrunedByDomBeforeExploration`. -/
def CBFSTree.randomLoop (lt : Ptr → Ptr → Bool) (dom : Ptr → Bool) (depth : Ptr → Int)
    (restart : CBFSData → Nat → Except Exn (Popped CBFSData)) :
    Nat → CBFSData → Nat → List Ptr → Int → Ptr → Nat → Except Exn (Popped CBFSData)
  | 0, _, _, _, _, _, _ => .error .outOfFuel
  | k + 1, c, lvl, bestAtLevel, numStates, ns, n =>
    if dom ns then
      if numStates = 0 ∧ c.nonEmptyLevelSPQs.isEmpty then
        .ok ⟨ns, { c with lastLevelExplored := depth ns }, n⟩
      else if numStates = 0 then
        restart c (n + 1)
      else
        let q := levelQ c.unexploredStates lvl
        let step : CBFSData × List Ptr × Int × Nat :=
          match SPQ.top lt q with
          | none => (c, bestAtLevel, numStates, n)
          | some t =>
            ({ c with unexploredStates := c.unexploredStates.set lvl (SPQ.pop lt q) },
              bestAtLevel ++ [t], numStates + 1, n + 1)
        let best2 := vectorRemove step.2.1 ns
        let numStates2 := step.2.2.1 - 1
        let dr := step.1.drand48
        match vectorAt best2 (truncate (dr.1 * numStates2)) with
        | none => .error .undefined
        | some ns2 =>
          CBFSTree.randomLoop lt dom depth restart k dr.2 lvl best2 numStates2 ns2 step.2.2.2
    else
      let best1 := vectorRemove bestAtLevel ns
      let numStates1 := numStates - 1
      let q1 := (best1.take numStates1.toNat).foldl SPQ.push (levelQ c.unexploredStates lvl)
      let c1 := { c with unexploredStates := c.unexploredStates.set lvl q1 }
      let c2 := if q1.isEmpty then c1
                else { c1 with nonEmptyLevelSPQs := c1.nonEmptyLevelSPQs ++ [lvl] }
      .ok ⟨ns, { c2 with lastLevelExplored := depth ns }, n⟩

/-- The function `CBFSTree::getNextStateRandomFromTopK`; the first argument
bounds the number of times it calls itself through `getNextState()`. -/
def CBFSTree.getNextStateRandomFromTopK (lt : Ptr → Ptr → Bool) (dom : Ptr → Bool)
    (depth : Ptr → Int) : Nat → CBFSData → Nat → Except Exn (Popped CBFSData)
  | 0, _, _ => .error .outOfFuel
  | k + 1, c, n =>
    match c.nonEmptyLevelSPQs with
    | [] => .error .undefined
    | lvl :: rest =>
      let tb := CBFSTree.takeBest lt c.numToSelect.toNat (levelQ c.unexploredStates lvl) []
      let c1 := { c with nonEmptyLevelSPQs := rest,
                         unexploredStates := c.unexploredStates.set lvl tb.2 }
      let numStates : Int := tb.1.length
      let dr := c1.drand48
      match vectorAt tb.1 (truncate (dr.1 * numStates)) with
      | none => .error .undefined
      | some ns =>
        CBFSTree.randomLoop lt dom depth
          (fun c2 n2 => CBFSTree.getNextStateRandomFromTopK lt dom depth k c2 n2)
          (totalSize c.unexploredStates + 1) dr.2 lvl tb.1 numStates ns n

/-- The function `CBFSTree::getNextState`: the switch on the selection method
(an invalid method ends the process). -/
def CBFSTree.getNextState (lt : Ptr → Ptr → Bool) (dom : Ptr → Bool) (depth : Ptr → Int)
    (c : CBFSData) : Except Exn (Popped CBFSData) :=
  if c.selectionMethod = STANDARD then CBFSTree.getNextStateStandard lt dom depth c
  else if c.selectionMethod = RANDOM_FROM_TOP_K then
    CBFSTree.getNextStateRandomFromTopK lt dom depth (totalSize c.unexploredStates + 1) c 0
  else if c.selectionMethod = K_BEST_AT_LEVEL then
    CBFSTree.getNextStateFromCurLevel lt dom depth c
  else .error .undefined

/-- The function `CBFSTree::saveStateForExploration` for a state at depth
`level`; a negative depth makes the growing loop run for ever. -/
def CBFSTree.saveStateForExploration (c : CBFSData) (p : Ptr) (level : Int) :
    Except Exn CBFSData :=
  if level < 0 then .error .undefined else
  let lv := level.toNat
  let qs := growLevels c.unexploredStates lv
  let wasPreviouslyEmpty := (levelQ qs lv).isEmpty
  let c1 := { c with unexploredStates := qs.set lv (SPQ.push (levelQ qs lv) p) }
  if wasPreviouslyEmpty then
    if level = c1.lastLevelExplored then
      .ok { c1 with nonEmptyLevelSPQs := c1.nonEmptyLevelSPQs ++ [lv] }
    else
      let isPrevLevelEmpty :=
        if level > 0 then (levelQ c1.unexploredStates (lv - 1)).isEmpty else true
      if c1.selectionMethod ≠ K_BEST_AT_LEVEL ∨ isPrevLevelEmpty = true ∨
          c1.numExploredAtCurLevel ≥ CBFSTree.levelThreshold c1 (level - 1) then
        .ok { c1 with nonEmptyLevelSPQs := lv :: c1.nonEmptyLevelSPQs }
      else
        match c1.nonEmptyLevelSPQs with
        | [] => .error .undefined
        | prev :: rest => .ok { c1 with nonEmptyLevelSPQs := prev :: lv :: rest }
  else .ok c1

/-- The function `CBFSTree::isEmpty`. -/
def CBFSTree.isEmpty (c : CBFSData) : Bool := c.nonEmptyLevelSPQs.isEmpty

/-- The loop `while (nextLevelSPQ->empty())` of `CDBFSTree::getNextState`: the
cyclic scan for a level that is not empty.  The first argument bounds the
number of steps; when no level holds a state the source loops for ever. -/
def CDBFSTree.scan (qs : List SPQ) : Nat → Nat → Option Nat
  | 0, _ => none
  | k + 1, nextLevel =>
    if (levelQ qs nextLevel).isEmpty then
      CDBFSTree.scan qs k (if nextLevel ≥ qs.length - 1 then 0 else nextLevel + 1)
    else some nextLevel

/-- The second loop of `CDBFSTree::getNextState`: exhaust dominated states at
the level of the dive. -/
def CDBFSTree.skipDominated (lt : Ptr → Ptr → Bool) (dom : Ptr → Bool) (depth : Ptr → Int) :
    Nat → CDBFSData → Nat → Ptr → Except Exn (Popped CDBFSData)
  | 0, _, _, _ => .error .outOfFuel
  | k + 1, c, lvl, ns =>
    if dom ns then
      match SPQ.top lt (levelQ c.unexploredStates lvl) with
      | none =>
        .ok ⟨ns, { c with lastDiveLevel := depth ns, lastLevelExplored := depth ns }, 0⟩
      | some t =>
        CDBFSTree.skipDominated lt dom depth k
          { c with unexploredStates :=
                     c.unexploredStates.set lvl (SPQ.pop lt (levelQ c.unexploredStates lvl)),
                   numUnexploredStates := c.numUnexploredStates - 1 } lvl t
    else .ok ⟨ns, { c with lastDiveLevel := depth ns, lastLevelExplored := depth ns }, 0⟩

/-- The value of `(lastDiveLevel + 1) % unexploredStates.size()` in
`CDBFSTree::getNextState`, for a vector of `n` levels.  The sum is computed in
`int` (32 bits; past `INT_MAX` it wraps around to `INT_MIN`, as the compiled
code does), then converted to `size_t` (64 bits, so a negative sum `x` becomes
`2 ^ 64 + x`), and the remainder is taken there. -/
def CDBFSTree.nextLevel (lastDiveLevel : Int) (n : Nat) : Nat :=
  ((((lastDiveLevel + 1 + 2 ^ 31) % 2 ^ 32 - 2 ^ 31) % (2 ^ 64 : Int)).toNat) % n

/-- The function `CDBFSTree::getNextState`.  A remainder by an empty vector's
size is undefined. -/
def CDBFSTree.getNextState (lt : Ptr → Ptr → Bool) (dom : Ptr → Bool) (depth : Ptr → Int)
    (c : CDBFSData) : Except Exn (Popped CDBFSData) :=
  match c.nextBest with
  | some temp =>
    .ok ⟨temp, { c with nextBest := none, lastLevelExplored := depth temp,
                        numUnexploredStates := c.numUnexploredStates - 1 }, 0⟩
  | none =>
    if c.unexploredStates.length = 0 then .error .undefined else
    let start : Nat := CDBFSTree.nextLevel c.lastDiveLevel c.unexploredStates.length
    match CDBFSTree.scan c.unexploredStates (c.unexploredStates.length + 1) start with
    | none => .error .undefined
    | some lvl =>
      match SPQ.top lt (levelQ c.unexploredStates lvl) with
      | none => .error .undefined
      | some ns =>
        CDBFSTree.skipDominated lt dom depth (totalSize c.unexploredStates + 1)
          { c with unexploredStates :=
                     c.unexploredStates.set lvl (SPQ.pop lt (levelQ c.unexploredStates lvl)),
                   numUnexploredStates := c.numUnexploredStates - 1 } lvl ns

/-- The function `CDBFSTree::saveStateForExploration` for a state at depth
`level` with priority `prio p`. -/
def CDBFSTree.saveStateForExploration (prio : Ptr → ℚ) (depth : Ptr → Int)
    (c : CDBFSData) (p : Ptr) (level : Int) : Except Exn CDBFSData :=
  if level < 0 then .error .undefined else
  let lv := level.toNat
  let c1 := { c with numUnexploredStates := c.numUnexploredStates + 1,
                     unexploredStates := growLevels c.unexploredStates lv }
  if level = c1.lastLevelExplored then
    .ok { c1 with unexploredStates :=
                    c1.unexploredStates.set lv (SPQ.push (levelQ c1.unexploredStates lv) p) }
  else
    match c1.nextBest with
    | none => .ok { c1 with nextBest := some p }
    | some nb =>
      if prio nb < prio p then
        let nbLevel := depth nb
        if nbLevel < 0 ∨ nbLevel.toNat ≥ c1.unexploredStates.length then .error .undefined
        else
          .ok { c1 with unexploredStates :=
                          c1.unexploredStates.set nbLevel.toNat
                            (SPQ.push (levelQ c1.unexploredStates nbLevel.toNat) nb),
                        nextBest := some p }
      else
        .ok { c1 with unexploredStates :=
                        c1.unexploredStates.set lv (SPQ.push (levelQ c1.unexploredStates lv) p) }

/-- The function `CDBFSTree::isEmpty`. -/
def CDBFSTree.isEmpty (c : CDBFSData) : Bool := c.numUnexploredStates == 0

/-! ## The engine -/

/-- The member variables of `BTree`, the heap of stored states and the
frontier of the subclass. -/
structure BTree (σ : Type) where
  globalLowerBound : ℚ
  globalUpperBound : ℚ
  problemType : Int
  bestState : Option (State σ)
  keepExploring : Bool
  isOptIntegral : Bool
  runTimeStart : ℚ
  nextNodeID : Int
  nextEdgeID : Int
  exploredStates : Int
  tulipOutputFile : Bool
  debug : Int
  useDom : Bool
  retainStates : Bool
  useFinalTests : Bool
  findAllSolns : Bool
  outputRate : Int
  stateComputesBounds : Bool
  nodeLimit : Int
  timeLimit : ℚ
  stopAtFirstImprov : Bool
  saveNonTerm : Bool
  tStats : TreeStats
  domClasses : List (Int × List Ptr)
  heap : List (State σ)
  frontier : Frontier

/-- The constructor `BTree::BTree(probType, isIntProb)` followed by the
subclass constructor that supplies the (empty) frontier `f`. -/
def BTree.new {σ : Type} (probType : Int) (isIntProb : Bool) (f : Frontier) : BTree σ :=
  { globalLowerBound := dblMin, globalUpperBound := dblMax, problemType := probType,
    bestState := none, keepExploring := true, isOptIntegral := isIntProb,
    runTimeStart := 0, nextNodeID := 0, nextEdgeID := 0, exploredStates := 0,
    tulipOutputFile := false, debug := 1, useDom := false, retainStates := true,
    useFinalTests := false, findAllSolns := false, outputRate := 1000,
    stateComputesBounds := false, nodeLimit := 0, timeLimit := 0,
    stopAtFirstImprov := false, saveNonTerm := false, tStats := TreeStats.new,
    domClasses := [], heap := [], frontier := f }

/-- The empty frontier of `DFSTree::DFSTree`. -/
def DFSTree.frontier : Frontier := Frontier.dfs []

/-- The empty frontier of `BrFSTree::BrFSTree`. -/
def BrFSTree.frontier : Frontier := Frontier.brfs []

/-- The empty frontier of `BFSTree::BFSTree`. -/
def BFSTree.frontier : Frontier := Frontier.bfs []

/-- The frontier of `CBFSTree::CBFSTree(probType, isIntProb, selMethod, k)`. -/
def CBFSTree.frontier (selMethod : Int) (k : Int) (draws : List ℚ) : Frontier :=
  Frontier.cbfs { unexploredStates := [], nonEmptyLevelSPQs := [], selectionMethod := selMethod,
                  numToSelect := k, numExploredAtCurLevel := 0, lastLevelExplored := -1,
                  draws := draws }

/-- The frontier of `CDBFSTree::CDBFSTree`; the constructor does not initialise
`lastDiveLevel` and `lastLevelExplored`, whose first values are parameters. -/
def CDBFSTree.frontier (lastDiveLevel0 lastLevelExplored0 : Int) : Frontier :=
  Frontier.cdbfs { unexploredStates := [], nonEmptyLevelSPQs := [], nextBest := none,
                   lastDiveLevel := lastDiveLevel0, lastLevelExplored := lastLevelExplored0,
                   numUnexploredStates := 0 }

/-- The engine as user code sees it. -/
def BTree.view {σ : Type} (bt : BTree σ) : EngineView :=
  { globalLB := bt.globalLowerBound, globalUB := bt.globalUpperBound,
    numExploredStates := bt.tStats.statesExplored }


/-! ### Counter updates -/

/-- The statement `tStats->statesPrunedByDomBeforeExploration += n`. -/
def BTree.countPrunedByDomBeforeExploration {σ : Type} (bt : BTree σ) (n : Nat) : BTree σ :=
  { bt with tStats := { bt.tStats with statesPrunedByDomBeforeExploration :=
                          bt.tStats.statesPrunedByDomBeforeExploration + n } }

/-- The statement `++tStats->statesPrunedByBoundsBeforeExploration`. -/
def BTree.countPrunedByBoundsBeforeExploration {σ : Type} (bt : BTree σ) : BTree σ :=
  { bt with tStats := { bt.tStats with statesPrunedByBoundsBeforeExploration :=
                          bt.tStats.statesPrunedByBoundsBeforeExploration + 1 } }

/-- The statement `++tStats->statesPrunedByDomBeforeInsertion`. -/
def BTree.countPrunedByDomBeforeInsertion {σ : Type} (bt : BTree σ) : BTree σ :=
  { bt with tStats := { bt.tStats with statesPrunedByDomBeforeInsertion :=
                          bt.tStats.statesPrunedByDomBeforeInsertion + 1 } }

/-- The statement `++tStats->statesPrunedByBoundsBeforeInsertion`. -/
def BTree.countPrunedByBoundsBeforeInsertion {σ : Type} (bt : BTree σ) : BTree σ :=
  { bt with tStats := { bt.tStats with statesPrunedByBoundsBeforeInsertion :=
                          bt.tStats.statesPrunedByBoundsBeforeInsertion + 1 } }

/-- The first statement of `BTree::processTerminalState`: count a terminal
state of the tree, or a heuristic state. -/
def BTree.countCandidate {σ : Type} (bt : BTree σ) (isTreeNode : Bool) : BTree σ :=
  if isTreeNode then
    { bt with tStats := { bt.tStats with terminalStatesIdentified :=
                            bt.tStats.terminalStatesIdentified + 1 } }
  else
    { bt with tStats := { bt.tStats with heuristicStatesProcessed :=
                            bt.tStats.heuristicStatesProcessed + 1 } }

/-- The engine once a state at depth `depth` is counted as identified. -/
def BTree.countIdentified {σ : Type} (bt : BTree σ) (depth : Nat) : BTree σ :=
  { bt with tStats :=
      { bt.tStats with
          numIdentifiedAtLevel := bumpLevel bt.tStats.numIdentifiedAtLevel depth,
          statesIdentified := bt.tStats.statesIdentified + 1 } }

/-- The engine once a state at depth `depth` is counted as stored. -/
def BTree.countStored {σ : Type} (bt : BTree σ) (depth : Nat) : BTree σ :=
  { bt with tStats :=
      { bt.tStats with
          numStoredAtLevel := bumpLevel bt.tStats.numStoredAtLevel depth,
          statesStoredInTree := bt.tStats.statesStoredInTree + 1 } }

/-- The engine once a state at depth `depth` is counted as explored. -/
def BTree.countExplored {σ : Type} (bt : BTree σ) (depth : Nat) : BTree σ :=
  { bt with tStats :=
      { bt.tStats with
          numExploredAtLevel := bumpLevel bt.tStats.numExploredAtLevel depth,
          statesExplored := bt.tStats.statesExplored + 1 } }

/-! ### Reading state objects through pointers -/

/-- The call `p->isDominated()`. -/
def BTree.isDom {σ : Type} (bt : BTree σ) (p : Ptr) : Bool :=
  match bt.heap[p]? with
  | some s => s.dominated
  | none => false

/-- The call `p->getDepth()`. -/
def BTree.depthOf {σ : Type} (bt : BTree σ) (p : Ptr) : Int :=
  match bt.heap[p]? with
  | some s => s.depth
  | none => 0

/-- The comparator `StateComparator`: `*x < *y`. -/
def BTree.ltPtr {σ : Type} (P : Problem σ) (bt : BTree σ) (x y : Ptr) : Bool :=
  match bt.heap[x]?, bt.heap[y]? with
  | some a, some b => P.lt a b
  | _, _ => false

/-- The call `p->getPriority()`. -/
def BTree.prioOf {σ : Type} (P : Problem σ) (bt : BTree σ) (p : Ptr) : ℚ :=
  match bt.heap[p]? with
  | some s => P.getPriority s
  | none => 0

/-! ### The virtual frontier functions -/

/-- The virtual function `isEmpty()`. -/
def BTree.isEmpty {σ : Type} (bt : BTree σ) : Bool :=
  match bt.frontier with
  | .dfs st => st.isEmpty
  | .brfs q => q.isEmpty
  | .bfs q => q.isEmpty
  | .cbfs c => CBFSTree.isEmpty c
  | .cdbfs c => CDBFSTree.isEmpty c

/-- The engine after a pop that left frontier `f` and counted `n` dominated
states. -/
def BTree.afterPop {σ : Type} (bt : BTree σ) (f : Frontier) (n : Nat) : BTree σ :=
  { bt.countPrunedByDomBeforeExploration n with frontier := f }

/-- The virtual function `getNextState()`. -/
def BTree.getNextState {σ : Type} (P : Problem σ) (bt : BTree σ) : BTree σ × Except Exn Ptr :=
  match bt.frontier with
  | .dfs st =>
    match DFSTree.getNextState bt.isDom st with
    | none => (bt, .error .undefined)
    | some r => (bt.afterPop (.dfs r.rest) r.pruned, .ok r.next)
  | .brfs q =>
    match BrFSTree.getNextState bt.isDom q with
    | none => (bt, .error .undefined)
    | some r => (bt.afterPop (.brfs r.rest) r.pruned, .ok r.next)
  | .bfs q =>
    match BFSTree.getNextState (bt.ltPtr P) bt.isDom q with
    | none => (bt, .error .undefined)
    | some r => (bt.afterPop (.bfs r.rest) r.pruned, .ok r.next)
  | .cbfs c =>
    match CBFSTree.getNextState (bt.ltPtr P) bt.isDom bt.depthOf c with
    | .error e => (bt, .error e)
    | .ok r => (bt.afterPop (.cbfs r.rest) r.pruned, .ok r.next)
  | .cdbfs c =>
    match CDBFSTree.getNextState (bt.ltPtr P) bt.isDom bt.depthOf c with
    | .error e => (bt, .error e)
    | .ok r => (bt.afterPop (.cdbfs r.rest) r.pruned, .ok r.next)

/-- The virtual function `saveStateForExploration(s)` for the state at `p`. -/
def BTree.saveStateForExploration {σ : Type} (P : Problem σ) (bt : BTree σ) (p : Ptr) :
    BTree σ × Except Exn Unit :=
  match bt.frontier with
  | .dfs st => ({ bt with frontier := .dfs (DFSTree.saveStateForExploration st p) }, .ok ())
  | .brfs q => ({ bt with frontier := .brfs (BrFSTree.saveStateForExploration q p) }, .ok ())
  | .bfs q => ({ bt with frontier := .bfs (BFSTree.saveStateForExploration q p) }, .ok ())
  | .cbfs c =>
    match CBFSTree.saveStateForExploration c p (bt.depthOf p) with
    | .error e => (bt, .error e)
    | .ok c1 => ({ bt with frontier := .cbfs c1 }, .ok ())
  | .cdbfs c =>
    match CDBFSTree.saveStateForExploration (bt.prioOf P) bt.depthOf c p (bt.depthOf p) with
    | .error e => (bt, .error e)
    | .ok c1 => ({ bt with frontier := .cdbfs c1 }, .ok ())

/-! ### Pruning tests and the incumbent -/

/-- The function `BTree::stateIsDominated`. -/
def BTree.stateIsDominated {σ : Type} (_bt : BTree σ) (s : State σ) : Bool := s.dominated

/-- The function `BTree::stateExceedsBounds`. -/
def BTree.stateExceedsBounds {σ : Type} (bt : BTree σ) (s : State σ) : Bool :=
  decide ((bt.problemType = MIN ∧ s.lowerBound ≥ bt.globalUpperBound - eps) ∨
          (bt.problemType = MAX ∧ s.upperBound ≤ bt.globalLowerBound + eps))

/-- The function `BTree::attemptHeuristicCompletion`. -/
def BTree.attemptHeuristicCompletion {σ : Type} (bt : BTree σ) (s : State σ) : Bool :=
  decide ((bt.problemType = MIN ∧ s.lowerBound < bt.globalUpperBound - eps) ∨
          (bt.problemType = MAX ∧ s.upperBound > bt.globalLowerBound + eps))

/-- The function `BTree::stateIsPrunable`: the engine after the test and its
answer. -/
def BTree.stateIsPrunable {σ : Type} (bt : BTree σ) (s : State σ) : BTree σ × Bool :=
  if bt.stateIsDominated s then (bt.countPrunedByDomBeforeExploration 1, true)
  else if bt.stateExceedsBounds s then (bt.countPrunedByBoundsBeforeExploration, true)
  else (bt, false)

/-- The function `BTree::saveBestState`. -/
def BTree.saveBestState {σ : Type} (bt : BTree σ) (s : State σ)
    (isTreeNode : Bool) : BTree σ × Except Exn Unit :=
  let objVal := s.objValue
  if (bt.problemType = MIN ∧ |objVal - bt.globalUpperBound| ≤ eps) ∨
     (bt.problemType = MAX ∧ |objVal - bt.globalLowerBound| ≤ eps) then
    let bt1 : BTree σ :=
      if isTreeNode then
        { bt with tStats := { bt.tStats with numOptimalTerminalStatesIdentified :=
                                bt.tStats.numOptimalTerminalStatesIdentified + 1 } }
      else
        { bt with tStats := { bt.tStats with numOptimalHeuristicStatesProcessed :=
                                bt.tStats.numOptimalHeuristicStatesProcessed + 1 } }
    if bt1.bestState.isNone ∨ bt1.findAllSolns = true then
      ({ bt1 with tStats := { bt1.tStats with timesBestStateWasUpdated :=
                                bt1.tStats.timesBestStateWasUpdated + 1 },
                  bestState := some s }, .ok ())
    else (bt1, .ok ())
  else if (bt.problemType = MIN ∧ objVal < bt.globalUpperBound - eps) ∨
          (bt.problemType = MAX ∧ objVal > bt.globalLowerBound + eps) then
    let bt1 : BTree σ := { bt with bestState := some s }
    let bt2 : BTree σ :=
      if bt1.problemType = MIN then { bt1 with globalUpperBound := objVal }
      else { bt1 with globalLowerBound := objVal }
    if bt2.globalUpperBound < bt2.globalLowerBound then
      (bt2, .error (.boundError bt2.globalUpperBound bt2.globalLowerBound))
    else
      ({ bt2 with tStats :=
           { bt2.tStats with
               timesBestStateWasUpdated := bt2.tStats.timesBestStateWasUpdated + 1,
               statesIdentifiedAtLastUpdate := bt2.tStats.statesIdentified,
               statesStoredInTreeAtLastUpdate := bt2.tStats.statesStoredInTree,
               statesExploredAtLastUpdate := bt2.tStats.statesExplored,
               numOptimalTerminalStatesIdentified := if isTreeNode then 1 else 0,
               numOptimalHeuristicStatesProcessed := if isTreeNode then 0 else 1 } }, .ok ())
  else (bt, .ok ())

/-- The function `BTree::processTerminalState`. -/
def BTree.processTerminalState {σ : Type} (bt : BTree σ) (s : State σ)
    (isTreeNode : Bool) : BTree σ × Except Exn Unit :=
  (bt.countCandidate isTreeNode).saveBestState s isTreeNode

/-- The function `BTree::processHeuristicState`. -/
def BTree.processHeuristicState {σ : Type} (bt : BTree σ) (s : State σ) :
    BTree σ × Except Exn Unit :=
  bt.processTerminalState s false

/-- The function `BTree::resetBest`. -/
def BTree.resetBest {σ : Type} (bt : BTree σ) : BTree σ :=
  { bt with bestState := none, keepExploring := true,
            tStats := { bt.tStats with timesBestStateWasUpdated := 0 } }

/-- The setter `BTree::setGlobalLB`. -/
def BTree.setGlobalLB {σ : Type} (bt : BTree σ) (lb : ℚ) : BTree σ :=
  { bt with globalLowerBound := lb }

/-- The setter `BTree::setGlobalUB`. -/
def BTree.setGlobalUB {σ : Type} (bt : BTree σ) (ub : ℚ) : BTree σ :=
  { bt with globalUpperBound := ub }
/-! ### Dominance -/

/-- The `for` loop of `BTree::applyDominanceRules` over the states of the
dominance class of `s`: each `assessDominance` may change `s` and the stored
state it is compared with. -/
def BTree.assessLoop {σ : Type} (P : Problem σ) :
    State σ → List Ptr → List (State σ) → State σ × List (State σ)
  | s, [], heap => (s, heap)
  | s, p :: ps, heap =>
    match heap[p]? with
    | none => (s, heap)
    | some o =>
      let r := P.assessDominance s o
      if r.1.dominated then (r.1, heap.set p r.2)
      else BTree.assessLoop P r.1 ps (heap.set p r.2)

/-- The function `BTree::applyDominanceRules`: the engine and the state `s`
after it. -/
def BTree.applyDominanceRules {σ : Type} (P : Problem σ) (bt : BTree σ) (s : State σ) :
    BTree σ × State σ :=
  match bt.domClasses.lookup s.dominanceClassID with
  | none => (bt, s)
  | some domC =>
    let r := BTree.assessLoop P s domC bt.heap
    ({ bt with heap := r.2 }, r.1)

/-- The insertion of the stored state `p` into its dominance class in
`BTree::processState` (a new class when `find` reaches `end()`). -/
def insertDomClass (classes : List (Int × List Ptr)) (key : Int) (p : Ptr) :
    List (Int × List Ptr) :=
  match classes.lookup key with
  | none => classes ++ [(key, [p])]
  | some _ => classes.map (fun kc => if kc.1 = key then (kc.1, kc.2 ++ [p]) else kc)

/-! ### Processing states -/

/-- Sequencing of two engine steps: the second runs, on the engine the first
left, only when the first did not throw. -/
def andThen {σ α β : Type} (r : BTree σ × Except Exn α)
    (k : BTree σ → α → BTree σ × Except Exn β) : BTree σ × Except Exn β :=
  match r.2 with
  | .error e => (r.1, .error e)
  | .ok a => k r.1 a

/-- The first statements of `BTree::processState`: `nextNodeID++`, and the
edge id the trace file consumes for a state that has a parent. -/
def BTree.assignID {σ : Type} (bt : BTree σ) (s : State σ) : BTree σ :=
  if bt.tulipOutputFile = true ∧ s.parID ≠ -1
  then { bt with nextNodeID := bt.nextNodeID + 1, nextEdgeID := bt.nextEdgeID + 1 }
  else { bt with nextNodeID := bt.nextNodeID + 1 }

/-- The head of `BTree::processState`: `s->id = nextNodeID++`, the edge id
consumed by the trace file, and the "identified" counters.  A negative depth
makes the histogram loop run until memory is exhausted. -/
def BTree.identify {σ : Type} (bt : BTree σ) (s : State σ) :
    BTree σ × Except Exn (State σ) :=
  if s.depth < 0 then (bt.assignID s, .error .undefined)
  else ((bt.assignID s).countIdentified s.depth.toNat, .ok { s with id := bt.nextNodeID })

/-- The root test of `BTree::processState`: is the gap closed? -/
def BTree.gapClosed {σ : Type} (bt : BTree σ) : Bool :=
  decide ((bt.isOptIntegral = true ∧ ⌈bt.globalLowerBound⌉ = ⌊bt.globalUpperBound⌋) ∨
          |bt.globalLowerBound - bt.globalUpperBound| < eps)

/-- The state `s` gets its cell in the heap and, when states are retained, its
place in its dominance class. -/
def BTree.allocate {σ : Type} (bt : BTree σ) (s : State σ) : BTree σ :=
  if bt.retainStates then
    { bt with heap := bt.heap ++ [s],
              domClasses := insertDomClass bt.domClasses s.dominanceClassID bt.heap.length }
  else { bt with heap := bt.heap ++ [s] }

/-- The tail of `BTree::processState`: put the surviving state into its
dominance class (when states are retained), count it as stored and hand it to
the frontier. -/
def BTree.store {σ : Type} (P : Problem σ) (bt : BTree σ) (s : State σ) :
    BTree σ × Except Exn Bool :=
  if s.depth < 0 then (bt.allocate s, .error .undefined)
  else
    andThen (((bt.allocate s).countStored s.depth.toNat).saveStateForExploration P bt.heap.length)
      (fun bt4 _ => (bt4, .ok true))

/-- The root branch of `BTree::processState`: the slack-side global bound is
taken from the root. -/
def BTree.updateRootBound {σ : Type} (bt : BTree σ) (s : State σ) : BTree σ :=
  if bt.problemType = MIN then { bt with globalLowerBound := s.lowerBound }
  else { bt with globalUpperBound := s.upperBound }

/-- The part of `BTree::processState` after the dominance test: compute the
bounds, prune by bounds, update the bound of the root, store. -/
def BTree.boundAndStore {σ : Type} (P : Problem σ) (bt : BTree σ) (s : State σ)
    (isRoot : Bool) : BTree σ × Except Exn Bool :=
  let s1 := if bt.stateComputesBounds then s else P.computeBounds s bt.view
  if bt.stateExceedsBounds s1 then (bt.countPrunedByBoundsBeforeInsertion, .ok false)
  else if isRoot then
    if (bt.updateRootBound s1).gapClosed then (bt.updateRootBound s1, .ok false)
    else (bt.updateRootBound s1).store P s1
  else bt.store P s1

/-- The dominance test of `BTree::processState` and what follows it. -/
def BTree.dominanceAndStore {σ : Type} (P : Problem σ) (bt : BTree σ) (s : State σ)
    (isRoot : Bool) : BTree σ × Except Exn Bool :=
  if bt.useDom then
    if (bt.applyDominanceRules P s).1.stateIsDominated (bt.applyDominanceRules P s).2 then
      ((bt.applyDominanceRules P s).1.countPrunedByDomBeforeInsertion, .ok false)
    else (bt.applyDominanceRules P s).1.boundAndStore P (bt.applyDominanceRules P s).2 isRoot
  else bt.boundAndStore P s isRoot

/-- The function `BTree::processState`. -/
def BTree.processState {σ : Type} (P : Problem σ) (bt : BTree σ) (s : State σ)
    (isRoot : Bool) : BTree σ × Except Exn Bool :=
  andThen (bt.identify s) (fun bt1 s1 =>
    if P.isTerminalState s1 then
      andThen (bt1.processTerminalState s1 true) (fun bt2 _ => (bt2, .ok true))
    else
      andThen (if bt1.saveNonTerm then bt1.saveBestState s1 true else (bt1, .ok ()))
        (fun bt2 _ => bt2.dominanceAndStore P s1 isRoot))

/-! ### Exploring -/

/-- One engine call of the user's `branch`. -/
def BTree.runAction {σ : Type} (P : Problem σ) (bt : BTree σ) :
    Action σ → BTree σ × Except Exn Unit
  | .abort => (bt, .error .abort)
  | .processState s isRoot => andThen (bt.processState P s isRoot) (fun bt1 _ => (bt1, .ok ()))
  | .processHeuristicState s => bt.processHeuristicState s

/-- The user's `branch`, call by call: the engine calls of the list are made
in order until one of them throws. -/
def BTree.runActions {σ : Type} (P : Problem σ) :
    BTree σ → List (Action σ) → BTree σ × Except Exn Unit
  | bt, [] => (bt, .ok ())
  | bt, a :: rest =>
    match (bt.runAction P a).2 with
    | .error e => ((bt.runAction P a).1, .error e)
    | .ok _ => BTree.runActions P (bt.runAction P a).1 rest

/-- The end of `BTree::exploreNextState`: count the state `ns` as explored and
branch on it. -/
def BTree.branchOn {σ : Type} (P : Problem σ) (bt : BTree σ) (ns : State σ) :
    BTree σ × Except Exn Unit :=
  if ns.depth < 0 then (bt, .error .undefined)
  else
    BTree.runActions P (bt.countExplored ns.depth.toNat)
      (P.branch ns (bt.countExplored ns.depth.toNat).view)

/-- The label that `BTree::exploreNextState` writes to the trace file
consumes a value of `exploredStates`. -/
def BTree.labelExplored {σ : Type} (bt : BTree σ) : BTree σ :=
  if bt.tulipOutputFile then { bt with exploredStates := bt.exploredStates + 1 } else bt

/-- The state object at `p` becomes `ns`. -/
def BTree.writeState {σ : Type} (bt : BTree σ) (p : Ptr) (ns : State σ) : BTree σ :=
  { bt with heap := bt.heap.set p ns }

/-- The second half of `BTree::exploreNextState` when final tests are in use:
the final tests on `ns`, the second pruning test, the branching. -/
def BTree.finalTests {σ : Type} (P : Problem σ) (bt : BTree σ) (p : Ptr) (ns : State σ) :
    BTree σ × Except Exn Unit :=
  let ns1 := P.applyFinalPruningTests ns bt.view
  if ((bt.writeState p ns1).stateIsPrunable ns1).2
  then (((bt.writeState p ns1).stateIsPrunable ns1).1, .ok ())
  else ((bt.writeState p ns1).stateIsPrunable ns1).1.branchOn P ns1

/-- The body of `BTree::exploreNextState` for the state `ns` that
`getNextState` returned and that lives at `p`. -/
def BTree.exploreState {σ : Type} (P : Problem σ) (bt : BTree σ) (p : Ptr) (ns : State σ) :
    BTree σ × Except Exn Unit :=
  if ns.timeToExplore > bt.tStats.statesExplored then
    bt.saveStateForExploration P p
  else if (bt.labelExplored.stateIsPrunable ns).2 then
    ((bt.labelExplored.stateIsPrunable ns).1, .ok ())
  else if (bt.labelExplored.stateIsPrunable ns).1.useFinalTests then
    (bt.labelExplored.stateIsPrunable ns).1.finalTests P p ns
  else (bt.labelExplored.stateIsPrunable ns).1.branchOn P ns

/-- The function `BTree::exploreNextState`. -/
def BTree.exploreNextState {σ : Type} (P : Problem σ) (bt : BTree σ) :
    BTree σ × Except Exn Unit :=
  andThen (bt.getNextState P) (fun bt1 p =>
    match bt1.heap[p]? with
    | none => (bt1, .error .undefined)
    | some ns => bt1.exploreState P p ns)

/-- The readings of `clock()` in `BTree::explore`: one before the loop and
three in the iteration with a given index. -/
structure Clock where
  start : ℚ
  loopStart : Nat → ℚ
  loopEnd : Nat → ℚ
  check : Nat → ℚ

/-- The condition that ends an iteration of the loop of `BTree::explore`. -/
def BTree.withinLimits {σ : Type} (bt : BTree σ) (now : ℚ) : Bool :=
  decide ((bt.nodeLimit = 0 ∨ bt.tStats.statesExplored < bt.nodeLimit) ∧
          (bt.timeLimit < eps ∨ now - bt.runTimeStart < bt.timeLimit) ∧
          (bt.stopAtFirstImprov = false ∨ bt.tStats.timesBestStateWasUpdated = 0) ∧
          bt.globalLowerBound < bt.globalUpperBound)

/-- The time bookkeeping of one iteration of the loop of `BTree::explore`. -/
def BTree.addTime {σ : Type} (bt : BTree σ) (clk : Clock) (i : Nat) (updated : Bool) : BTree σ :=
  { bt with tStats :=
      { bt.tStats with
          totalTime := bt.tStats.totalTime + (clk.loopEnd i - clk.loopStart i),
          timeToOpt := if updated then bt.tStats.totalTime + (clk.loopEnd i - clk.loopStart i)
                       else bt.tStats.timeToOpt } }

/-- The bookkeeping of one iteration of the loop of `BTree::explore` after
`exploreNextState`; `updated` stands for `oldBest != bestState`. -/
def BTree.afterIteration {σ : Type} (clk : Clock) (i : Nat) (updated : Bool) (bt : BTree σ) :
    BTree σ :=
  { bt.addTime clk i updated with
      keepExploring := bt.keepExploring && (bt.addTime clk i updated).withinLimits (clk.check i) }

/-- The handler of the abort in `BTree::explore`: `keepExploring = false`. -/
def BTree.stopExploring {σ : Type} (bt : BTree σ) : BTree σ :=
  { bt with keepExploring := false }

/-- Whether the test `(debug > 0) && ((tStats->statesExplored % outputRate) == 0)`
before `printProgress()` in the loop of `BTree::explore` divides by zero: it
does when `debug > 0` and `outputRate` is 0.  (`statesExplored` is never
negative, and `printProgress` only prints.) -/
def BTree.progressTestUndefined {σ : Type} (bt : BTree σ) : Bool :=
  decide (0 < bt.debug ∧ bt.outputRate = 0)

/-- The rest of an iteration of the loop of `BTree::explore` after the `try`
block: the time bookkeeping, the progress test, which is undefined when it
divides by zero, and the test of the limits. -/
def BTree.endIteration {σ : Type} (clk : Clock) (i : Nat) (updated : Bool) (bt : BTree σ)
    (finished : Bool) : BTree σ × Except Exn Bool :=
  if bt.progressTestUndefined then (bt.addTime clk i updated, .error .undefined)
  else (BTree.afterIteration clk i updated bt, .ok finished)

/-- One iteration of the loop of `BTree::explore`: the engine after it, the
value of `finished`, and the exception that leaves the loop, if any.  The
abort is caught. -/
def BTree.iteration {σ : Type} (P : Problem σ) (clk : Clock) (i : Nat) (bt : BTree σ)
    (finished : Bool) : BTree σ × Except Exn Bool :=
  match (bt.exploreNextState P).2 with
  | .error .abort =>
    BTree.endIteration clk i
      (decide ((bt.exploreNextState P).1.tStats.timesBestStateWasUpdated
                ≠ bt.tStats.timesBestStateWasUpdated))
      (bt.exploreNextState P).1.stopExploring false
  | .error e => ((bt.exploreNextState P).1, .error e)
  | .ok _ =>
    BTree.endIteration clk i
      (decide ((bt.exploreNextState P).1.tStats.timesBestStateWasUpdated
                ≠ bt.tStats.timesBestStateWasUpdated))
      (bt.exploreNextState P).1 finished

/-- The loop of `BTree::explore`; the first argument bounds the number of
iterations, `i` is the index of the iteration, and the result says whether the
search `finished`. -/
def BTree.exploreLoop {σ : Type} (P : Problem σ) (clk : Clock) :
    Nat → Nat → BTree σ → Bool → BTree σ × Except Exn Bool
  | 0, _, bt, finished =>
    if !bt.isEmpty && bt.keepExploring then (bt, .error .outOfFuel) else (bt, .ok finished)
  | fuel + 1, i, bt, finished =>
    if !bt.isEmpty && bt.keepExploring then
      match (bt.iteration P clk i finished).2 with
      | .error e => ((bt.iteration P clk i finished).1, .error e)
      | .ok fin => BTree.exploreLoop P clk fuel (i + 1) (bt.iteration P clk i finished).1 fin
    else (bt, .ok finished)

/-- The first statement of `BTree::explore`. -/
def BTree.startClock {σ : Type} (bt : BTree σ) (clk : Clock) : BTree σ :=
  { bt with runTimeStart := clk.start - bt.tStats.totalTime }

/-- The function `BTree::explore`, with a bound on the iterations of its loop. -/
def BTree.explore {σ : Type} (P : Problem σ) (clk : Clock) (fuel : Nat) (bt : BTree σ) :
    BTree σ × Except Exn Bool :=
  BTree.exploreLoop P clk fuel 0 (bt.startClock clk) true

/-! ### Options -/

/-- The option setters of btree.h (`setGlobalLB` and `setGlobalUB` apart). -/
inductive Setting where
  | debug (level : Int)
  | domUsage (b : Bool)
  | retainStates (b : Bool)
  | finalTestUsage (b : Bool)
  | findAllSolns (b : Bool)
  | saveNonTermStates (b : Bool)
  | nodeLimit (lim : Int)
  | timeLimit (lim : ℚ)
  | firstImprovStop (b : Bool)
  | outputRate (rate : Int)
  | startTime (time : ℚ)
  | stateComputesBounds (b : Bool)
  | tulipOutputFile
  deriving DecidableEq

/-- The effect of an option setter; `CLOCKS_PER_SEC` is 1000000. -/
def BTree.configure {σ : Type} (bt : BTree σ) : Setting → BTree σ
  | .debug level => { bt with debug := level }
  | .domUsage b => { bt with useDom := b }
  | .retainStates b => { bt with retainStates := b }
  | .finalTestUsage b => { bt with useFinalTests := b }
  | .findAllSolns b => { bt with findAllSolns := b }
  | .saveNonTermStates b => { bt with saveNonTerm := b }
  | .nodeLimit lim => { bt with nodeLimit := lim }
  | .timeLimit lim => { bt with timeLimit := lim * 1000000 }
  | .firstImprovStop b => { bt with stopAtFirstImprov := b }
  | .outputRate rate => { bt with outputRate := rate }
  | .startTime time => { bt with tStats := { bt.tStats with totalTime := time, timeToOpt := time } }
  | .stateComputesBounds b => { bt with stateComputesBounds := b }
  | .tulipOutputFile => { bt with tulipOutputFile := true }

/-- The engine states a user can reach from a freshly constructed engine with
the option setters, `processState`, `processHeuristicState`, `explore` and
`resetBest`; a call that throws leaves the engine as it was at the throw. -/
inductive Reachable {σ : Type} (P : Problem σ) : BTree σ → Prop where
  | fresh (probType : Int) (isIntProb : Bool) (f : Frontier)
      (hf : f = DFSTree.frontier ∨ f = BrFSTree.frontier ∨ f = BFSTree.frontier ∨
            (∃ sel k draws, f = CBFSTree.frontier sel k draws) ∨
            (∃ d l, f = CDBFSTree.frontier d l)) :
      Reachable P (BTree.new probType isIntProb f)
  | configure {bt : BTree σ} (o : Setting) : Reachable P bt → Reachable P (bt.configure o)
  | processState {bt : BTree σ} (s : State σ) (isRoot : Bool) :
      Reachable P bt → Reachable P (bt.processState P s isRoot).1
  | processHeuristicState {bt : BTree σ} (s : State σ) :
      Reachable P bt → Reachable P (bt.processHeuristicState s).1
  | explore {bt : BTree σ} (clk : Clock) (fuel : Nat) :
      Reachable P bt → Reachable P (bt.explore P clk fuel).1
  | resetBest {bt : BTree σ} : Reachable P bt → Reachable P bt.resetBest

/-! ## Search trees as user problems -/

/-- A finite forest of search-tree nodes in first-child / next-sibling form:
a node is terminal or not, carries an objective value and two bounds, and has
children. -/
inductive Forest where
  | nil
  | node (terminal : Bool) (objValue lowerBound upperBound : ℚ) (children siblings : Forest)
  deriving DecidableEq

/-- The user data of a state of a search tree: whether it is terminal, and the
subtrees below it. -/
structure Node where
  terminal : Bool
  children : Forest
  deriving DecidableEq

/-- The state objects a parent with id `parID` creates for the nodes of a
forest at depth `depth`, by `State()` and assignments. -/
def Forest.states (parID depth : Int) : Forest → List (State Node)
  | .nil => []
  | .node t o l u ch sib =>
    { State.new ⟨t, ch⟩ with parID := parID, depth := depth, objValue := o,
                              lowerBound := l, upperBound := u }
      :: Forest.states parID depth sib

/-- The user problem of a search tree: `branch` hands every child to
`processState`, bounds are set when a state is created, there is no dominance
rule and no final test; the order `ltS` and the priority `prio` are free. -/
def treeProblem (ltS : State Node → State Node → Bool) (prio : State Node → ℚ) :
    Problem Node :=
  { branch := fun s _ => (Forest.states s.id (s.depth + 1) s.data.children).map
                            (fun c => Action.processState c false)
    computeBounds := fun s _ => s
    assessDominance := fun s o => (s, o)
    isTerminalState := fun s => s.data.terminal
    applyFinalPruningTests := fun s _ => s
    lt := ltS
    getPriority := prio }

/-- The objective values of the terminal states of a forest (nothing lies
below a terminal state). -/
def Forest.termObjs : Forest → List ℚ
  | .nil => []
  | .node t o _ _ ch sib =>
    (if t then [o] else Forest.termObjs ch) ++ Forest.termObjs sib

/-- Valid bounds: every terminal state below a state that is not terminal has
an objective value that is at least the state's lower bound (MIN), or at most
its upper bound (MAX). -/
def Forest.valid (probType : Int) : Forest → Prop
  | .nil => True
  | .node t _ l u ch sib =>
    (t = false →
      (∀ x ∈ Forest.termObjs ch, if probType = MIN then l ≤ x else x ≤ u) ∧
        Forest.valid probType ch)
      ∧ Forest.valid probType sib

/-- The number of nodes of a forest. -/
def Forest.size : Forest → Nat
  | .nil => 0
  | .node _ _ _ _ ch sib => 1 + Forest.size ch + Forest.size sib

/-- The root state of the search tree with the given root data. -/
def rootState (terminal : Bool) (objValue lowerBound upperBound : ℚ) (children : Forest) :
    State Node :=
  { State.new ⟨terminal, children⟩ with objValue := objValue, lowerBound := lowerBound,
                                         upperBound := upperBound }

/-- What `main` does with a search tree: `processState(root, true)` and, when
that returns, `explore()`. -/
def BTree.solve {σ : Type} (P : Problem σ) (clk : Clock) (fuel : Nat) (bt : BTree σ)
    (root : State σ) : BTree σ × Except Exn Bool :=
  andThen (bt.processState P root true) (fun bt1 _ => bt1.explore P clk fuel)

/-- A clock that stands still. -/
def Clock.zero : Clock := { start := 0, loopStart := fun _ => 0, loopEnd := fun _ => 0,
                            check := fun _ => 0 }

/-! ## Views of the engine used in statements -/

/-- The options of an engine, which only the constructor and the setters
write. -/
structure Options where
  problemType : Int
  isOptIntegral : Bool
  tulipOutputFile : Bool
  debug : Int
  useDom : Bool
  retainStates : Bool
  useFinalTests : Bool
  findAllSolns : Bool
  outputRate : Int
  stateComputesBounds : Bool
  nodeLimit : Int
  timeLimit : ℚ
  stopAtFirstImprov : Bool
  saveNonTerm : Bool
  deriving DecidableEq

/-- The options of the engine `bt`. -/
def BTree.options {σ : Type} (bt : BTree σ) : Options :=
  { problemType := bt.problemType, isOptIntegral := bt.isOptIntegral,
    tulipOutputFile := bt.tulipOutputFile, debug := bt.debug, useDom := bt.useDom,
    retainStates := bt.retainStates, useFinalTests := bt.useFinalTests,
    findAllSolns := bt.findAllSolns, outputRate := bt.outputRate,
    stateComputesBounds := bt.stateComputesBounds, nodeLimit := bt.nodeLimit,
    timeLimit := bt.timeLimit, stopAtFirstImprov := bt.stopAtFirstImprov,
    saveNonTerm := bt.saveNonTerm }

/-- The three counters that have a histogram, and the histograms. -/
def TreeStats.levels (t : TreeStats) : Int × Int × Int × List Int × List Int × List Int :=
  (t.statesIdentified, t.statesExplored, t.statesStoredInTree,
   t.numIdentifiedAtLevel, t.numExploredAtLevel, t.numStoredAtLevel)

/-- The two global bounds and the incumbent of the engine `bt`. -/
def BTree.incumbent {σ : Type} (bt : BTree σ) : ℚ × ℚ × Option (State σ) :=
  (bt.globalLowerBound, bt.globalUpperBound, bt.bestState)

/-- What the engine's bookkeeping is about: options, bounds and incumbent, the
next id, and the counters with a histogram. -/
def BTree.essence {σ : Type} (bt : BTree σ) :
    Options × (ℚ × ℚ × Option (State σ)) × Int ×
      (Int × Int × Int × List Int × List Int × List Int) :=
  (bt.options, bt.incumbent, bt.nextNodeID, bt.tStats.levels)

/-- What `processState` may change when it stores or prunes a state: the
frontier, the dominance index, the size of the heap, the two counters of
states pruned before insertion, and the counter of stored states. -/
def BTree.storage {σ : Type} (bt : BTree σ) :
    Frontier × List (Int × List Ptr) × Nat × Int × Int × Int :=
  (bt.frontier, bt.domClasses, bt.heap.length, bt.tStats.statesPrunedByDomBeforeInsertion,
   bt.tStats.statesPrunedByBoundsBeforeInsertion, bt.tStats.statesStoredInTree)

/-- Is the engine call a call of `processState`? -/
def Action.isProcessState {σ : Type} : Action σ → Bool
  | .processState _ _ => true
  | _ => false

/-- The engine after a sequence of calls made one after the other, whatever
the outcome of each. -/
def BTree.runCalls {σ : Type} (P : Problem σ) (bt : BTree σ) (calls : List (Action σ)) :
    BTree σ :=
  calls.foldl (fun b a => (b.runAction P a).1) bt

/-! ### Views used for the correctness of the search -/

/-- The sign that turns maximisation into minimisation. -/
def sgn (probType : Int) : ℚ := if probType = MIN then 1 else -1

/-- The best-seen bound: `globalUpperBound` for MIN, `globalLowerBound` for MAX. -/
def BTree.seen {σ : Type} (bt : BTree σ) : ℚ :=
  if bt.problemType = MIN then bt.globalUpperBound else bt.globalLowerBound

/-- The slack-side bound: `globalLowerBound` for MIN, `globalUpperBound` for MAX. -/
def BTree.slack {σ : Type} (bt : BTree σ) : ℚ :=
  if bt.problemType = MIN then bt.globalLowerBound else bt.globalUpperBound

/-- The best-seen bound of a fresh engine. -/
def seen0 (probType : Int) : ℚ := if probType = MIN then dblMax else dblMin

/-- The bound of a state that the pruning test reads: the lower bound for MIN,
the upper bound for MAX. -/
def State.bound {σ : Type} (probType : Int) (s : State σ) : ℚ :=
  if probType = MIN then s.lowerBound else s.upperBound

/-- The states that wait in the frontier. -/
def Frontier.ptrs : Frontier → List Ptr
  | .dfs st => st
  | .brfs q => q
  | .bfs q => q
  | .cbfs c => c.unexploredStates.flatten
  | .cdbfs c => c.nextBest.toList ++ c.unexploredStates.flatten

/-- Consistency of the bookkeeping of a frontier.  CBFS: a valid selection
method, `k >= 1`, random draws in [0, 1), and the list of non-empty levels
holds exactly the levels whose queue is not empty, each once.  CDBFS: the
counter is the number of waiting states, and the level of `nextBest` exists. -/
def Frontier.WF (depth : Ptr → Int) : Frontier → Prop
  | .dfs _ => True
  | .brfs _ => True
  | .bfs _ => True
  | .cbfs c =>
    (c.selectionMethod = STANDARD ∨ c.selectionMethod = RANDOM_FROM_TOP_K ∨
      c.selectionMethod = K_BEST_AT_LEVEL) ∧ 1 ≤ c.numToSelect ∧
    (∀ d ∈ c.draws, 0 ≤ d ∧ d < 1) ∧ c.nonEmptyLevelSPQs.Nodup ∧
    (∀ lvl, lvl ∈ c.nonEmptyLevelSPQs ↔ levelQ c.unexploredStates lvl ≠ [])
  | .cdbfs c =>
    c.numUnexploredStates = (c.nextBest.toList ++ c.unexploredStates.flatten).length ∧
    (∀ nb, c.nextBest = some nb → 0 ≤ depth nb ∧ (depth nb).toNat < c.unexploredStates.length)

/-- The frontiers the five tree classes start with; CBFS with a valid
selection method, `k >= 1` and random draws in [0, 1). -/
def Frontier.Fresh (f : Frontier) : Prop :=
  f = DFSTree.frontier ∨ f = BrFSTree.frontier ∨ f = BFSTree.frontier ∨
  (∃ sel k draws, f = CBFSTree.frontier sel k draws ∧
    (sel = STANDARD ∨ sel = RANDOM_FROM_TOP_K ∨ sel = K_BEST_AT_LEVEL) ∧ 1 ≤ k ∧
    (∀ d ∈ draws, 0 ≤ d ∧ d < 1)) ∨
  (∃ d l, f = CDBFSTree.frontier d l)

/-- A stored state of a search tree, as the search needs it: not dominated,
not deferred, at a depth that is not negative, not terminal, with valid bounds
below it, and with terminal states below it whose values are in `T`. -/
def Good (probType : Int) (T : List ℚ) (s : State Node) : Prop :=
  s.dominated = false ∧ s.timeToExplore = 0 ∧ 0 ≤ s.depth ∧ s.data.terminal = false ∧
  Forest.valid probType s.data.children ∧
  (∀ x ∈ Forest.termObjs s.data.children,
    sgn probType * s.bound probType ≤ sgn probType * x ∧ x ∈ T)

/-- The work a waiting state stands for: itself and the nodes below it. -/
def weight (heap : List (State Node)) (p : Ptr) : Nat :=
  match heap[p]? with
  | some s => 1 + Forest.size s.data.children
  | none => 0

/-- The work the frontier stands for. -/
def BTree.work (bt : BTree Node) : Nat :=
  ((Frontier.ptrs bt.frontier).map (weight bt.heap)).sum

/-- What the search reads of the engine besides the global bounds and the
incumbent: the problem type, the options, the frontier, the stored states, the
number of explored states and `keepExploring`. -/
def BTree.frame {σ : Type} (bt : BTree σ) :
    Int × Bool × Bool × Bool × Bool × Int × ℚ × Bool × Frontier × List (State σ) × Int × Bool :=
  (bt.problemType, bt.useDom, bt.useFinalTests, bt.saveNonTerm, bt.findAllSolns, bt.nodeLimit,
    bt.timeLimit, bt.stopAtFirstImprov, bt.frontier, bt.heap, bt.tStats.statesExplored,
    bt.keepExploring)

/-- What the search reads of the engine. -/
def BTree.core {σ : Type} (bt : BTree σ) :=
  (bt.frame, bt.globalLowerBound, bt.globalUpperBound, bt.bestState)

/-- The state of a search for the best of the terminal values `T` of a tree,
while the children `rem` of the state being branched on are still to be
processed: the options are those of a fresh engine but for the node limit, the
frontier is consistent and holds good states, every value of `T` is below a
waiting state, among `rem`, or not better than the best-seen bound by more
than `eps`; the best-seen bound is the initial one or a value of `T`, and it
is the value of the incumbent; no value of `T` is better than the slack-side
bound; and `keepExploring` is set unless the bounds have met or the node limit
is reached. -/
structure Sound (probType : Int) (T : List ℚ) (rem : Forest) (bt : BTree Node) : Prop where
  minmax : probType = MIN ∨ probType = MAX
  type : bt.problemType = probType
  useDom : bt.useDom = false
  useFinalTests : bt.useFinalTests = false
  saveNonTerm : bt.saveNonTerm = false
  findAllSolns : bt.findAllSolns = false
  timeLimit : bt.timeLimit < eps
  stopAtFirstImprov : bt.stopAtFirstImprov = false
  wf : Frontier.WF bt.depthOf bt.frontier
  nodup : (Frontier.ptrs bt.frontier).Nodup
  cells : ∀ p ∈ Frontier.ptrs bt.frontier, ∃ s, bt.heap[p]? = some s ∧ Good probType T s
  remValid : Forest.valid probType rem
  remIn : ∀ x ∈ Forest.termObjs rem, x ∈ T
  covered : ∀ x ∈ T,
    (∃ p ∈ Frontier.ptrs bt.frontier, ∃ s, bt.heap[p]? = some s ∧
        x ∈ Forest.termObjs s.data.children) ∨
    x ∈ Forest.termObjs rem ∨ sgn probType * bt.seen - eps ≤ sgn probType * x
  seenIn : bt.seen = seen0 probType ∨ bt.seen ∈ T
  bestNone : bt.bestState = none → bt.seen = seen0 probType
  bestSome : ∀ b, bt.bestState = some b → b.objValue = bt.seen ∨ bt.seen = seen0 probType
  slackOK : ∀ x ∈ T, sgn probType * bt.slack ≤ sgn probType * x
  explored : 0 ≤ bt.tStats.statesExplored
  keep : bt.keepExploring = true ∨ sgn probType * bt.seen ≤ sgn probType * bt.slack ∨
    (bt.nodeLimit ≠ 0 ∧ bt.nodeLimit ≤ bt.tStats.statesExplored)

/-- A property `I` of the engine holds after a step that returned, and after
one that threw an exception in `Q`. -/
def Keeps {σ α : Type} (I : BTree σ → Prop) (Q : Exn → Prop) (r : BTree σ × Except Exn α) :
    Prop :=
  match r.2 with
  | .ok _ => I r.1
  | .error e => Q e → I r.1

/-- What a property of the engine must satisfy to be kept by the steps of
`processState` that follow the assignment of the id: it looks only at the
essence of the engine, and the four steps that change the essence keep it. -/
structure StepInvariant {σ : Type} (I : BTree σ → Prop) (Q : Exn → Prop) : Prop where
  essence : ∀ a b : BTree σ, a.essence = b.essence → I a → I b
  saveBestState : ∀ (bt : BTree σ) (s : State σ) (t : Bool), I bt →
    Keeps I Q (bt.saveBestState s t)
  updateRootBound : ∀ (bt : BTree σ) (s : State σ), I bt → bt.stateExceedsBounds s = false →
    I (bt.updateRootBound s)
  countStored : ∀ (bt : BTree σ) (d : Nat), I bt → I (bt.countStored d)
  countExplored : ∀ (bt : BTree σ) (d : Nat), I bt → I (bt.countExplored d)

/-- What a property of the engine must satisfy to be kept by every call: a
step invariant that the head of `processState` keeps too. -/
structure Invariant {σ : Type} (I : BTree σ → Prop) (Q : Exn → Prop)
    extends StepInvariant I Q : Prop where
  identify : ∀ (bt : BTree σ) (s : State σ), I bt → Keeps I Q (bt.identify s)

/-- The counters that have a histogram agree with their histograms. -/
def TreeStats.sumsOK (t : TreeStats) : Prop :=
  t.statesIdentified = t.numIdentifiedAtLevel.sum ∧
  t.statesExplored = t.numExploredAtLevel.sum ∧
  t.statesStoredInTree = t.numStoredAtLevel.sum

deriving instance DecidableEq for Except

/-- A sample user problem: search trees with no order among states. -/
def sampleProblem : Problem Node := treeProblem (fun _ _ => false) (fun _ => 0)

/-- A sample candidate state with objective value `o` and bounds `l`, `u`. -/
def sampleState (o l u : ℚ) : State Node := rootState true o l u Forest.nil

/-- A sample engine: a fresh DFS engine whose global bounds were set to `lb`
and `ub` with `setGlobalLB` and `setGlobalUB`. -/
def sampleEngine (probType : Int) (lb ub : ℚ) : BTree Node :=
  ((BTree.new probType false DFSTree.frontier).setGlobalLB lb).setGlobalUB ub

/-- The objective value of the incumbent, when there is one, is within `eps`
of the best-seen bound. -/
def incumbentOK {σ : Type} (b : BTree σ) : Prop :=
  ∀ x, b.bestState = some x →
    (b.problemType = MIN → |x.objValue - b.globalUpperBound| ≤ eps) ∧
    (b.problemType = MAX → |x.objValue - b.globalLowerBound| ≤ eps)


/-- The state reached from a fresh MIN engine by a heuristic state of
objective value 1, `resetBest`, and a heuristic state of objective value `o`. -/
def afterReset (o : ℚ) : BTree Node :=
  (BTree.processHeuristicState
    (BTree.resetBest
      ((BTree.new MIN false DFSTree.frontier).processHeuristicState (sampleState 1 1 1)).1)
    (sampleState o o o)).1


/-- The children of the root of the sample search tree: an inner state (lower
bound 5) with one terminal child of value 7, and a terminal state of value 5. -/
def sampleChildren : Forest :=
  Forest.node false 0 5 10 (Forest.node true 7 7 7 Forest.nil Forest.nil)
    (Forest.node true 5 5 5 Forest.nil Forest.nil)

/-- A single terminal child of value -1. -/
def negativeChildren : Forest := Forest.node true (-1) (-1) (-1) Forest.nil Forest.nil

/-- A single terminal child of value 1. -/
def unitChildren : Forest := Forest.node true 1 1 1 Forest.nil Forest.nil

/-- A sample search tree for minimisation: below the root (lower bound 5) lie
an inner state with one terminal child of value 7, and a terminal state of
value 5. -/
def sampleRoot : State Node := rootState false 0 5 10 sampleChildren

/-- The engine of class `f` after `processState(root, true)` and `explore()`
on the sample search tree. -/
def exploredSample (f : Frontier) : BTree Node :=
  (BTree.explore sampleProblem Clock.zero 10
    ((BTree.new MIN false f).processState sampleProblem sampleRoot true).1).1

/-- A sample root that is deferred: the sample root with `timeToExplore` 3. -/
def deferredRoot : State Node := { sampleRoot with timeToExplore := 3 }

/-- A fresh MIN engine of class DFS after `processState(root, true)` for the
root `root`. -/
def rootedEngine (root : State Node) : BTree Node :=
  ((BTree.new MIN false DFSTree.frontier).processState sampleProblem root true).1

/-- A sample user problem whose `branch` raises the abort signal at once. -/
def abortProblem : Problem Node := { sampleProblem with branch := fun _ _ => [Action.abort] }

/-- What the loop of `explore` reads besides the bounds, the clock and the
count of incumbent updates: `keepExploring`, the number of explored states and
the options. -/
def BTree.limits {σ : Type} (bt : BTree σ) : Bool × Int × Options :=
  (bt.keepExploring, bt.tStats.statesExplored, bt.options)

/-- The engine states a user can reach from a freshly constructed engine before
the first call of `explore`: with the option setters, the bound setters,
`processState` and `processHeuristicState`. -/
inductive Prepared {σ : Type} (P : Problem σ) : BTree σ → Prop where
  | fresh (probType : Int) (isIntProb : Bool) (f : Frontier)
      (hf : f = DFSTree.frontier ∨ f = BrFSTree.frontier ∨ f = BFSTree.frontier ∨
            (∃ sel k draws, f = CBFSTree.frontier sel k draws) ∨
            (∃ d l, f = CDBFSTree.frontier d l)) :
      Prepared P (BTree.new probType isIntProb f)
  | configure {bt : BTree σ} (o : Setting) : Prepared P bt → Prepared P (bt.configure o)
  | setGlobalLB {bt : BTree σ} (lb : ℚ) : Prepared P bt → Prepared P (bt.setGlobalLB lb)
  | setGlobalUB {bt : BTree σ} (ub : ℚ) : Prepared P bt → Prepared P (bt.setGlobalUB ub)
  | processState {bt : BTree σ} (s : State σ) (isRoot : Bool) :
      Prepared P bt → Prepared P (bt.processState P s isRoot).1
  | processHeuristicState {bt : BTree σ} (s : State σ) :
      Prepared P bt → Prepared P (bt.processHeuristicState s).1

/-- The part of `BTree::processState(s, ...)` for a state that is not terminal
up to the dominance test: the id is assigned, the state is counted and, with
`saveNonTerm`, `saveBestState` is called; the engine after it and its
outcome. -/
def BTree.uptoDominance {σ : Type} (bt : BTree σ) (s : State σ) : BTree σ × Except Exn Unit :=
  if ((bt.assignID s).countIdentified s.depth.toNat).saveNonTerm
  then ((bt.assignID s).countIdentified s.depth.toNat).saveBestState
          { s with id := bt.nextNodeID } true
  else ((bt.assignID s).countIdentified s.depth.toNat, .ok ())

/-- The engine and the state as `BTree::processState(s, ...)` has them when it
reaches the bounds test: after the dominance rules (when dominance is in use)
and `computeBounds` (unless the state computes its bounds). -/
def BTree.uptoBounds {σ : Type} (P : Problem σ) (bt : BTree σ) (s : State σ) :
    BTree σ × State σ :=
  let d := if (bt.uptoDominance s).1.useDom
           then (bt.uptoDominance s).1.applyDominanceRules P { s with id := bt.nextNodeID }
           else ((bt.uptoDominance s).1, { s with id := bt.nextNodeID })
  (d.1, if d.1.stateComputesBounds then d.2 else P.computeBounds d.2 d.1.view)

/-- The limits of the engine leave the search free to go on, whatever the
clock shows: the node limit is off or not reached, the time limit is off,
`stopAtFirstImprov` is off or no incumbent update was counted, and the gap
between the global bounds is open. -/
def BTree.mayContinue {σ : Type} (bt : BTree σ) : Prop :=
  (bt.nodeLimit = 0 ∨ bt.tStats.statesExplored < bt.nodeLimit) ∧ bt.timeLimit < eps ∧
  (bt.stopAtFirstImprov = false ∨ bt.tStats.timesBestStateWasUpdated = 0) ∧
  bt.globalLowerBound < bt.globalUpperBound

/-- A fresh MIN engine of class DFS with `stopAtFirstImprov` set, after
`processState(root, true)` for the sample root. -/
def stoppingEngine : BTree Node :=
  (((BTree.new MIN false DFSTree.frontier).configure (.firstImprovStop true)).processState
    sampleProblem sampleRoot true).1

/-- A fresh MIN engine of class DFS with `stopAtFirstImprov` set, after a
heuristic state of objective value 6 (an incumbent update) and
`processState(root, true)` for the sample root. -/
def seededEngine : BTree Node :=
  (((((BTree.new MIN false DFSTree.frontier).configure
      (.firstImprovStop true)).processHeuristicState (sampleState 6 6 6)).1).processState
    sampleProblem sampleRoot true).1

/-- A sample root whose bounds coincide: lower bound 5, upper bound 5, above a
terminal state of value 5. -/
def tightRoot : State Node :=
  rootState false 0 5 5 (Forest.node true 5 5 5 Forest.nil Forest.nil)

/-- A fresh MIN engine of class DFS whose upper bound was seeded by a heuristic
state of objective value 5. -/
def seededTight : BTree Node :=
  ((BTree.new MIN false DFSTree.frontier).processHeuristicState (sampleState 5 5 5)).1

/-- A fresh MIN engine of class DFS with `saveNonTerm` set. -/
def savingEngine : BTree Node :=
  (BTree.new MIN false DFSTree.frontier).configure (.saveNonTermStates true)

/-- A sample root with objective value 3, lower bound 1 and upper bound 10. -/
def valuedRoot : State Node := rootState false 3 1 10 sampleChildren

/-- What `k` successive calls of `CBFSTree::getNextState` return when nothing is
pushed in between: the states in the order of the calls, and the frontier
after the last call. -/
def CBFSTree.pops (lt : Ptr → Ptr → Bool) (dom : Ptr → Bool) (depth : Ptr → Int) :
    Nat → CBFSData → Except Exn (List Ptr × CBFSData)
  | 0, c => .ok ([], c)
  | k + 1, c =>
    match CBFSTree.getNextState lt dom depth c with
    | .error e => .error e
    | .ok r =>
      match CBFSTree.pops lt dom depth k r.rest with
      | .error e => .error e
      | .ok (ps, c1) => .ok (r.next :: ps, c1)

/-- Successive calls of `CDBFSTree::saveStateForExploration`, one for each
state of the list, in the order of the list. -/
def CDBFSTree.pushes (prio : Ptr → ℚ) (depth : Ptr → Int) :
    CDBFSData → List Ptr → Except Exn CDBFSData
  | c, [] => .ok c
  | c, p :: ps =>
    match CDBFSTree.saveStateForExploration prio depth c p (depth p) with
    | .error e => .error e
    | .ok c1 => CDBFSTree.pushes prio depth c1 ps

/-- The stored states that the loop of `BTree::applyDominanceRules` hands to
`s->assessDominance`, in the order of the calls: the loop goes through the
dominance class and leaves it once `s` is dominated. -/
def BTree.assessCalls {σ : Type} (P : Problem σ) :
    State σ → List Ptr → List (State σ) → List Ptr
  | _, [], _ => []
  | s, p :: ps, heap =>
    match heap[p]? with
    | none => []
    | some o =>
      let r := P.assessDominance s o
      if r.1.dominated then [p]
      else p :: BTree.assessCalls P r.1 ps (heap.set p r.2)

/-- A CBFS frontier in the RANDOM_FROM_TOP_K mode with `numToSelect = k` whose
only level, level 0, holds the states 1 to 5. -/
def fiveStates (k : Int) (draws : List ℚ) : CBFSData :=
  { unexploredStates := [[1, 2, 3, 4, 5]], nonEmptyLevelSPQs := [0],
    selectionMethod := RANDOM_FROM_TOP_K, numToSelect := k, numExploredAtCurLevel := 0,
    lastLevelExplored := -1, draws := draws }

/-- A comparator for sample states: the state with the smaller number is the
better one. -/
def smallerFirst (x y : Ptr) : Bool := decide (y < x)

/-- A fresh MIN engine of class DFS with dominance on (states are retained by
default) after `processState(root, true)` on the sample root. -/
def dominanceEngine : BTree Node :=
  (((BTree.new MIN false DFSTree.frontier).configure (.domUsage true)).processState
    sampleProblem sampleRoot true).1

/-- A sample state at depth 1, in the dominance class of the sample root. -/
def sampleInner : State Node :=
  { rootState false 0 6 10 sampleChildren with parID := 0, depth := 1 }

/-- What a property of the engine must satisfy to be kept by every call of
`processState` and of `processHeuristicState`, whatever the outcome of the
call: each step of these two functions keeps it. -/
structure CallInvariant {σ : Type} (P : Problem σ) (J : BTree σ → Prop) : Prop where
  identify : ∀ (bt : BTree σ) (s : State σ), J bt → J (bt.identify s).1
  countCandidate : ∀ (bt : BTree σ) (t : Bool), J bt → J (bt.countCandidate t)
  saveBestState : ∀ (bt : BTree σ) (s : State σ) (t : Bool), J bt → J (bt.saveBestState s t).1
  applyDominanceRules : ∀ (bt : BTree σ) (s : State σ), J bt → J (bt.applyDominanceRules P s).1
  prunedByDom : ∀ bt : BTree σ, J bt → J bt.countPrunedByDomBeforeInsertion
  prunedByBounds : ∀ bt : BTree σ, J bt → J bt.countPrunedByBoundsBeforeInsertion
  updateRootBound : ∀ (bt : BTree σ) (s : State σ), J bt → J (bt.updateRootBound s)
  store : ∀ (bt : BTree σ) (s : State σ), J bt → J (bt.store P s).1

/-- The counters of `exploreNextState`: the states explored, their histogram,
and the states pruned before exploration by dominance and by bounds. -/
def BTree.explorationCounters {σ : Type} (bt : BTree σ) : Int × List Int × Int × Int :=
  (bt.tStats.statesExplored, bt.tStats.numExploredAtLevel,
   bt.tStats.statesPrunedByDomBeforeExploration, bt.tStats.statesPrunedByBoundsBeforeExploration)

/-- The counters of `processState`: the states identified, the terminal states
identified, the states pruned before insertion by dominance and by bounds, and
the states stored. -/
def BTree.insertionCounters {σ : Type} (bt : BTree σ) : Int × Int × Int × Int × Int :=
  (bt.tStats.statesIdentified, bt.tStats.terminalStatesIdentified,
   bt.tStats.statesPrunedByDomBeforeInsertion, bt.tStats.statesPrunedByBoundsBeforeInsertion,
   bt.tStats.statesStoredInTree)

/-- The frontiers of the classes `DFSTree`, `BrFSTree` and `BFSTree`. -/
def Frontier.plain : Frontier → Prop
  | .dfs _ => True
  | .brfs _ => True
  | .bfs _ => True
  | .cbfs _ => False
  | .cdbfs _ => False

/-- The balance of the stored states of a DFS, BrFS or BFS engine: every state
stored was explored, pruned before exploration, or waits in the frontier. -/
def BTree.Balanced {σ : Type} (bt : BTree σ) : Prop :=
  bt.frontier.plain ∧
  bt.tStats.statesStoredInTree
    = bt.tStats.statesExplored + bt.tStats.statesPrunedByDomBeforeExploration
      + bt.tStats.statesPrunedByBoundsBeforeExploration + (Frontier.ptrs bt.frontier).length

/-- States are not retained and the dominance index is empty. -/
def BTree.indexOff {σ : Type} (bt : BTree σ) : Prop :=
  bt.retainStates = false ∧ bt.domClasses = []

/-- Does the call `processState(s, isRoot)` on the engine `bt` leave through
the root exit for a closed gap?  It does when `isRoot` is set, the state is
not terminal, `saveBestState` (with `saveNonTerm`) did not throw, and the
state passes the dominance test and the bounds test and the gap test
succeeds after the root bound update. -/
def BTree.closesGap {σ : Type} (P : Problem σ) (bt : BTree σ) (s : State σ) (isRoot : Bool) :
    Bool :=
  isRoot && decide (0 ≤ s.depth) && !P.isTerminalState { s with id := bt.nextNodeID } &&
  (match (bt.uptoDominance s).2 with
   | .ok _ => true
   | .error _ => false) &&
  !(bt.useDom &&
    ((bt.uptoDominance s).1.applyDominanceRules P { s with id := bt.nextNodeID }).2.dominated) &&
  !((bt.uptoBounds P s).1.stateExceedsBounds (bt.uptoBounds P s).2) &&
  ((bt.uptoBounds P s).1.updateRootBound (bt.uptoBounds P s).2).gapClosed

/-- The number of calls, among the engine calls `calls` made one after the
other from the engine `bt`, that are root calls of `processState` which left
through the exit for a closed gap. -/
def BTree.gapClosures {σ : Type} (P : Problem σ) : BTree σ → List (Action σ) → Nat
  | _, [] => 0
  | bt, a :: rest =>
    (match a with
     | .processState s isRoot => if bt.closesGap P s isRoot then 1 else 0
     | _ => 0) + BTree.gapClosures P (bt.runAction P a).1 rest

/-- Two engine calls for an integral MIN engine: a heuristic state of objective
value 5, then a root with lower bound 9/2, which closes the gap. -/
def gapCalls : List (Action Node) :=
  [.processHeuristicState (sampleState 5 5 5),
   .processState (rootState false 0 (9 / 2) 10 sampleChildren) true]

/-- The balance of the stored states of a DFS, BrFS or BFS engine while
`exploreNextState` holds the state it popped: that state is neither in the
frontier nor counted yet. -/
def BTree.BalancedButOne {σ : Type} (bt : BTree σ) : Prop :=
  bt.frontier.plain ∧
  bt.tStats.statesStoredInTree
    = bt.tStats.statesExplored + bt.tStats.statesPrunedByDomBeforeExploration
      + bt.tStats.statesPrunedByBoundsBeforeExploration + (Frontier.ptrs bt.frontier).length + 1

/-- The list `nonEmptyLevelSPQs` of a CBFS frontier holds exactly the levels
whose queue is not empty, each once. -/
def CBFSData.listed (c : CBFSData) : Prop :=
  c.nonEmptyLevelSPQs.Nodup ∧
  ∀ lvl, lvl ∈ c.nonEmptyLevelSPQs ↔ levelQ c.unexploredStates lvl ≠ []

/-- The CBFS frontiers reachable from an empty one by pushes and pops that
returned.  The depth a state is pushed at, and the comparator, the dominated
flags and the depths a pop reads, are free. -/
inductive CBFSTree.Reached : CBFSData → Prop where
  | empty (sel k : Int) (draws : List ℚ) (c : CBFSData) :
      CBFSTree.frontier sel k draws = .cbfs c → CBFSTree.Reached c
  | push {c c1 : CBFSData} (p : Ptr) (level : Int) :
      CBFSTree.Reached c → CBFSTree.saveStateForExploration c p level = .ok c1 →
      CBFSTree.Reached c1
  | pop {c : CBFSData} {r : Popped CBFSData} (lt : Ptr → Ptr → Bool) (dom : Ptr → Bool)
      (depth : Ptr → Int) :
      CBFSTree.Reached c → CBFSTree.getNextState lt dom depth c = .ok r →
      CBFSTree.Reached r.rest

/-- The counter `numUnexploredStates` of a CDBFS frontier is the number of
states in the level queues, plus one when `nextBest` is not null. -/
def CDBFSData.counted (c : CDBFSData) : Prop :=
  c.numUnexploredStates
    = (totalSize c.unexploredStates : Int) + (if c.nextBest.isSome then 1 else 0)

/-- The CDBFS frontiers reachable from an empty one by pushes and pops that
returned.  The priorities and the depths a push reads, and the comparator, the
dominated flags and the depths a pop reads, are free. -/
inductive CDBFSTree.Reached : CDBFSData → Prop where
  | empty (d l : Int) (c : CDBFSData) :
      CDBFSTree.frontier d l = .cdbfs c → CDBFSTree.Reached c
  | push {c c1 : CDBFSData} (prio : Ptr → ℚ) (depth : Ptr → Int) (p : Ptr) (level : Int) :
      CDBFSTree.Reached c → CDBFSTree.saveStateForExploration prio depth c p level = .ok c1 →
      CDBFSTree.Reached c1
  | pop {c : CDBFSData} {r : Popped CDBFSData} (lt : Ptr → Ptr → Bool) (dom : Ptr → Bool)
      (depth : Ptr → Int) :
      CDBFSTree.Reached c → CDBFSTree.getNextState lt dom depth c = .ok r →
      CDBFSTree.Reached r.rest

/-- A search-tree node that is not terminal and has no children, with objective
value 0 and bounds 0 and 10, followed by its siblings. -/
def leafNode (siblings : Forest) : Forest := Forest.node false 0 0 10 Forest.nil siblings

/-- A search tree for the K_BEST_AT_LEVEL mode: the root has two children; the
first child has three; the first of these has two, the first of which has
one. -/
def turnTree : Forest :=
  Forest.node false 0 0 10
    (Forest.node false 0 0 10
      (Forest.node false 0 0 10 (leafNode Forest.nil) (leafNode Forest.nil))
      (leafNode (leafNode Forest.nil)))
    (leafNode Forest.nil)

/-- A fresh MIN engine of class CBFS in the K_BEST_AT_LEVEL mode with
`numToSelect = 1`, after `processState(root, true)` for the root of the tree
`turnTree`. -/
def turnEngine : BTree Node :=
  ((BTree.new MIN false (CBFSTree.frontier K_BEST_AT_LEVEL 1 [])).processState sampleProblem
    (rootState false 0 0 10 turnTree) true).1

/-- The list of levels of a CBFS frontier while a pop holds the queue of level
`lvl`, which it took off the list: the list holds exactly the other levels
whose queue is not empty, each once. -/
def levelsListedBut (L : List Nat) (qs : List SPQ) (lvl : Nat) : Prop :=
  L.Nodup ∧ lvl ∉ L ∧ lvl < qs.length ∧ ∀ l, l ∈ L ↔ (levelQ qs l ≠ [] ∧ l ≠ lvl)

/-- One call of the user on the engine. -/
inductive Call (σ : Type) where
  | configure (o : Setting)
  | setGlobalLB (lb : ℚ)
  | setGlobalUB (ub : ℚ)
  | processState (s : State σ) (isRoot : Bool)
  | processHeuristicState (s : State σ)
  | explore (clk : Clock) (fuel : Nat)
  | resetBest

/-- The engine after a call of the user, whatever the outcome of the call. -/
def BTree.call {σ : Type} (P : Problem σ) (bt : BTree σ) : Call σ → BTree σ
  | .configure o => bt.configure o
  | .setGlobalLB lb => bt.setGlobalLB lb
  | .setGlobalUB ub => bt.setGlobalUB ub
  | .processState s isRoot => (bt.processState P s isRoot).1
  | .processHeuristicState s => (bt.processHeuristicState s).1
  | .explore clk fuel => (bt.explore P clk fuel).1
  | .resetBest => bt.resetBest

/-- The engine after a sequence of calls of the user. -/
def BTree.session {σ : Type} (P : Problem σ) (bt : BTree σ) (calls : List (Call σ)) : BTree σ :=
  calls.foldl (fun b c => b.call P c) bt

/-- The ids that the calls of `processState` in the user's `branch` assign, in
the order of the calls: a call on the engine `bt` assigns the value that
`nextNodeID` has then (`s->id = nextNodeID++`).  The calls are those that
`BTree.runActions` makes: the list is followed until a call throws. -/
def BTree.idsOfActions {σ : Type} (P : Problem σ) : BTree σ → List (Action σ) → List Int
  | _, [] => []
  | bt, a :: rest =>
    (if a.isProcessState then [bt.nextNodeID] else []) ++
    (match (bt.runAction P a).2 with
     | .error _ => []
     | .ok _ => BTree.idsOfActions P (bt.runAction P a).1 rest)

/-- The ids assigned in `BTree.branchOn`. -/
def BTree.idsOfBranchOn {σ : Type} (P : Problem σ) (bt : BTree σ) (ns : State σ) : List Int :=
  if ns.depth < 0 then []
  else
    BTree.idsOfActions P (bt.countExplored ns.depth.toNat)
      (P.branch ns (bt.countExplored ns.depth.toNat).view)

/-- The ids assigned in `BTree.finalTests`. -/
def BTree.idsOfFinalTests {σ : Type} (P : Problem σ) (bt : BTree σ) (p : Ptr) (ns : State σ) :
    List Int :=
  let ns1 := P.applyFinalPruningTests ns bt.view
  if ((bt.writeState p ns1).stateIsPrunable ns1).2 then []
  else ((bt.writeState p ns1).stateIsPrunable ns1).1.idsOfBranchOn P ns1

/-- The ids assigned in `BTree.exploreState`. -/
def BTree.idsOfExploreState {σ : Type} (P : Problem σ) (bt : BTree σ) (p : Ptr)
    (ns : State σ) : List Int :=
  if ns.timeToExplore > bt.tStats.statesExplored then []
  else if (bt.labelExplored.stateIsPrunable ns).2 then []
  else if (bt.labelExplored.stateIsPrunable ns).1.useFinalTests then
    (bt.labelExplored.stateIsPrunable ns).1.idsOfFinalTests P p ns
  else (bt.labelExplored.stateIsPrunable ns).1.idsOfBranchOn P ns

/-- The ids assigned in one call of `BTree::exploreNextState`: those of the
calls of `processState` that the user's `branch` makes. -/
def BTree.idsOfExploreNextState {σ : Type} (P : Problem σ) (bt : BTree σ) : List Int :=
  match (bt.getNextState P).2 with
  | .error _ => []
  | .ok p =>
    match (bt.getNextState P).1.heap[p]? with
    | none => []
    | some ns => (bt.getNextState P).1.idsOfExploreState P p ns

/-- The ids assigned in the loop of `BTree::explore`, iteration after
iteration. -/
def BTree.idsOfLoop {σ : Type} (P : Problem σ) (clk : Clock) :
    Nat → Nat → BTree σ → Bool → List Int
  | 0, _, _, _ => []
  | fuel + 1, i, bt, finished =>
    if !bt.isEmpty && bt.keepExploring then
      bt.idsOfExploreNextState P ++
      (match (bt.iteration P clk i finished).2 with
       | .error _ => []
       | .ok fin => BTree.idsOfLoop P clk fuel (i + 1) (bt.iteration P clk i finished).1 fin)
    else []

/-- The ids assigned in a call of the user: the one of `processState`, and
those of the calls of `processState` that `branch` makes during `explore`. -/
def BTree.idsOfCall {σ : Type} (P : Problem σ) (bt : BTree σ) : Call σ → List Int
  | .processState _ _ => [bt.nextNodeID]
  | .explore clk fuel => BTree.idsOfLoop P clk fuel 0 (bt.startClock clk) true
  | _ => []

/-- The ids assigned in a sequence of calls of the user, in the order of the
calls of `processState`. -/
def BTree.idsOfSession {σ : Type} (P : Problem σ) : BTree σ → List (Call σ) → List Int
  | _, [] => []
  | bt, c :: cs => bt.idsOfCall P c ++ BTree.idsOfSession P (bt.call P c) cs

/-- The list `l` is `a, a + 1, a + 2, ...`. -/
def countsFrom : Int → List Int → Prop
  | _, [] => True
  | a, x :: xs => x = a ∧ countsFrom (a + 1) xs

/-- A fresh MIN engine of class DFS after `setOutputRate(0)` and
`processState(root, true)` for the sample root; `debug` has its default 1. -/
def zeroRateEngine : BTree Node :=
  (((BTree.new MIN false DFSTree.frontier).configure (.outputRate 0)).processState
    sampleProblem sampleRoot true).1

/-- A search tree for the first dive of CDBFS, as the children of its root:
the root has the children A and B; A has the children A1 and A2; each of A1,
A2 and B has one terminal child (of value 7, 8 and 9). -/
def diveTree : Forest :=
  Forest.node false 0 0 10
    (Forest.node false 0 0 10 (Forest.node true 7 7 7 Forest.nil Forest.nil)
      (Forest.node false 0 0 10 (Forest.node true 8 8 8 Forest.nil Forest.nil) Forest.nil))
    (Forest.node false 0 0 10 (Forest.node true 9 9 9 Forest.nil Forest.nil) Forest.nil)

/-- A fresh MIN engine of class CDBFS whose member `lastDiveLevel`, which the
constructor does not initialise, holds `garbage` (and `lastLevelExplored`
holds -1), with node limit `n`, after `processState(root, true)` for the root
of the tree `diveTree` and `explore()`. -/
def diveEngine (garbage n : Int) : BTree Node :=
  (BTree.solve sampleProblem Clock.zero 10
    ((BTree.new MIN false (CDBFSTree.frontier garbage (-1))).configure (.nodeLimit n))
    (rootState false 0 0 10 diveTree)).1

/-- A sample user problem whose `computeBounds` sets the dominated flag of the
state (a protected member of `State`, which every method of a subclass may
write). -/
def flaggingProblem : Problem Node :=
  { sampleProblem with computeBounds := fun s _ => { s with dominated := true } }

/-- A fresh MIN engine of class DFS with node limit 5, after
`processState(root, true)` for a root with `timeToExplore` 3 (the sample root,
deferred). -/
def deferredLimited : BTree Node :=
  (((BTree.new MIN false DFSTree.frontier).configure (.nodeLimit 5)).processState
    sampleProblem deferredRoot true).1

/-- A fresh MIN engine of class DFS with node limit 1, after
`processState(root, true)` for the root of the tree `diveTree`. -/
def limitedDive : BTree Node :=
  (((BTree.new MIN false DFSTree.frontier).configure (.nodeLimit 1)).processState
    sampleProblem (rootState false 0 0 10 diveTree) true).1

/-! # Theorems -/

section Basic

variable {σ : Type}

theorem eps_pos : 0 < eps := by norm_num [eps]

theorem MIN_ne_MAX : MIN ≠ MAX := by decide

/-! ## Pruning by bounds -/

/-- C7: `stateExceedsBounds(s)` is true exactly when the problem is MIN and
`s.lowerBound >= GUB - eps`, or the problem is MAX and `s.upperBound <= GLB + eps`;
in particular a state whose bound equals the incumbent bound is pruned. -/
theorem stateExceedsBounds_iff (bt : BTree σ) (s : State σ) :
    (bt.stateExceedsBounds s = true ↔
      ((bt.problemType = MIN ∧ s.lowerBound ≥ bt.globalUpperBound - eps) ∨
       (bt.problemType = MAX ∧ s.upperBound ≤ bt.globalLowerBound + eps))) ∧
    ((bt.problemType = MIN ∧ s.lowerBound = bt.globalUpperBound) ∨
      (bt.problemType = MAX ∧ s.upperBound = bt.globalLowerBound) →
        bt.stateExceedsBounds s = true) := by
  have he := eps_pos
  refine ⟨by simp [BTree.stateExceedsBounds], ?_⟩
  rintro (⟨ht, hb⟩ | ⟨ht, hb⟩)
  · simp only [BTree.stateExceedsBounds, decide_eq_true_eq]
    exact Or.inl ⟨ht, by linarith⟩
  · simp only [BTree.stateExceedsBounds, decide_eq_true_eq]
    exact Or.inr ⟨ht, by linarith⟩


/-! ## The incumbent update -/

theorem not_tie_of_lt {o b : ℚ} (h : o < b - eps) : ¬ |o - b| ≤ eps := by
  rw [abs_le]; intro h'; linarith [h'.1]

theorem not_tie_of_gt {o b : ℚ} (h : o > b + eps) : ¬ |o - b| ≤ eps := by
  rw [abs_le]; intro h'; linarith [h'.2]

/-- C4: a strict improvement that does not cross the opposite bound makes the
candidate the incumbent, sets the best-seen bound to its objective value and
leaves the other bound alone, counts one more update, takes the three
snapshots, and sets the optimal counts to (1, 0) for a tree candidate and
(0, 1) for a heuristic one. -/
theorem saveBestState_strict_improvement (bt : BTree σ) (s : State σ)
    (isTreeNode : Bool)
    (himp : (bt.problemType = MIN ∧ s.objValue < bt.globalUpperBound - eps) ∨
            (bt.problemType = MAX ∧ s.objValue > bt.globalLowerBound + eps))
    (hcross : ¬ ((bt.problemType = MIN ∧ s.objValue < bt.globalLowerBound) ∨
                 (bt.problemType = MAX ∧ bt.globalUpperBound < s.objValue))) :
    (bt.saveBestState s isTreeNode).2 = .ok () ∧
    (bt.saveBestState s isTreeNode).1.bestState = some s ∧
    (bt.problemType = MIN →
      (bt.saveBestState s isTreeNode).1.globalUpperBound = s.objValue ∧
      (bt.saveBestState s isTreeNode).1.globalLowerBound = bt.globalLowerBound) ∧
    (bt.problemType = MAX →
      (bt.saveBestState s isTreeNode).1.globalLowerBound = s.objValue ∧
      (bt.saveBestState s isTreeNode).1.globalUpperBound = bt.globalUpperBound) ∧
    (bt.saveBestState s isTreeNode).1.tStats.timesBestStateWasUpdated
      = bt.tStats.timesBestStateWasUpdated + 1 ∧
    (bt.saveBestState s isTreeNode).1.tStats.statesIdentifiedAtLastUpdate
      = (bt.saveBestState s isTreeNode).1.tStats.statesIdentified ∧
    (bt.saveBestState s isTreeNode).1.tStats.statesStoredInTreeAtLastUpdate
      = (bt.saveBestState s isTreeNode).1.tStats.statesStoredInTree ∧
    (bt.saveBestState s isTreeNode).1.tStats.statesExploredAtLastUpdate
      = (bt.saveBestState s isTreeNode).1.tStats.statesExplored ∧
    (bt.saveBestState s isTreeNode).1.tStats.numOptimalTerminalStatesIdentified
      = (if isTreeNode then 1 else 0) ∧
    (bt.saveBestState s isTreeNode).1.tStats.numOptimalHeuristicStatesProcessed
      = (if isTreeNode then 0 else 1) := by
  rcases himp with ⟨ht, h⟩ | ⟨ht, h⟩
  · have h1 := not_tie_of_lt h
    have h2 : ¬ s.objValue < bt.globalLowerBound := fun hc => hcross (Or.inl ⟨ht, hc⟩)
    have h3 : MIN ≠ MAX := by decide
    simp [BTree.saveBestState, ht, h, h1, h2, h3]
  · have h1 := not_tie_of_gt h
    have h2 : ¬ bt.globalUpperBound < s.objValue := fun hc => hcross (Or.inr ⟨ht, hc⟩)
    have h3 : MAX ≠ MIN := by decide
    simp [BTree.saveBestState, ht, h, h1, h2, h3]

theorem saveBestState_strict_improvement_witness :
    ((sampleEngine MIN 0 10).problemType = MIN ∧
        (sampleState 5 5 5).objValue < (sampleEngine MIN 0 10).globalUpperBound - eps) ∧
    ((sampleEngine MIN 0 10).saveBestState (sampleState 5 5 5) true).1.bestState
      = some (sampleState 5 5 5) ∧
    ((sampleEngine MIN 0 10).saveBestState (sampleState 5 5 5) true).1.globalUpperBound = 5 :=
  have h : (sampleEngine MIN 0 10).problemType = MIN ∧
        (sampleState 5 5 5).objValue < (sampleEngine MIN 0 10).globalUpperBound - eps := by decide!
  have t := saveBestState_strict_improvement (sampleEngine MIN 0 10) (sampleState 5 5 5) true
    (Or.inl h) (by decide!)
  ⟨h, t.2.1, (t.2.2.1 h.1).1⟩

/-- C5: on a tie both global bounds stay, the optimal count of the candidate's
origin grows by one, and the incumbent and the update count change exactly
when there was no incumbent or `findAllSolns` is set. -/
theorem saveBestState_tie (bt : BTree σ) (s : State σ) (isTreeNode : Bool)
    (htie : (bt.problemType = MIN ∧ |s.objValue - bt.globalUpperBound| ≤ eps) ∨
            (bt.problemType = MAX ∧ |s.objValue - bt.globalLowerBound| ≤ eps)) :
    (bt.saveBestState s isTreeNode).2 = .ok () ∧
    (bt.saveBestState s isTreeNode).1.globalLowerBound = bt.globalLowerBound ∧
    (bt.saveBestState s isTreeNode).1.globalUpperBound = bt.globalUpperBound ∧
    (bt.saveBestState s isTreeNode).1.tStats.numOptimalTerminalStatesIdentified
      = bt.tStats.numOptimalTerminalStatesIdentified + (if isTreeNode then 1 else 0) ∧
    (bt.saveBestState s isTreeNode).1.tStats.numOptimalHeuristicStatesProcessed
      = bt.tStats.numOptimalHeuristicStatesProcessed + (if isTreeNode then 0 else 1) ∧
    ((bt.bestState = none ∨ bt.findAllSolns = true) →
      (bt.saveBestState s isTreeNode).1.bestState = some s ∧
      (bt.saveBestState s isTreeNode).1.tStats.timesBestStateWasUpdated
        = bt.tStats.timesBestStateWasUpdated + 1) ∧
    (¬ (bt.bestState = none ∨ bt.findAllSolns = true) →
      (bt.saveBestState s isTreeNode).1.bestState = bt.bestState ∧
      (bt.saveBestState s isTreeNode).1.tStats.timesBestStateWasUpdated
        = bt.tStats.timesBestStateWasUpdated) := by
  cases isTreeNode <;> by_cases hb : (bt.bestState = none ∨ bt.findAllSolns = true) <;>
    simp [BTree.saveBestState, htie, hb, Option.isNone_iff_eq_none]

theorem saveBestState_tie_witness :
    ((sampleEngine MAX 3 10).problemType = MAX ∧
        |(sampleState 3 3 3).objValue - (sampleEngine MAX 3 10).globalLowerBound| ≤ eps) ∧
    ((sampleEngine MAX 3 10).saveBestState (sampleState 3 3 3) false).1.bestState
      = some (sampleState 3 3 3) ∧
    ((sampleEngine MAX 3 10).saveBestState (sampleState 3 3 3) false).1.tStats.numOptimalHeuristicStatesProcessed = 1 :=
  have h : (sampleEngine MAX 3 10).problemType = MAX ∧
        |(sampleState 3 3 3).objValue - (sampleEngine MAX 3 10).globalLowerBound| ≤ eps := by
    decide!
  have t := saveBestState_tie (sampleEngine MAX 3 10) (sampleState 3 3 3) false (Or.inr h)
  ⟨h, (t.2.2.2.2.2.1 (Or.inl rfl)).1, t.2.2.2.2.1⟩

/-- The incumbent update throws exactly on a strict improvement that crosses
the opposite bound, and what it throws carries the two bounds. -/
theorem saveBestState_error_cases (bt : BTree σ) (s : State σ) (isTreeNode : Bool)
    (htype : bt.problemType = MIN ∨ bt.problemType = MAX) :
    (((bt.saveBestState s isTreeNode).2 = .ok () ∨
      (bt.saveBestState s isTreeNode).2
        = .error (.boundError (bt.saveBestState s isTreeNode).1.globalUpperBound
                              (bt.saveBestState s isTreeNode).1.globalLowerBound)) ∧
     ((bt.saveBestState s isTreeNode).2 ≠ .ok () ↔
        ((bt.problemType = MIN ∧ s.objValue < bt.globalUpperBound - eps ∧
            s.objValue < bt.globalLowerBound) ∨
         (bt.problemType = MAX ∧ s.objValue > bt.globalLowerBound + eps ∧
            s.objValue > bt.globalUpperBound)))) := by
  have h3 : MIN ≠ MAX := by decide
  have h4 : MAX ≠ MIN := by decide
  rcases htype with ht | ht
  · by_cases h1 : |s.objValue - bt.globalUpperBound| ≤ eps
    · have h2 : ¬ s.objValue < bt.globalUpperBound - eps := fun h => not_tie_of_lt h h1
      by_cases hb : (bt.bestState = none ∨ bt.findAllSolns = true) <;>
        cases isTreeNode <;>
        simp [BTree.saveBestState, ht, h1, h2, h3, hb, Option.isNone_iff_eq_none]
    · by_cases h2 : s.objValue < bt.globalUpperBound - eps
      · by_cases h5 : s.objValue < bt.globalLowerBound
        · simp [BTree.saveBestState, ht, h1, h2, h3, h5]
        · simp [BTree.saveBestState, ht, h1, h2, h3, h5]
      · simp [BTree.saveBestState, ht, h1, h2, h3]
  · by_cases h1 : |s.objValue - bt.globalLowerBound| ≤ eps
    · have h2 : ¬ s.objValue > bt.globalLowerBound + eps := fun h => not_tie_of_gt h h1
      by_cases hb : (bt.bestState = none ∨ bt.findAllSolns = true) <;>
        cases isTreeNode <;>
        simp [BTree.saveBestState, ht, h1, h2, h4, hb, Option.isNone_iff_eq_none]
    · by_cases h2 : s.objValue > bt.globalLowerBound + eps
      · by_cases h5 : s.objValue > bt.globalUpperBound
        · simp [BTree.saveBestState, ht, h1, h2, h4, h5]
        · simp [BTree.saveBestState, ht, h1, h2, h4, h5]
      · simp [BTree.saveBestState, ht, h1, h2, h4]


/-! ## Invariants of the engine -/

section Frames

theorem getNextState_cases (P : Problem σ) (bt : BTree σ) :
    (bt.getNextState P).1 = bt ∨ ∃ f n, (bt.getNextState P).1 = bt.afterPop f n := by
  unfold BTree.getNextState
  split <;> split <;> simp

theorem saveStateForExploration_cases (P : Problem σ) (bt : BTree σ) (p : Ptr) :
    (bt.saveStateForExploration P p).1 = bt ∨
      ∃ f, (bt.saveStateForExploration P p).1 = { bt with frontier := f } := by
  unfold BTree.saveStateForExploration
  split
  · exact Or.inr ⟨_, rfl⟩
  · exact Or.inr ⟨_, rfl⟩
  · exact Or.inr ⟨_, rfl⟩
  · split
    · exact Or.inl rfl
    · exact Or.inr ⟨_, rfl⟩
  · split
    · exact Or.inl rfl
    · exact Or.inr ⟨_, rfl⟩

theorem getNextState_essence (P : Problem σ) (bt : BTree σ) :
    (bt.getNextState P).1.essence = bt.essence := by
  rcases getNextState_cases P bt with h | ⟨f, n, h⟩ <;> rw [h]
  rfl

theorem saveStateForExploration_essence (P : Problem σ) (bt : BTree σ) (p : Ptr) :
    (bt.saveStateForExploration P p).1.essence = bt.essence := by
  rcases saveStateForExploration_cases P bt p with h | ⟨f, h⟩ <;> rw [h]
  rfl

theorem stateIsPrunable_essence (bt : BTree σ) (s : State σ) :
    (bt.stateIsPrunable s).1.essence = bt.essence := by
  unfold BTree.stateIsPrunable; split_ifs <;> rfl

theorem applyDominanceRules_essence (P : Problem σ) (bt : BTree σ) (s : State σ) :
    (bt.applyDominanceRules P s).1.essence = bt.essence := by
  unfold BTree.applyDominanceRules; split <;> rfl

theorem afterIteration_essence (clk : Clock) (i : Nat) (u : Bool) (bt : BTree σ) :
    (bt.afterIteration clk i u).essence = bt.essence := rfl

theorem countCandidate_essence (bt : BTree σ) (t : Bool) :
    (bt.countCandidate t).essence = bt.essence := by
  unfold BTree.countCandidate; split_ifs <;> rfl

theorem allocate_essence (bt : BTree σ) (s : State σ) :
    (bt.allocate s).essence = bt.essence := by
  unfold BTree.allocate; split_ifs <;> rfl

theorem labelExplored_essence (bt : BTree σ) : bt.labelExplored.essence = bt.essence := by
  unfold BTree.labelExplored; split_ifs <;> rfl

variable {I : BTree σ → Prop} {Q : Exn → Prop}

theorem Keeps.of_holds {α : Type} {r : BTree σ × Except Exn α} (h : I r.1) : Keeps I Q r := by
  unfold Keeps; split <;> simp [h]

theorem Keeps.andThen {α β : Type} {r : BTree σ × Except Exn α}
    {k : BTree σ → α → BTree σ × Except Exn β}
    (h1 : Keeps I Q r) (h2 : ∀ bt a, I bt → Keeps I Q (k bt a)) : Keeps I Q (andThen r k) := by
  unfold BnB.andThen
  unfold Keeps at h1
  split
  · rename_i e he
    rw [he] at h1
    simpa [Keeps] using h1
  · rename_i a ha
    rw [ha] at h1
    exact h2 _ _ h1

theorem Keeps.ok {α : Type} {r : BTree σ × Except Exn α} (h : Keeps I Q r) {a : α}
    (ha : r.2 = .ok a) : I r.1 := by
  unfold Keeps at h; rw [ha] at h; exact h

theorem Keeps.error {α : Type} {r : BTree σ × Except Exn α} (h : Keeps I Q r) {e : Exn}
    (he : r.2 = .error e) (hq : Q e) : I r.1 := by
  unfold Keeps at h; rw [he] at h; exact h hq

namespace StepInvariant

variable (hI : StepInvariant I Q)
include hI

theorem processTerminalState_step (bt : BTree σ) (s : State σ) (t : Bool) (h : I bt) :
    Keeps I Q (bt.processTerminalState s t) :=
  hI.saveBestState _ _ _ (hI.essence bt _ (countCandidate_essence bt t).symm h)

theorem processHeuristicState_step (bt : BTree σ) (s : State σ) (h : I bt) :
    Keeps I Q (bt.processHeuristicState s) :=
  hI.processTerminalState_step bt s false h

theorem store_step (P : Problem σ) (bt : BTree σ) (s : State σ) (h : I bt) :
    Keeps I Q (bt.store P s) := by
  have h2 : I (bt.allocate s) := hI.essence bt _ (allocate_essence bt s).symm h
  unfold BTree.store
  split_ifs with hd
  · exact Keeps.of_holds h2
  · apply Keeps.andThen
    · apply Keeps.of_holds
      exact hI.essence _ _ (saveStateForExploration_essence P _ _).symm (hI.countStored _ _ h2)
    · intro bt4 _ h4
      exact Keeps.of_holds h4

theorem boundAndStore_step (P : Problem σ) (bt : BTree σ) (s : State σ) (isRoot : Bool) (h : I bt) :
    Keeps I Q (bt.boundAndStore P s isRoot) := by
  unfold BTree.boundAndStore
  dsimp only
  split_ifs with h0 h1 h2 h3 h1 h2 h3
  all_goals first
    | exact Keeps.of_holds (hI.essence bt _ rfl h)
    | exact Keeps.of_holds (hI.updateRootBound _ _ h (by simpa using h1))
    | exact hI.store_step P _ _ (hI.updateRootBound _ _ h (by simpa using h1))
    | exact hI.store_step P _ _ h

theorem dominanceAndStore_step (P : Problem σ) (bt : BTree σ) (s : State σ) (isRoot : Bool)
    (h : I bt) : Keeps I Q (bt.dominanceAndStore P s isRoot) := by
  unfold BTree.dominanceAndStore
  have h1 : I (bt.applyDominanceRules P s).1 :=
    hI.essence bt _ (applyDominanceRules_essence P bt s).symm h
  split_ifs
  · exact Keeps.of_holds (hI.essence (bt.applyDominanceRules P s).1 _ rfl h1)
  · exact hI.boundAndStore_step P _ _ _ h1
  · exact hI.boundAndStore_step P _ _ _ h

/-- The part of `processState` that follows the assignment of the id. -/
theorem afterIdentify_step (P : Problem σ) (bt1 : BTree σ) (s1 : State σ) (isRoot : Bool)
    (h1 : I bt1) :
    Keeps I Q
      (if P.isTerminalState s1 then
        andThen (bt1.processTerminalState s1 true) (fun bt2 _ => (bt2, .ok true))
      else
        andThen (if bt1.saveNonTerm then bt1.saveBestState s1 true else (bt1, .ok ()))
          (fun bt2 _ => bt2.dominanceAndStore P s1 isRoot)) := by
  split_ifs
  · exact Keeps.andThen (hI.processTerminalState_step _ _ _ h1) (fun _ _ h => Keeps.of_holds h)
  · exact Keeps.andThen (hI.saveBestState _ _ _ h1) (fun _ _ h => hI.dominanceAndStore_step P _ _ _ h)
  · exact Keeps.andThen (Keeps.of_holds h1) (fun _ _ h => hI.dominanceAndStore_step P _ _ _ h)

end StepInvariant

namespace Invariant

variable (hI : Invariant I Q)
include hI

theorem processHeuristicState_call (bt : BTree σ) (s : State σ) (h : I bt) :
    Keeps I Q (bt.processHeuristicState s) :=
  hI.toStepInvariant.processHeuristicState_step bt s h

theorem processState_call (P : Problem σ) (bt : BTree σ) (s : State σ) (isRoot : Bool)
    (h : I bt) : Keeps I Q (bt.processState P s isRoot) := by
  unfold BTree.processState
  apply Keeps.andThen (hI.identify bt s h)
  intro bt1 s1 h1
  exact hI.toStepInvariant.afterIdentify_step P bt1 s1 isRoot h1

theorem runAction_call (P : Problem σ) (bt : BTree σ) (a : Action σ)
    (h : I bt) : Keeps I Q (bt.runAction P a) := by
  cases a with
  | abort => exact Keeps.of_holds h
  | processState s r =>
    exact Keeps.andThen (hI.processState_call P bt s r h) (fun _ _ h => Keeps.of_holds h)
  | processHeuristicState s => exact hI.processHeuristicState_call bt s h

theorem runActions_call (P : Problem σ) (acts : List (Action σ)) :
    ∀ bt : BTree σ, I bt → Keeps I Q (BTree.runActions P bt acts) := by
  induction acts with
  | nil => intro bt h; exact Keeps.of_holds h
  | cons a rest ih =>
    intro bt h
    have ha := hI.runAction_call P bt a h
    unfold BTree.runActions
    split
    · rename_i e he
      unfold Keeps at ha ⊢
      rw [he] at ha
      simpa using ha
    · rename_i u hu
      exact ih _ (ha.ok hu)

theorem branchOn_call (P : Problem σ) (bt : BTree σ) (ns : State σ) (h : I bt) :
    Keeps I Q (bt.branchOn P ns) := by
  unfold BTree.branchOn
  split_ifs
  · exact Keeps.of_holds h
  · exact hI.runActions_call P _ _ (hI.countExplored _ _ h)

theorem stateIsPrunable_call (bt : BTree σ) (s : State σ) (h : I bt) : I (bt.stateIsPrunable s).1 :=
  hI.essence bt _ (stateIsPrunable_essence bt s).symm h

theorem finalTests_call (P : Problem σ) (bt : BTree σ) (p : Ptr) (ns : State σ) (h : I bt) :
    Keeps I Q (bt.finalTests P p ns) := by
  unfold BTree.finalTests
  have h1 : I (bt.writeState p (P.applyFinalPruningTests ns bt.view)) := hI.essence bt _ rfl h
  dsimp only
  split_ifs
  · exact Keeps.of_holds (hI.stateIsPrunable_call _ _ h1)
  · exact hI.branchOn_call P _ _ (hI.stateIsPrunable_call _ _ h1)

theorem exploreState_call (P : Problem σ) (bt : BTree σ) (p : Ptr) (ns : State σ) (h : I bt) :
    Keeps I Q (bt.exploreState P p ns) := by
  unfold BTree.exploreState
  have h1 : I (bt.labelExplored.stateIsPrunable ns).1 :=
    hI.stateIsPrunable_call _ _ (hI.essence bt _ (labelExplored_essence bt).symm h)
  split_ifs
  · exact Keeps.of_holds (hI.essence bt _ (saveStateForExploration_essence P bt p).symm h)
  · exact Keeps.of_holds h1
  · exact hI.finalTests_call P _ _ _ h1
  · exact hI.branchOn_call P _ _ h1

theorem exploreNextState_call (P : Problem σ) (bt : BTree σ) (h : I bt) :
    Keeps I Q (bt.exploreNextState P) := by
  unfold BTree.exploreNextState
  apply Keeps.andThen
  · exact Keeps.of_holds (hI.essence bt _ (getNextState_essence P bt).symm h)
  · intro bt1 p h1
    split
    · exact Keeps.of_holds h1
    · exact hI.exploreState_call P _ _ _ h1

theorem endIteration_call (clk : Clock) (i : Nat) (u : Bool) (bt : BTree σ) (fin : Bool)
    (h : I bt) : Keeps I Q (BTree.endIteration clk i u bt fin) := by
  unfold BTree.endIteration
  split_ifs
  · exact Keeps.of_holds (hI.essence bt _ rfl h)
  · exact Keeps.of_holds (hI.essence bt _ rfl h)

theorem iteration_call (hab : Q .abort) (P : Problem σ) (clk : Clock) (i : Nat) (bt : BTree σ)
    (fin : Bool) (h : I bt) : Keeps I Q (bt.iteration P clk i fin) := by
  have hn := hI.exploreNextState_call P bt h
  unfold BTree.iteration
  split
  · rename_i he
    exact hI.endIteration_call clk i _ _ _
      (hI.essence (bt.exploreNextState P).1 _ rfl (hn.error he hab))
  · rename_i e _ he
    unfold Keeps at hn ⊢
    rw [he] at hn
    simpa using hn
  · rename_i u hu
    exact hI.endIteration_call clk i _ _ _ (hn.ok hu)

theorem exploreLoop_call (hab : Q .abort) (P : Problem σ) (clk : Clock) (fuel : Nat) :
    ∀ (i : Nat) (bt : BTree σ) (fin : Bool), I bt →
      Keeps I Q (BTree.exploreLoop P clk fuel i bt fin) := by
  induction fuel with
  | zero =>
    intro i bt fin h
    unfold BTree.exploreLoop
    split_ifs <;> exact Keeps.of_holds h
  | succ n ih =>
    intro i bt fin h
    have hit := hI.iteration_call hab P clk i bt fin h
    unfold BTree.exploreLoop
    split_ifs
    · split
      · rename_i e he
        unfold Keeps at hit ⊢
        rw [he] at hit
        simpa using hit
      · rename_i f hf
        exact ih _ _ _ (hit.ok hf)
    · exact Keeps.of_holds h

theorem explore_call (hab : Q .abort) (P : Problem σ) (clk : Clock) (fuel : Nat) (bt : BTree σ)
    (h : I bt) : Keeps I Q (bt.explore P clk fuel) :=
  hI.exploreLoop_call hab P clk fuel 0 _ true (hI.essence bt _ rfl h)

end Invariant
end Frames

/-! ## Histograms -/

theorem sum_set_succ (w : List Int) : ∀ d : Nat, d < w.length →
    (w.set d (w.getD d 0 + 1)).sum = w.sum + 1 := by
  induction w with
  | nil => intro d h; simp at h
  | cons x xs ih =>
    intro d h
    cases d with
    | zero => simp [List.set]; ring
    | succ n =>
      have h' : n < xs.length := by simpa using h
      simp only [List.set_cons_succ, List.sum_cons, List.getD_cons_succ]
      rw [ih n h']; ring

theorem bumpLevel_sum (v : List Int) (d : Nat) : (bumpLevel v d).sum = v.sum + 1 := by
  unfold bumpLevel
  dsimp only
  rw [sum_set_succ]
  · simp
  · simp; omega

theorem assignID_core (bt : BTree σ) (s : State σ) :
    (bt.assignID s).options = bt.options ∧ (bt.assignID s).incumbent = bt.incumbent ∧
    (bt.assignID s).tStats = bt.tStats ∧ (bt.assignID s).nextNodeID = bt.nextNodeID + 1 := by
  unfold BTree.assignID; split_ifs <;> exact ⟨rfl, rfl, rfl, rfl⟩

theorem identify_core (bt : BTree σ) (s : State σ) :
    (bt.identify s).1.options = bt.options ∧ (bt.identify s).1.incumbent = bt.incumbent ∧
    (bt.identify s).1.nextNodeID = bt.nextNodeID + 1 := by
  have h := assignID_core bt s
  unfold BTree.identify
  split_ifs
  · exact ⟨h.1, h.2.1, h.2.2.2⟩
  · exact ⟨h.1, h.2.1, h.2.2.2⟩

theorem identify_ok (bt : BTree σ) (s : State σ) (h : 0 ≤ s.depth) :
    bt.identify s = ((bt.assignID s).countIdentified s.depth.toNat,
                     .ok { s with id := bt.nextNodeID }) := by
  unfold BTree.identify
  rw [if_neg (not_lt.mpr h)]

theorem options_problemType {a b : BTree σ} (h : a.options = b.options) :
    a.problemType = b.problemType := congrArg Options.problemType h

theorem incumbent_lower {a b : BTree σ} (h : a.incumbent = b.incumbent) :
    a.globalLowerBound = b.globalLowerBound := congrArg (fun x => x.1) h

theorem incumbent_upper {a b : BTree σ} (h : a.incumbent = b.incumbent) :
    a.globalUpperBound = b.globalUpperBound := congrArg (fun x => x.2.1) h

theorem incumbent_best {a b : BTree σ} (h : a.incumbent = b.incumbent) :
    a.bestState = b.bestState := congrArg (fun x => x.2.2) h

/-- C6: for a MIN or MAX problem the incumbent update, and with it
`processHeuristicState` and `processState` on a terminal state, throws the
bound-inconsistency error exactly on a strict improvement whose tightened
bound crosses the opposite bound; in every other case it returns. -/
theorem bound_error_iff (P : Problem σ) (bt : BTree σ) (s : State σ) (isTreeNode isRoot : Bool)
    (htype : bt.problemType = MIN ∨ bt.problemType = MAX) :
    ((bt.saveBestState s isTreeNode).2 ≠ .ok () ↔
        ((bt.problemType = MIN ∧ s.objValue < bt.globalUpperBound - eps ∧
            s.objValue < bt.globalLowerBound) ∨
         (bt.problemType = MAX ∧ s.objValue > bt.globalLowerBound + eps ∧
            s.objValue > bt.globalUpperBound))) ∧
    ((bt.saveBestState s isTreeNode).2 = .ok () ∨
      (bt.saveBestState s isTreeNode).2
        = .error (.boundError (bt.saveBestState s isTreeNode).1.globalUpperBound
                              (bt.saveBestState s isTreeNode).1.globalLowerBound)) ∧
    ((bt.processHeuristicState s).2 ≠ .ok () ↔
        ((bt.problemType = MIN ∧ s.objValue < bt.globalUpperBound - eps ∧
            s.objValue < bt.globalLowerBound) ∨
         (bt.problemType = MAX ∧ s.objValue > bt.globalLowerBound + eps ∧
            s.objValue > bt.globalUpperBound))) ∧
    (P.isTerminalState { s with id := bt.nextNodeID } = true → 0 ≤ s.depth →
      ((bt.processState P s isRoot).2 ≠ .ok true ↔
        ((bt.problemType = MIN ∧ s.objValue < bt.globalUpperBound - eps ∧
            s.objValue < bt.globalLowerBound) ∨
         (bt.problemType = MAX ∧ s.objValue > bt.globalLowerBound + eps ∧
            s.objValue > bt.globalUpperBound)))) := by
  refine ⟨(saveBestState_error_cases bt s isTreeNode htype).2,
          (saveBestState_error_cases bt s isTreeNode htype).1, ?_, ?_⟩
  · have h := (saveBestState_error_cases (bt.countCandidate false) s false htype).2
    exact h
  · intro hterm hdepth
    have hc := identify_core bt s
    rw [identify_ok bt s hdepth] at hc
    have hp := options_problemType hc.1
    have hl := incumbent_lower hc.2.1
    have hu := incumbent_upper hc.2.1
    have h := (saveBestState_error_cases
      (((bt.assignID s).countIdentified s.depth.toNat).countCandidate true)
      { s with id := bt.nextNodeID } true (by
        rcases htype with ht | ht
        · exact Or.inl (hp.trans ht)
        · exact Or.inr (hp.trans ht))).2
    have h' : (((bt.assignID s).countIdentified s.depth.toNat).processTerminalState
                { s with id := bt.nextNodeID } true).2 ≠ .ok () ↔
        ((bt.problemType = MIN ∧ s.objValue < bt.globalUpperBound - eps ∧
            s.objValue < bt.globalLowerBound) ∨
         (bt.problemType = MAX ∧ s.objValue > bt.globalLowerBound + eps ∧
            s.objValue > bt.globalUpperBound)) := by
      rw [← hp, ← hl, ← hu]; exact h
    rw [← h']
    unfold BTree.processState
    rw [identify_ok bt s hdepth]
    simp only [andThen, hterm, if_true]
    split <;> simp_all

theorem bound_error_iff_witness :
    ((sampleEngine MIN 3 10).problemType = MIN ∨ (sampleEngine MIN 3 10).problemType = MAX) ∧
    ((sampleEngine MIN 3 10).problemType = MIN ∧
      (sampleState 1 1 1).objValue < (sampleEngine MIN 3 10).globalUpperBound - eps ∧
      (sampleState 1 1 1).objValue < (sampleEngine MIN 3 10).globalLowerBound) ∧
    ((sampleEngine MIN 3 10).processHeuristicState (sampleState 1 1 1)).2 ≠ .ok () :=
  have ht : (sampleEngine MIN 3 10).problemType = MIN ∨
      (sampleEngine MIN 3 10).problemType = MAX := Or.inl rfl
  have hc : (sampleEngine MIN 3 10).problemType = MIN ∧
      (sampleState 1 1 1).objValue < (sampleEngine MIN 3 10).globalUpperBound - eps ∧
      (sampleState 1 1 1).objValue < (sampleEngine MIN 3 10).globalLowerBound := by decide!
  ⟨ht, hc, (bound_error_iff sampleProblem (sampleEngine MIN 3 10) (sampleState 1 1 1)
              false false ht).2.2.1.mpr (Or.inl hc)⟩

/-! ## The order of the global bounds -/

theorem essence_options {a b : BTree σ} (h : a.essence = b.essence) : a.options = b.options :=
  congrArg (fun x => x.1) h

theorem essence_incumbent {a b : BTree σ} (h : a.essence = b.essence) :
    a.incumbent = b.incumbent := congrArg (fun x => x.2.1) h

theorem essence_levels {a b : BTree σ} (h : a.essence = b.essence) :
    a.tStats.levels = b.tStats.levels := congrArg (fun x => x.2.2.2) h

theorem saveBestState_order (bt : BTree σ) (s : State σ) (t : Bool)
    (hord : bt.globalLowerBound ≤ bt.globalUpperBound)
    (hok : (bt.saveBestState s t).2 = .ok ()) :
    (bt.saveBestState s t).1.globalLowerBound ≤ (bt.saveBestState s t).1.globalUpperBound := by
  unfold BTree.saveBestState at hok ⊢
  dsimp only at hok ⊢
  have := hord
  split_ifs at hok ⊢ <;> simp_all

theorem saveBestState_options (bt : BTree σ) (s : State σ) (t : Bool) :
    (bt.saveBestState s t).1.options = bt.options := by
  unfold BTree.saveBestState
  dsimp only
  split_ifs <;> rfl

theorem updateRootBound_options (bt : BTree σ) (s : State σ) :
    (bt.updateRootBound s).options = bt.options := by
  unfold BTree.updateRootBound; split_ifs <;> rfl

theorem updateRootBound_order (bt : BTree σ) (s : State σ)
    (htype : bt.problemType = MIN ∨ bt.problemType = MAX)
    (_hord : bt.globalLowerBound ≤ bt.globalUpperBound)
    (hx : bt.stateExceedsBounds s = false) :
    (bt.updateRootBound s).globalLowerBound ≤ (bt.updateRootBound s).globalUpperBound := by
  have he := eps_pos
  simp only [BTree.stateExceedsBounds, decide_eq_false_iff_not, not_or, not_and, not_le] at hx
  unfold BTree.updateRootBound
  rcases htype with ht | ht
  · rw [if_pos ht]
    have := hx.1 ht
    show s.lowerBound ≤ bt.globalUpperBound
    linarith
  · have hne : ¬ bt.problemType = MIN := by rw [ht]; decide
    rw [if_neg hne]
    have := hx.2 ht
    show bt.globalLowerBound ≤ s.upperBound
    linarith

/-- The order of the global bounds of a MIN or MAX problem is kept by every
call that does not throw the bound-inconsistency error. -/
theorem order_invariant :
    Invariant (fun b : BTree σ => (b.problemType = MIN ∨ b.problemType = MAX) ∧
                  b.globalLowerBound ≤ b.globalUpperBound)
      (fun e => ∀ u l, e ≠ .boundError u l) where
  essence := by
    intro a b h ha
    rw [← options_problemType (essence_options h), ← incumbent_lower (essence_incumbent h),
      ← incumbent_upper (essence_incumbent h)]
    exact ha
  identify := by
    intro bt s h
    apply Keeps.of_holds
    have hc := identify_core bt s
    rw [options_problemType hc.1, incumbent_lower hc.2.1, incumbent_upper hc.2.1]
    exact h
  saveBestState := by
    intro bt s t h
    have hp := options_problemType (saveBestState_options bt s t)
    rcases (saveBestState_error_cases bt s t h.1).1 with hok | herr
    · unfold Keeps
      rw [hok]
      exact ⟨by rw [hp]; exact h.1, saveBestState_order bt s t h.2 hok⟩
    · unfold Keeps
      rw [herr]
      intro hq
      exact absurd rfl (hq _ _)
  updateRootBound := by
    intro bt s h hx
    refine ⟨?_, updateRootBound_order bt s h.1 h.2 hx⟩
    rw [options_problemType (updateRootBound_options bt s)]
    exact h.1
  countStored := fun _ _ h => h
  countExplored := fun _ _ h => h

/-- C8: for a MIN or MAX problem, if `globalLowerBound <= globalUpperBound`
holds before a call of `processState` (root or not), `processHeuristicState`
or `exploreNextState` that returns normally, it holds after the call. -/
theorem bounds_order_preserved (P : Problem σ) (bt : BTree σ)
    (htype : bt.problemType = MIN ∨ bt.problemType = MAX)
    (hord : bt.globalLowerBound ≤ bt.globalUpperBound) :
    (∀ (s : State σ) (isRoot r : Bool), (bt.processState P s isRoot).2 = .ok r →
      (bt.processState P s isRoot).1.globalLowerBound
        ≤ (bt.processState P s isRoot).1.globalUpperBound) ∧
    (∀ s : State σ, (bt.processHeuristicState s).2 = .ok () →
      (bt.processHeuristicState s).1.globalLowerBound
        ≤ (bt.processHeuristicState s).1.globalUpperBound) ∧
    ((bt.exploreNextState P).2 = .ok () →
      (bt.exploreNextState P).1.globalLowerBound
        ≤ (bt.exploreNextState P).1.globalUpperBound) :=
  ⟨fun s isRoot _ h => ((order_invariant.processState_call P bt s isRoot ⟨htype, hord⟩).ok h).2,
   fun s h => ((order_invariant.processHeuristicState_call bt s ⟨htype, hord⟩).ok h).2,
   fun h => ((order_invariant.exploreNextState_call P bt ⟨htype, hord⟩).ok h).2⟩

/-! ## The incumbent and the best-seen bound -/

theorem saveBestState_incumbentOK (bt : BTree σ) (s : State σ) (t : Bool)
    (h : incumbentOK bt) : incumbentOK (bt.saveBestState s t).1 := by
  have he := eps_pos
  have h3 : MIN ≠ MAX := by decide
  have h4 : MAX ≠ MIN := by decide
  unfold incumbentOK at h ⊢
  unfold BTree.saveBestState
  dsimp only
  split_ifs with h1 h2 h5 h6 h7 h8 h9
  all_goals (intro x hx; simp only [Option.some.injEq] at hx)
  all_goals first
    | exact h x hx
    | (subst hx
       rcases h1 with ⟨ht, hb⟩ | ⟨ht, hb⟩
       · exact ⟨fun _ => hb, fun hm => absurd (ht.symm.trans hm) h3⟩
       · exact ⟨fun hm => absurd (ht.symm.trans hm) h4, fun _ => hb⟩)
    | (subst hx
       refine ⟨fun _ => ?_, fun hm => ?_⟩
       · simp [he.le]
       · simp_all)
    | (subst hx
       refine ⟨fun hm => ?_, fun _ => ?_⟩
       · simp_all
       · simp [he.le])

theorem incumbent_invariant : Invariant (fun b : BTree σ => incumbentOK b) (fun _ => True) where
  essence := by
    intro a b h ha x hx
    rw [← options_problemType (essence_options h), ← incumbent_lower (essence_incumbent h),
      ← incumbent_upper (essence_incumbent h)]
    rw [← incumbent_best (essence_incumbent h)] at hx
    exact ha x hx
  identify := by
    intro bt s h
    apply Keeps.of_holds
    have hc := identify_core bt s
    intro x hx
    rw [options_problemType hc.1, incumbent_lower hc.2.1, incumbent_upper hc.2.1]
    rw [incumbent_best hc.2.1] at hx
    exact h x hx
  saveBestState := fun bt s t h => Keeps.of_holds (saveBestState_incumbentOK bt s t h)
  updateRootBound := by
    intro bt s h _ x hx
    unfold BTree.updateRootBound at hx ⊢
    split_ifs at hx ⊢ with ht
    · exact ⟨(h x hx).1, fun hm => absurd (ht.symm.trans hm) (by decide)⟩
    · exact ⟨fun hm => absurd hm ht, (h x hx).2⟩
  countStored := fun _ _ h => h
  countExplored := fun _ _ h => h

theorem Keeps.holds {α : Type} {I : BTree σ → Prop} {r : BTree σ × Except Exn α}
    (h : Keeps I (fun _ => True) r) : I r.1 := by
  unfold Keeps at h
  split at h
  · exact h
  · exact h trivial

/-- The options of the engine are written by the constructor and the setters
only: every call keeps them. -/
theorem options_invariant (o : Options) :
    Invariant (fun b : BTree σ => b.options = o) (fun _ => True) where
  essence := fun _ _ hab h => (essence_options hab).symm.trans h
  identify := fun bt s h => Keeps.of_holds ((identify_core bt s).1.trans h)
  saveBestState := fun bt s t h => Keeps.of_holds ((saveBestState_options bt s t).trans h)
  updateRootBound := fun bt s h _ => (updateRootBound_options bt s).trans h
  countStored := fun _ _ h => h
  countExplored := fun _ _ h => h

theorem processState_options (P : Problem σ) (bt : BTree σ) (s : State σ) (isRoot : Bool) :
    (bt.processState P s isRoot).1.options = bt.options :=
  ((options_invariant bt.options).processState_call P bt s isRoot rfl).holds

theorem exploreNextState_options (P : Problem σ) (bt : BTree σ) :
    (bt.exploreNextState P).1.options = bt.options :=
  ((options_invariant bt.options).exploreNextState_call P bt rfl).holds

/-- Whether the progress test divides by zero depends on the options only. -/
theorem progressTest_of_options {a b : BTree σ} (h : a.options = b.options) :
    a.progressTestUndefined = b.progressTestUndefined := by
  have h1 : a.debug = b.debug := congrArg Options.debug h
  have h2 : a.outputRate = b.outputRate := congrArg Options.outputRate h
  unfold BTree.progressTestUndefined
  rw [h1, h2]

theorem exploreNextState_progressTest (P : Problem σ) (bt : BTree σ) :
    (bt.exploreNextState P).1.progressTestUndefined = bt.progressTestUndefined :=
  progressTest_of_options (exploreNextState_options P bt)

/-- When the progress test is defined, the end of an iteration is the
bookkeeping of the time and the test of the limits. -/
theorem endIteration_defined (clk : Clock) (i : Nat) (u : Bool) (bt : BTree σ) (fin : Bool)
    (h : bt.progressTestUndefined = false) :
    BTree.endIteration clk i u bt fin = (BTree.afterIteration clk i u bt, .ok fin) := by
  unfold BTree.endIteration
  rw [h]
  rfl

/-- When the progress test divides by zero, the iteration ends there. -/
theorem endIteration_undefined (clk : Clock) (i : Nat) (u : Bool) (bt : BTree σ) (fin : Bool)
    (h : bt.progressTestUndefined = true) :
    BTree.endIteration clk i u bt fin = (bt.addTime clk i u, .error .undefined) := by
  unfold BTree.endIteration
  rw [h]
  rfl

/-- A property kept by every call, by the setters and by `resetBest`, and true
of a fresh engine, holds in every reachable state. -/
theorem Reachable.induction {P : Problem σ} {I : BTree σ → Prop}
    (hI : Invariant I (fun _ => True))
    (hfresh : ∀ t i f, I (BTree.new t i f))
    (hconf : ∀ (bt : BTree σ) o, I bt → I (bt.configure o))
    (hreset : ∀ bt : BTree σ, I bt → I bt.resetBest)
    {bt : BTree σ} (h : Reachable P bt) : I bt := by
  induction h with
  | fresh t i f _ => exact hfresh t i f
  | configure o _ ih => exact hconf _ o ih
  | processState s r _ ih => exact (hI.processState_call P _ s r ih).holds
  | processHeuristicState s _ ih => exact (hI.processHeuristicState_call _ s ih).holds
  | explore clk fuel _ ih => exact (hI.explore_call trivial P clk fuel _ ih).holds
  | resetBest _ ih => exact hreset _ ih

theorem configure_incumbent (bt : BTree σ) (o : Setting) :
    (bt.configure o).incumbent = bt.incumbent ∧
    (bt.configure o).problemType = bt.problemType ∧
    (bt.configure o).tStats.levels = bt.tStats.levels := by
  cases o <;> exact ⟨rfl, rfl, rfl⟩

theorem afterReset_reachable (o : ℚ) : Reachable sampleProblem (afterReset o) :=
  Reachable.processHeuristicState _
    (Reachable.resetBest
      (Reachable.processHeuristicState _ (Reachable.fresh MIN false _ (Or.inl rfl))))

/-- C9 as stated (tolerance 1e-5) fails: after an incumbent of value 1 and
`resetBest`, a candidate of value 1.00005 ties with the bound 1 and becomes the
incumbent. -/
theorem incumbent_not_within_1e5 :
    Reachable sampleProblem (afterReset (1 + 5 / 100000)) ∧
    (afterReset (1 + 5 / 100000)).problemType = MIN ∧
    ∃ x, (afterReset (1 + 5 / 100000)).bestState = some x ∧
      ¬ |x.objValue - (afterReset (1 + 5 / 100000)).globalUpperBound| ≤ 1 / 100000 :=
  ⟨afterReset_reachable _, by decide!, sampleState (1 + 5 / 100000) (1 + 5 / 100000) (1 + 5 / 100000),
    by decide!, by decide!⟩

/-- C9 (amended): in every reachable state the objective value of the
incumbent is within `eps = 10e-05` (one ten-thousandth) of the best-seen bound:
`globalUpperBound` for MIN, `globalLowerBound` for MAX. -/
theorem incumbent_within_eps (P : Problem σ) (bt : BTree σ) (x : State σ)
    (hr : Reachable P bt) (hx : bt.bestState = some x) :
    eps = 1 / 10000 ∧
    (bt.problemType = MIN → |x.objValue - bt.globalUpperBound| ≤ eps) ∧
    (bt.problemType = MAX → |x.objValue - bt.globalLowerBound| ≤ eps) := by
  refine ⟨by norm_num [eps], ?_⟩
  have h : incumbentOK bt := by
    refine Reachable.induction incumbent_invariant ?_ ?_ ?_ hr
    · intro t i f x hx; simp [BTree.new] at hx
    · intro b o hb x hx
      have hc := configure_incumbent b o
      rw [hc.2.1, incumbent_lower hc.1, incumbent_upper hc.1]
      rw [incumbent_best hc.1] at hx
      exact hb x hx
    · intro b _ x hx; simp [BTree.resetBest] at hx
  exact h x hx

theorem incumbent_within_eps_witness :
    Reachable sampleProblem (afterReset (1 + 9 / 100000)) ∧
    (afterReset (1 + 9 / 100000)).bestState
      = some (sampleState (1 + 9 / 100000) (1 + 9 / 100000) (1 + 9 / 100000)) ∧
    ((afterReset (1 + 9 / 100000)).problemType = MIN →
      |(sampleState (1 + 9 / 100000) (1 + 9 / 100000) (1 + 9 / 100000)).objValue
        - (afterReset (1 + 9 / 100000)).globalUpperBound| ≤ eps) :=
  have hb : (afterReset (1 + 9 / 100000)).bestState
      = some (sampleState (1 + 9 / 100000) (1 + 9 / 100000) (1 + 9 / 100000)) := by decide!
  ⟨afterReset_reachable _, hb,
    (incumbent_within_eps sampleProblem _ _ (afterReset_reachable _) hb).2.1⟩

/-! ## Counters and histograms -/

theorem saveBestState_levels (bt : BTree σ) (s : State σ) (t : Bool) :
    (bt.saveBestState s t).1.tStats.levels = bt.tStats.levels := by
  unfold BTree.saveBestState
  dsimp only
  split_ifs <;> rfl

theorem sumsOK_of_levels {a b : TreeStats} (h : a.levels = b.levels) (ha : a.sumsOK) :
    b.sumsOK := by
  simp only [TreeStats.levels, Prod.mk.injEq] at h
  obtain ⟨h1, h2, h3, h4, h5, h6⟩ := h
  unfold TreeStats.sumsOK at ha ⊢
  rw [← h1, ← h2, ← h3, ← h4, ← h5, ← h6]
  exact ha

theorem sums_invariant : Invariant (fun b : BTree σ => b.tStats.sumsOK) (fun _ => True) where
  essence := fun a b h ha => sumsOK_of_levels (essence_levels h) ha
  identify := by
    intro bt s h
    apply Keeps.of_holds
    have hc := (assignID_core bt s).2.2.1
    unfold BTree.identify
    split_ifs
    · show (bt.assignID s).tStats.sumsOK
      rw [hc]; exact h
    · show ((bt.assignID s).countIdentified s.depth.toNat).tStats.sumsOK
      unfold BTree.countIdentified TreeStats.sumsOK
      rw [hc]
      exact ⟨by simp [bumpLevel_sum, h.1], h.2.1, h.2.2⟩
  saveBestState := fun bt s t h =>
    Keeps.of_holds (sumsOK_of_levels (saveBestState_levels bt s t).symm h)
  updateRootBound := by
    intro bt s h _
    unfold BTree.updateRootBound
    split_ifs <;> exact h
  countStored := by
    intro bt d h
    unfold BTree.countStored TreeStats.sumsOK
    exact ⟨h.1, h.2.1, by simp [bumpLevel_sum, h.2.2]⟩
  countExplored := by
    intro bt d h
    unfold BTree.countExplored TreeStats.sumsOK
    exact ⟨h.1, by simp [bumpLevel_sum, h.2.1], h.2.2⟩

/-- C10: in every reachable state `statesIdentified`, `statesExplored` and
`statesStoredInTree` equal the sums of `numIdentifiedAtLevel`,
`numExploredAtLevel` and `numStoredAtLevel`. -/
theorem counters_equal_histogram_sums (P : Problem σ) (bt : BTree σ) (hr : Reachable P bt) :
    bt.tStats.statesIdentified = bt.tStats.numIdentifiedAtLevel.sum ∧
    bt.tStats.statesExplored = bt.tStats.numExploredAtLevel.sum ∧
    bt.tStats.statesStoredInTree = bt.tStats.numStoredAtLevel.sum := by
  have h : (fun b : BTree σ => b.tStats.sumsOK) bt := by
    refine Reachable.induction sums_invariant ?_ ?_ ?_ hr
    · intro t i f; simp [BTree.new, TreeStats.new, TreeStats.sumsOK]
    · intro b o hb
      exact sumsOK_of_levels (configure_incumbent b o).2.2.symm hb
    · intro b hb; exact hb
  exact h

theorem exploredSample_reachable : Reachable sampleProblem (exploredSample DFSTree.frontier) :=
  Reachable.explore _ _ (Reachable.processState _ _ (Reachable.fresh MIN false _ (Or.inl rfl)))

theorem counters_equal_histogram_sums_witness :
    Reachable sampleProblem (exploredSample DFSTree.frontier) ∧
    (exploredSample DFSTree.frontier).tStats.statesIdentified = 3 ∧
    (exploredSample DFSTree.frontier).tStats.statesIdentified
      = (exploredSample DFSTree.frontier).tStats.numIdentifiedAtLevel.sum :=
  ⟨exploredSample_reachable, by decide!,
    (counters_equal_histogram_sums sampleProblem _ exploredSample_reachable).1⟩

theorem bounds_order_preserved_witness :
    ((sampleEngine MIN 3 10).problemType = MIN ∨ (sampleEngine MIN 3 10).problemType = MAX) ∧
    (sampleEngine MIN 3 10).globalLowerBound ≤ (sampleEngine MIN 3 10).globalUpperBound ∧
    ((sampleEngine MIN 3 10).processHeuristicState (sampleState 4 4 4)).2 = .ok () ∧
    ((sampleEngine MIN 3 10).processHeuristicState (sampleState 4 4 4)).1.globalLowerBound
      ≤ ((sampleEngine MIN 3 10).processHeuristicState (sampleState 4 4 4)).1.globalUpperBound :=
  have ht : (sampleEngine MIN 3 10).problemType = MIN ∨
      (sampleEngine MIN 3 10).problemType = MAX := Or.inl rfl
  have ho : (sampleEngine MIN 3 10).globalLowerBound
      ≤ (sampleEngine MIN 3 10).globalUpperBound := by decide!
  have hk : ((sampleEngine MIN 3 10).processHeuristicState (sampleState 4 4 4)).2 = .ok () := by
    decide!
  ⟨ht, ho, hk, (bounds_order_preserved sampleProblem _ ht ho).2.1 _ hk⟩

/-! ## Identifiers -/

theorem saveBestState_nextNodeID (bt : BTree σ) (s : State σ) (t : Bool) :
    (bt.saveBestState s t).1.nextNodeID = bt.nextNodeID := by
  unfold BTree.saveBestState
  dsimp only
  split_ifs <;> rfl

theorem nextNodeID_invariant (n : Int) :
    StepInvariant (fun b : BTree σ => b.nextNodeID = n) (fun _ => True) where
  essence := fun a b h ha => (congrArg (fun x => x.2.2.1) h).symm.trans ha
  saveBestState := fun bt s t h =>
    Keeps.of_holds ((saveBestState_nextNodeID bt s t).trans h)
  updateRootBound := by
    intro bt s h _
    unfold BTree.updateRootBound
    split_ifs <;> exact h
  countStored := fun _ _ h => h
  countExplored := fun _ _ h => h

theorem processState_nextNodeID (P : Problem σ) (bt : BTree σ) (s : State σ) (isRoot : Bool) :
    (bt.processState P s isRoot).1.nextNodeID = bt.nextNodeID + 1 := by
  have h : Keeps (fun b : BTree σ => b.nextNodeID = bt.nextNodeID + 1) (fun _ => True)
      (bt.processState P s isRoot) := by
    unfold BTree.processState
    exact Keeps.andThen (Keeps.of_holds (identify_core bt s).2.2)
      (fun b1 s1 h1 => (nextNodeID_invariant _).afterIdentify_step P b1 s1 isRoot h1)
  exact h.holds

theorem processHeuristicState_nextNodeID (bt : BTree σ) (s : State σ) :
    (bt.processHeuristicState s).1.nextNodeID = bt.nextNodeID := by
  have h := (nextNodeID_invariant bt.nextNodeID).processHeuristicState_step bt s rfl
  exact h.holds

theorem identify_id (bt : BTree σ) (s s1 : State σ) (h : (bt.identify s).2 = .ok s1) :
    s1 = { s with id := bt.nextNodeID } := by
  unfold BTree.identify at h
  split_ifs at h
  simp only [Except.ok.injEq] at h
  exact h.symm

theorem runAction_nextNodeID (P : Problem σ) (bt : BTree σ) (a : Action σ) :
    (bt.runAction P a).1.nextNodeID = bt.nextNodeID + (if a.isProcessState then 1 else 0) := by
  cases a with
  | abort => simp [BTree.runAction, Action.isProcessState]
  | processState s r =>
    have h := processState_nextNodeID P bt s r
    simp only [BTree.runAction, Action.isProcessState, if_true]
    rw [← h]
    unfold andThen
    split <;> rfl
  | processHeuristicState s =>
    simpa [BTree.runAction, Action.isProcessState] using processHeuristicState_nextNodeID bt s

theorem runCalls_nextNodeID (P : Problem σ) (calls : List (Action σ)) :
    ∀ bt : BTree σ, (bt.runCalls P calls).nextNodeID
      = bt.nextNodeID + calls.countP Action.isProcessState := by
  induction calls with
  | nil => intro bt; simp [BTree.runCalls]
  | cons a rest ih =>
    intro bt
    have h := ih (bt.runAction P a).1
    unfold BTree.runCalls at h ⊢
    rw [List.foldl_cons, h, runAction_nextNodeID, List.countP_cons]
    split_ifs <;> push_cast <;> ring

/-! ## What `processState` returns -/

theorem saveBestState_storage (bt : BTree σ) (s : State σ) (t : Bool) :
    (bt.saveBestState s t).1.storage = bt.storage := by
  unfold BTree.saveBestState
  dsimp only
  split_ifs <;> rfl

theorem processTerminalState_storage (bt : BTree σ) (s : State σ) (t : Bool) :
    (bt.processTerminalState s t).1.storage = bt.storage := by
  unfold BTree.processTerminalState
  rw [saveBestState_storage]
  unfold BTree.countCandidate
  split_ifs <;> rfl

theorem assessLoop_length (P : Problem σ) (cls : List Ptr) :
    ∀ (s : State σ) (heap : List (State σ)), (BTree.assessLoop P s cls heap).2.length = heap.length := by
  induction cls with
  | nil => intro s heap; rfl
  | cons p ps ih =>
    intro s heap
    unfold BTree.assessLoop
    split
    · rfl
    · dsimp only
      split_ifs
      · simp
      · rw [ih]; simp

theorem applyDominanceRules_storage (P : Problem σ) (bt : BTree σ) (s : State σ) :
    (bt.applyDominanceRules P s).1.storage = bt.storage := by
  unfold BTree.applyDominanceRules
  split
  · rfl
  · simp only [BTree.storage, assessLoop_length]

theorem updateRootBound_storage (bt : BTree σ) (s : State σ) :
    (bt.updateRootBound s).storage = bt.storage := by
  unfold BTree.updateRootBound
  split_ifs <;> rfl

theorem storage_fields {a b : BTree σ} (h : a.storage = b.storage) :
    a.frontier = b.frontier ∧ a.domClasses = b.domClasses ∧ a.heap.length = b.heap.length ∧
    a.tStats.statesPrunedByDomBeforeInsertion = b.tStats.statesPrunedByDomBeforeInsertion ∧
    a.tStats.statesPrunedByBoundsBeforeInsertion = b.tStats.statesPrunedByBoundsBeforeInsertion ∧
    a.tStats.statesStoredInTree = b.tStats.statesStoredInTree := by
  simpa [BTree.storage] using h

theorem best_mem (lt : Ptr → Ptr → Bool) (xs : List Ptr) :
    ∀ b, SPQ.best lt b xs ∈ b :: xs := by
  induction xs with
  | nil => intro b; simp [SPQ.best]
  | cons x xs ih =>
    intro b
    unfold SPQ.best
    have h := ih (if lt b x = true then x else b)
    split_ifs at h ⊢ with hc
    · exact List.mem_cons_of_mem _ h
    · rcases List.mem_cons.mp h with h | h
      · rw [h]; exact List.mem_cons_self _ _
      · exact List.mem_cons_of_mem _ (List.mem_cons_of_mem _ h)

theorem top_mem {lt : Ptr → Ptr → Bool} {q : SPQ} {t : Ptr} (h : SPQ.top lt q = some t) :
    t ∈ q := by
  cases q with
  | nil => simp [SPQ.top] at h
  | cons x xs =>
    simp only [SPQ.top, Option.some.injEq] at h
    rw [← h]; exact best_mem lt xs x

theorem top_isSome {lt : Ptr → Ptr → Bool} {q : SPQ} (h : q ≠ []) :
    ∃ t, SPQ.top lt q = some t := by
  cases q with
  | nil => exact absurd rfl h
  | cons x xs => exact ⟨_, rfl⟩

theorem top_eq_none {lt : Ptr → Ptr → Bool} {q : SPQ} : SPQ.top lt q = none ↔ q = [] := by
  cases q <;> simp [SPQ.top]

theorem pop_perm {lt : Ptr → Ptr → Bool} {q : SPQ} {t : Ptr} (h : SPQ.top lt q = some t) :
    q.Perm (t :: SPQ.pop lt q) := by
  unfold SPQ.pop
  rw [h]
  exact List.perm_cons_erase (top_mem h)

theorem levelQ_set_self (qs : List SPQ) (lvl : Nat) (q : SPQ) (h : lvl < qs.length) :
    levelQ (qs.set lvl q) lvl = q := by
  simp [levelQ, List.getD_eq_getElem?_getD, h]

theorem levelQ_set_ne (qs : List SPQ) (lvl l : Nat) (q : SPQ) (h : l ≠ lvl) :
    levelQ (qs.set lvl q) l = levelQ qs l := by
  simp [levelQ, List.getD_eq_getElem?_getD, List.getElem?_set_ne h.symm]

theorem levelQ_of_length_le (qs : List SPQ) (lvl : Nat) (h : qs.length ≤ lvl) :
    levelQ qs lvl = [] := by
  simp [levelQ, List.getD_eq_getElem?_getD, List.getElem?_eq_none h]

theorem lt_length_of_levelQ_ne {qs : List SPQ} {lvl : Nat} (h : levelQ qs lvl ≠ []) :
    lvl < qs.length := by
  by_contra hc
  exact h (levelQ_of_length_le qs lvl (not_lt.mp hc))

theorem flatten_set_perm (qs : List SPQ) : ∀ (lvl : Nat) (q : SPQ), lvl < qs.length →
    (qs.set lvl q).flatten.Perm (q ++ (qs.set lvl []).flatten) := by
  induction qs with
  | nil => intro lvl q h; simp at h
  | cons x xs ih =>
    intro lvl q h
    cases lvl with
    | zero => simp
    | succ n =>
      have h' : n < xs.length := by simpa using h
      simp only [List.set_cons_succ, List.flatten_cons]
      have := ih n q h'
      refine (List.Perm.append_left x this).trans ?_
      rw [← List.append_assoc, ← List.append_assoc]
      exact List.Perm.append_right _ List.perm_append_comm

theorem flatten_perm_levelQ (qs : List SPQ) (lvl : Nat) (h : lvl < qs.length) :
    qs.flatten.Perm (levelQ qs lvl ++ (qs.set lvl []).flatten) := by
  have := flatten_set_perm qs lvl (levelQ qs lvl) h
  have he : qs.set lvl (levelQ qs lvl) = qs := by
    apply List.ext_getElem (by simp)
    intro i h1 h2
    by_cases hi : lvl = i
    · subst hi; simp [levelQ, List.getD_eq_getElem?_getD, h]
    · simp [List.getElem_set_ne hi]
  rw [he] at this
  exact this

theorem growLevels_flatten (qs : List SPQ) (lv : Nat) :
    (growLevels qs lv).flatten = qs.flatten := by
  simp [growLevels]

theorem growLevels_levelQ (qs : List SPQ) (lv l : Nat) :
    levelQ (growLevels qs lv) l = levelQ qs l := by
  unfold growLevels levelQ
  simp only [List.getD_eq_getElem?_getD]
  by_cases h : l < qs.length
  · rw [List.getElem?_append_left h]
  · rw [List.getElem?_append_right (not_lt.mp h)]
    rw [List.getElem?_eq_none (not_lt.mp h)]
    by_cases h2 : l - qs.length < lv + 1 - qs.length
    · simp [List.getElem?_replicate, h2]
    · simp [List.getElem?_replicate, h2]

theorem growLevels_length (qs : List SPQ) (lv : Nat) : lv < (growLevels qs lv).length := by
  simp [growLevels]; omega

theorem growLevels_length_ge (qs : List SPQ) (lv : Nat) :
    qs.length ≤ (growLevels qs lv).length := by
  simp [growLevels]

/-! ### The CBFS frontier -/

/-- The part of the consistency of a CBFS frontier that concerns the list of
non-empty levels. -/
theorem cbfs_levels_after_pop (qs : List SPQ) (L rest : List Nat) (lvl : Nat) (q' : SPQ)
    (hL : L = lvl :: rest) (hnd : L.Nodup)
    (hiff : ∀ l, l ∈ L ↔ levelQ qs l ≠ []) (L' : List Nat)
    (hL' : (q' = [] ∧ L' = rest) ∨ (q' ≠ [] ∧ (L' = rest ++ [lvl] ∨ L' = lvl :: rest))) :
    L'.Nodup ∧ ∀ l, l ∈ L' ↔ levelQ (qs.set lvl q') l ≠ [] := by
  subst hL
  have hlt : lvl < qs.length := lt_length_of_levelQ_ne ((hiff lvl).mp (List.mem_cons_self _ _))
  have hnr : lvl ∉ rest := (List.nodup_cons.mp hnd).1
  have hrn : rest.Nodup := (List.nodup_cons.mp hnd).2
  have hmem : ∀ l, l ≠ lvl → (l ∈ rest ↔ levelQ qs l ≠ []) := by
    intro l hl
    rw [← hiff l]
    simp [hl]
  refine ⟨?_, fun l => ?_⟩
  · rcases hL' with ⟨_, h⟩ | ⟨_, h | h⟩ <;> rw [h]
    · exact hrn
    · exact List.Nodup.append hrn (List.nodup_singleton _) (by simpa using hnr)
    · exact hnd
  · by_cases hl : l = lvl
    · subst hl
      rw [levelQ_set_self qs l q' hlt]
      rcases hL' with ⟨hq, h⟩ | ⟨hq, h | h⟩ <;> rw [h] <;> simp [hq, hnr]
    · rw [levelQ_set_ne qs lvl l q' hl, ← hmem l hl]
      rcases hL' with ⟨_, h⟩ | ⟨_, h | h⟩ <;> rw [h] <;> simp [hl]

theorem cbfs_flatten_after_pop (qs : List SPQ) (lvl : Nat) (t : Ptr) (q' : SPQ)
    (hlt : lvl < qs.length) (hq : (levelQ qs lvl).Perm (t :: q')) :
    qs.flatten.Perm (t :: (qs.set lvl q').flatten) := by
  refine (flatten_perm_levelQ qs lvl hlt).trans ?_
  refine (List.Perm.append_right _ hq).trans ?_
  exact List.Perm.cons t (flatten_set_perm qs lvl q' hlt).symm

/-- A pop of the STANDARD method on a consistent frontier without dominated
states: the best state of the front level is returned and removed. -/
theorem getNextStateStandard_sound (lt : Ptr → Ptr → Bool) (dom : Ptr → Bool)
    (depth : Ptr → Int) (c : CBFSData)
    (hwf : Frontier.WF depth (.cbfs c))
    (hdom : ∀ p ∈ c.unexploredStates.flatten, dom p = false)
    (hne : c.nonEmptyLevelSPQs ≠ []) :
    ∃ r, CBFSTree.getNextStateStandard lt dom depth c = .ok r ∧
      c.unexploredStates.flatten.Perm (r.next :: r.rest.unexploredStates.flatten) ∧
      Frontier.WF depth (.cbfs r.rest) := by
  obtain ⟨hsel, hk, hdr, hnd, hiff⟩ := hwf
  cases hL : c.nonEmptyLevelSPQs with
  | nil => exact absurd hL hne
  | cons lvl rest =>
    have hq : levelQ c.unexploredStates lvl ≠ [] := (hiff lvl).mp (by rw [hL]; simp)
    have hlt := lt_length_of_levelQ_ne hq
    obtain ⟨t, ht⟩ := @top_isSome lt _ hq
    have htm : t ∈ c.unexploredStates.flatten :=
      (flatten_perm_levelQ _ lvl hlt).symm.subset (List.mem_append_left _ (top_mem ht))
    have hperm := cbfs_flatten_after_pop c.unexploredStates lvl t _ hlt (pop_perm ht)
    unfold CBFSTree.getNextStateStandard
    simp only [hL, CBFSTree.popLevel, ht]
    unfold CBFSTree.standardLoop
    simp only [hdom t htm, Bool.false_eq_true, if_false]
    refine ⟨_, rfl, ?_, ?_⟩
    · split_ifs <;> exact hperm
    · have hlv := cbfs_levels_after_pop c.unexploredStates c.nonEmptyLevelSPQs rest lvl
        (SPQ.pop lt (levelQ c.unexploredStates lvl)) hL hnd hiff
      by_cases he : SPQ.pop lt (levelQ c.unexploredStates lvl) = []
      · have := hlv rest (Or.inl ⟨he, rfl⟩)
        rw [he] at this
        simp only [levelQ_set_self _ _ _ hlt, he, List.isEmpty_nil, if_true]
        exact ⟨hsel, hk, hdr, this⟩
      · have := hlv (rest ++ [lvl]) (Or.inr ⟨he, Or.inl rfl⟩)
        simp only [levelQ_set_self _ _ _ hlt, List.isEmpty_eq_true, he, if_false]
        exact ⟨hsel, hk, hdr, this⟩

/-- A pop of the K_BEST_AT_LEVEL method on a consistent frontier without
dominated states. -/
theorem getNextStateFromCurLevel_sound (lt : Ptr → Ptr → Bool) (dom : Ptr → Bool)
    (depth : Ptr → Int) (c : CBFSData)
    (hwf : Frontier.WF depth (.cbfs c))
    (hdom : ∀ p ∈ c.unexploredStates.flatten, dom p = false)
    (hne : c.nonEmptyLevelSPQs ≠ []) :
    ∃ r, CBFSTree.getNextStateFromCurLevel lt dom depth c = .ok r ∧
      c.unexploredStates.flatten.Perm (r.next :: r.rest.unexploredStates.flatten) ∧
      Frontier.WF depth (.cbfs r.rest) := by
  obtain ⟨hsel, hk, hdr, hnd, hiff⟩ := hwf
  cases hL : c.nonEmptyLevelSPQs with
  | nil => exact absurd hL hne
  | cons lvl rest =>
    have hq : levelQ c.unexploredStates lvl ≠ [] := (hiff lvl).mp (by rw [hL]; simp)
    have hlt := lt_length_of_levelQ_ne hq
    obtain ⟨t, ht⟩ := @top_isSome lt _ hq
    have htm : t ∈ c.unexploredStates.flatten :=
      (flatten_perm_levelQ _ lvl hlt).symm.subset (List.mem_append_left _ (top_mem ht))
    have hperm := cbfs_flatten_after_pop c.unexploredStates lvl t _ hlt (pop_perm ht)
    unfold CBFSTree.getNextStateFromCurLevel
    simp only [hL, CBFSTree.popLevel, ht]
    unfold CBFSTree.curLevelLoop
    simp only [hdom t htm, Bool.false_eq_true, if_false]
    refine ⟨_, rfl, ?_, ?_⟩
    · split_ifs <;> exact hperm
    · have hlv := cbfs_levels_after_pop c.unexploredStates c.nonEmptyLevelSPQs rest lvl
        (SPQ.pop lt (levelQ c.unexploredStates lvl)) hL hnd hiff
      by_cases he : SPQ.pop lt (levelQ c.unexploredStates lvl) = []
      · have := hlv rest (Or.inl ⟨he, rfl⟩)
        rw [he] at this
        simp only [levelQ_set_self _ _ _ hlt, he, List.isEmpty_nil, if_true, List.tail_cons]
        exact ⟨hsel, hk, hdr, this⟩
      · simp only [levelQ_set_self _ _ _ hlt, List.isEmpty_eq_true, he, if_false, List.tail_cons]
        split_ifs
        · exact ⟨hsel, hk, hdr, hlv (rest ++ [lvl]) (Or.inr ⟨he, Or.inl rfl⟩)⟩
        · exact ⟨hsel, hk, hdr, hlv (lvl :: rest) (Or.inr ⟨he, Or.inr rfl⟩)⟩

theorem takeBest_spec (lt : Ptr → Ptr → Bool) : ∀ (k : Nat) (q : SPQ) (acc : List Ptr),
    ∃ taken, (CBFSTree.takeBest lt k q acc).1 = acc ++ taken ∧
      q.Perm (taken ++ (CBFSTree.takeBest lt k q acc).2) ∧
      (0 < k → q ≠ [] → taken ≠ []) := by
  intro k
  induction k with
  | zero => intro q acc; exact ⟨[], by simp [CBFSTree.takeBest]⟩
  | succ n ih =>
    intro q acc
    unfold CBFSTree.takeBest
    cases ht : SPQ.top lt q with
    | none =>
      have := top_eq_none.mp ht
      exact ⟨[], by simp [this]⟩
    | some t =>
      simp only
      obtain ⟨taken, h1, h2, _⟩ := ih (SPQ.pop lt q) (acc ++ [t])
      refine ⟨t :: taken, by rw [h1]; simp, ?_, fun _ _ => by simp⟩
      exact (pop_perm ht).trans (List.Perm.cons t h2)

theorem truncate_draw (d : ℚ) (n : Nat) (h0 : 0 ≤ d) (h1 : d < 1) (hn : 0 < n) :
    0 ≤ truncate (d * ((n : Int) : ℚ)) ∧ (truncate (d * ((n : Int) : ℚ))).toNat < n := by
  rw [Int.cast_natCast]
  have hn' : (0 : ℚ) < n := by exact_mod_cast hn
  have hpos : 0 ≤ d * n := mul_nonneg h0 hn'.le
  have hlt : d * n < n := by nlinarith
  unfold truncate
  rw [if_pos hpos]
  have hf0 : 0 ≤ ⌊d * (n : ℚ)⌋ := Int.floor_nonneg.mpr hpos
  have hf1 : ⌊d * (n : ℚ)⌋ < n := by
    rw [Int.floor_lt]
    exact_mod_cast hlt
  refine ⟨hf0, ?_⟩
  omega

theorem drand48_spec (c : CBFSData) (hdr : ∀ d ∈ c.draws, 0 ≤ d ∧ d < 1) :
    0 ≤ c.drand48.1 ∧ c.drand48.1 < 1 ∧ (∀ d ∈ c.drand48.2.draws, 0 ≤ d ∧ d < 1) ∧
    c.drand48.2.unexploredStates = c.unexploredStates ∧
    c.drand48.2.nonEmptyLevelSPQs = c.nonEmptyLevelSPQs ∧
    c.drand48.2.selectionMethod = c.selectionMethod ∧
    c.drand48.2.numToSelect = c.numToSelect := by
  unfold CBFSData.drand48
  cases hd : c.draws with
  | nil => simp [hd]
  | cons d ds =>
    have h := hdr d (by rw [hd]; simp)
    refine ⟨h.1, h.2, fun x hx => hdr x (by rw [hd]; exact List.mem_cons_of_mem _ hx), rfl, rfl,
      rfl, rfl⟩

theorem foldl_push (xs : List Ptr) : ∀ q : SPQ, xs.foldl SPQ.push q = q ++ xs := by
  induction xs with
  | nil => intro q; simp
  | cons x xs ih => intro q; simp [List.foldl_cons, ih, SPQ.push]

theorem vectorRemove_take (v : List Ptr) (x : Ptr) (hnd : v.Nodup) (hx : x ∈ v) :
    (vectorRemove v x).take (v.length - 1) = v.erase x := by
  have hf : v.filter (fun y => y != x) = v.erase x := by
    rw [List.Nodup.erase_eq_filter hnd]
  have hl : (v.filter (fun y => y != x)).length = v.length - 1 := by
    rw [hf, List.length_erase_of_mem hx]
  unfold vectorRemove
  dsimp only
  rw [List.take_append_of_le_length (by rw [hl])]
  rw [← hl, List.take_length, hf]

theorem vectorAt_mem {v : List Ptr} {i : Int} (h0 : 0 ≤ i) (h1 : i.toNat < v.length) :
    ∃ x, vectorAt v i = some x ∧ x ∈ v := by
  unfold vectorAt
  rw [if_pos h0, List.getElem?_eq_getElem h1]
  exact ⟨_, rfl, List.getElem_mem h1⟩

/-- A pop of the RANDOM_FROM_TOP_K method on a consistent frontier without
dominated states: one of the extracted states is returned, the others go back. -/
theorem getNextStateRandomFromTopK_sound (lt : Ptr → Ptr → Bool) (dom : Ptr → Bool)
    (depth : Ptr → Int) (c : CBFSData) (fuel n : Nat)
    (hwf : Frontier.WF depth (.cbfs c))
    (hnodup : c.unexploredStates.flatten.Nodup)
    (hdom : ∀ p ∈ c.unexploredStates.flatten, dom p = false)
    (hne : c.nonEmptyLevelSPQs ≠ []) :
    ∃ r, CBFSTree.getNextStateRandomFromTopK lt dom depth (fuel + 1) c n = .ok r ∧
      c.unexploredStates.flatten.Perm (r.next :: r.rest.unexploredStates.flatten) ∧
      Frontier.WF depth (.cbfs r.rest) := by
  obtain ⟨hsel, hk, hdr, hnd, hiff⟩ := hwf
  cases hL : c.nonEmptyLevelSPQs with
  | nil => exact absurd hL hne
  | cons lvl rest =>
    have hq : levelQ c.unexploredStates lvl ≠ [] := (hiff lvl).mp (by rw [hL]; simp)
    have hlt := lt_length_of_levelQ_ne hq
    have hfl := flatten_perm_levelQ c.unexploredStates lvl hlt
    have hqnd : (levelQ c.unexploredStates lvl).Nodup :=
      (List.nodup_append.mp ((List.Perm.nodup_iff hfl).mp hnodup)).1
    obtain ⟨taken, ht1, ht2, ht3⟩ :=
      takeBest_spec lt c.numToSelect.toNat (levelQ c.unexploredStates lvl) []
    have hkpos : 0 < c.numToSelect.toNat := by omega
    have htne : taken ≠ [] := ht3 hkpos hq
    have htlen : 0 < taken.length := List.length_pos.mpr htne
    have htnd : taken.Nodup := (List.nodup_append.mp ((List.Perm.nodup_iff ht2).mp hqnd)).1
    rw [List.nil_append] at ht1
    unfold CBFSTree.getNextStateRandomFromTopK
    simp only [hL, ht1]
    generalize (CBFSTree.takeBest lt c.numToSelect.toNat (levelQ c.unexploredStates lvl) []).2
      = q2 at ht2 ⊢
    generalize hc1 :
      ({ c with nonEmptyLevelSPQs := rest, unexploredStates := c.unexploredStates.set lvl q2 }
        : CBFSData) = c1
    have hc1d : ∀ d ∈ c1.draws, 0 ≤ d ∧ d < 1 := by rw [← hc1]; exact hdr
    obtain ⟨hd0, hd1, hd2, hd3, hd4, hd5, hd6⟩ := drand48_spec c1 hc1d
    obtain ⟨hi0, hi1⟩ := truncate_draw c1.drand48.1 taken.length hd0 hd1 htlen
    obtain ⟨ns, hns, hnsm⟩ := vectorAt_mem hi0 hi1
    rw [hns]
    simp only
    have hnsf : ns ∈ c.unexploredStates.flatten :=
      hfl.symm.subset (List.mem_append_left _ (ht2.symm.subset (List.mem_append_left _ hnsm)))
    unfold CBFSTree.randomLoop
    simp only [hdom ns hnsf, Bool.false_eq_true, if_false]
    have hq2 : levelQ c1.drand48.2.unexploredStates lvl = q2 := by
      rw [hd3, ← hc1]
      exact levelQ_set_self _ _ _ hlt
    have htk : ((taken.length : Int) - 1).toNat = taken.length - 1 := by omega
    have hq1 : (List.take ((taken.length : Int) - 1).toNat (vectorRemove taken ns)).foldl SPQ.push
        (levelQ c1.drand48.2.unexploredStates lvl) = q2 ++ taken.erase ns := by
      rw [foldl_push, htk, vectorRemove_take taken ns htnd hnsm, hq2]
    rw [hq1]
    generalize hq1' : q2 ++ taken.erase ns = q1
    have hset : c1.drand48.2.unexploredStates.set lvl q1 = c.unexploredStates.set lvl q1 := by
      rw [hd3, ← hc1]
      simp [List.set_set]
    have hpq : (levelQ c.unexploredStates lvl).Perm (ns :: q1) := by
      rw [← hq1']
      refine ht2.trans ?_
      refine (List.Perm.append_right _ (List.perm_cons_erase hnsm)).trans ?_
      simp only [List.cons_append]
      exact List.Perm.cons ns List.perm_append_comm
    have hperm := cbfs_flatten_after_pop c.unexploredStates lvl ns q1 hlt hpq
    have hlv := cbfs_levels_after_pop c.unexploredStates c.nonEmptyLevelSPQs rest lvl q1 hL hnd hiff
    refine ⟨_, rfl, ?_, ?_⟩
    · split_ifs <;> (simp only [hset]; exact hperm)
    · by_cases he : q1 = []
      · rw [if_pos (by simp [he])]
        have := hlv rest (Or.inl ⟨he, rfl⟩)
        exact ⟨by rw [hd5, ← hc1]; exact hsel, by rw [hd6, ← hc1]; exact hk, hd2,
          by rw [hd4, ← hc1]; exact this.1, by
            intro l
            simp only [hset]
            rw [hd4, ← hc1]
            exact this.2 l⟩
      · rw [if_neg (by simp [he])]
        have := hlv (rest ++ [lvl]) (Or.inr ⟨he, Or.inl rfl⟩)
        exact ⟨by rw [hd5, ← hc1]; exact hsel, by rw [hd6, ← hc1]; exact hk, hd2,
          by simp only [hd4]; rw [← hc1]; exact this.1, by
            intro l
            simp only [hset, hd4]
            rw [← hc1]
            exact this.2 l⟩

/-- A pop of a consistent CBFS frontier without dominated states, in each of
the three selection methods. -/
theorem cbfs_getNextState_sound (lt : Ptr → Ptr → Bool) (dom : Ptr → Bool)
    (depth : Ptr → Int) (c : CBFSData)
    (hwf : Frontier.WF depth (.cbfs c))
    (hnodup : c.unexploredStates.flatten.Nodup)
    (hdom : ∀ p ∈ c.unexploredStates.flatten, dom p = false)
    (hne : c.nonEmptyLevelSPQs ≠ []) :
    ∃ r, CBFSTree.getNextState lt dom depth c = .ok r ∧
      c.unexploredStates.flatten.Perm (r.next :: r.rest.unexploredStates.flatten) ∧
      Frontier.WF depth (.cbfs r.rest) := by
  unfold CBFSTree.getNextState
  rcases hwf.1 with h | h | h
  · rw [if_pos h]
    exact getNextStateStandard_sound lt dom depth c hwf hdom hne
  · rw [if_neg (by rw [h]; decide), if_pos h]
    exact getNextStateRandomFromTopK_sound lt dom depth c _ 0 hwf hnodup hdom hne
  · rw [if_neg (by rw [h]; decide), if_neg (by rw [h]; decide), if_pos h]
    exact getNextStateFromCurLevel_sound lt dom depth c hwf hdom hne

theorem flatten_push_perm (qs : List SPQ) (lv : Nat) (p : Ptr) (h : lv < qs.length) :
    (qs.set lv (SPQ.push (levelQ qs lv) p)).flatten.Perm (p :: qs.flatten) := by
  refine (flatten_set_perm qs lv _ h).trans ?_
  unfold SPQ.push
  rw [List.append_assoc]
  exact List.perm_middle.trans (List.Perm.cons p (flatten_perm_levelQ qs lv h).symm)

/-- A push onto a consistent CBFS frontier of a state that is not waiting and
whose depth is not negative. -/
theorem cbfs_save_sound (depth : Ptr → Int) (c : CBFSData) (p : Ptr) (level : Int)
    (hwf : Frontier.WF depth (.cbfs c)) (hlevel : 0 ≤ level) :
    ∃ c1, CBFSTree.saveStateForExploration c p level = .ok c1 ∧
      c1.unexploredStates.flatten.Perm (p :: c.unexploredStates.flatten) ∧
      Frontier.WF depth (.cbfs c1) := by
  obtain ⟨hsel, hk, hdr, hnd, hiff⟩ := hwf
  unfold CBFSTree.saveStateForExploration
  rw [if_neg (not_lt.mpr hlevel)]
  dsimp only
  generalize hlv : level.toNat = lv
  generalize hqs : growLevels c.unexploredStates lv = qs
  have hlt : lv < qs.length := by rw [← hqs]; exact growLevels_length _ _
  have hlq : ∀ l, levelQ qs l = levelQ c.unexploredStates l := by
    intro l; rw [← hqs]; exact growLevels_levelQ _ _ _
  have hfl : qs.flatten = c.unexploredStates.flatten := by rw [← hqs]; exact growLevels_flatten _ _
  have hperm : (qs.set lv (SPQ.push (levelQ qs lv) p)).flatten.Perm
      (p :: c.unexploredStates.flatten) := by
    rw [← hfl]; exact flatten_push_perm qs lv p hlt
  have hpne : SPQ.push (levelQ qs lv) p ≠ [] := by simp [SPQ.push]
  -- membership after the push, for a list of levels that gained `lv`
  have hiff' : ∀ L' : List Nat, (∀ l, l ∈ L' ↔ (l = lv ∨ l ∈ c.nonEmptyLevelSPQs)) →
      ∀ l, l ∈ L' ↔ levelQ (qs.set lv (SPQ.push (levelQ qs lv) p)) l ≠ [] := by
    intro L' hL' l
    rw [hL' l]
    by_cases hl : l = lv
    · subst hl
      rw [levelQ_set_self _ _ _ hlt]
      simp [hpne]
    · rw [levelQ_set_ne _ _ _ _ hl, hlq, ← hiff l]
      simp [hl]
  by_cases hemp : levelQ qs lv = []
  · have hnotin : lv ∉ c.nonEmptyLevelSPQs := by
      rw [hiff lv, ← hlq lv, hemp]; simp
    simp only [hemp, List.isEmpty_nil, if_true]
    have hgen : ∀ L0 : List Nat, L0.Nodup → (∀ l, l ∈ L0 ↔ (l = lv ∨ l ∈ c.nonEmptyLevelSPQs)) →
        ∀ c1 : CBFSData, c1.unexploredStates = qs.set lv (SPQ.push [] p) →
        c1.nonEmptyLevelSPQs = L0 → c1.selectionMethod = c.selectionMethod →
        c1.numToSelect = c.numToSelect → c1.draws = c.draws →
        c1.unexploredStates.flatten.Perm (p :: c.unexploredStates.flatten) ∧
        Frontier.WF depth (.cbfs c1) := by
      intro L0 hnd0 hL0 c1 e1 e2 e3 e4 e5
      refine ⟨by rw [e1]; simpa [hemp] using hperm, by rw [e3]; exact hsel, by rw [e4]; exact hk,
        by rw [e5]; exact hdr, by rw [e2]; exact hnd0, ?_⟩
      rw [e1, e2]
      have := hiff' L0 hL0
      simpa [hemp] using this
    have hA := hgen (c.nonEmptyLevelSPQs ++ [lv])
      (List.Nodup.append hnd (List.nodup_singleton _) (by simpa using hnotin))
      (by intro l; simp [or_comm])
    have hB := hgen (lv :: c.nonEmptyLevelSPQs) (List.nodup_cons.mpr ⟨hnotin, hnd⟩)
      (by intro l; simp)
    have hC : ∀ prev rest, c.nonEmptyLevelSPQs = prev :: rest →
        (prev :: lv :: rest).Nodup ∧
          (∀ l, l ∈ prev :: lv :: rest ↔ (l = lv ∨ l ∈ c.nonEmptyLevelSPQs)) := by
      intro prev rest hL
      rw [hL] at hnd hnotin
      constructor
      · have h4 := List.nodup_cons.mp hnd
        simp only [List.mem_cons, not_or] at hnotin
        refine List.nodup_cons.mpr ⟨?_, List.nodup_cons.mpr ⟨hnotin.2, h4.2⟩⟩
        simp only [List.mem_cons, not_or]
        exact ⟨fun h => hnotin.1 h.symm, h4.1⟩
      · intro l; rw [hL]; simp; tauto
    by_cases h1 : level = c.lastLevelExplored
    · rw [if_pos h1]; exact ⟨_, rfl, hA _ rfl rfl rfl rfl rfl⟩
    rw [if_neg h1]
    by_cases hpos : level > 0
    · rw [if_pos hpos]
      split
      · exact ⟨_, rfl, hB _ rfl rfl rfl rfl rfl⟩
      · rename_i hnot
        have h3 := (not_or.mp (not_or.mp hnot).2).1
        have hne1 : lv - 1 ≠ lv := by omega
        rw [levelQ_set_ne _ _ _ _ hne1, hlq] at h3
        have hprev : levelQ c.unexploredStates (lv - 1) ≠ [] := by simpa using h3
        have hin : lv - 1 ∈ c.nonEmptyLevelSPQs := (hiff _).mpr hprev
        cases hL : c.nonEmptyLevelSPQs with
        | nil => rw [hL] at hin; simp at hin
        | cons prev rest =>
          exact ⟨_, rfl, hgen _ (hC prev rest hL).1 (hC prev rest hL).2 _ rfl rfl rfl rfl rfl⟩
    · rw [if_neg hpos]
      split
      · exact ⟨_, rfl, hB _ rfl rfl rfl rfl rfl⟩
      · rename_i hnot
        exact absurd rfl (not_or.mp (not_or.mp hnot).2).1
  · have hin : lv ∈ c.nonEmptyLevelSPQs := by rw [hiff lv, ← hlq lv]; exact hemp
    simp only [List.isEmpty_eq_true, hemp, if_false]
    refine ⟨_, rfl, hperm, hsel, hk, hdr, hnd, ?_⟩
    exact hiff' c.nonEmptyLevelSPQs (by intro l; constructor
                                        · exact Or.inr
                                        · rintro (h | h)
                                          · rw [h]; exact hin
                                          · exact h)

/-! ### The DFS, BrFS, BFS and CDBFS frontiers -/

theorem dfs_skipDominated_of_not_dom (dom : Ptr → Bool) (cur : Ptr) (xs : List Ptr) (n : Nat)
    (h : dom cur = false) : DFSTree.skipDominated dom cur xs n = ⟨cur, xs, n⟩ := by
  cases xs with
  | nil => rfl
  | cons x xs => simp [DFSTree.skipDominated, h]

theorem brfs_skipDominated_of_not_dom (dom : Ptr → Bool) (cur : Ptr) (xs : List Ptr) (n : Nat)
    (h : dom cur = false) : BrFSTree.skipDominated dom cur xs n = ⟨cur, xs, n⟩ := by
  cases xs with
  | nil => rfl
  | cons x xs => simp [BrFSTree.skipDominated, h]

theorem bfs_skipDominated_of_not_dom (lt : Ptr → Ptr → Bool) (dom : Ptr → Bool) (k : Nat)
    (cur : Ptr) (q : SPQ) (n : Nat) (h : dom cur = false) :
    BFSTree.skipDominated lt dom k cur q n = ⟨cur, q, n⟩ := by
  cases k with
  | zero => rfl
  | succ k => simp [BFSTree.skipDominated, h]

/-- A level that holds a state exists when the levels together hold one. -/
theorem exists_levelQ_ne (qs : List SPQ) (h : qs.flatten ≠ []) : ∃ l, levelQ qs l ≠ [] := by
  induction qs with
  | nil => simp at h
  | cons q qs ih =>
    by_cases hq : q = []
    · subst hq
      obtain ⟨l, hl⟩ := ih (by simpa using h)
      exact ⟨l + 1, by simpa [levelQ] using hl⟩
    · exact ⟨0, by simpa [levelQ] using hq⟩

/-- The cyclic scan of CDBFS finds a level that holds a state within as many
steps as there are levels. -/
theorem scan_finds (qs : List SPQ) (l : Nat) (hl : levelQ qs l ≠ []) :
    ∀ (k cur : Nat), cur < qs.length →
      (if cur ≤ l then l - cur else qs.length - cur + l) < k →
      ∃ lvl, CDBFSTree.scan qs k cur = some lvl ∧ levelQ qs lvl ≠ [] := by
  have hlt : l < qs.length := lt_length_of_levelQ_ne hl
  intro k
  induction k with
  | zero => intro cur _ h; omega
  | succ k ih =>
    intro cur hcur hd
    unfold CDBFSTree.scan
    by_cases he : levelQ qs cur = []
    · have hne : cur ≠ l := fun h => hl (h ▸ he)
      simp only [he, List.isEmpty_nil, if_true]
      apply ih
      · split_ifs <;> omega
      · split_ifs at hd ⊢ <;> omega
    · refine ⟨cur, ?_, he⟩
      simp [he]

theorem cdbfs_skipDominated_of_not_dom (lt : Ptr → Ptr → Bool) (dom : Ptr → Bool)
    (depth : Ptr → Int) (k : Nat) (c : CDBFSData) (lvl : Nat) (ns : Ptr) (h : dom ns = false) :
    CDBFSTree.skipDominated lt dom depth (k + 1) c lvl ns =
      .ok ⟨ns, { c with lastDiveLevel := depth ns, lastLevelExplored := depth ns }, 0⟩ := by
  simp [CDBFSTree.skipDominated, h]

/-- A pop on a consistent CDBFS frontier that holds a state and no dominated
state. -/
theorem cdbfs_getNextState_sound (lt : Ptr → Ptr → Bool) (dom : Ptr → Bool)
    (depth : Ptr → Int) (c : CDBFSData)
    (hwf : Frontier.WF depth (.cdbfs c))
    (hdom : ∀ p ∈ Frontier.ptrs (.cdbfs c), dom p = false)
    (hne : CDBFSTree.isEmpty c = false) :
    ∃ r, CDBFSTree.getNextState lt dom depth c = .ok r ∧
      (Frontier.ptrs (.cdbfs c)).Perm (r.next :: Frontier.ptrs (.cdbfs r.rest)) ∧
      Frontier.WF depth (.cdbfs r.rest) := by
  obtain ⟨hnum, hnb⟩ := hwf
  unfold CDBFSTree.getNextState
  cases hb : c.nextBest with
  | some temp =>
    refine ⟨_, rfl, ?_, ?_, ?_⟩
    · simp [Frontier.ptrs, hb]
    · simp only [hb, Option.toList, List.singleton_append, List.length_cons] at hnum
      simp only [Option.toList, List.nil_append]
      rw [hnum]; push_cast; ring
    · intro nb h; simp at h
  | none =>
    simp only [hb, Option.toList, List.nil_append] at hnum
    simp only [Frontier.ptrs, hb, Option.toList, List.nil_append] at hdom ⊢
    have hfl : c.unexploredStates.flatten ≠ [] := by
      intro h
      rw [h] at hnum
      simp [CDBFSTree.isEmpty, hnum] at hne
    obtain ⟨l, hl⟩ := exists_levelQ_ne _ hfl
    have hlen : c.unexploredStates.length ≠ 0 := by
      have := lt_length_of_levelQ_ne hl; omega
    simp only [hlen, if_false]
    generalize hst : CDBFSTree.nextLevel c.lastDiveLevel c.unexploredStates.length
      = start
    have hstart : start < c.unexploredStates.length := by
      rw [← hst]; exact Nat.mod_lt _ (Nat.pos_of_ne_zero hlen)
    obtain ⟨lvl, hscan, hlvl⟩ := scan_finds c.unexploredStates l hl
      (c.unexploredStates.length + 1) start hstart (by
        have := lt_length_of_levelQ_ne hl
        split_ifs <;> omega)
    obtain ⟨ns, hns⟩ := @top_isSome lt _ hlvl
    have hlt := lt_length_of_levelQ_ne hlvl
    have hperm := cbfs_flatten_after_pop c.unexploredStates lvl ns _ hlt (pop_perm hns)
    have hd : dom ns = false := hdom ns (hperm.symm.subset (List.mem_cons_self _ _))
    simp only [hscan, hns]
    rw [cdbfs_skipDominated_of_not_dom _ _ _ _ _ _ _ hd]
    refine ⟨_, rfl, ?_, ?_, ?_⟩
    · simpa [hb] using hperm
    · simp only [hb, Option.toList, List.nil_append]
      have := hperm.length_eq
      simp only [List.length_cons] at this
      rw [hnum, this]; push_cast; ring
    · intro nb h; simp [hb] at h

/-- A push onto a consistent CDBFS frontier of a state whose depth is not
negative. -/
theorem cdbfs_save_sound (prio : Ptr → ℚ) (depth : Ptr → Int) (c : CDBFSData) (p : Ptr)
    (hwf : Frontier.WF depth (.cdbfs c)) (hlevel : 0 ≤ depth p) :
    ∃ c1, CDBFSTree.saveStateForExploration prio depth c p (depth p) = .ok c1 ∧
      (Frontier.ptrs (.cdbfs c1)).Perm (p :: Frontier.ptrs (.cdbfs c)) ∧
      Frontier.WF depth (.cdbfs c1) := by
  obtain ⟨hnum, hnb⟩ := hwf
  unfold CDBFSTree.saveStateForExploration
  rw [if_neg (not_lt.mpr hlevel)]
  dsimp only
  generalize hlv : (depth p).toNat = lv
  generalize hqs : growLevels c.unexploredStates lv = qs
  have hlt : lv < qs.length := by rw [← hqs]; exact growLevels_length _ _
  have hge : c.unexploredStates.length ≤ qs.length := by
    rw [← hqs]; exact growLevels_length_ge _ _
  have hfl : qs.flatten = c.unexploredStates.flatten := by rw [← hqs]; exact growLevels_flatten _ _
  have hpush : ∀ (l : Nat) (x : Ptr), l < qs.length →
      (qs.set l (SPQ.push (levelQ qs l) x)).flatten.Perm (x :: c.unexploredStates.flatten) := by
    intro l x h; rw [← hfl]; exact flatten_push_perm qs l x h
  have hnb' : ∀ nb, c.nextBest = some nb → 0 ≤ depth nb ∧ (depth nb).toNat < qs.length :=
    fun nb h => ⟨(hnb nb h).1, lt_of_lt_of_le (hnb nb h).2 hge⟩
  -- the push of `x` at level `l`, with `nextBest` unchanged
  have hA : ∀ c1 : CDBFSData, c1.unexploredStates = qs.set lv (SPQ.push (levelQ qs lv) p) →
      c1.nextBest = c.nextBest → c1.numUnexploredStates = c.numUnexploredStates + 1 →
      (Frontier.ptrs (.cdbfs c1)).Perm (p :: Frontier.ptrs (.cdbfs c)) ∧
      Frontier.WF depth (.cdbfs c1) := by
    intro c1 e1 e2 e3
    have hp : (Frontier.ptrs (.cdbfs c1)).Perm (p :: Frontier.ptrs (.cdbfs c)) := by
      simp only [Frontier.ptrs, e1, e2]
      exact (List.Perm.append_left _ (hpush lv p hlt)).trans List.perm_middle
    refine ⟨hp, ?_, ?_⟩
    · have := hp.length_eq
      simp only [Frontier.ptrs, List.length_cons] at this
      rw [e3, this, hnum]; push_cast; ring
    · intro nb h
      rw [e2] at h
      rw [e1, List.length_set]
      exact hnb' nb h
  split_ifs with h1
  · exact ⟨_, rfl, hA _ rfl rfl rfl⟩
  · cases hb : c.nextBest with
    | none =>
      refine ⟨_, rfl, ?_, ?_, ?_⟩
      · simp [Frontier.ptrs, hb, hfl]
      · simp only [hb, Option.toList, List.nil_append] at hnum
        simp only [Option.toList, List.singleton_append, List.length_cons, hfl]
        rw [hnum]; push_cast; ring
      · intro nb h
        simp only [Option.some.injEq] at h
        subst h
        exact ⟨hlevel, by rw [hlv]; exact hlt⟩
    | some nb =>
      have hn := hnb' nb hb
      simp only
      split_ifs with h2 h3
      · exact absurd h3 (by push_neg; exact hn)
      · refine ⟨_, rfl, ?_, ?_, ?_⟩
        · simp only [Frontier.ptrs, hb, Option.toList, List.singleton_append]
          exact (List.Perm.cons p (hpush _ nb hn.2))
        · simp only [hb, Option.toList, List.singleton_append, List.length_cons] at hnum
          have := (hpush _ nb hn.2).length_eq
          simp only [List.length_cons] at this
          simp only [Option.toList, List.singleton_append, List.length_cons]
          rw [this, hnum]; push_cast; ring
        · intro x h
          simp only [Option.some.injEq] at h
          subst h
          rw [List.length_set]
          exact ⟨hlevel, by rw [hlv]; exact hlt⟩
      · have := hA { c with numUnexploredStates := c.numUnexploredStates + 1,
                            unexploredStates := qs.set lv (SPQ.push (levelQ qs lv) p) }
          rfl rfl rfl
        rw [hb] at this
        exact ⟨_, rfl, by simpa [hb] using this⟩

/-! ### The frontier of the engine -/

/-- Consistency of a frontier reads the depth of waiting states only. -/
theorem WF_congr (d d' : Ptr → Int) (f : Frontier) (h : ∀ p ∈ Frontier.ptrs f, d p = d' p) :
    Frontier.WF d f → Frontier.WF d' f := by
  cases f with
  | dfs st => exact id
  | brfs q => exact id
  | bfs q => exact id
  | cbfs c => exact id
  | cdbfs c =>
    rintro ⟨h1, h2⟩
    refine ⟨h1, fun nb hnb => ?_⟩
    have : d nb = d' nb := h nb (by simp [Frontier.ptrs, hnb])
    rw [← this]
    exact h2 nb hnb

theorem levelQ_ne_flatten {qs : List SPQ} {l : Nat} (h : levelQ qs l ≠ []) : qs.flatten ≠ [] := by
  intro hf
  have hp := flatten_perm_levelQ qs l (lt_length_of_levelQ_ne h)
  rw [hf] at hp
  have := hp.length_eq
  simp only [List.length_nil, List.length_append] at this
  exact h (List.length_eq_zero.mp (by omega))

/-- On a consistent frontier `isEmpty()` answers whether no state waits. -/
theorem isEmpty_iff {σ : Type} (bt : BTree σ) (hwf : Frontier.WF bt.depthOf bt.frontier) :
    bt.isEmpty = true ↔ Frontier.ptrs bt.frontier = [] := by
  unfold BTree.isEmpty
  cases hf : bt.frontier with
  | dfs st => simp [Frontier.ptrs]
  | brfs q => simp [Frontier.ptrs]
  | bfs q => simp [Frontier.ptrs]
  | cbfs c =>
    rw [hf] at hwf
    obtain ⟨-, -, -, -, hiff⟩ := hwf
    simp only [CBFSTree.isEmpty, List.isEmpty_iff, Frontier.ptrs]
    constructor
    · intro h
      by_contra hc
      obtain ⟨l, hl⟩ := exists_levelQ_ne _ hc
      have := (hiff l).mpr hl
      rw [h] at this
      simp at this
    · intro h
      by_contra hc
      obtain ⟨l, hl⟩ := List.exists_mem_of_ne_nil _ hc
      exact levelQ_ne_flatten ((hiff l).mp hl) h
  | cdbfs c =>
    rw [hf] at hwf
    obtain ⟨hnum, -⟩ := hwf
    simp only [CDBFSTree.isEmpty, Frontier.ptrs, beq_iff_eq, hnum]
    rw [← List.length_eq_zero]
    exact_mod_cast Iff.rfl

/-- A pop on a consistent frontier that holds a state and no dominated state:
a waiting state is returned and leaves the frontier. -/
theorem getNextState_sound {σ : Type} (P : Problem σ) (bt : BTree σ)
    (hwf : Frontier.WF bt.depthOf bt.frontier) (hnd : (Frontier.ptrs bt.frontier).Nodup)
    (hdom : ∀ p ∈ Frontier.ptrs bt.frontier, bt.isDom p = false)
    (hne : bt.isEmpty = false) :
    ∃ f n p, bt.getNextState P = (bt.afterPop f n, .ok p) ∧
      (Frontier.ptrs bt.frontier).Perm (p :: Frontier.ptrs f) ∧ Frontier.WF bt.depthOf f := by
  unfold BTree.getNextState
  unfold BTree.isEmpty at hne
  cases hf : bt.frontier with
  | dfs st =>
    rw [hf] at hne hdom
    cases st with
    | nil => simp at hne
    | cons x xs =>
      have hx : bt.isDom x = false := hdom x (by simp [Frontier.ptrs])
      simp only [DFSTree.getNextState, dfs_skipDominated_of_not_dom _ _ _ _ hx]
      exact ⟨_, _, _, rfl, List.Perm.refl _, trivial⟩
  | brfs q =>
    rw [hf] at hne hdom
    cases q with
    | nil => simp at hne
    | cons x xs =>
      have hx : bt.isDom x = false := hdom x (by simp [Frontier.ptrs])
      simp only [BrFSTree.getNextState, brfs_skipDominated_of_not_dom _ _ _ _ hx]
      exact ⟨_, _, _, rfl, List.Perm.refl _, trivial⟩
  | bfs q =>
    rw [hf] at hne hdom
    have hq : q ≠ [] := by simpa using hne
    obtain ⟨t, ht⟩ := @top_isSome (bt.ltPtr P) _ hq
    have hx : bt.isDom t = false := hdom t (top_mem ht)
    simp only [BFSTree.getNextState, ht, bfs_skipDominated_of_not_dom _ _ _ _ _ _ hx]
    exact ⟨_, _, _, rfl, pop_perm ht, trivial⟩
  | cbfs c =>
    rw [hf] at hne hdom hwf hnd
    have hL : c.nonEmptyLevelSPQs ≠ [] := by simpa [CBFSTree.isEmpty] using hne
    obtain ⟨r, hr, hperm, hwf1⟩ := cbfs_getNextState_sound (bt.ltPtr P) bt.isDom bt.depthOf c
      hwf hnd hdom hL
    simp only [hr]
    exact ⟨_, _, _, rfl, hperm, hwf1⟩
  | cdbfs c =>
    rw [hf] at hne hdom hwf
    obtain ⟨r, hr, hperm, hwf1⟩ := cdbfs_getNextState_sound (bt.ltPtr P) bt.isDom bt.depthOf c
      hwf hdom hne
    simp only [hr]
    exact ⟨_, _, _, rfl, hperm, hwf1⟩

/-- A push onto a consistent frontier of a state whose depth is not negative:
the state waits in the frontier afterwards. -/
theorem saveStateForExploration_sound {σ : Type} (P : Problem σ) (bt : BTree σ) (p : Ptr)
    (hwf : Frontier.WF bt.depthOf bt.frontier) (hd : 0 ≤ bt.depthOf p) :
    ∃ f, bt.saveStateForExploration P p = ({ bt with frontier := f }, .ok ()) ∧
      (Frontier.ptrs f).Perm (p :: Frontier.ptrs bt.frontier) ∧ Frontier.WF bt.depthOf f := by
  unfold BTree.saveStateForExploration
  cases hf : bt.frontier with
  | dfs st => exact ⟨_, rfl, List.Perm.refl _, trivial⟩
  | brfs q => exact ⟨_, rfl, List.perm_append_singleton _ _, trivial⟩
  | bfs q => exact ⟨_, rfl, List.perm_append_singleton _ _, trivial⟩
  | cbfs c =>
    rw [hf] at hwf
    obtain ⟨c1, hc1, hperm, hwf1⟩ := cbfs_save_sound bt.depthOf c p (bt.depthOf p) hwf hd
    simp only [hc1]
    exact ⟨_, rfl, hperm, hwf1⟩
  | cdbfs c =>
    rw [hf] at hwf
    obtain ⟨c1, hc1, hperm, hwf1⟩ := cdbfs_save_sound (bt.prioOf P) bt.depthOf c p hwf hd
    simp only [hc1]
    exact ⟨_, rfl, hperm, hwf1⟩

/-! ## Soundness of the search -/

/-- Soundness of a search state looks only at the core of the engine. -/
theorem Sound.of_core {probType : Int} {T : List ℚ} {rem : Forest} {a b : BTree Node}
    (h : a.core = b.core) (hs : Sound probType T rem a) : Sound probType T rem b := by
  obtain ⟨a1, a2, a3, a4, a5, a6, a7, a8, a9, a10, a11, a12, a13, a14, a15, a16, a17, a18, a19,
    a20, a21, a22, a23, a24, a25, a26⟩ := a
  obtain ⟨b1, b2, b3, b4, b5, b6, b7, b8, b9, b10, b11, b12, b13, b14, b15, b16, b17, b18, b19,
    b20, b21, b22, b23, b24, b25, b26⟩ := b
  simp only [BTree.core, BTree.frame, Prod.mk.injEq] at h
  obtain ⟨⟨rfl, rfl, rfl, rfl, rfl, rfl, rfl, rfl, rfl, rfl, he, rfl⟩, rfl, rfl, rfl⟩ := h
  exact { minmax := hs.minmax, type := hs.type, useDom := hs.useDom,
          useFinalTests := hs.useFinalTests, saveNonTerm := hs.saveNonTerm,
          findAllSolns := hs.findAllSolns, timeLimit := hs.timeLimit,
          stopAtFirstImprov := hs.stopAtFirstImprov, wf := hs.wf, nodup := hs.nodup,
          cells := hs.cells, remValid := hs.remValid, remIn := hs.remIn, covered := hs.covered,
          seenIn := hs.seenIn, bestNone := hs.bestNone, bestSome := hs.bestSome,
          slackOK := hs.slackOK, explored := he ▸ hs.explored
          keep := by
            rcases hs.keep with h | h | h
            · exact Or.inl h
            · exact Or.inr (Or.inl h)
            · exact Or.inr (Or.inr ⟨h.1, he ▸ h.2⟩) }

theorem sgn_MIN : sgn MIN = 1 := by simp [sgn]

theorem sgn_MAX : sgn MAX = -1 := by simp [sgn, MIN, MAX]

/-- The pruning test in the form that is common to MIN and MAX. -/
theorem stateExceedsBounds_sgn {σ : Type} (bt : BTree σ) (s : State σ) (pt : Int)
    (hpt : pt = MIN ∨ pt = MAX) (ht : bt.problemType = pt) :
    bt.stateExceedsBounds s = true ↔ sgn pt * bt.seen - eps ≤ sgn pt * s.bound pt := by
  have h3 : MIN ≠ MAX := by decide
  have h4 : MAX ≠ MIN := by decide
  rcases hpt with rfl | rfl
  · simp only [BTree.stateExceedsBounds, ht, sgn_MIN, BTree.seen, State.bound, decide_eq_true_eq,
      true_and, h3, false_and, or_false, if_true, one_mul, ge_iff_le]
  · simp only [BTree.stateExceedsBounds, ht, sgn_MAX, BTree.seen, State.bound, decide_eq_true_eq,
      true_and, h4, false_and, false_or, if_false]
    constructor <;> intro h <;> linarith

/-- The incumbent update in the form that is common to MIN and MAX, for a
candidate that does not cross the slack-side bound. -/
theorem saveBestState_sgn {σ : Type} (bt : BTree σ) (s : State σ) (t : Bool) (pt : Int)
    (hpt : pt = MIN ∨ pt = MAX) (ht : bt.problemType = pt) (hfa : bt.findAllSolns = false)
    (hsl : sgn pt * bt.slack ≤ sgn pt * s.objValue) :
    (bt.saveBestState s t).2 = .ok () ∧
    (bt.saveBestState s t).1.frame = bt.frame ∧
    (bt.saveBestState s t).1.slack = bt.slack ∧
    sgn pt * (bt.saveBestState s t).1.seen - eps ≤ sgn pt * s.objValue ∧
    (((bt.saveBestState s t).1.seen = s.objValue ∧
        (bt.saveBestState s t).1.bestState = some s ∧
        sgn pt * s.objValue < sgn pt * bt.seen - eps) ∨
     ((bt.saveBestState s t).1.seen = bt.seen ∧
        ((bt.saveBestState s t).1.bestState = bt.bestState ∨
          (bt.bestState = none ∧ (bt.saveBestState s t).1.bestState = some s)))) := by
  have h3 : MIN ≠ MAX := by decide
  have h4 : MAX ≠ MIN := by decide
  have he := eps_pos
  rcases hpt with rfl | rfl
  · simp only [sgn_MIN, one_mul, BTree.slack, BTree.seen, ht, if_true] at hsl ⊢
    by_cases h1 : |s.objValue - bt.globalUpperBound| ≤ eps
    · have h2 : ¬ s.objValue < bt.globalUpperBound - eps := fun h => not_tie_of_lt h h1
      have h5 := (abs_le.mp h1).1
      by_cases hb : bt.bestState = none <;> cases t <;>
        simp [BTree.saveBestState, BTree.frame, ht, h1, h2, h3, hb, hfa] <;> linarith
    · by_cases h2 : s.objValue < bt.globalUpperBound - eps
      · have h5 : ¬ s.objValue < bt.globalLowerBound := not_lt.mpr hsl
        simp [BTree.saveBestState, BTree.frame, ht, h1, h2, h3, h5]
        linarith
      · simp [BTree.saveBestState, BTree.frame, ht, h1, h2, h3]
        linarith
  · simp only [sgn_MAX, BTree.slack, BTree.seen, ht, h4, if_false] at hsl ⊢
    by_cases h1 : |s.objValue - bt.globalLowerBound| ≤ eps
    · have h2 : ¬ s.objValue > bt.globalLowerBound + eps := fun h => not_tie_of_gt h h1
      have h5 := (abs_le.mp h1).2
      by_cases hb : bt.bestState = none <;> cases t <;>
        simp [BTree.saveBestState, BTree.frame, ht, h1, h2, h4, hb, hfa] <;> linarith
    · by_cases h2 : s.objValue > bt.globalLowerBound + eps
      · have h5 : ¬ s.objValue > bt.globalUpperBound := by
          intro h; linarith
        simp [BTree.saveBestState, BTree.frame, ht, h1, h2, h4, h5]
        exact ⟨he.le, Or.inl (by linarith)⟩
      · simp [BTree.saveBestState, BTree.frame, ht, h1, h2, h4]
        linarith

theorem depthOf_of_heap {σ : Type} {a b : BTree σ} (h : a.heap = b.heap) :
    a.depthOf = b.depthOf := by
  funext p; simp only [BTree.depthOf, h]

theorem seen_le_of_cases {pt : Int} {x old new : ℚ}
    (h : (new = x ∧ sgn pt * x < sgn pt * old - eps) ∨ new = old) :
    sgn pt * new ≤ sgn pt * old := by
  have he := eps_pos
  rcases h with ⟨rfl, h⟩ | rfl
  · linarith
  · exact le_refl _

/-- Soundness survives a change of the best-seen bound and of the incumbent
that improves the bound to a value of `T`, or leaves it alone. -/
theorem Sound.of_frame {pt : Int} {T : List ℚ} {rem : Forest} {a b : BTree Node}
    (hs : Sound pt T rem a) (hf : b.frame = a.frame) (hslack : b.slack = a.slack)
    (hseen : sgn pt * b.seen ≤ sgn pt * a.seen) (hin : b.seen = a.seen ∨ b.seen ∈ T)
    (hnone : b.bestState = none → b.seen = seen0 pt)
    (hsome : ∀ x, b.bestState = some x → x.objValue = b.seen ∨ b.seen = seen0 pt) :
    Sound pt T rem b := by
  simp only [BTree.frame, Prod.mk.injEq] at hf
  obtain ⟨h1, h2, h3, h4, h5, h6, h7, h8, h9, h10, h11, h12⟩ := hf
  have hd := depthOf_of_heap h10
  exact { minmax := hs.minmax, type := h1 ▸ hs.type, useDom := h2 ▸ hs.useDom,
          useFinalTests := h3 ▸ hs.useFinalTests, saveNonTerm := h4 ▸ hs.saveNonTerm,
          findAllSolns := h5 ▸ hs.findAllSolns,
          timeLimit := h7 ▸ hs.timeLimit, stopAtFirstImprov := h8 ▸ hs.stopAtFirstImprov,
          wf := by rw [hd, h9]; exact hs.wf
          nodup := by rw [h9]; exact hs.nodup
          cells := by rw [h9, h10]; exact hs.cells
          remValid := hs.remValid, remIn := hs.remIn
          covered := by
            intro x hx
            rw [h9, h10]
            rcases hs.covered x hx with h | h | h
            · exact Or.inl h
            · exact Or.inr (Or.inl h)
            · exact Or.inr (Or.inr (by linarith))
          seenIn := by
            rcases hin with h | h
            · rw [h]; exact hs.seenIn
            · exact Or.inr h
          bestNone := hnone, bestSome := hsome
          slackOK := by rw [hslack]; exact hs.slackOK
          explored := by rw [h11]; exact hs.explored
          keep := by
            rw [h12, hslack, h6, h11]
            rcases hs.keep with h | h | h
            · exact Or.inl h
            · exact Or.inr (Or.inl (by linarith))
            · exact Or.inr (Or.inr h) }

theorem work_of_frame {a b : BTree Node} (hf : b.frame = a.frame) : b.work = a.work := by
  simp only [BTree.frame, Prod.mk.injEq] at hf
  obtain ⟨-, -, -, -, -, -, -, -, h9, h10, -, -⟩ := hf
  simp only [BTree.work, h9, h10]

/-- The incumbent update on a terminal value of the tree keeps the search
sound, does not throw, and leaves no value of the candidate better than the
best-seen bound by more than `eps`. -/
theorem Sound.afterSaveBestState {pt : Int} {T : List ℚ} {rem : Forest} {bt : BTree Node}
    (hs : Sound pt T rem bt) (s : State Node) (t : Bool) (hx : s.objValue ∈ T) :
    (bt.saveBestState s t).2 = .ok () ∧ Sound pt T rem (bt.saveBestState s t).1 ∧
    (bt.saveBestState s t).1.frame = bt.frame ∧
    sgn pt * (bt.saveBestState s t).1.seen - eps ≤ sgn pt * s.objValue := by
  obtain ⟨h1, h2, h3, h4, h5⟩ := saveBestState_sgn bt s t pt hs.minmax hs.type hs.findAllSolns
    (hs.slackOK _ hx)
  refine ⟨h1, ?_, h2, h4⟩
  refine hs.of_frame h2 h3 ?_ ?_ ?_ ?_
  · rcases h5 with ⟨e1, -, e3⟩ | ⟨e1, -⟩
    · exact seen_le_of_cases (Or.inl ⟨e1, e3⟩)
    · exact seen_le_of_cases (x := 0) (Or.inr e1)
  · rcases h5 with ⟨e1, -, -⟩ | ⟨e1, -⟩
    · exact Or.inr (e1 ▸ hx)
    · exact Or.inl e1
  · intro hn
    rcases h5 with ⟨-, e2, -⟩ | ⟨e1, e2 | ⟨-, e2⟩⟩
    · rw [e2] at hn; cases hn
    · rw [e1]; exact hs.bestNone (e2 ▸ hn)
    · rw [e2] at hn; cases hn
  · intro x hb
    rcases h5 with ⟨e1, e2, -⟩ | ⟨e1, e2 | ⟨e2, -⟩⟩
    · rw [e2] at hb; cases hb; exact Or.inl e1.symm
    · rw [e1]; exact hs.bestSome x (e2 ▸ hb)
    · rw [e1]; exact Or.inr (hs.bestNone e2)

/-- The children still to be processed can be replaced by others whose values
cover those that are neither settled. -/
theorem Sound.rem_change {pt : Int} {T : List ℚ} {rem rem' : Forest} {bt : BTree Node}
    (hs : Sound pt T rem bt) (hv : Forest.valid pt rem') (hin : ∀ x ∈ Forest.termObjs rem', x ∈ T)
    (hc : ∀ x ∈ Forest.termObjs rem,
      x ∈ Forest.termObjs rem' ∨ sgn pt * bt.seen - eps ≤ sgn pt * x) :
    Sound pt T rem' bt :=
  { hs with remValid := hv, remIn := hin
            covered := by
              intro x hx
              rcases hs.covered x hx with h | h | h
              · exact Or.inl h
              · rcases hc x h with h' | h'
                · exact Or.inr (Or.inl h')
                · exact Or.inr (Or.inr h')
              · exact Or.inr (Or.inr h) }

/-- Soundness survives a change of the frontier and of the stored states that
keeps the frontier consistent, its states good, and the values of `T` covered. -/
theorem Sound.of_frontier {pt : Int} {T : List ℚ} {rem rem' : Forest} {a b : BTree Node}
    (hs : Sound pt T rem a)
    (hcore : ({ b with heap := a.heap, frontier := a.frontier } : BTree Node).core = a.core)
    (hwf : Frontier.WF b.depthOf b.frontier) (hnd : (Frontier.ptrs b.frontier).Nodup)
    (hcells : ∀ p ∈ Frontier.ptrs b.frontier, ∃ s, b.heap[p]? = some s ∧ Good pt T s)
    (hv : Forest.valid pt rem') (hin : ∀ x ∈ Forest.termObjs rem', x ∈ T)
    (hcov : ∀ x ∈ T,
      (∃ p ∈ Frontier.ptrs b.frontier, ∃ s, b.heap[p]? = some s ∧
          x ∈ Forest.termObjs s.data.children) ∨
      x ∈ Forest.termObjs rem' ∨ sgn pt * a.seen - eps ≤ sgn pt * x) :
    Sound pt T rem' b := by
  simp only [BTree.core, BTree.frame, Prod.mk.injEq] at hcore
  obtain ⟨⟨h1, h2, h3, h4, h5, h6, h7, h8, -, -, h11, h12⟩, h13, h14, h15⟩ := hcore
  have hseen : b.seen = a.seen := by simp only [BTree.seen, h1, h13, h14]
  have hslack : b.slack = a.slack := by simp only [BTree.slack, h1, h13, h14]
  exact { minmax := hs.minmax, type := h1 ▸ hs.type, useDom := h2 ▸ hs.useDom,
          useFinalTests := h3 ▸ hs.useFinalTests, saveNonTerm := h4 ▸ hs.saveNonTerm,
          findAllSolns := h5 ▸ hs.findAllSolns,
          timeLimit := h7 ▸ hs.timeLimit, stopAtFirstImprov := h8 ▸ hs.stopAtFirstImprov,
          wf := hwf, nodup := hnd, cells := hcells, remValid := hv, remIn := hin
          covered := by rw [hseen]; exact hcov
          seenIn := by rw [hseen]; exact hs.seenIn
          bestNone := by rw [hseen, h15]; exact hs.bestNone
          bestSome := by rw [hseen, h15]; exact hs.bestSome
          slackOK := by rw [hslack]; exact hs.slackOK
          explored := by rw [h11]; exact hs.explored
          keep := by
            have h6b : b.nodeLimit = a.nodeLimit := h6
            have h11b : b.tStats.statesExplored = a.tStats.statesExplored := h11
            have h12b : b.keepExploring = a.keepExploring := h12
            rw [h12b, hslack, hseen, h6b, h11b]; exact hs.keep }

/-! ### Storing a state and taking the next one -/

theorem bound_le_of_valid {pt : Int} {l u x : ℚ} (h : if pt = MIN then l ≤ x else x ≤ u) :
    sgn pt * (if pt = MIN then l else u) ≤ sgn pt * x := by
  unfold sgn
  split_ifs at h ⊢ <;> linarith

theorem weight_append (heap : List (State Node)) (s : State Node) (p : Ptr)
    (h : p < heap.length) : weight (heap ++ [s]) p = weight heap p := by
  simp only [weight, List.getElem?_append_left h]

theorem weight_new (heap : List (State Node)) (s : State Node) :
    weight (heap ++ [s]) heap.length = 1 + Forest.size s.data.children := by
  simp [weight]

theorem lt_length_of_getElem? {α : Type} {xs : List α} {p : Nat} {x : α}
    (h : xs[p]? = some x) : p < xs.length := by
  by_contra hc
  rw [List.getElem?_eq_none (not_lt.mp hc)] at h
  cases h

/-- The search stays sound when a child that is not terminal is stored and
handed to the frontier; the work grows by the size of its subtree. -/
theorem Sound.push {pt : Int} {T : List ℚ} {o l u : ℚ} {ch sib : Forest} {a b : BTree Node}
    {s : State Node} (hs : Sound pt T (.node false o l u ch sib) a)
    (hcore : ({ b with heap := a.heap, frontier := a.frontier } : BTree Node).core = a.core)
    (hheap : b.heap = a.heap ++ [s])
    (hperm : (Frontier.ptrs b.frontier).Perm (a.heap.length :: Frontier.ptrs a.frontier))
    (hwf : Frontier.WF b.depthOf b.frontier)
    (hdata : s.data = ⟨false, ch⟩) (hdom : s.dominated = false) (htime : s.timeToExplore = 0)
    (hdepth : 0 ≤ s.depth) (hl : s.lowerBound = l) (hu : s.upperBound = u) :
    Sound pt T sib b ∧ b.work = a.work + 1 + Forest.size ch := by
  have hlt : ∀ p ∈ Frontier.ptrs a.frontier, p < a.heap.length := by
    intro p hp
    obtain ⟨x, hx, -⟩ := hs.cells p hp
    exact lt_length_of_getElem? hx
  have hval := hs.remValid
  simp only [Forest.valid, true_implies] at hval
  obtain ⟨⟨hb, hvch⟩, hvsib⟩ := hval
  have hrem := hs.remIn
  simp only [Forest.termObjs, Bool.false_eq_true, if_false, List.mem_append] at hrem
  have hch : s.data.children = ch := by rw [hdata]
  have hnew : b.heap[a.heap.length]? = some s := by rw [hheap]; simp
  have hold : ∀ p, p < a.heap.length → b.heap[p]? = a.heap[p]? := by
    intro p hp; rw [hheap, List.getElem?_append_left hp]
  constructor
  · refine hs.of_frontier hcore hwf ?_ ?_ hvsib (fun x hx => hrem x (Or.inr hx)) ?_
    · rw [hperm.nodup_iff, List.nodup_cons]
      exact ⟨fun h => lt_irrefl _ (hlt _ h), hs.nodup⟩
    · intro p hp
      rcases List.mem_cons.mp (hperm.subset hp) with rfl | hp
      · refine ⟨s, hnew, hdom, htime, hdepth, by rw [hdata], by rw [hch]; exact hvch, ?_⟩
        intro x hx
        rw [hch] at hx
        refine ⟨?_, hrem x (Or.inl hx)⟩
        have := bound_le_of_valid (hb x hx)
        simpa only [State.bound, hl, hu] using this
      · obtain ⟨x, hx, hg⟩ := hs.cells p hp
        exact ⟨x, by rw [hold p (hlt p hp)]; exact hx, hg⟩
    · intro x hx
      rcases hs.covered x hx with ⟨p, hp, y, hy, hxy⟩ | h | h
      · exact Or.inl ⟨p, hperm.symm.subset (List.mem_cons_of_mem _ hp), y,
          by rw [hold p (hlt p hp)]; exact hy, hxy⟩
      · simp only [Forest.termObjs, Bool.false_eq_true, if_false, List.mem_append] at h
        rcases h with h | h
        · exact Or.inl ⟨a.heap.length, hperm.symm.subset (List.mem_cons_self _ _), s, hnew,
            by rw [hch]; exact h⟩
        · exact Or.inr (Or.inl h)
      · exact Or.inr (Or.inr h)
  · unfold BTree.work
    rw [(hperm.map _).sum_eq, hheap, List.map_cons, List.sum_cons, weight_new, hch]
    have : (Frontier.ptrs a.frontier).map (weight (a.heap ++ [s]))
        = (Frontier.ptrs a.frontier).map (weight a.heap) :=
      List.map_congr_left (fun p hp => weight_append _ _ _ (hlt p hp))
    rw [this]; omega

/-- The search stays sound when a waiting state leaves the frontier to be
branched on: its children are then the states still to be processed. -/
theorem Sound.pop {pt : Int} {T : List ℚ} {a b : BTree Node} {p : Ptr}
    (hs : Sound pt T .nil a)
    (hcore : ({ b with heap := a.heap, frontier := a.frontier } : BTree Node).core = a.core)
    (hheap : b.heap = a.heap)
    (hperm : (Frontier.ptrs a.frontier).Perm (p :: Frontier.ptrs b.frontier))
    (hwf : Frontier.WF b.depthOf b.frontier) :
    ∃ ns, a.heap[p]? = some ns ∧ Good pt T ns ∧ Sound pt T ns.data.children b ∧
      a.work = b.work + 1 + Forest.size ns.data.children := by
  obtain ⟨ns, hns, hg⟩ := hs.cells p (hperm.symm.subset (List.mem_cons_self _ _))
  refine ⟨ns, hns, hg, ?_, ?_⟩
  · have hnd := hperm.nodup_iff.mp hs.nodup
    refine hs.of_frontier hcore hwf (List.nodup_cons.mp hnd).2 ?_ hg.2.2.2.2.1
      (fun x hx => (hg.2.2.2.2.2 x hx).2) ?_
    · intro q hq
      rw [hheap]
      exact hs.cells q (hperm.symm.subset (List.mem_cons_of_mem _ hq))
    · intro x hx
      rcases hs.covered x hx with ⟨q, hq, y, hy, hxy⟩ | h | h
      · rcases List.mem_cons.mp (hperm.subset hq) with rfl | hq
        · rw [hns] at hy
          cases hy
          exact Or.inr (Or.inl hxy)
        · exact Or.inl ⟨q, hq, y, by rw [hheap]; exact hy, hxy⟩
      · simp [Forest.termObjs] at h
      · exact Or.inr (Or.inr h)
  · unfold BTree.work
    rw [(hperm.map _).sum_eq, hheap, List.map_cons, List.sum_cons]
    simp only [weight, hns]
    omega

/-! ### Processing the children of a state -/

theorem andThen_ok {σ α β : Type} (b : BTree σ) (a : α)
    (k : BTree σ → α → BTree σ × Except Exn β) : andThen (b, .ok a) k = k b a := rfl

theorem core_identified {σ : Type} (bt : BTree σ) (s : State σ) (n : Nat) :
    ((bt.assignID s).countIdentified n).core = bt.core := by
  unfold BTree.assignID; split_ifs <;> rfl

/-- What `processState` does with a child of a search tree that is not
terminal, on an engine with the options of a fresh one. -/
theorem processState_inner (ltS : State Node → State Node → Bool) (prio : State Node → ℚ)
    (bt : BTree Node) (s : State Node) (isRoot : Bool) (hd : 0 ≤ s.depth)
    (ht : s.data.terminal = false) (hsn : bt.saveNonTerm = false) (hud : bt.useDom = false) :
    bt.processState (treeProblem ltS prio) s isRoot =
      ((bt.assignID s).countIdentified s.depth.toNat).boundAndStore (treeProblem ltS prio)
        { s with id := bt.nextNodeID } isRoot := by
  have h1 : ((bt.assignID s).countIdentified s.depth.toNat).saveNonTerm = false := by
    rw [← hsn]; unfold BTree.assignID; split_ifs <;> rfl
  have h2 : ((bt.assignID s).countIdentified s.depth.toNat).useDom = false := by
    rw [← hud]; unfold BTree.assignID; split_ifs <;> rfl
  unfold BTree.processState
  rw [identify_ok bt s hd, andThen_ok]
  have h3 : (treeProblem ltS prio).isTerminalState { s with id := bt.nextNodeID } = false := ht
  simp only [h3, h1, Bool.false_eq_true, if_false, andThen_ok]
  unfold BTree.dominanceAndStore
  simp only [h2, Bool.false_eq_true, if_false]

/-- What `processState` does with a terminal child of a search tree. -/
theorem processState_terminal (ltS : State Node → State Node → Bool) (prio : State Node → ℚ)
    (bt : BTree Node) (s : State Node) (isRoot : Bool) (hd : 0 ≤ s.depth)
    (ht : s.data.terminal = true) :
    bt.processState (treeProblem ltS prio) s isRoot =
      andThen ((((bt.assignID s).countIdentified s.depth.toNat).countCandidate true).saveBestState
                { s with id := bt.nextNodeID } true) (fun bt2 _ => (bt2, .ok true)) := by
  unfold BTree.processState
  rw [identify_ok bt s hd, andThen_ok]
  have h3 : (treeProblem ltS prio).isTerminalState { s with id := bt.nextNodeID } = true := ht
  simp only [h3, if_true, BTree.processTerminalState]

theorem andThen_of_ok {σ α β : Type} {r : BTree σ × Except Exn α} {a : α}
    (k : BTree σ → α → BTree σ × Except Exn β) (h : r.2 = .ok a) : andThen r k = k r.1 a := by
  unfold andThen; rw [h]

theorem depthOf_append {σ : Type} (heap : List (State σ)) (s : State σ) (a b : BTree σ)
    (ha : a.heap = heap) (hb : b.heap = heap ++ [s]) (p : Ptr) (hp : p < heap.length) :
    a.depthOf p = b.depthOf p := by
  simp only [BTree.depthOf, ha, hb, List.getElem?_append_left hp]

/-- The tail of `processState` on a consistent frontier: the state gets the
next cell of the heap and waits in the frontier. -/
theorem store_sound {σ : Type} (P : Problem σ) (bt : BTree σ) (s : State σ) (hd : 0 ≤ s.depth)
    (hwf : Frontier.WF bt.depthOf bt.frontier)
    (hlt : ∀ p ∈ Frontier.ptrs bt.frontier, p < bt.heap.length) :
    ∃ b, bt.store P s = (b, .ok true) ∧
      ({ b with heap := bt.heap, frontier := bt.frontier } : BTree σ).core = bt.core ∧
      b.heap = bt.heap ++ [s] ∧
      (Frontier.ptrs b.frontier).Perm (bt.heap.length :: Frontier.ptrs bt.frontier) ∧
      Frontier.WF b.depthOf b.frontier := by
  have hheap : ((bt.allocate s).countStored s.depth.toNat).heap = bt.heap ++ [s] := by
    unfold BTree.allocate; split_ifs <;> rfl
  have hfr : ((bt.allocate s).countStored s.depth.toNat).frontier = bt.frontier := by
    unfold BTree.allocate; split_ifs <;> rfl
  have hc : ({ (bt.allocate s).countStored s.depth.toNat with
                heap := bt.heap, frontier := bt.frontier } : BTree σ).core = bt.core := by
    unfold BTree.allocate; split_ifs <;> rfl
  have hwf3 : Frontier.WF ((bt.allocate s).countStored s.depth.toNat).depthOf
      ((bt.allocate s).countStored s.depth.toNat).frontier := by
    rw [hfr]
    exact WF_congr _ _ _ (fun p hp => depthOf_append bt.heap s _ _ rfl hheap p (hlt p hp)) hwf
  have hd3 : 0 ≤ ((bt.allocate s).countStored s.depth.toNat).depthOf bt.heap.length := by
    simp only [BTree.depthOf, hheap, List.getElem?_concat_length]
    exact hd
  obtain ⟨f, hsave, hperm, hwf4⟩ := saveStateForExploration_sound P _ bt.heap.length hwf3 hd3
  refine ⟨{ (bt.allocate s).countStored s.depth.toNat with frontier := f }, ?_, hc, hheap,
    by rw [hfr] at hperm; exact hperm, hwf4⟩
  unfold BTree.store
  rw [if_neg (not_lt.mpr hd), hsave, andThen_ok]

theorem work_of_core {a b : BTree Node} (h : a.core = b.core) : a.work = b.work :=
  work_of_frame (congrArg Prod.fst h)

/-- One call of `processState` by `branch` on a child of a search tree keeps
the search sound, returns, and adds at most the size of the child's subtree
to the work. -/
theorem Sound.processChild {pt : Int} {T : List ℚ} {t : Bool} {o l u : ℚ} {ch sib : Forest}
    {bt : BTree Node} (ltS : State Node → State Node → Bool) (prio : State Node → ℚ)
    (s : State Node) (hs : Sound pt T (.node t o l u ch sib) bt)
    (hdata : s.data = ⟨t, ch⟩) (hdom : s.dominated = false) (htime : s.timeToExplore = 0)
    (hdepth : 0 ≤ s.depth) (ho : s.objValue = o) (hl : s.lowerBound = l)
    (hu : s.upperBound = u) :
    ∃ r, (bt.processState (treeProblem ltS prio) s false).2 = .ok r ∧
      Sound pt T sib (bt.processState (treeProblem ltS prio) s false).1 ∧
      (bt.processState (treeProblem ltS prio) s false).1.work
        ≤ bt.work + 1 + Forest.size ch := by
  have hc1 := core_identified bt s s.depth.toNat
  have hs1 : Sound pt T (.node t o l u ch sib) ((bt.assignID s).countIdentified s.depth.toNat) :=
    hs.of_core hc1.symm
  have hw1 := work_of_core hc1
  have hval := hs.remValid
  have hrem := hs.remIn
  cases t with
  | true =>
    rw [processState_terminal ltS prio bt s false hdepth (by rw [hdata])]
    have hsc : Sound pt T (.node true o l u ch sib)
        (((bt.assignID s).countIdentified s.depth.toNat).countCandidate true) :=
      hs1.of_core (show ((bt.assignID s).countIdentified s.depth.toNat).core
        = (((bt.assignID s).countIdentified s.depth.toNat).countCandidate true).core from rfl)
    simp only [Forest.termObjs, if_true, List.mem_append, List.mem_singleton] at hrem
    obtain ⟨h1, h2, h3, h4⟩ := hsc.afterSaveBestState { s with id := bt.nextNodeID } true
      (hrem _ (Or.inl ho))
    rw [andThen_of_ok _ h1]
    refine ⟨true, rfl, ?_, ?_⟩
    · refine h2.rem_change hval.2 (fun x hx => hrem x (Or.inr hx)) ?_
      intro x hx
      simp only [Forest.termObjs, if_true, List.mem_append, List.mem_singleton] at hx
      rcases hx with rfl | hx
      · exact Or.inr (ho ▸ h4)
      · exact Or.inl hx
    · rw [work_of_frame h3]
      have : (((bt.assignID s).countIdentified s.depth.toNat).countCandidate true).work
          = ((bt.assignID s).countIdentified s.depth.toNat).work := work_of_core rfl
      rw [this, hw1]; omega
  | false =>
    rw [processState_inner ltS prio bt s false hdepth (by rw [hdata]) hs.saveNonTerm hs.useDom]
    unfold BTree.boundAndStore
    have hcb : (if ((bt.assignID s).countIdentified s.depth.toNat).stateComputesBounds = true
        then ({ s with id := bt.nextNodeID } : State Node)
        else (treeProblem ltS prio).computeBounds { s with id := bt.nextNodeID }
          ((bt.assignID s).countIdentified s.depth.toNat).view) = { s with id := bt.nextNodeID } := by
      split_ifs <;> rfl
    simp only [hcb, Bool.false_eq_true, if_false]
    simp only [Forest.valid, true_implies] at hval
    simp only [Forest.termObjs, Bool.false_eq_true, if_false, List.mem_append] at hrem
    by_cases hex : ((bt.assignID s).countIdentified s.depth.toNat).stateExceedsBounds
        { s with id := bt.nextNodeID } = true
    · rw [if_pos hex]
      refine ⟨false, rfl, ?_, ?_⟩
      · have hs2 : Sound pt T (.node false o l u ch sib)
            ((bt.assignID s).countIdentified s.depth.toNat).countPrunedByBoundsBeforeInsertion :=
          hs1.of_core (show ((bt.assignID s).countIdentified s.depth.toNat).core
            = ((bt.assignID s).countIdentified
                s.depth.toNat).countPrunedByBoundsBeforeInsertion.core from rfl)
        refine hs2.rem_change hval.2 (fun x hx => hrem x (Or.inr hx)) ?_
        intro x hx
        simp only [Forest.termObjs, Bool.false_eq_true, if_false, List.mem_append] at hx
        rcases hx with hx | hx
        · right
          have h1 := (stateExceedsBounds_sgn _ _ pt hs1.minmax hs1.type).mp hex
          have h2 := bound_le_of_valid (hval.1.1 x hx)
          simp only [State.bound, hl, hu] at h1
          exact le_trans h1 h2
        · exact Or.inl hx
      · have : (((bt.assignID s).countIdentified s.depth.toNat).countPrunedByBoundsBeforeInsertion).work
            = ((bt.assignID s).countIdentified s.depth.toNat).work := work_of_core rfl
        rw [this, hw1]; omega
    · rw [if_neg hex]
      have hlt : ∀ p ∈ Frontier.ptrs ((bt.assignID s).countIdentified s.depth.toNat).frontier,
          p < ((bt.assignID s).countIdentified s.depth.toNat).heap.length := by
        intro p hp
        obtain ⟨x, hx, -⟩ := hs1.cells p hp
        exact lt_length_of_getElem? hx
      obtain ⟨b, hb1, hb2, hb3, hb4, hb5⟩ := store_sound (treeProblem ltS prio)
        ((bt.assignID s).countIdentified s.depth.toNat) { s with id := bt.nextNodeID }
        hdepth hs1.wf hlt
      rw [hb1]
      obtain ⟨h1, h2⟩ := hs1.push (s := { s with id := bt.nextNodeID }) hb2 hb3 hb4 hb5
        hdata hdom htime hdepth hl hu
      exact ⟨true, rfl, h1, by rw [h2, hw1]⟩

theorem runActions_cons_processState {σ : Type} (P : Problem σ) (bt : BTree σ) (s : State σ)
    (rest : List (Action σ)) (r : Bool) (h : (bt.processState P s false).2 = .ok r) :
    BTree.runActions P bt (Action.processState s false :: rest)
      = BTree.runActions P (bt.processState P s false).1 rest := by
  simp only [BTree.runActions, BTree.runAction, andThen_of_ok _ h]

/-- The calls of `processState` that `branch` makes for the children of a
state keep the search sound, return, and add at most the size of the forest of
the children to the work. -/
theorem Sound.processChildren {pt : Int} {T : List ℚ} (ltS : State Node → State Node → Bool)
    (prio : State Node → ℚ) (parID depth : Int) (hd : 0 ≤ depth) :
    ∀ (rem : Forest) (bt : BTree Node), Sound pt T rem bt →
      (BTree.runActions (treeProblem ltS prio) bt
        ((Forest.states parID depth rem).map (fun c => Action.processState c false))).2 = .ok () ∧
      Sound pt T .nil (BTree.runActions (treeProblem ltS prio) bt
        ((Forest.states parID depth rem).map (fun c => Action.processState c false))).1 ∧
      (BTree.runActions (treeProblem ltS prio) bt
        ((Forest.states parID depth rem).map (fun c => Action.processState c false))).1.work
        ≤ bt.work + Forest.size rem := by
  intro rem
  induction rem with
  | nil =>
    intro bt hs
    exact ⟨rfl, hs, Nat.le_refl _⟩
  | node t o l u ch sib _ ih =>
    intro bt hs
    obtain ⟨c, hc⟩ : ∃ c : State Node, c = { State.new (⟨t, ch⟩ : Node) with
        parID := parID, depth := depth, objValue := o, lowerBound := l, upperBound := u } :=
      ⟨_, rfl⟩
    have hstates : Forest.states parID depth (.node t o l u ch sib)
        = c :: Forest.states parID depth sib := by rw [hc]; rfl
    obtain ⟨r, h1, h2, h3⟩ := hs.processChild ltS prio c
      (by subst hc; rfl) (by subst hc; rfl) (by subst hc; rfl) (by subst hc; exact hd)
      (by subst hc; rfl) (by subst hc; rfl) (by subst hc; rfl)
    obtain ⟨h4, h5, h6⟩ := ih _ h2
    rw [hstates, List.map_cons, runActions_cons_processState _ _ _ _ _ h1]
    refine ⟨h4, h5, ?_⟩
    simp only [Forest.size]
    omega

theorem Sound.afterCountExplored {pt : Int} {T : List ℚ} {rem : Forest} {bt : BTree Node}
    (hs : Sound pt T rem bt) (d : Nat) : Sound pt T rem (bt.countExplored d) :=
  { minmax := hs.minmax, type := hs.type, useDom := hs.useDom,
    useFinalTests := hs.useFinalTests, saveNonTerm := hs.saveNonTerm,
    findAllSolns := hs.findAllSolns, timeLimit := hs.timeLimit,
    stopAtFirstImprov := hs.stopAtFirstImprov, wf := hs.wf, nodup := hs.nodup,
    cells := hs.cells, remValid := hs.remValid, remIn := hs.remIn, covered := hs.covered,
    seenIn := hs.seenIn, bestNone := hs.bestNone, bestSome := hs.bestSome,
    slackOK := hs.slackOK
    explored := by
      have := hs.explored
      show 0 ≤ bt.tStats.statesExplored + 1
      omega
    keep := by
      rcases hs.keep with h | h | h
      · exact Or.inl h
      · exact Or.inr (Or.inl h)
      · refine Or.inr (Or.inr ⟨h.1, ?_⟩)
        have := h.2
        show bt.nodeLimit ≤ bt.tStats.statesExplored + 1
        omega }

theorem core_labelExplored {σ : Type} (bt : BTree σ) : bt.labelExplored.core = bt.core := by
  unfold BTree.labelExplored; split_ifs <;> rfl

/-- One call of `exploreNextState` on a sound search whose frontier holds a
state: it returns, the search stays sound, and the work decreases. -/
theorem Sound.afterExploreNextState {pt : Int} {T : List ℚ} {bt : BTree Node}
    (ltS : State Node → State Node → Bool) (prio : State Node → ℚ)
    (hs : Sound pt T .nil bt) (hne : bt.isEmpty = false) :
    (bt.exploreNextState (treeProblem ltS prio)).2 = .ok () ∧
    Sound pt T .nil (bt.exploreNextState (treeProblem ltS prio)).1 ∧
    (bt.exploreNextState (treeProblem ltS prio)).1.work < bt.work := by
  have hdom : ∀ p ∈ Frontier.ptrs bt.frontier, bt.isDom p = false := by
    intro p hp
    obtain ⟨x, hx, hg⟩ := hs.cells p hp
    simp only [BTree.isDom, hx, hg.1]
  obtain ⟨f, n, p, hget, hperm, hwf⟩ := getNextState_sound (treeProblem ltS prio) bt hs.wf
    hs.nodup hdom hne
  obtain ⟨ns, hns, hg, hs1, hw⟩ := Sound.pop (b := bt.afterPop f n) (p := p) hs rfl rfl hperm hwf
  obtain ⟨hg1, hg2, hg3, hg4, hg5, hg6⟩ := hg
  have hns1 : (bt.afterPop f n).heap[p]? = some ns := hns
  unfold BTree.exploreNextState
  rw [hget, andThen_ok]
  simp only [hns1]
  unfold BTree.exploreState
  have hexp := hs1.explored
  rw [if_neg (by rw [hg2]; exact not_lt.mpr hexp)]
  have hs2 : Sound pt T ns.data.children (bt.afterPop f n).labelExplored :=
    hs1.of_core (core_labelExplored _).symm
  have hw2 : (bt.afterPop f n).labelExplored.work = (bt.afterPop f n).work :=
    work_of_core (core_labelExplored _)
  generalize (bt.afterPop f n).labelExplored = b2 at hs2 hw2 ⊢
  unfold BTree.stateIsPrunable
  simp only [BTree.stateIsDominated, hg1, Bool.false_eq_true, if_false]
  by_cases hex : b2.stateExceedsBounds ns = true
  · simp only [hex, if_true]
    have hs3 : Sound pt T ns.data.children b2.countPrunedByBoundsBeforeExploration :=
      hs2.of_core (show b2.core = b2.countPrunedByBoundsBeforeExploration.core from rfl)
    have hw3 : b2.countPrunedByBoundsBeforeExploration.work = b2.work := work_of_core rfl
    refine ⟨trivial, ?_, by rw [hw3, hw2]; omega⟩
    refine hs3.rem_change trivial (by simp [Forest.termObjs]) ?_
    intro x hx
    right
    have h1 := (stateExceedsBounds_sgn _ _ pt hs2.minmax hs2.type).mp hex
    exact le_trans h1 (hg6 x hx).1
  · simp only [hex, Bool.false_eq_true, if_false, hs2.useFinalTests]
    unfold BTree.branchOn
    rw [if_neg (not_lt.mpr hg3)]
    have hs3 := hs2.afterCountExplored ns.depth.toNat
    have hw3 : (b2.countExplored ns.depth.toNat).work = b2.work := rfl
    obtain ⟨h1, h2, h3⟩ := Sound.processChildren ltS prio ns.id (ns.depth + 1) (by omega)
      ns.data.children _ hs3
    exact ⟨h1, h2, lt_of_le_of_lt h3 (by omega)⟩

/-! ### The loop of `explore` -/

theorem seen_le_slack_of_not_lt {σ : Type} (bt : BTree σ) (pt : Int) (hpt : pt = MIN ∨ pt = MAX)
    (ht : bt.problemType = pt) (h : ¬ bt.globalLowerBound < bt.globalUpperBound) :
    sgn pt * bt.seen ≤ sgn pt * bt.slack := by
  have h4 : MAX ≠ MIN := by decide
  rcases hpt with rfl | rfl
  · simp only [sgn_MIN, BTree.seen, BTree.slack, ht, if_true]; linarith
  · simp only [sgn_MAX, BTree.seen, BTree.slack, ht, h4, if_false]; linarith

theorem slack_le_seen_iff {σ : Type} (bt : BTree σ) (pt : Int) (hpt : pt = MIN ∨ pt = MAX)
    (ht : bt.problemType = pt) :
    sgn pt * bt.seen ≤ sgn pt * bt.slack ↔ bt.globalUpperBound ≤ bt.globalLowerBound := by
  have h4 : MAX ≠ MIN := by decide
  rcases hpt with rfl | rfl
  · simp only [sgn_MIN, BTree.seen, BTree.slack, ht, if_true, one_mul]
  · simp only [sgn_MAX, BTree.seen, BTree.slack, ht, h4, if_false]
    constructor <;> intro h <;> linarith

/-- The bookkeeping at the end of an iteration of the loop of `explore` keeps
the search sound: `keepExploring` is cleared only when the bounds have met or
the node limit is reached. -/
theorem Sound.afterIteration {pt : Int} {T : List ℚ} {rem : Forest} {bt : BTree Node}
    (hs : Sound pt T rem bt) (clk : Clock) (i : Nat) (updated : Bool) :
    Sound pt T rem (BTree.afterIteration clk i updated bt) :=
  { minmax := hs.minmax, type := hs.type, useDom := hs.useDom,
    useFinalTests := hs.useFinalTests, saveNonTerm := hs.saveNonTerm,
    findAllSolns := hs.findAllSolns, timeLimit := hs.timeLimit,
    stopAtFirstImprov := hs.stopAtFirstImprov, wf := hs.wf, nodup := hs.nodup,
    cells := hs.cells, remValid := hs.remValid, remIn := hs.remIn, covered := hs.covered,
    seenIn := hs.seenIn, bestNone := hs.bestNone, bestSome := hs.bestSome,
    slackOK := hs.slackOK, explored := hs.explored
    keep := by
      by_cases hlt : bt.globalLowerBound < bt.globalUpperBound
      · by_cases hnl : bt.nodeLimit = 0 ∨ bt.tStats.statesExplored < bt.nodeLimit
        · have hw : (bt.addTime clk i updated).withinLimits (clk.check i) = true := by
            simp only [BTree.withinLimits, BTree.addTime, decide_eq_true_eq]
            exact ⟨hnl, Or.inl hs.timeLimit, Or.inl hs.stopAtFirstImprov, hlt⟩
          rcases hs.keep with h | h | h
          · left
            show (bt.keepExploring && (bt.addTime clk i updated).withinLimits (clk.check i))
              = true
            rw [hw, Bool.and_true]
            exact h
          · exact absurd hlt (not_lt.mpr ((slack_le_seen_iff bt pt hs.minmax hs.type).mp h))
          · exact Or.inr (Or.inr h)
        · rw [not_or, not_lt] at hnl
          exact Or.inr (Or.inr hnl)
      · right; left
        exact seen_le_slack_of_not_lt bt pt hs.minmax hs.type hlt }

theorem work_pos {pt : Int} {T : List ℚ} {rem : Forest} {bt : BTree Node}
    (hs : Sound pt T rem bt) (h : Frontier.ptrs bt.frontier ≠ []) : 0 < bt.work := by
  obtain ⟨p, hp⟩ := List.exists_mem_of_ne_nil _ h
  obtain ⟨x, hx, -⟩ := hs.cells p hp
  have h1 : weight bt.heap p ≤ bt.work :=
    List.single_le_sum (by simp) _ (List.mem_map_of_mem _ hp)
  have h2 : 0 < weight bt.heap p := by simp only [weight, hx]; omega
  omega

/-- The loop of `explore` on a sound search: with as many iterations as there
is work it ends, it reports `finished`, the search is still sound, and either
no state waits or `keepExploring` was cleared. -/
theorem Sound.afterExploreLoop {pt : Int} {T : List ℚ} (ltS : State Node → State Node → Bool)
    (prio : State Node → ℚ) (clk : Clock) :
    ∀ (fuel i : Nat) (bt : BTree Node), Sound pt T .nil bt → bt.work ≤ fuel →
      bt.progressTestUndefined = false →
      (BTree.exploreLoop (treeProblem ltS prio) clk fuel i bt true).2 = .ok true ∧
      Sound pt T .nil (BTree.exploreLoop (treeProblem ltS prio) clk fuel i bt true).1 ∧
      ((BTree.exploreLoop (treeProblem ltS prio) clk fuel i bt true).1.isEmpty = true ∨
       (BTree.exploreLoop (treeProblem ltS prio) clk fuel i bt true).1.keepExploring = false) := by
  intro fuel
  induction fuel with
  | zero =>
    intro i bt hs hw _
    have hemp : bt.isEmpty = true := by
      rw [isEmpty_iff bt hs.wf]
      by_contra hc
      have := work_pos hs hc
      omega
    simp only [BTree.exploreLoop, hemp, Bool.not_true, Bool.false_and, Bool.false_eq_true,
      if_false]
    exact ⟨trivial, hs, Or.inl trivial⟩
  | succ fuel ih =>
    intro i bt hs hw hpt
    unfold BTree.exploreLoop
    by_cases hc : (!bt.isEmpty && bt.keepExploring) = true
    · rw [if_pos hc]
      have hne : bt.isEmpty = false := by
        cases h : bt.isEmpty
        · rfl
        · rw [h] at hc; simp at hc
      obtain ⟨h1, h2, h3⟩ := hs.afterExploreNextState ltS prio hne
      have hpt1 : (bt.exploreNextState (treeProblem ltS prio)).1.progressTestUndefined = false :=
        (exploreNextState_progressTest _ bt).trans hpt
      have hit : bt.iteration (treeProblem ltS prio) clk i true
          = (BTree.afterIteration clk i
              (decide ((bt.exploreNextState (treeProblem ltS prio)).1.tStats.timesBestStateWasUpdated
                ≠ bt.tStats.timesBestStateWasUpdated))
              (bt.exploreNextState (treeProblem ltS prio)).1, .ok true) := by
        unfold BTree.iteration
        rw [h1]
        exact endIteration_defined clk i _ _ true hpt1
      rw [hit]
      simp only
      refine ih (i + 1) _ (h2.afterIteration clk i _) ?_ hpt1
      have : (BTree.afterIteration clk i
              (decide ((bt.exploreNextState (treeProblem ltS prio)).1.tStats.timesBestStateWasUpdated
                ≠ bt.tStats.timesBestStateWasUpdated))
              (bt.exploreNextState (treeProblem ltS prio)).1).work
          = (bt.exploreNextState (treeProblem ltS prio)).1.work := rfl
      omega
    · rw [if_neg hc]
      refine ⟨rfl, hs, ?_⟩
      cases h : bt.isEmpty
      · right
        rw [h] at hc
        simpa using hc
      · exact Or.inl rfl

/-! ### The root -/

theorem fresh_ptrs {f : Frontier} (hf : Frontier.Fresh f) : Frontier.ptrs f = [] := by
  rcases hf with rfl | rfl | rfl | ⟨sel, k, draws, rfl, -⟩ | ⟨d, l, rfl⟩ <;> rfl

theorem fresh_wf {f : Frontier} (hf : Frontier.Fresh f) (depth : Ptr → Int) :
    Frontier.WF depth f := by
  rcases hf with rfl | rfl | rfl | ⟨sel, k, draws, rfl, h1, h2, h3⟩ | ⟨d, l, rfl⟩
  · trivial
  · trivial
  · trivial
  · refine ⟨h1, h2, h3, List.nodup_nil, fun lvl => ?_⟩
    simp [levelQ]
  · refine ⟨rfl, fun nb h => ?_⟩
    cases h

theorem core_fields {σ : Type} {a b : BTree σ} (h : a.core = b.core) :
    a.frame = b.frame ∧ a.seen = b.seen ∧ a.slack = b.slack ∧ a.bestState = b.bestState ∧
    a.problemType = b.problemType ∧ a.frontier = b.frontier := by
  have hf : a.frame = b.frame := congrArg Prod.fst h
  simp only [BTree.core, BTree.frame, Prod.mk.injEq] at h
  obtain ⟨⟨h1, -, -, -, -, -, -, -, h9, -, -, -⟩, h13, h14, h15⟩ := h
  exact ⟨hf, by simp only [BTree.seen, h1, h13, h14], by simp only [BTree.slack, h1, h13, h14],
    h15, h1, h9⟩

/-- The root branch of `processState` in the form that is common to MIN and
MAX: the slack-side bound becomes the bound of the root. -/
theorem updateRootBound_sgn {σ : Type} (bt : BTree σ) (s : State σ) (pt : Int)
    (hpt : pt = MIN ∨ pt = MAX) (ht : bt.problemType = pt) :
    (bt.updateRootBound s).frame = bt.frame ∧ (bt.updateRootBound s).seen = bt.seen ∧
    (bt.updateRootBound s).slack = s.bound pt ∧
    (bt.updateRootBound s).bestState = bt.bestState ∧
    (bt.updateRootBound s).isOptIntegral = bt.isOptIntegral := by
  have h4 : MAX ≠ MIN := by decide
  rcases hpt with rfl | rfl
  · simp only [BTree.updateRootBound, ht, if_true, BTree.frame, BTree.seen, BTree.slack,
      State.bound, and_self]
  · simp only [BTree.updateRootBound, ht, h4, if_false, BTree.frame, BTree.seen, BTree.slack,
      State.bound, and_self]

/-- A search is sound before its first state is stored: nothing waits, the
whole tree is still to be processed, and there is no incumbent. -/
theorem Sound.start {pt : Int} {tree : Forest} {b : BTree Node} (isInt : Bool) (f : Frontier)
    (n : Int) (hpt : pt = MIN ∨ pt = MAX)
    (hframe : b.frame
      = ((BTree.new pt isInt f).configure (.nodeLimit n) : BTree Node).frame)
    (hfresh : Frontier.Fresh f)
    (hv : Forest.valid pt tree) (hseen : b.seen = seen0 pt) (hbest : b.bestState = none)
    (hslack : ∀ x ∈ Forest.termObjs tree, sgn pt * b.slack ≤ sgn pt * x) :
    Sound pt (Forest.termObjs tree) tree b := by
  simp only [BTree.frame, BTree.new, BTree.configure, Prod.mk.injEq] at hframe
  obtain ⟨htype, h1, h2, h3, h4, h5, h6, h7, h8, h9, hexp, hkeep⟩ := hframe
  rw [← h8] at hfresh
  exact
  { minmax := hpt, type := htype, useDom := h1, useFinalTests := h2, saveNonTerm := h3,
    findAllSolns := h4, timeLimit := by rw [h6]; exact eps_pos
    stopAtFirstImprov := h7, wf := fresh_wf hfresh _
    nodup := by rw [fresh_ptrs hfresh]; exact List.nodup_nil
    cells := by rw [fresh_ptrs hfresh]; intro p hp; cases hp
    remValid := hv, remIn := fun _ h => h
    covered := fun _ h => Or.inr (Or.inl h)
    seenIn := Or.inl hseen, bestNone := fun _ => hseen
    bestSome := by rw [hbest]; intro x hx; cases hx
    slackOK := hslack
    explored := by rw [hexp]; exact le_refl _
    keep := Or.inl hkeep }

theorem new_seen {σ : Type} (pt : Int) (isInt : Bool) (f : Frontier) :
    (BTree.new pt isInt f : BTree σ).seen = seen0 pt := rfl

theorem new_slack {σ : Type} (pt : Int) (isInt : Bool) (f : Frontier) :
    (BTree.new pt isInt f : BTree σ).slack = if pt = MIN then dblMin else dblMax := rfl

theorem work_zero {b : BTree Node} (h : Frontier.ptrs b.frontier = []) : b.work = 0 := by
  simp only [BTree.work, h, List.map_nil, List.sum_nil]

theorem dblMin_lt_dblMax : dblMin + eps < dblMax - eps := by
  norm_num [dblMin, dblMax, eps]

theorem ceil_dblMin : ⌈dblMin⌉ = 1 := by
  rw [Int.ceil_eq_iff]
  norm_num [dblMin]

theorem isOptIntegral_identified {σ : Type} (bt : BTree σ) (s : State σ) (n : Nat) :
    ((bt.assignID s).countIdentified n).isOptIntegral = bt.isOptIntegral := by
  unfold BTree.assignID; split_ifs <;> rfl

/-- The call `processState(root, true)` on a fresh engine: it returns, and the
search it starts is sound, with the size of the tree as work. -/
theorem root_sound (pt : Int) (isInt : Bool) (f : Frontier)
    (ltS : State Node → State Node → Bool) (prio : State Node → ℚ)
    (t : Bool) (o l u : ℚ) (ch : Forest)
    (hpt : pt = MIN ∨ pt = MAX) (hf : Frontier.Fresh f)
    (hvalid : Forest.valid pt (.node t o l u ch .nil))
    (himp : ∃ x ∈ Forest.termObjs (.node t o l u ch .nil),
      sgn pt * x < sgn pt * seen0 pt - eps)
    (hroot : t = true → dblMin ≤ o ∧ o ≤ dblMax)
    (hgap : t = false → isInt = true →
      ⌈if pt = MIN then l else dblMin⌉ ≠ ⌊if pt = MIN then dblMax else u⌋) :
    ∃ r, ((BTree.new pt isInt f).processState (treeProblem ltS prio)
            (rootState t o l u ch) true).2 = .ok r ∧
      Sound pt (Forest.termObjs (.node t o l u ch .nil)) .nil
        ((BTree.new pt isInt f).processState (treeProblem ltS prio)
            (rootState t o l u ch) true).1 ∧
      ((BTree.new pt isInt f).processState (treeProblem ltS prio)
            (rootState t o l u ch) true).1.work ≤ Forest.size (.node t o l u ch .nil) := by
  have h3 : MIN ≠ MAX := by decide
  have h4 : MAX ≠ MIN := by decide
  have he := eps_pos
  obtain ⟨root, hr⟩ : ∃ root : State Node, root = rootState t o l u ch := ⟨_, rfl⟩
  obtain ⟨bt0, hb0⟩ : ∃ bt0 : BTree Node, bt0 = BTree.new pt isInt f := ⟨_, rfl⟩
  have hdata : root.data = ⟨t, ch⟩ := by subst hr; rfl
  have hd : 0 ≤ root.depth := by subst hr; exact le_refl _
  have hdom : root.dominated = false := by subst hr; rfl
  have htime : root.timeToExplore = 0 := by subst hr; rfl
  have ho : root.objValue = o := by subst hr; rfl
  have hl : root.lowerBound = l := by subst hr; rfl
  have hu : root.upperBound = u := by subst hr; rfl
  rw [← hr, ← hb0]
  have hc1 := core_identified bt0 root root.depth.toNat
  have hi1 := isOptIntegral_identified bt0 root root.depth.toNat
  obtain ⟨hf1, hseen1, hslack1, hbest1, htype1, hfr1⟩ := core_fields hc1
  have hseen0 : bt0.seen = seen0 pt := by rw [hb0]; rfl
  have hslack0 : bt0.slack = if pt = MIN then dblMin else dblMax := by rw [hb0]; rfl
  have hbest0 : bt0.bestState = none := by rw [hb0]; rfl
  have htype0 : bt0.problemType = pt := by rw [hb0]; rfl
  have hfr0 : bt0.frontier = f := by rw [hb0]; rfl
  have hint0 : bt0.isOptIntegral = isInt := by rw [hb0]; rfl
  have hf0 : bt0.frame = (BTree.new pt isInt f : BTree Node).frame := by rw [hb0]
  cases t with
  | true =>
    rw [processState_terminal ltS prio bt0 root true hd (by rw [hdata])]
    have hT : Forest.termObjs (.node true o l u ch .nil) = [o] := by simp [Forest.termObjs]
    rw [hT] at himp ⊢
    have hs1 : Sound pt (Forest.termObjs (.node true o l u ch .nil)) (.node true o l u ch .nil)
        (((bt0.assignID root).countIdentified root.depth.toNat).countCandidate true) := by
      refine Sound.start isInt f 0 hpt (hf1.trans hf0) hf hvalid (hseen1.trans hseen0)
        (hbest1.trans hbest0) ?_
      intro x hx
      rw [hT, List.mem_singleton] at hx
      subst hx
      show sgn pt * ((bt0.assignID root).countIdentified root.depth.toNat).slack ≤ _
      rw [hslack1, hslack0]
      rcases hpt with rfl | rfl
      · simp only [sgn_MIN, if_true, one_mul]; exact (hroot rfl).1
      · simp only [sgn_MAX, h4, if_false]; linarith [(hroot rfl).2]
    rw [hT] at hs1
    obtain ⟨e1, e2, e3, e4⟩ := hs1.afterSaveBestState { root with id := bt0.nextNodeID } true
      (by simp [ho])
    rw [andThen_of_ok _ e1]
    refine ⟨true, rfl, ?_, ?_⟩
    · refine e2.rem_change trivial (by simp [Forest.termObjs]) ?_
      intro x hx
      rw [hT, List.mem_singleton] at hx
      subst hx
      exact Or.inr (ho ▸ e4)
    · have : (((bt0.assignID root).countIdentified root.depth.toNat).countCandidate true).work
          = 0 := work_zero (by
        show Frontier.ptrs ((bt0.assignID root).countIdentified root.depth.toNat).frontier = []
        rw [hfr1, hfr0]; exact fresh_ptrs hf)
      show (BTree.saveBestState _ _ _).1.work ≤ _
      rw [work_of_frame e3, this]
      exact Nat.zero_le _
  | false =>
    rw [processState_inner ltS prio bt0 root true hd (by rw [hdata]) (by rw [hb0]; rfl)
      (by rw [hb0]; rfl)]
    unfold BTree.boundAndStore
    have hcb : (if ((bt0.assignID root).countIdentified root.depth.toNat).stateComputesBounds
          = true
        then ({ root with id := bt0.nextNodeID } : State Node)
        else (treeProblem ltS prio).computeBounds { root with id := bt0.nextNodeID }
          ((bt0.assignID root).countIdentified root.depth.toNat).view)
        = { root with id := bt0.nextNodeID } := by
      split_ifs <;> rfl
    simp only [hcb, if_true]
    have hval := hvalid
    simp only [Forest.valid, true_implies, and_true] at hval
    have hT : Forest.termObjs (.node false o l u ch .nil) = Forest.termObjs ch := by
      simp [Forest.termObjs]
    obtain ⟨x0, hx0, hx0imp⟩ := himp
    rw [hT] at hx0
    have hbx0 := bound_le_of_valid (hval.1 x0 hx0)
    generalize hbt1 : (bt0.assignID root).countIdentified root.depth.toNat = bt1 at *
    generalize hroot1 : ({ root with id := bt0.nextNodeID } : State Node) = root1 at *
    have hb1 : root1.bound pt = if pt = MIN then l else u := by
      subst hroot1; simp only [State.bound, hl, hu]
    have hex : bt1.stateExceedsBounds root1 = false := by
      rw [← Bool.not_eq_true, stateExceedsBounds_sgn _ _ pt hpt (htype1.trans htype0), hseen1,
        hseen0, hb1]
      linarith
    obtain ⟨g1, g2, g3, g4, g5⟩ := updateRootBound_sgn bt1 root1 pt hpt (htype1.trans htype0)
    have hgap1 := hgap rfl
    have hgc : (bt1.updateRootBound root1).gapClosed = false := by
      have hty2 : (bt1.updateRootBound root1).problemType = pt := by
        have := congrArg (fun x => x.1) g1
        exact this.trans (htype1.trans htype0)
      rw [hseen1, hseen0] at g2
      rw [hb1] at g3
      rw [hi1, hint0] at g5
      simp only [BTree.gapClosed, g5, decide_eq_false_iff_not, not_or, not_and, not_lt]
      rcases hpt with rfl | rfl
      · simp only [BTree.seen, BTree.slack, hty2, if_true, seen0] at g2 g3
        simp only [sgn_MIN, one_mul, if_true, seen0] at hbx0 hx0imp hgap1
        rw [g2, g3]
        refine ⟨hgap1, ?_⟩
        rw [abs_sub_comm, abs_of_nonneg (by linarith)]
        linarith
      · simp only [BTree.seen, BTree.slack, hty2, h4, if_false, seen0] at g2 g3
        simp only [sgn_MAX, h4, if_false, seen0] at hbx0 hx0imp hgap1
        rw [g2, g3]
        refine ⟨hgap1, ?_⟩
        rw [abs_sub_comm, abs_of_nonneg (by linarith)]
        linarith
    simp only [hex, Bool.false_eq_true, if_false, hgc]
    have hfr2 : (bt1.updateRootBound root1).frontier = f := by
      have := congrArg (fun x => x.2.2.2.2.2.2.2.2.1) g1
      exact this.trans (hfr1.trans hfr0)
    have hs2 : Sound pt (Forest.termObjs (.node false o l u ch .nil)) (.node false o l u ch .nil)
        (bt1.updateRootBound root1) := by
      refine Sound.start isInt f 0 hpt (g1.trans (hf1.trans hf0)) hf hvalid
        (g2.trans (hseen1.trans hseen0)) (g4.trans (hbest1.trans hbest0)) ?_
      intro x hx
      rw [hT] at hx
      rw [g3, hb1]
      exact bound_le_of_valid (hval.1 x hx)
    have hp2 : Frontier.ptrs (bt1.updateRootBound root1).frontier = [] := by
      rw [hfr2]; exact fresh_ptrs hf
    obtain ⟨b, hb1, hb2, hb3, hb4, hb5⟩ := store_sound (treeProblem ltS prio)
      (bt1.updateRootBound root1) root1 (by subst hroot1; exact hd) hs2.wf
      (by rw [hp2]; intro p hp; cases hp)
    rw [hb1]
    obtain ⟨k1, k2⟩ := hs2.push hb2 hb3 hb4 hb5 (by subst hroot1; exact hdata)
      (by subst hroot1; exact hdom) (by subst hroot1; exact htime) (by subst hroot1; exact hd)
      (by subst hroot1; exact hl) (by subst hroot1; exact hu)
    refine ⟨true, rfl, k1, ?_⟩
    rw [k2, work_zero hp2]
    simp only [Forest.size]
    omega

/-! ## The search finds the optimum -/

/-- C1 (amended): on a fresh engine of any of the five tree classes, for a
search tree with valid bounds (root `t o l u ch`) that has a terminal value
better than the initial best-seen bound by more than `eps`, whose terminal root
(if the root is terminal) has a value in [DBL_MIN, DBL_MAX], and whose root
does not close the integral gap: with as many loop iterations allowed as the
tree has nodes, `processState(root, true)` and `explore()` return, the flag
`finished` of `explore()` is still set, the frontier is empty or the global
bounds have met, and the incumbent exists, its value is the best-seen bound,
that bound is a terminal value of the tree, and no terminal value of the tree
is better than it by more than `eps`. -/
theorem explore_finds_optimum (probType : Int) (isIntProb : Bool) (f : Frontier)
    (ltS : State Node → State Node → Bool) (prio : State Node → ℚ) (clk : Clock) (fuel : Nat)
    (t : Bool) (o l u : ℚ) (ch : Forest)
    (hpt : probType = MIN ∨ probType = MAX) (hf : Frontier.Fresh f)
    (hvalid : Forest.valid probType (.node t o l u ch .nil))
    (himp : ∃ x ∈ Forest.termObjs (.node t o l u ch .nil),
      sgn probType * x < sgn probType * seen0 probType - eps)
    (hroot : t = true → dblMin ≤ o ∧ o ≤ dblMax)
    (hgap : t = false → isIntProb = true →
      ⌈if probType = MIN then l else dblMin⌉ ≠ ⌊if probType = MIN then dblMax else u⌋)
    (hfuel : Forest.size (.node t o l u ch .nil) ≤ fuel) :
    (BTree.solve (treeProblem ltS prio) clk fuel (BTree.new probType isIntProb f)
      (rootState t o l u ch)).2 = .ok true ∧
    ((BTree.solve (treeProblem ltS prio) clk fuel (BTree.new probType isIntProb f)
        (rootState t o l u ch)).1.isEmpty = true ∨
      (BTree.solve (treeProblem ltS prio) clk fuel (BTree.new probType isIntProb f)
        (rootState t o l u ch)).1.globalUpperBound
      ≤ (BTree.solve (treeProblem ltS prio) clk fuel (BTree.new probType isIntProb f)
        (rootState t o l u ch)).1.globalLowerBound) ∧
    ∃ b, (BTree.solve (treeProblem ltS prio) clk fuel (BTree.new probType isIntProb f)
        (rootState t o l u ch)).1.bestState = some b ∧
      b.objValue = (BTree.solve (treeProblem ltS prio) clk fuel (BTree.new probType isIntProb f)
        (rootState t o l u ch)).1.seen ∧
      (BTree.solve (treeProblem ltS prio) clk fuel (BTree.new probType isIntProb f)
        (rootState t o l u ch)).1.seen ∈ Forest.termObjs (.node t o l u ch .nil) ∧
      ∀ x ∈ Forest.termObjs (.node t o l u ch .nil),
        sgn probType * (BTree.solve (treeProblem ltS prio) clk fuel
          (BTree.new probType isIntProb f) (rootState t o l u ch)).1.seen - eps
          ≤ sgn probType * x := by
  obtain ⟨r, h1, h2, h3⟩ := root_sound probType isIntProb f ltS prio t o l u ch hpt hf hvalid
    himp hroot hgap
  have hsolve : BTree.solve (treeProblem ltS prio) clk fuel (BTree.new probType isIntProb f)
      (rootState t o l u ch)
      = BTree.exploreLoop (treeProblem ltS prio) clk fuel 0
          (((BTree.new probType isIntProb f).processState (treeProblem ltS prio)
            (rootState t o l u ch) true).1.startClock clk) true := by
    unfold BTree.solve
    rw [andThen_of_ok _ h1]
    rfl
  rw [hsolve]
  have hpt0 : ((BTree.new probType isIntProb f).processState (treeProblem ltS prio)
      (rootState t o l u ch) true).1.progressTestUndefined = false :=
    (progressTest_of_options (processState_options _ _ _ _)).trans rfl
  have hnl0 : ((BTree.new probType isIntProb f).processState (treeProblem ltS prio)
      (rootState t o l u ch) true).1.nodeLimit = 0 :=
    (congrArg Options.nodeLimit (processState_options _ _ _ _)).trans rfl
  generalize ((BTree.new probType isIntProb f).processState (treeProblem ltS prio)
    (rootState t o l u ch) true).1 = bt1 at h2 h3 hpt0 hnl0 ⊢
  have hs3 : Sound probType (Forest.termObjs (.node t o l u ch .nil)) .nil
      (bt1.startClock clk) :=
    h2.of_core (show bt1.core = (bt1.startClock clk).core from rfl)
  have hw3 : (bt1.startClock clk).work = bt1.work := rfl
  obtain ⟨k1, k2, k3⟩ := Sound.afterExploreLoop ltS prio clk fuel 0 _ hs3
    (by rw [hw3]; exact le_trans h3 hfuel) hpt0
  have hnl : (BTree.exploreLoop (treeProblem ltS prio) clk fuel 0 (bt1.startClock clk)
      true).1.nodeLimit = 0 :=
    (congrArg Options.nodeLimit ((options_invariant (bt1.startClock clk).options).exploreLoop_call
      trivial (treeProblem ltS prio) clk fuel 0 _ true rfl).holds).trans hnl0
  generalize BTree.exploreLoop (treeProblem ltS prio) clk fuel 0 (bt1.startClock clk) true
    = res at k1 k2 k3 hnl ⊢
  have he := eps_pos
  have hwithin : ∀ x ∈ Forest.termObjs (.node t o l u ch .nil),
      sgn probType * res.1.seen - eps ≤ sgn probType * x := by
    intro x hx
    rcases k3 with hemp | hkeep
    · rcases k2.covered x hx with ⟨p, hp, -⟩ | h | h
      · rw [(isEmpty_iff _ k2.wf).mp hemp] at hp; cases hp
      · simp [Forest.termObjs] at h
      · exact h
    · rcases k2.keep with h | h | h
      · rw [hkeep] at h; cases h
      · have := k2.slackOK x hx
        linarith
      · exact absurd hnl h.1
  have hne : res.1.seen ≠ seen0 probType := by
    intro h
    obtain ⟨x, hx, hlt⟩ := himp
    have := hwithin x hx
    rw [h] at this
    linarith
  refine ⟨k1, ?_, ?_⟩
  · rcases k3 with hemp | hkeep
    · exact Or.inl hemp
    · right
      rcases k2.keep with h | h | h
      · rw [hkeep] at h; cases h
      · exact (slack_le_seen_iff _ probType k2.minmax k2.type).mp h
      · exact absurd hnl h.1
  · cases hb : res.1.bestState with
    | none => exact absurd (k2.bestNone hb) hne
    | some b =>
      refine ⟨b, rfl, ?_, ?_, hwithin⟩
      · rcases k2.bestSome b hb with h | h
        · exact h
        · exact absurd h hne
      · rcases k2.seenIn with h | h
        · exact absurd h hne
        · exact h

theorem explore_finds_optimum_witness :
    Forest.valid MIN (.node false 0 5 10 sampleChildren .nil) ∧
    (∃ x ∈ Forest.termObjs (.node false 0 5 10 sampleChildren .nil),
      sgn MIN * x < sgn MIN * seen0 MIN - eps) ∧
    (BTree.solve sampleProblem Clock.zero 10 (BTree.new MIN false DFSTree.frontier)
      (rootState false 0 5 10 sampleChildren)).2 = .ok true ∧
    ∃ b, (BTree.solve sampleProblem Clock.zero 10 (BTree.new MIN false DFSTree.frontier)
        (rootState false 0 5 10 sampleChildren)).1.bestState = some b ∧
      b.objValue = (BTree.solve sampleProblem Clock.zero 10 (BTree.new MIN false DFSTree.frontier)
        (rootState false 0 5 10 sampleChildren)).1.seen :=
  have hv : Forest.valid MIN (.node false 0 5 10 sampleChildren .nil) := by
    norm_num [Forest.valid, Forest.termObjs, sampleChildren]
  have hi : ∃ x ∈ Forest.termObjs (.node false 0 5 10 sampleChildren .nil),
      sgn MIN * x < sgn MIN * seen0 MIN - eps :=
    ⟨5, by simp [Forest.termObjs, sampleChildren], by decide!⟩
  have t := explore_finds_optimum MIN false DFSTree.frontier (fun _ _ => false) (fun _ => 0)
    Clock.zero 10 false 0 5 10 sampleChildren (Or.inl rfl) (Or.inl rfl) hv hi
    (fun h => Bool.noConfusion h) (fun _ h => Bool.noConfusion h) (by decide)
  ⟨hv, hi, t.1, t.2.2.imp (fun _ h => ⟨h.1, h.2.1⟩)⟩

/-- C1 as stated fails.  On valid search trees with a terminal state and fresh
engines: (1) the MIN search of the sample tree returns while a state still
waits in the frontier, because the loop of `explore` stops as soon as the
global bounds meet; (2) the MAX search of a tree whose only terminal value is
-1 returns without an incumbent, because the initial `globalLowerBound` is
DBL_MIN, a positive number; (3) the MAX search of an integral problem whose
root has upper bound 3/2 drops the root as "gap closed" and returns without an
incumbent although a terminal state of value 1 exists. -/
theorem explore_not_as_claimed :
    (Forest.valid MIN (.node false 0 5 10 sampleChildren .nil) ∧
      Forest.termObjs (.node false 0 5 10 sampleChildren .nil) = [7, 5] ∧
      (BTree.solve sampleProblem Clock.zero 10 (BTree.new MIN false DFSTree.frontier)
        (rootState false 0 5 10 sampleChildren)).2 = .ok true ∧
      (BTree.solve sampleProblem Clock.zero 10 (BTree.new MIN false DFSTree.frontier)
        (rootState false 0 5 10 sampleChildren)).1.isEmpty = false) ∧
    (Forest.valid MAX (.node false 0 (-10) 0 negativeChildren .nil) ∧
      Forest.termObjs (.node false 0 (-10) 0 negativeChildren .nil) = [-1] ∧
      (BTree.solve sampleProblem Clock.zero 10 (BTree.new MAX false DFSTree.frontier)
        (rootState false 0 (-10) 0 negativeChildren)).2 = .ok true ∧
      (BTree.solve sampleProblem Clock.zero 10 (BTree.new MAX false DFSTree.frontier)
        (rootState false 0 (-10) 0 negativeChildren)).1.bestState = none) ∧
    (Forest.valid MAX (.node false 0 0 (3 / 2) unitChildren .nil) ∧
      Forest.termObjs (.node false 0 0 (3 / 2) unitChildren .nil) = [1] ∧
      (BTree.solve sampleProblem Clock.zero 10 (BTree.new MAX true DFSTree.frontier)
        (rootState false 0 0 (3 / 2) unitChildren)).2 = .ok true ∧
      (BTree.solve sampleProblem Clock.zero 10 (BTree.new MAX true DFSTree.frontier)
        (rootState false 0 0 (3 / 2) unitChildren)).1.bestState = none) := by
  refine ⟨⟨?_, by decide, by decide!, by decide!⟩, ⟨?_, by decide, by decide!, by decide!⟩,
    ⟨?_, by decide, by decide!, by decide!⟩⟩
  · norm_num [Forest.valid, Forest.termObjs, sampleChildren]
  · norm_num [Forest.valid, Forest.termObjs, negativeChildren, MIN, MAX]
  · norm_num [Forest.valid, Forest.termObjs, unitChildren, MIN, MAX]

/-! ## `resetBest` -/

/-- C17: `resetBest()` sets `bestState` to null, `keepExploring` to true and
`timesBestStateWasUpdated` to 0, and leaves everything else as it was: the
engine with these three put back is the engine before the call; in
particular the two global bounds, the frontier, the dominance index, the
stored states, the options, the optimal counts and the snapshots of the last
update are unchanged. -/
theorem resetBest_frame {σ : Type} (bt : BTree σ) :
    bt.resetBest.bestState = none ∧ bt.resetBest.keepExploring = true ∧
    bt.resetBest.tStats.timesBestStateWasUpdated = 0 ∧
    ({ bt.resetBest with bestState := bt.bestState, keepExploring := bt.keepExploring,
                         tStats := bt.tStats } : BTree σ) = bt ∧
    ({ bt.resetBest.tStats with
        timesBestStateWasUpdated := bt.tStats.timesBestStateWasUpdated } : TreeStats)
      = bt.tStats ∧
    bt.resetBest.globalLowerBound = bt.globalLowerBound ∧
    bt.resetBest.globalUpperBound = bt.globalUpperBound ∧
    bt.resetBest.frontier = bt.frontier ∧ bt.resetBest.domClasses = bt.domClasses ∧
    bt.resetBest.heap = bt.heap ∧ bt.resetBest.options = bt.options ∧
    bt.resetBest.tStats.numOptimalTerminalStatesIdentified
      = bt.tStats.numOptimalTerminalStatesIdentified ∧
    bt.resetBest.tStats.numOptimalHeuristicStatesProcessed
      = bt.tStats.numOptimalHeuristicStatesProcessed ∧
    bt.resetBest.tStats.statesIdentifiedAtLastUpdate = bt.tStats.statesIdentifiedAtLastUpdate ∧
    bt.resetBest.tStats.statesExploredAtLastUpdate = bt.tStats.statesExploredAtLastUpdate ∧
    bt.resetBest.tStats.statesStoredInTreeAtLastUpdate
      = bt.tStats.statesStoredInTreeAtLastUpdate :=
  ⟨rfl, rfl, rfl, rfl, rfl, rfl, rfl, rfl, rfl, rfl, rfl, rfl, rfl, rfl, rfl, rfl⟩

/-! ## The order of the DFS, BrFS and BFS frontiers -/

theorem dfs_pushes (xs : List Ptr) : ∀ base : List Ptr,
    xs.foldl DFSTree.saveStateForExploration base = xs.reverse ++ base := by
  induction xs with
  | nil => intro base; rfl
  | cons x xs ih =>
    intro base
    simp [List.foldl_cons, ih, DFSTree.saveStateForExploration]

theorem brfs_pushes (xs : List Ptr) : ∀ base : List Ptr,
    xs.foldl BrFSTree.saveStateForExploration base = base ++ xs := by
  induction xs with
  | nil => intro base; simp
  | cons x xs ih =>
    intro base
    simp [List.foldl_cons, ih, BrFSTree.saveStateForExploration]

theorem dfs_skipDominated_run (dom : Ptr → Bool) (x : Ptr) (rest : List Ptr)
    (hx : dom x = false) : ∀ (ds : List Ptr) (cur : Ptr) (n : Nat),
    (∀ d ∈ cur :: ds, dom d = true) →
    DFSTree.skipDominated dom cur (ds ++ x :: rest) n = ⟨x, rest, n + ds.length + 1⟩ := by
  intro ds
  induction ds with
  | nil =>
    intro cur n h
    have hc : dom cur = true := h cur (List.mem_cons_self _ _)
    simp only [List.nil_append, DFSTree.skipDominated, hc, if_true, List.length_nil, Nat.add_zero]
    exact dfs_skipDominated_of_not_dom dom x rest (n + 1) hx
  | cons d ds ih =>
    intro cur n h
    have hc : dom cur = true := h cur (List.mem_cons_self _ _)
    simp only [List.cons_append, DFSTree.skipDominated, hc, if_true, List.length_cons]
    exact (ih d (n + 1) (fun y hy => h y (List.mem_cons_of_mem _ hy))).trans
      (congrArg (Popped.mk x rest) (by omega))

theorem brfs_skipDominated_run (dom : Ptr → Bool) (x : Ptr) (rest : List Ptr)
    (hx : dom x = false) : ∀ (ds : List Ptr) (cur : Ptr) (n : Nat),
    (∀ d ∈ cur :: ds, dom d = true) →
    BrFSTree.skipDominated dom cur (ds ++ x :: rest) n = ⟨x, rest, n + ds.length + 1⟩ := by
  intro ds
  induction ds with
  | nil =>
    intro cur n h
    have hc : dom cur = true := h cur (List.mem_cons_self _ _)
    simp only [List.nil_append, BrFSTree.skipDominated, hc, if_true, List.length_nil,
      Nat.add_zero]
    exact brfs_skipDominated_of_not_dom dom x rest (n + 1) hx
  | cons d ds ih =>
    intro cur n h
    have hc : dom cur = true := h cur (List.mem_cons_self _ _)
    simp only [List.cons_append, BrFSTree.skipDominated, hc, if_true, List.length_cons]
    exact (ih d (n + 1) (fun y hy => h y (List.mem_cons_of_mem _ hy))).trans
      (congrArg (Popped.mk x rest) (by omega))

/-- The first state of a list that is not dominated, with the dominated
states before it. -/
theorem first_not_dominated (dom : Ptr → Bool) :
    ∀ xs : List Ptr, (∃ y ∈ xs, dom y = false) →
      ∃ ds x rest, xs = ds ++ x :: rest ∧ dom x = false ∧ ∀ d ∈ ds, dom d = true := by
  intro xs
  induction xs with
  | nil => rintro ⟨y, hy, -⟩; cases hy
  | cons a xs ih =>
    rintro ⟨y, hy, hdy⟩
    by_cases ha : dom a = false
    · exact ⟨[], a, xs, rfl, ha, fun d hd => by cases hd⟩
    · have ha' : dom a = true := by simpa using ha
      have hy' : y ∈ xs := by
        rcases List.mem_cons.mp hy with rfl | h
        · rw [hdy] at ha'; cases ha'
        · exact h
      obtain ⟨ds, x, rest, h1, h2, h3⟩ := ih ⟨y, hy', hdy⟩
      refine ⟨a :: ds, x, rest, by rw [h1]; rfl, h2, ?_⟩
      intro d hd
      rcases List.mem_cons.mp hd with rfl | h
      · exact ha'
      · exact h3 d h

/-- The pop of DFS on a stack (top first) whose first state that is not
dominated is `x`. -/
theorem dfs_getNextState_run (dom : Ptr → Bool) (ds : List Ptr) (x : Ptr) (rest : List Ptr)
    (hx : dom x = false) (hds : ∀ d ∈ ds, dom d = true) :
    DFSTree.getNextState dom (ds ++ x :: rest) = some ⟨x, rest, ds.length⟩ := by
  cases ds with
  | nil =>
    simp only [List.nil_append, DFSTree.getNextState, List.length_nil]
    rw [dfs_skipDominated_of_not_dom dom x rest 0 hx]
  | cons d ds =>
    simp only [List.cons_append, DFSTree.getNextState, List.length_cons]
    rw [dfs_skipDominated_run dom x rest hx ds d 0 hds]
    simp

/-- The pop of BrFS on a queue (front first) whose first state that is not
dominated is `x`. -/
theorem brfs_getNextState_run (dom : Ptr → Bool) (ds : List Ptr) (x : Ptr) (rest : List Ptr)
    (hx : dom x = false) (hds : ∀ d ∈ ds, dom d = true) :
    BrFSTree.getNextState dom (ds ++ x :: rest) = some ⟨x, rest, ds.length⟩ := by
  cases ds with
  | nil =>
    simp only [List.nil_append, BrFSTree.getNextState, List.length_nil]
    rw [brfs_skipDominated_of_not_dom dom x rest 0 hx]
  | cons d ds =>
    simp only [List.cons_append, BrFSTree.getNextState, List.length_cons]
    rw [brfs_skipDominated_run dom x rest hx ds d 0 hds]
    simp

/-- C18: the DFS frontier is last-in first-out with lazy dominance filtering.
For the stack that the pushes `pushed` (in this order) built, if one of its
states is not dominated then `getNextState` returns the state `x` that was
pushed last among those that are not dominated, the stack it leaves is the one
built by the pushes `before` that came before `x`, in their order, and the
states `later` pushed after `x`, all dominated, are discarded and counted. -/
theorem dfs_last_in_first_out (dom : Ptr → Bool) (pushed : List Ptr)
    (h : ∃ y ∈ pushed, dom y = false) :
    ∃ before x later, pushed = before ++ x :: later ∧ dom x = false ∧
      (∀ d ∈ later, dom d = true) ∧
      DFSTree.getNextState dom (pushed.foldl DFSTree.saveStateForExploration [])
        = some ⟨x, before.foldl DFSTree.saveStateForExploration [], later.length⟩ := by
  obtain ⟨ds, x, rest, h1, h2, h3⟩ := first_not_dominated dom pushed.reverse
    (by obtain ⟨y, hy, hd⟩ := h; exact ⟨y, List.mem_reverse.mpr hy, hd⟩)
  refine ⟨rest.reverse, x, ds.reverse, ?_, h2, ?_, ?_⟩
  · have := congrArg List.reverse h1
    simpa using this
  · intro d hd; exact h3 d (List.mem_reverse.mp hd)
  · rw [dfs_pushes, dfs_pushes, List.append_nil, List.append_nil, h1, List.reverse_reverse,
      List.length_reverse]
    exact dfs_getNextState_run dom ds x rest h2 h3

theorem dfs_last_in_first_out_witness :
    (∃ y ∈ [1, 2, 3], (fun p => decide (p = 3)) y = false) ∧
    ∃ before x later, [1, 2, 3] = before ++ x :: later ∧ (fun p => decide (p = 3)) x = false ∧
      (∀ d ∈ later, (fun p => decide (p = 3)) d = true) ∧
      DFSTree.getNextState (fun p => decide (p = 3))
          ([1, 2, 3].foldl DFSTree.saveStateForExploration [])
        = some ⟨x, before.foldl DFSTree.saveStateForExploration [], later.length⟩ :=
  have h : ∃ y ∈ [1, 2, 3], (fun p => decide (p = 3)) y = false := ⟨1, by decide, by decide⟩
  ⟨h, dfs_last_in_first_out (fun p => decide (p = 3)) [1, 2, 3] h⟩

/-- C19: the BrFS frontier is first-in first-out with lazy dominance
filtering.  For the queue that the pushes `pushed` (in this order) built, if
one of its states is not dominated then `getNextState` returns the state `x`
that was pushed first among those that are not dominated, the queue it leaves
is the one built by the pushes `later` that came after `x`, in their order, and
the states `before` pushed before `x`, all dominated, are discarded and
counted. -/
theorem brfs_first_in_first_out (dom : Ptr → Bool) (pushed : List Ptr)
    (h : ∃ y ∈ pushed, dom y = false) :
    ∃ before x later, pushed = before ++ x :: later ∧ dom x = false ∧
      (∀ d ∈ before, dom d = true) ∧
      BrFSTree.getNextState dom (pushed.foldl BrFSTree.saveStateForExploration [])
        = some ⟨x, later.foldl BrFSTree.saveStateForExploration [], before.length⟩ := by
  obtain ⟨ds, x, rest, h1, h2, h3⟩ := first_not_dominated dom pushed h
  refine ⟨ds, x, rest, h1, h2, h3, ?_⟩
  rw [brfs_pushes, brfs_pushes, List.nil_append, List.nil_append, h1]
  exact brfs_getNextState_run dom ds x rest h2 h3

theorem brfs_first_in_first_out_witness :
    (∃ y ∈ [1, 2, 3], (fun p => decide (p = 1)) y = false) ∧
    ∃ before x later, [1, 2, 3] = before ++ x :: later ∧ (fun p => decide (p = 1)) x = false ∧
      (∀ d ∈ before, (fun p => decide (p = 1)) d = true) ∧
      BrFSTree.getNextState (fun p => decide (p = 1))
          ([1, 2, 3].foldl BrFSTree.saveStateForExploration [])
        = some ⟨x, later.foldl BrFSTree.saveStateForExploration [], before.length⟩ :=
  have h : ∃ y ∈ [1, 2, 3], (fun p => decide (p = 1)) y = false := ⟨2, by decide, by decide⟩
  ⟨h, brfs_first_in_first_out (fun p => decide (p = 1)) [1, 2, 3] h⟩

/-- The scan for the top of a priority queue ends at the start or above it,
and nothing it passed is above its result. -/
theorem best_max (lt : Ptr → Ptr → Bool) (hirr : ∀ a, lt a a = false)
    (htr : ∀ a b c, lt a b = true → lt b c = true → lt a c = true) :
    ∀ (xs : List Ptr) (b : Ptr),
      (SPQ.best lt b xs = b ∨ lt b (SPQ.best lt b xs) = true) ∧
      ∀ x ∈ b :: xs, lt (SPQ.best lt b xs) x = false := by
  have hasym : ∀ a b, lt a b = true → lt b a = false := by
    intro a b hab
    by_contra hc
    have hc' : lt b a = true := by simpa using hc
    have := htr _ _ _ hab hc'
    rw [hirr] at this
    cases this
  have hself : ∀ m b, (m = b ∨ lt b m = true) → lt m b = false := by
    rintro m b (rfl | h)
    · exact hirr _
    · exact hasym _ _ h
  intro xs
  induction xs with
  | nil => intro b; exact ⟨Or.inl rfl, fun x hx => by simp at hx; rw [hx]; exact hirr _⟩
  | cons a xs ih =>
    intro b
    simp only [SPQ.best]
    by_cases hba : lt b a = true
    · rw [if_pos hba]
      obtain ⟨h1, h2⟩ := ih a
      have h3 : lt b (SPQ.best lt a xs) = true := by
        rcases h1 with h | h
        · rw [h]; exact hba
        · exact htr _ _ _ hba h
      refine ⟨Or.inr h3, ?_⟩
      intro x hx
      rcases List.mem_cons.mp hx with rfl | hx
      · exact hasym _ _ h3
      · exact h2 x hx
    · rw [if_neg hba]
      obtain ⟨h1, h2⟩ := ih b
      refine ⟨h1, ?_⟩
      intro x hx
      rcases List.mem_cons.mp hx with rfl | hx
      · exact hself _ _ h1
      · rcases List.mem_cons.mp hx with rfl | hx
        · rcases h1 with h | h
          · rw [h]; simpa using hba
          · by_contra hc
            have hc' : lt (SPQ.best lt b xs) x = true := by simpa using hc
            exact hba (htr _ _ _ h hc')
        · exact h2 x (List.mem_cons_of_mem _ hx)

/-- The top of a priority queue is a greatest element for a comparator that is
irreflexive and transitive. -/
theorem top_max {lt : Ptr → Ptr → Bool} (hirr : ∀ a, lt a a = false)
    (htr : ∀ a b c, lt a b = true → lt b c = true → lt a c = true)
    {q : SPQ} {t : Ptr} (h : SPQ.top lt q = some t) : ∀ x ∈ q, lt t x = false := by
  cases q with
  | nil => simp [SPQ.top] at h
  | cons x xs =>
    simp only [SPQ.top, Option.some.injEq] at h
    rw [← h]
    exact (best_max lt hirr htr xs x).2

/-- The loop of `BFSTree::getNextState`, started with the top `cur` of a queue
and the rest `q` of it: it ends at a state that is not dominated and is a
greatest element of what is left, and what it discarded is dominated and not
below that state. -/
theorem bfs_skipDominated_spec (lt : Ptr → Ptr → Bool) (dom : Ptr → Bool)
    (hirr : ∀ a, lt a a = false)
    (htr : ∀ a b c, lt a b = true → lt b c = true → lt a c = true) :
    ∀ (k : Nat) (cur : Ptr) (q : SPQ) (n : Nat), q.length < k →
      (∀ x ∈ q, lt cur x = false) → (∃ y ∈ cur :: q, dom y = false) →
      ∃ discarded,
        (cur :: q).Perm (discarded ++ (BFSTree.skipDominated lt dom k cur q n).next ::
          (BFSTree.skipDominated lt dom k cur q n).rest) ∧
        (BFSTree.skipDominated lt dom k cur q n).pruned = n + discarded.length ∧
        dom (BFSTree.skipDominated lt dom k cur q n).next = false ∧
        (∀ x ∈ (BFSTree.skipDominated lt dom k cur q n).rest,
          lt (BFSTree.skipDominated lt dom k cur q n).next x = false) ∧
        (∀ d ∈ discarded, dom d = true ∧
          lt d (BFSTree.skipDominated lt dom k cur q n).next = false) := by
  intro k
  induction k with
  | zero => intro cur q n h; omega
  | succ k ih =>
    intro cur q n hlen hmax hex
    by_cases hc : dom cur = false
    · rw [bfs_skipDominated_of_not_dom lt dom (k + 1) cur q n hc]
      exact ⟨[], List.Perm.refl _, rfl, hc, hmax, fun d hd => by cases hd⟩
    · have hc' : dom cur = true := by simpa using hc
      have hq : q ≠ [] := by
        rintro rfl
        obtain ⟨y, hy, hdy⟩ := hex
        simp only [List.mem_singleton] at hy
        rw [hy, hc'] at hdy
        cases hdy
      obtain ⟨t, ht⟩ := @top_isSome lt _ hq
      have hperm := pop_perm ht
      have hlen' : (SPQ.pop lt q).length < k := by
        have := hperm.length_eq
        simp only [List.length_cons] at this
        omega
      have hex' : ∃ y ∈ t :: SPQ.pop lt q, dom y = false := by
        obtain ⟨y, hy, hdy⟩ := hex
        rcases List.mem_cons.mp hy with rfl | hy
        · rw [hc'] at hdy; cases hdy
        · exact ⟨y, hperm.subset hy, hdy⟩
      have hmax' : ∀ x ∈ SPQ.pop lt q, lt t x = false :=
        fun x hx => top_max hirr htr ht x (hperm.symm.subset (List.mem_cons_of_mem _ hx))
      obtain ⟨ds, h1, h2, h3, h4, h5⟩ := ih t (SPQ.pop lt q) (n + 1) hlen' hmax' hex'
      have hstep : BFSTree.skipDominated lt dom (k + 1) cur q n
          = BFSTree.skipDominated lt dom k t (SPQ.pop lt q) (n + 1) := by
        simp only [BFSTree.skipDominated, hc', if_true, ht]
      rw [hstep]
      refine ⟨cur :: ds, ?_, ?_, h3, h4, ?_⟩
      · exact (List.Perm.cons cur hperm).trans (List.Perm.cons cur h1)
      · rw [h2, List.length_cons]; omega
      · intro d hd
        rcases List.mem_cons.mp hd with rfl | hd
        · refine ⟨hc', hmax _ ?_⟩
          exact hperm.symm.subset (h1.symm.subset (by simp))
        · exact h5 d hd

/-- C20: the BFS frontier pops the maximum.  When the comparator is irreflexive
and transitive (as every strict weak order is) and a state of the frontier is
not dominated, `getNextState` returns a state of the frontier that is not
dominated and that no state of the frontier that is not dominated is above;
the states it discarded (and counted) are dominated and not below the state
it returned, and the other states stay in the frontier. -/
theorem bfs_pops_maximum (lt : Ptr → Ptr → Bool) (dom : Ptr → Bool) (q : SPQ)
    (hirr : ∀ a, lt a a = false)
    (htr : ∀ a b c, lt a b = true → lt b c = true → lt a c = true)
    (h : ∃ y ∈ q, dom y = false) :
    ∃ r discarded, BFSTree.getNextState lt dom q = some r ∧
      q.Perm (discarded ++ r.next :: r.rest) ∧ r.pruned = discarded.length ∧
      dom r.next = false ∧
      (∀ s ∈ q, dom s = false → lt r.next s = false) ∧
      (∀ d ∈ discarded, dom d = true ∧ lt d r.next = false) := by
  have hq : q ≠ [] := by
    rintro rfl
    obtain ⟨y, hy, -⟩ := h
    cases hy
  obtain ⟨t, ht⟩ := @top_isSome lt _ hq
  have hperm := pop_perm ht
  have hlen : (SPQ.pop lt q).length < q.length := by
    have := hperm.length_eq
    simp only [List.length_cons] at this
    omega
  obtain ⟨ds, h1, h2, h3, h4, h5⟩ := bfs_skipDominated_spec lt dom hirr htr q.length t
    (SPQ.pop lt q) 0 hlen
    (fun x hx => top_max hirr htr ht x (hperm.symm.subset (List.mem_cons_of_mem _ hx)))
    (by obtain ⟨y, hy, hdy⟩ := h; exact ⟨y, hperm.subset hy, hdy⟩)
  refine ⟨_, ds, by simp only [BFSTree.getNextState, ht], hperm.trans h1, by rw [h2]; simp,
    h3, ?_, h5⟩
  intro s hs hds
  rcases List.mem_append.mp ((hperm.trans h1).subset hs) with hd | hd
  · rw [(h5 s hd).1] at hds; cases hds
  · rcases List.mem_cons.mp hd with rfl | hd
    · exact hirr _
    · exact h4 s hd

theorem bfs_pops_maximum_witness :
    (∀ a, (fun x y : Ptr => decide (x < y)) a a = false) ∧
    (∃ y ∈ [1, 3, 2], (fun p => decide (p = 3)) y = false) ∧
    ∃ r discarded, BFSTree.getNextState (fun x y => decide (x < y)) (fun p => decide (p = 3))
        [1, 3, 2] = some r ∧
      [1, 3, 2].Perm (discarded ++ r.next :: r.rest) ∧ r.pruned = discarded.length ∧
      (fun p => decide (p = 3)) r.next = false ∧
      (∀ s ∈ [1, 3, 2], (fun p => decide (p = 3)) s = false →
        (fun x y : Ptr => decide (x < y)) r.next s = false) ∧
      (∀ d ∈ discarded, (fun p => decide (p = 3)) d = true ∧
        (fun x y : Ptr => decide (x < y)) d r.next = false) :=
  have h1 : ∀ a, (fun x y : Ptr => decide (x < y)) a a = false := fun a => by simp
  have h2 : ∃ y ∈ [1, 3, 2], (fun p => decide (p = 3)) y = false := ⟨1, by decide, by decide⟩
  ⟨h1, h2, bfs_pops_maximum (fun x y => decide (x < y)) (fun p => decide (p = 3)) [1, 3, 2] h1
    (fun a b c hab hbc => by
      simp only [decide_eq_true_eq] at hab hbc ⊢
      exact lt_trans hab hbc) h2⟩

/-! ## Deferral -/

theorem essence_explored {σ : Type} {a b : BTree σ} (h : a.essence = b.essence) :
    a.tStats.statesExplored = b.tStats.statesExplored ∧
    a.tStats.numExploredAtLevel = b.tStats.numExploredAtLevel := by
  simp only [BTree.essence, TreeStats.levels, Prod.mk.injEq] at h
  exact ⟨h.2.2.2.2.1, h.2.2.2.2.2.2.2.1⟩

/-- C11: a state with `timeToExplore = k` that `getNextState` hands to
`exploreNextState` while `statesExplored < k` is not branched on and not
counted as explored: what `exploreNextState` does is what
`saveStateForExploration` does with the state on the engine the pop left, the
counter and the histogram of explored states stay, and the user's `branch`
plays no part in the outcome. -/
theorem deferred_state_is_requeued {σ : Type} (P : Problem σ) (bt : BTree σ) (p : Ptr)
    (ns : State σ) (k : Int)
    (hpop : (bt.getNextState P).2 = .ok p) (hns : (bt.getNextState P).1.heap[p]? = some ns)
    (hk : ns.timeToExplore = k) (hlt : bt.tStats.statesExplored < k) :
    bt.exploreNextState P = (bt.getNextState P).1.saveStateForExploration P p ∧
    (bt.exploreNextState P).1.tStats.statesExplored = bt.tStats.statesExplored ∧
    (bt.exploreNextState P).1.tStats.numExploredAtLevel = bt.tStats.numExploredAtLevel ∧
    (∀ br, bt.exploreNextState { P with branch := br } = bt.exploreNextState P) := by
  have h1 := essence_explored (getNextState_essence P bt)
  have hgt : ns.timeToExplore > (bt.getNextState P).1.tStats.statesExplored := by
    rw [h1.1, hk]; exact hlt
  have hE : ∀ Q : Problem σ, bt.getNextState Q = bt.getNextState P →
      (∀ (b : BTree σ) (q : Ptr),
        b.saveStateForExploration Q q = b.saveStateForExploration P q) →
      bt.exploreNextState Q = (bt.getNextState P).1.saveStateForExploration P p := by
    intro Q hQ hS
    unfold BTree.exploreNextState
    rw [hQ, andThen_of_ok _ hpop]
    simp only [hns]
    unfold BTree.exploreState
    rw [if_pos hgt, hS]
  have h0 := hE P rfl (fun _ _ => rfl)
  have h2 := essence_explored
    (saveStateForExploration_essence P (bt.getNextState P).1 p)
  refine ⟨h0, ?_, ?_, ?_⟩
  · rw [h0, h2.1, h1.1]
  · rw [h0, h2.2, h1.2]
  · intro br
    rw [h0]
    exact hE _ rfl (fun _ _ => rfl)

theorem deferred_state_is_requeued_witness :
    ((rootedEngine deferredRoot).getNextState sampleProblem).2 = .ok 0 ∧
    (rootedEngine deferredRoot).tStats.statesExplored < 3 ∧
    (rootedEngine deferredRoot).exploreNextState sampleProblem
      = ((rootedEngine deferredRoot).getNextState sampleProblem).1.saveStateForExploration
          sampleProblem 0 ∧
    ((rootedEngine deferredRoot).exploreNextState sampleProblem).1.tStats.statesExplored = 0 :=
  have h1 : ((rootedEngine deferredRoot).getNextState sampleProblem).2 = .ok 0 := by decide!
  have h2 : (rootedEngine deferredRoot).tStats.statesExplored < 3 := by decide!
  have t := deferred_state_is_requeued sampleProblem (rootedEngine deferredRoot) 0
    { deferredRoot with id := 0 } 3 h1 (by decide!) rfl h2
  ⟨h1, h2, t.1, t.2.1.trans (by decide!)⟩

/-! ## The abort signal -/

theorem endIteration_not_abort {σ : Type} (clk : Clock) (i : Nat) (u : Bool) (bt : BTree σ)
    (fin : Bool) : (BTree.endIteration clk i u bt fin).2 ≠ .error .abort := by
  unfold BTree.endIteration
  split_ifs <;> intro h <;> cases h

theorem iteration_not_abort {σ : Type} (P : Problem σ) (clk : Clock) (i : Nat) (bt : BTree σ)
    (fin : Bool) : (bt.iteration P clk i fin).2 ≠ .error .abort := by
  unfold BTree.iteration
  split
  · exact endIteration_not_abort _ _ _ _ _
  · rename_i e hne he
    intro h
    simp only [Except.error.injEq] at h
    exact hne (by rw [← h])
  · exact endIteration_not_abort _ _ _ _ _

/-- The progress test of the loop of `explore` is defined when no progress is
printed (`debug <= 0`) or `outputRate` is not 0. -/
theorem progressTest_defined_iff {σ : Type} (bt : BTree σ) :
    bt.progressTestUndefined = false ↔ (bt.debug ≤ 0 ∨ bt.outputRate ≠ 0) := by
  unfold BTree.progressTestUndefined
  rw [decide_eq_false_iff_not, not_and_or, not_lt]

theorem exploreLoop_not_abort {σ : Type} (P : Problem σ) (clk : Clock) :
    ∀ (fuel i : Nat) (bt : BTree σ) (fin : Bool),
      (BTree.exploreLoop P clk fuel i bt fin).2 ≠ .error .abort := by
  intro fuel
  induction fuel with
  | zero =>
    intro i bt fin
    unfold BTree.exploreLoop
    split_ifs <;> intro h <;> cases h
  | succ fuel ih =>
    intro i bt fin
    unfold BTree.exploreLoop
    split_ifs
    · split
      · rename_i e he
        intro h
        simp only [Except.error.injEq] at h
        exact iteration_not_abort P clk i bt fin (by rw [he, h])
      · exact ih _ _ _
    · intro h; cases h

/-- The loop of `explore` does not start an iteration when `keepExploring` is
false. -/
theorem exploreLoop_stopped {σ : Type} (P : Problem σ) (clk : Clock) (fuel i : Nat)
    (bt : BTree σ) (fin : Bool) (h : bt.keepExploring = false) :
    BTree.exploreLoop P clk fuel i bt fin = (bt, .ok fin) := by
  cases fuel <;> simp [BTree.exploreLoop, h]

/-- The abort signal on an engine whose progress test is defined (`debug <= 0`
or `outputRate` other than 0): when the user's `branch` raises the signal in an
iteration of the loop of `explore()` (the iteration that starts with the
engine `bt`), the loop ends with that iteration and `explore()` returns
normally with `finished` cleared: `keepExploring` is false, and the frontier,
the global bounds, the incumbent, the stored states, the dominance index and
every statistic but the two times are exactly as they were when the signal was
raised.  No run of `explore()` hands the abort signal to its caller. -/
theorem abort_stops_explore {σ : Type} (P : Problem σ) (clk : Clock) (fuel i : Nat)
    (bt : BTree σ) (fin : Bool)
    (hcond : bt.isEmpty = false ∧ bt.keepExploring = true)
    (hrate : bt.debug ≤ 0 ∨ bt.outputRate ≠ 0)
    (habort : (bt.exploreNextState P).2 = .error .abort) :
    (BTree.exploreLoop P clk (fuel + 1) i bt fin).2 = .ok false ∧
    (BTree.exploreLoop P clk (fuel + 1) i bt fin).1.keepExploring = false ∧
    (BTree.exploreLoop P clk (fuel + 1) i bt fin).1.frontier
      = (bt.exploreNextState P).1.frontier ∧
    (BTree.exploreLoop P clk (fuel + 1) i bt fin).1.globalLowerBound
      = (bt.exploreNextState P).1.globalLowerBound ∧
    (BTree.exploreLoop P clk (fuel + 1) i bt fin).1.globalUpperBound
      = (bt.exploreNextState P).1.globalUpperBound ∧
    (BTree.exploreLoop P clk (fuel + 1) i bt fin).1.bestState
      = (bt.exploreNextState P).1.bestState ∧
    (BTree.exploreLoop P clk (fuel + 1) i bt fin).1.heap = (bt.exploreNextState P).1.heap ∧
    (BTree.exploreLoop P clk (fuel + 1) i bt fin).1.domClasses
      = (bt.exploreNextState P).1.domClasses ∧
    ({ (BTree.exploreLoop P clk (fuel + 1) i bt fin).1.tStats with
        totalTime := (bt.exploreNextState P).1.tStats.totalTime,
        timeToOpt := (bt.exploreNextState P).1.tStats.timeToOpt } : TreeStats)
      = (bt.exploreNextState P).1.tStats ∧
    (∀ (n : Nat) (b : BTree σ), (b.explore P clk n).2 ≠ .error .abort) := by
  have hit : bt.iteration P clk i fin
      = (BTree.afterIteration clk i
          (decide ((bt.exploreNextState P).1.tStats.timesBestStateWasUpdated
            ≠ bt.tStats.timesBestStateWasUpdated))
          (bt.exploreNextState P).1.stopExploring, .ok false) := by
    unfold BTree.iteration
    rw [habort]
    exact endIteration_defined clk i _ _ false
      ((exploreNextState_progressTest P bt).trans ((progressTest_defined_iff bt).mpr hrate))
  have hloop : BTree.exploreLoop P clk (fuel + 1) i bt fin
      = (BTree.afterIteration clk i
          (decide ((bt.exploreNextState P).1.tStats.timesBestStateWasUpdated
            ≠ bt.tStats.timesBestStateWasUpdated))
          (bt.exploreNextState P).1.stopExploring, .ok false) := by
    unfold BTree.exploreLoop
    simp only [hcond.1, hcond.2, Bool.not_false, Bool.and_self, if_true, hit]
    exact exploreLoop_stopped P clk fuel (i + 1) _ false rfl
  rw [hloop]
  exact ⟨rfl, rfl, rfl, rfl, rfl, rfl, rfl, rfl, rfl,
    fun n b => exploreLoop_not_abort P clk n 0 _ true⟩

theorem abort_stops_explore_witness :
    (((rootedEngine sampleRoot).startClock Clock.zero).isEmpty = false ∧
      ((rootedEngine sampleRoot).startClock Clock.zero).keepExploring = true) ∧
    (((rootedEngine sampleRoot).startClock Clock.zero).exploreNextState abortProblem).2
      = .error .abort ∧
    ((rootedEngine sampleRoot).explore abortProblem Clock.zero 1).2 = .ok false ∧
    ((rootedEngine sampleRoot).explore abortProblem Clock.zero 1).1.keepExploring = false :=
  have h1 : ((rootedEngine sampleRoot).startClock Clock.zero).isEmpty = false ∧
      ((rootedEngine sampleRoot).startClock Clock.zero).keepExploring = true := by decide!
  have h2 : (((rootedEngine sampleRoot).startClock Clock.zero).exploreNextState abortProblem).2
      = .error .abort := by decide!
  have t := abort_stops_explore abortProblem Clock.zero 0 0
    ((rootedEngine sampleRoot).startClock Clock.zero) true h1 (Or.inr (by decide!)) h2
  ⟨h1, h2, t.1, t.2.1⟩

/-! ## What the calls of `branch` leave alone -/

section Limits

variable {σ : Type}

/-- A step keeps the limits of the engine, whatever its outcome. -/
theorem keepsLimits_andThen {α β : Type} {c : Bool × Int × Options}
    {r : BTree σ × Except Exn α} {k : BTree σ → α → BTree σ × Except Exn β}
    (h1 : r.1.limits = c) (h2 : ∀ bt a, bt.limits = c → (k bt a).1.limits = c) :
    (andThen r k).1.limits = c := by
  unfold andThen
  split
  · exact h1
  · exact h2 _ _ h1

theorem saveBestState_limits (bt : BTree σ) (s : State σ) (t : Bool) :
    (bt.saveBestState s t).1.limits = bt.limits := by
  unfold BTree.saveBestState
  dsimp only
  split_ifs <;> rfl

theorem processTerminalState_limits (bt : BTree σ) (s : State σ) (t : Bool) :
    (bt.processTerminalState s t).1.limits = bt.limits := by
  unfold BTree.processTerminalState
  rw [saveBestState_limits]
  unfold BTree.countCandidate
  split_ifs <;> rfl

theorem identify_limits (bt : BTree σ) (s : State σ) : (bt.identify s).1.limits = bt.limits := by
  unfold BTree.identify BTree.assignID
  split_ifs <;> rfl

theorem getNextState_limits (P : Problem σ) (bt : BTree σ) :
    (bt.getNextState P).1.limits = bt.limits := by
  rcases getNextState_cases P bt with h | ⟨f, n, h⟩ <;> rw [h]
  rfl

theorem saveStateForExploration_limits (P : Problem σ) (bt : BTree σ) (p : Ptr) :
    (bt.saveStateForExploration P p).1.limits = bt.limits := by
  rcases saveStateForExploration_cases P bt p with h | ⟨f, h⟩ <;> rw [h]
  rfl

theorem applyDominanceRules_limits (P : Problem σ) (bt : BTree σ) (s : State σ) :
    (bt.applyDominanceRules P s).1.limits = bt.limits := by
  unfold BTree.applyDominanceRules; split <;> rfl

theorem store_limits (P : Problem σ) (bt : BTree σ) (s : State σ) :
    (bt.store P s).1.limits = bt.limits := by
  have h : (bt.allocate s).limits = bt.limits := by
    unfold BTree.allocate; split_ifs <;> rfl
  unfold BTree.store
  split_ifs
  · exact h
  · apply keepsLimits_andThen
    · rw [saveStateForExploration_limits]; exact h
    · intro b _ hb; exact hb

theorem updateRootBound_limits (bt : BTree σ) (s : State σ) :
    (bt.updateRootBound s).limits = bt.limits := by
  unfold BTree.updateRootBound; split_ifs <;> rfl

theorem boundAndStore_limits (P : Problem σ) (bt : BTree σ) (s : State σ) (isRoot : Bool) :
    (bt.boundAndStore P s isRoot).1.limits = bt.limits := by
  unfold BTree.boundAndStore
  dsimp only
  generalize (if bt.stateComputesBounds = true then s else P.computeBounds s bt.view) = s1
  split_ifs
  · rfl
  · exact updateRootBound_limits _ _
  · rw [store_limits]; exact updateRootBound_limits _ _
  · exact store_limits _ _ _

theorem dominanceAndStore_limits (P : Problem σ) (bt : BTree σ) (s : State σ) (isRoot : Bool) :
    (bt.dominanceAndStore P s isRoot).1.limits = bt.limits := by
  unfold BTree.dominanceAndStore
  split_ifs
  · exact applyDominanceRules_limits P bt s
  · rw [boundAndStore_limits]; exact applyDominanceRules_limits P bt s
  · exact boundAndStore_limits _ _ _ _

theorem processState_limits (P : Problem σ) (bt : BTree σ) (s : State σ) (isRoot : Bool) :
    (bt.processState P s isRoot).1.limits = bt.limits := by
  unfold BTree.processState
  apply keepsLimits_andThen (identify_limits bt s)
  intro b1 s1 h1
  split_ifs
  · apply keepsLimits_andThen
    · rw [processTerminalState_limits]; exact h1
    · intro b _ hb; exact hb
  · apply keepsLimits_andThen
    · rw [saveBestState_limits]; exact h1
    · intro b _ hb; rw [dominanceAndStore_limits]; exact hb
  · apply keepsLimits_andThen
    · exact h1
    · intro b _ hb; rw [dominanceAndStore_limits]; exact hb

theorem runAction_limits (P : Problem σ) (bt : BTree σ) (a : Action σ) :
    (bt.runAction P a).1.limits = bt.limits := by
  cases a with
  | abort => rfl
  | processState s r =>
    unfold BTree.runAction
    apply keepsLimits_andThen (processState_limits P bt s r)
    intro b _ hb; exact hb
  | processHeuristicState s => exact processTerminalState_limits bt s false

theorem runActions_limits (P : Problem σ) (acts : List (Action σ)) :
    ∀ bt : BTree σ, (BTree.runActions P bt acts).1.limits = bt.limits := by
  induction acts with
  | nil => intro bt; rfl
  | cons a rest ih =>
    intro bt
    unfold BTree.runActions
    split
    · exact runAction_limits P bt a
    · rw [ih]; exact runAction_limits P bt a

theorem stateIsPrunable_limits (bt : BTree σ) (s : State σ) :
    (bt.stateIsPrunable s).1.limits = bt.limits := by
  unfold BTree.stateIsPrunable; split_ifs <;> rfl

theorem labelExplored_limits (bt : BTree σ) : bt.labelExplored.limits = bt.limits := by
  unfold BTree.labelExplored; split_ifs <;> rfl

/-- The end of `exploreNextState` counts at most one state as explored and
leaves `keepExploring` and the options alone. -/
theorem branchOn_limits (P : Problem σ) (bt : BTree σ) (ns : State σ) :
    (bt.branchOn P ns).1.limits = bt.limits ∨
    (bt.branchOn P ns).1.limits
      = (bt.keepExploring, bt.tStats.statesExplored + 1, bt.options) := by
  unfold BTree.branchOn
  split_ifs
  · exact Or.inl rfl
  · right
    rw [runActions_limits]
    rfl

theorem finalTests_limits (P : Problem σ) (bt : BTree σ) (p : Ptr) (ns : State σ) :
    (bt.finalTests P p ns).1.limits = bt.limits ∨
    (bt.finalTests P p ns).1.limits
      = (bt.keepExploring, bt.tStats.statesExplored + 1, bt.options) := by
  unfold BTree.finalTests
  dsimp only
  have h : ((bt.writeState p (P.applyFinalPruningTests ns bt.view)).stateIsPrunable
      (P.applyFinalPruningTests ns bt.view)).1.limits = bt.limits := by
    rw [stateIsPrunable_limits]; rfl
  split_ifs
  · exact Or.inl h
  · have h2 := branchOn_limits P ((bt.writeState p (P.applyFinalPruningTests ns bt.view)).stateIsPrunable
      (P.applyFinalPruningTests ns bt.view)).1 (P.applyFinalPruningTests ns bt.view)
    rw [h] at h2
    have h3 := congrArg (fun x => x.1) h
    have h4 := congrArg (fun x => x.2.1) h
    have h5 := congrArg (fun x => x.2.2) h
    simp only [BTree.limits] at h3 h4 h5
    rw [h3, h4, h5] at h2
    exact h2

theorem exploreState_limits (P : Problem σ) (bt : BTree σ) (p : Ptr) (ns : State σ) :
    (bt.exploreState P p ns).1.limits = bt.limits ∨
    (bt.exploreState P p ns).1.limits
      = (bt.keepExploring, bt.tStats.statesExplored + 1, bt.options) := by
  have h : (bt.labelExplored.stateIsPrunable ns).1.limits = bt.limits := by
    rw [stateIsPrunable_limits, labelExplored_limits]
  have h3 := congrArg (fun x => x.1) h
  have h4 := congrArg (fun x => x.2.1) h
  have h5 := congrArg (fun x => x.2.2) h
  simp only [BTree.limits] at h3 h4 h5
  unfold BTree.exploreState
  split_ifs
  · exact Or.inl (saveStateForExploration_limits P bt p)
  · exact Or.inl h
  · have h2 := finalTests_limits P (bt.labelExplored.stateIsPrunable ns).1 p ns
    rw [h, h3, h4, h5] at h2
    exact h2
  · have h2 := branchOn_limits P (bt.labelExplored.stateIsPrunable ns).1 ns
    rw [h, h3, h4, h5] at h2
    exact h2

/-- A call of `exploreNextState` counts at most one state as explored and
leaves `keepExploring` and the options alone, whatever its outcome. -/
theorem exploreNextState_limits (P : Problem σ) (bt : BTree σ) :
    (bt.exploreNextState P).1.limits = bt.limits ∨
    (bt.exploreNextState P).1.limits
      = (bt.keepExploring, bt.tStats.statesExplored + 1, bt.options) := by
  have h := getNextState_limits P bt
  have h3 := congrArg (fun x => x.1) h
  have h4 := congrArg (fun x => x.2.1) h
  have h5 := congrArg (fun x => x.2.2) h
  simp only [BTree.limits] at h3 h4 h5
  unfold BTree.exploreNextState andThen
  split
  · exact Or.inl h
  · dsimp only
    split
    · exact Or.inl h
    · rename_i q _ _ ns _
      have h2 := exploreState_limits P (bt.getNextState P).1 q ns
      rw [h, h3, h4, h5] at h2
      exact h2

theorem limits_fields {a : BTree σ} {c : Bool × Int × Options} (h : a.limits = c) :
    a.keepExploring = c.1 ∧ a.tStats.statesExplored = c.2.1 ∧ a.options = c.2.2 :=
  ⟨congrArg (fun x => x.1) h, congrArg (fun x => x.2.1) h, congrArg (fun x => x.2.2) h⟩

/-- Before the first call of `explore` nothing is explored and `keepExploring`
is set. -/
theorem prepared_limits (P : Problem σ) {bt : BTree σ} (h : Prepared P bt) :
    bt.keepExploring = true ∧ bt.tStats.statesExplored = 0 := by
  induction h with
  | fresh t i f hf => exact ⟨rfl, rfl⟩
  | configure o _ ih => cases o <;> exact ih
  | setGlobalLB lb _ ih => exact ih
  | setGlobalUB ub _ ih => exact ih
  | @processState b s r _ ih =>
    have := limits_fields (processState_limits P b s r)
    exact ⟨this.1.trans ih.1, this.2.1.trans ih.2⟩
  | @processHeuristicState b s _ ih =>
    have := limits_fields (processTerminalState_limits b s false)
    exact ⟨this.1.trans ih.1, this.2.1.trans ih.2⟩

end Limits

/-! ## The node limit -/

section NodeLimit

variable {σ : Type}

/-- What an iteration of the loop of `explore` returns: the engine the
exception left, or the engine after the bookkeeping of the iteration. -/
theorem iteration_cases (P : Problem σ) (clk : Clock) (i : Nat) (bt : BTree σ) (fin : Bool) :
    (∃ x, bt.iteration P clk i fin = ((bt.exploreNextState P).1, .error x)) ∨
    (∃ u, bt.iteration P clk i fin
        = (BTree.afterIteration clk i u (bt.exploreNextState P).1.stopExploring, .ok false)) ∨
    (∃ u, bt.iteration P clk i fin
        = (BTree.afterIteration clk i u (bt.exploreNextState P).1, .ok fin)) ∨
    (∃ u k, bt.iteration P clk i fin
        = (({ (bt.exploreNextState P).1 with keepExploring := k }).addTime clk i u,
           .error .undefined)) := by
  unfold BTree.iteration
  split
  · cases hp : (bt.exploreNextState P).1.stopExploring.progressTestUndefined
    · rw [endIteration_defined _ _ _ _ _ hp]
      exact Or.inr (Or.inl ⟨_, rfl⟩)
    · rw [endIteration_undefined _ _ _ _ _ hp]
      exact Or.inr (Or.inr (Or.inr ⟨_, false, rfl⟩))
  · exact Or.inl ⟨_, rfl⟩
  · cases hp : (bt.exploreNextState P).1.progressTestUndefined
    · rw [endIteration_defined _ _ _ _ _ hp]
      exact Or.inr (Or.inr (Or.inl ⟨_, rfl⟩))
    · rw [endIteration_undefined _ _ _ _ _ hp]
      exact Or.inr (Or.inr (Or.inr ⟨_, (bt.exploreNextState P).1.keepExploring, rfl⟩))

theorem withinLimits_of_mayContinue (bt : BTree σ) (now : ℚ) (h : bt.mayContinue) :
    bt.withinLimits now = true := by
  obtain ⟨h1, h2, h3, h4⟩ := h
  simp only [BTree.withinLimits, decide_eq_true_eq]
  exact ⟨h1, Or.inl h2, h3, h4⟩

/-- The loop of `explore` under a node limit `n > 0`: the number of explored
states stays at most `n`, whatever the outcome, when it is below `n` at every
start of an iteration. -/
theorem exploreLoop_nodeLimit (P : Problem σ) (clk : Clock) (n : Int) (hn : 0 < n) :
    ∀ (fuel i : Nat) (bt : BTree σ) (fin : Bool), bt.nodeLimit = n →
      bt.tStats.statesExplored ≤ n → (bt.keepExploring = true → bt.tStats.statesExplored < n) →
      (BTree.exploreLoop P clk fuel i bt fin).1.tStats.statesExplored ≤ n := by
  intro fuel
  induction fuel with
  | zero =>
    intro i bt fin _ h2 _
    unfold BTree.exploreLoop
    split_ifs <;> exact h2
  | succ fuel ih =>
    intro i bt fin h1 h2 h3
    unfold BTree.exploreLoop
    split_ifs with hc
    · have hk : bt.keepExploring = true := by
        cases hk : bt.keepExploring
        · rw [hk] at hc; simp at hc
        · rfl
      have hlt := h3 hk
      have he : (bt.exploreNextState P).1.keepExploring = bt.keepExploring ∧
          (bt.exploreNextState P).1.nodeLimit = n ∧
          (bt.exploreNextState P).1.tStats.statesExplored ≤ n := by
        rcases exploreNextState_limits P bt with h | h
        · have := limits_fields h
          exact ⟨this.1, (congrArg Options.nodeLimit this.2.2).trans h1, by rw [this.2.1]; exact h2⟩
        · have := limits_fields h
          refine ⟨this.1, (congrArg Options.nodeLimit this.2.2).trans h1, ?_⟩
          rw [this.2.1]
          show bt.tStats.statesExplored + 1 ≤ n
          omega
      rcases iteration_cases P clk i bt fin with ⟨x, hx⟩ | ⟨u, hu⟩ | ⟨u, hu⟩ | ⟨u, k, hu⟩
      rotate_left 3
      · rw [hu]
        exact he.2.2
      · rw [hx]
        exact he.2.2
      · rw [hu]
        exact ih _ _ _ he.2.1 he.2.2 (fun h => by cases h)
      · rw [hu]
        refine ih _ _ _ he.2.1 he.2.2 ?_
        intro hk'
        have hw : ((bt.exploreNextState P).1.addTime clk i u).withinLimits (clk.check i)
            = true := by
          have : ((bt.exploreNextState P).1.keepExploring &&
              ((bt.exploreNextState P).1.addTime clk i u).withinLimits (clk.check i)) = true :=
            hk'
          simp only [Bool.and_eq_true] at this
          exact this.2
        simp only [BTree.withinLimits, decide_eq_true_eq] at hw
        have hnl : ((bt.exploreNextState P).1.addTime clk i u).nodeLimit = n := he.2.1
        rcases hw.1 with h0 | h0
        · rw [hnl] at h0; omega
        · rw [hnl] at h0; exact h0
    · exact h2

theorem exploreLoop_unfinished (P : Problem σ) (clk : Clock) :
    ∀ (fuel i : Nat) (bt : BTree σ), (BTree.exploreLoop P clk fuel i bt false).2 ≠ .ok true := by
  intro fuel
  induction fuel with
  | zero =>
    intro i bt
    unfold BTree.exploreLoop
    split_ifs <;> intro h <;> cases h
  | succ fuel ih =>
    intro i bt
    unfold BTree.exploreLoop
    split_ifs
    · rcases iteration_cases P clk i bt false with ⟨x, hx⟩ | ⟨u, hu⟩ | ⟨u, hu⟩ | ⟨u, k, hu⟩
      · rw [hx]; intro h; cases h
      · rw [hu]; exact ih _ _
      · rw [hu]; exact ih _ _
      · rw [hu]; intro h; cases h
    · intro h; cases h

/-- The loop of `explore`, when it returns with `finished` set: no state waits
or `keepExploring` is false, and `keepExploring` is false only when the limits
stand in the way; the options are as they were. -/
theorem exploreLoop_exit (P : Problem σ) (clk : Clock) :
    ∀ (fuel i : Nat) (bt : BTree σ) (fin : Bool),
      (bt.keepExploring = false → ¬ bt.mayContinue) →
      (BTree.exploreLoop P clk fuel i bt fin).2 = .ok true →
      ((BTree.exploreLoop P clk fuel i bt fin).1.isEmpty = true ∨
        (BTree.exploreLoop P clk fuel i bt fin).1.keepExploring = false) ∧
      ((BTree.exploreLoop P clk fuel i bt fin).1.keepExploring = false →
        ¬ (BTree.exploreLoop P clk fuel i bt fin).1.mayContinue) ∧
      (BTree.exploreLoop P clk fuel i bt fin).1.options = bt.options := by
  have hstop : ∀ (bt : BTree σ), (!bt.isEmpty && bt.keepExploring) ≠ true →
      (bt.isEmpty = true ∨ bt.keepExploring = false) := by
    intro bt h
    cases h1 : bt.isEmpty
    · cases h2 : bt.keepExploring
      · exact Or.inr rfl
      · rw [h1, h2] at h; simp at h
    · exact Or.inl rfl
  intro fuel
  induction fuel with
  | zero =>
    intro i bt fin hv hr
    unfold BTree.exploreLoop at hr ⊢
    split_ifs at hr ⊢ with hc
    exact ⟨hstop bt hc, hv, rfl⟩
  | succ fuel ih =>
    intro i bt fin hv hr
    unfold BTree.exploreLoop at hr ⊢
    split_ifs at hr ⊢ with hc
    · have hk : bt.keepExploring = true := by
        cases hk : bt.keepExploring
        · rw [hk] at hc; simp at hc
        · rfl
      have he : (bt.exploreNextState P).1.keepExploring = true ∧
          (bt.exploreNextState P).1.options = bt.options := by
        rcases exploreNextState_limits P bt with h | h
        · have := limits_fields h
          exact ⟨this.1.trans hk, this.2.2⟩
        · have := limits_fields h
          exact ⟨this.1.trans hk, this.2.2⟩
      rcases iteration_cases P clk i bt fin with ⟨x, hx⟩ | ⟨u, hu⟩ | ⟨u, hu⟩ | ⟨u, k, hu⟩
      rotate_left 3
      · rw [hu] at hr; cases hr
      · rw [hx] at hr; cases hr
      · rw [hu] at hr
        exact absurd hr (exploreLoop_unfinished P clk _ _ _)
      · rw [hu] at hr ⊢
        have := ih (i + 1) (BTree.afterIteration clk i u (bt.exploreNextState P).1) fin ?_ hr
        · exact ⟨this.1, this.2.1, this.2.2.trans he.2⟩
        · intro hk' hm
          have hw := withinLimits_of_mayContinue
            ((bt.exploreNextState P).1.addTime clk i u) (clk.check i) hm
          have : ((bt.exploreNextState P).1.keepExploring &&
              ((bt.exploreNextState P).1.addTime clk i u).withinLimits (clk.check i)) = false :=
            hk'
          rw [he.1, hw] at this
          cases this
    · exact ⟨hstop bt hc, hv, rfl⟩

/-- The node limit bounds the number of explored states: on an engine that was
freshly constructed and prepared (options, bounds, `processState`,
`processHeuristicState`) with `nodeLimit = n > 0`, `explore()` never has more
than `n` states explored, whatever its outcome and however long it runs; and
when it returns with `finished` set (no abort) while a state still waits, the
gap is open, the time limit is disabled and `stopAtFirstImprov` is off,
exactly `n` states are explored. -/
theorem nodeLimit_bound (P : Problem σ) (clk : Clock) (fuel : Nat) (bt : BTree σ)
    (n : Int) (hprep : Prepared P bt) (hn : 0 < n) (hlim : bt.nodeLimit = n) :
    (bt.explore P clk fuel).1.tStats.statesExplored ≤ n ∧
    ((bt.explore P clk fuel).2 = .ok true →
      (bt.explore P clk fuel).1.isEmpty = false →
      (bt.explore P clk fuel).1.globalLowerBound < (bt.explore P clk fuel).1.globalUpperBound →
      bt.timeLimit < eps → bt.stopAtFirstImprov = false →
      (bt.explore P clk fuel).1.tStats.statesExplored = n) := by
  obtain ⟨hk, he⟩ := prepared_limits P hprep
  have h1 : (bt.explore P clk fuel).1.tStats.statesExplored ≤ n :=
    exploreLoop_nodeLimit P clk n hn fuel 0 (bt.startClock clk) true hlim
      (by show bt.tStats.statesExplored ≤ n; omega)
      (fun _ => by show bt.tStats.statesExplored < n; omega)
  refine ⟨h1, ?_⟩
  intro hr hne hgap htime hstop
  obtain ⟨h2, h3, h4⟩ := exploreLoop_exit P clk fuel 0 (bt.startClock clk) true
    (fun h => by rw [show (bt.startClock clk).keepExploring = bt.keepExploring from rfl, hk] at h
                 cases h) hr
  have hkf : (bt.explore P clk fuel).1.keepExploring = false := by
    rcases h2 with h | h
    · rw [show (bt.explore P clk fuel).1.isEmpty
        = (BTree.exploreLoop P clk fuel 0 (bt.startClock clk) true).1.isEmpty from rfl, h] at hne
      cases hne
    · exact h
  have hnot := h3 hkf
  have hopt : (bt.explore P clk fuel).1.options = bt.options := h4
  have hnl : (bt.explore P clk fuel).1.nodeLimit = n := (congrArg Options.nodeLimit hopt).trans hlim
  have htl : (bt.explore P clk fuel).1.timeLimit < eps := by
    rw [show (bt.explore P clk fuel).1.timeLimit = bt.timeLimit from
      congrArg Options.timeLimit hopt]
    exact htime
  have hsf : (bt.explore P clk fuel).1.stopAtFirstImprov = false :=
    (congrArg Options.stopAtFirstImprov hopt).trans hstop
  by_contra hc
  apply hnot
  refine ⟨Or.inr ?_, htl, Or.inl hsf, hgap⟩
  show (bt.explore P clk fuel).1.tStats.statesExplored < (bt.explore P clk fuel).1.nodeLimit
  rw [hnl]
  exact lt_of_le_of_ne h1 hc

end NodeLimit

/-! ## Stopping at the first improvement -/

/-- C16 as stated fails: on an engine with `stopAtFirstImprov` set whose
incumbent was updated before `explore()` is called (a heuristic state of
value 6), `explore()` still starts an iteration, pops the root and explores
it, although `timesBestStateWasUpdated` is 1 and not 0: the counter is tested
at the end of an iteration only. -/
theorem explore_starts_after_earlier_update :
    seededEngine.stopAtFirstImprov = true ∧
    seededEngine.tStats.timesBestStateWasUpdated = 1 ∧
    seededEngine.tStats.statesExplored = 0 ∧
    (seededEngine.explore sampleProblem Clock.zero 5).2 = .ok true ∧
    (seededEngine.explore sampleProblem Clock.zero 5).1.tStats.statesExplored = 1 := by
  refine ⟨by decide!, by decide!, by decide!, by decide!, by decide!⟩

/-- C16 (amended): with `stopAtFirstImprov` set, the loop of `explore()` goes
on after an iteration that returned only while `timesBestStateWasUpdated` is 0
(the counter is tested at the end of every iteration, not before the first
one), and it returns right after an iteration that leaves the counter
different from 0. -/
theorem stop_at_first_improvement {σ : Type} (P : Problem σ) (clk : Clock) (fuel i : Nat)
    (bt : BTree σ) (fin f : Bool) (hstop : bt.stopAtFirstImprov = true)
    (hcond : bt.isEmpty = false ∧ bt.keepExploring = true)
    (hret : (bt.iteration P clk i fin).2 = .ok f) :
    ((bt.iteration P clk i fin).1.keepExploring = true →
      (bt.iteration P clk i fin).1.tStats.timesBestStateWasUpdated = 0) ∧
    ((bt.iteration P clk i fin).1.tStats.timesBestStateWasUpdated ≠ 0 →
      BTree.exploreLoop P clk (fuel + 1) i bt fin = ((bt.iteration P clk i fin).1, .ok f)) := by
  have he : (bt.exploreNextState P).1.stopAtFirstImprov = true := by
    rcases exploreNextState_limits P bt with h | h
    · exact (congrArg Options.stopAtFirstImprov (limits_fields h).2.2).trans hstop
    · exact (congrArg Options.stopAtFirstImprov (limits_fields h).2.2).trans hstop
  have hA : (bt.iteration P clk i fin).1.keepExploring = true →
      (bt.iteration P clk i fin).1.tStats.timesBestStateWasUpdated = 0 := by
    rcases iteration_cases P clk i bt fin with ⟨x, hx⟩ | ⟨u, hu⟩ | ⟨u, hu⟩ | ⟨u, k, hu⟩
    rotate_left 3
    · rw [hu] at hret; cases hret
    · rw [hx] at hret; cases hret
    · rw [hu]; intro h; cases h
    · rw [hu]
      intro hk
      have hw : ((bt.exploreNextState P).1.addTime clk i u).withinLimits (clk.check i)
          = true := by
        have : ((bt.exploreNextState P).1.keepExploring &&
            ((bt.exploreNextState P).1.addTime clk i u).withinLimits (clk.check i)) = true := hk
        simp only [Bool.and_eq_true] at this
        exact this.2
      simp only [BTree.withinLimits, decide_eq_true_eq] at hw
      rcases hw.2.2.1 with h | h
      · have h' : (bt.exploreNextState P).1.stopAtFirstImprov = false := h
        rw [he] at h'; cases h'
      · exact h
  refine ⟨hA, ?_⟩
  intro hne
  have hk : (bt.iteration P clk i fin).1.keepExploring = false := by
    cases h : (bt.iteration P clk i fin).1.keepExploring
    · rfl
    · exact absurd (hA h) hne
  unfold BTree.exploreLoop
  simp only [hcond.1, hcond.2, Bool.not_false, Bool.and_self, if_true, hret]
  exact exploreLoop_stopped P clk fuel (i + 1) _ f hk

theorem stop_at_first_improvement_witness :
    (stoppingEngine.startClock Clock.zero).stopAtFirstImprov = true ∧
    ((stoppingEngine.startClock Clock.zero).iteration sampleProblem Clock.zero 0 true).2
      = .ok true ∧
    (stoppingEngine.explore sampleProblem Clock.zero 5).1.tStats.statesExplored = 1 ∧
    (stoppingEngine.explore sampleProblem Clock.zero 5).1.isEmpty = false :=
  have h1 : (stoppingEngine.startClock Clock.zero).stopAtFirstImprov = true := by decide!
  have h2 : ((stoppingEngine.startClock Clock.zero).iteration sampleProblem Clock.zero 0
      true).2 = .ok true := by decide!
  have t := (stop_at_first_improvement sampleProblem Clock.zero 4 0
    (stoppingEngine.startClock Clock.zero) true true h1 (by decide!) h2).2 (by decide!)
  ⟨h1, h2, (congrArg (fun r => r.1.tStats.statesExplored) t).trans (by decide!),
    (congrArg (fun r => r.1.isEmpty) t).trans (by decide!)⟩

/-! ## The root -/

section Root

variable {σ : Type}

theorem uptoDominance_frame (bt : BTree σ) (s : State σ) :
    (bt.uptoDominance s).1.storage = bt.storage ∧
    (bt.uptoDominance s).1.options = bt.options := by
  have h1 : ((bt.assignID s).countIdentified s.depth.toNat).storage = bt.storage := by
    unfold BTree.assignID; split_ifs <;> rfl
  have h2 : ((bt.assignID s).countIdentified s.depth.toNat).options = bt.options := by
    unfold BTree.assignID; split_ifs <;> rfl
  unfold BTree.uptoDominance
  split_ifs
  · exact ⟨(saveBestState_storage _ _ _).trans h1, (saveBestState_options _ _ _).trans h2⟩
  · exact ⟨h1, h2⟩

theorem uptoDominance_incumbent (bt : BTree σ) (s : State σ) (h : bt.saveNonTerm = false) :
    (bt.uptoDominance s).1.incumbent = bt.incumbent := by
  have h2 : ((bt.assignID s).countIdentified s.depth.toNat).saveNonTerm = false := by
    rw [← h]; unfold BTree.assignID; split_ifs <;> rfl
  unfold BTree.uptoDominance
  rw [h2]
  simp only [Bool.false_eq_true, if_false]
  unfold BTree.assignID; split_ifs <;> rfl

theorem applyDominanceRules_frame (P : Problem σ) (bt : BTree σ) (s : State σ) :
    (bt.applyDominanceRules P s).1.options = bt.options ∧
    (bt.applyDominanceRules P s).1.incumbent = bt.incumbent := by
  unfold BTree.applyDominanceRules
  split <;> exact ⟨rfl, rfl⟩

theorem uptoBounds_frame (P : Problem σ) (bt : BTree σ) (s : State σ) :
    (bt.uptoBounds P s).1.storage = bt.storage ∧
    (bt.uptoBounds P s).1.options = bt.options ∧
    (bt.uptoBounds P s).1.incumbent = (bt.uptoDominance s).1.incumbent := by
  have h := uptoDominance_frame bt s
  unfold BTree.uptoBounds
  dsimp only
  split_ifs
  · exact ⟨(applyDominanceRules_storage P _ _).trans h.1,
      (applyDominanceRules_frame P _ _).1.trans h.2, (applyDominanceRules_frame P _ _).2⟩
  · exact ⟨h.1, h.2, rfl⟩

/-- What `processState` does with a state that is not terminal and survives
the dominance test, from the bounds test on. -/
theorem processState_at_bounds (P : Problem σ) (bt : BTree σ) (s : State σ) (isRoot : Bool)
    (hd : 0 ≤ s.depth) (hterm : P.isTerminalState { s with id := bt.nextNodeID } = false)
    (hsave : (bt.uptoDominance s).2 = .ok ())
    (hdom : bt.useDom = true →
      ((bt.uptoDominance s).1.applyDominanceRules P { s with id := bt.nextNodeID }).2.dominated
        = false) :
    bt.processState P s isRoot =
      if (bt.uptoBounds P s).1.stateExceedsBounds (bt.uptoBounds P s).2 then
        ((bt.uptoBounds P s).1.countPrunedByBoundsBeforeInsertion, .ok false)
      else if isRoot then
        if ((bt.uptoBounds P s).1.updateRootBound (bt.uptoBounds P s).2).gapClosed then
          ((bt.uptoBounds P s).1.updateRootBound (bt.uptoBounds P s).2, .ok false)
        else ((bt.uptoBounds P s).1.updateRootBound (bt.uptoBounds P s).2).store P
          (bt.uptoBounds P s).2
      else (bt.uptoBounds P s).1.store P (bt.uptoBounds P s).2 := by
  have hud : (bt.uptoDominance s).1.useDom = bt.useDom :=
    congrArg Options.useDom (uptoDominance_frame bt s).2
  have h1 : bt.processState P s isRoot
      = (bt.uptoDominance s).1.dominanceAndStore P { s with id := bt.nextNodeID } isRoot := by
    unfold BTree.processState
    rw [identify_ok bt s hd, andThen_ok]
    simp only [hterm, Bool.false_eq_true, if_false]
    exact andThen_of_ok _ hsave
  rw [h1]
  unfold BTree.dominanceAndStore BTree.uptoBounds BTree.boundAndStore
  by_cases hu : bt.useDom = true
  · have hnd := hdom hu
    simp only [hud, hu, if_true, BTree.stateIsDominated, hnd, Bool.false_eq_true, if_false]
  · have hu' : bt.useDom = false := by simpa using hu
    simp only [hud, hu', Bool.false_eq_true, if_false]

theorem store_frame (P : Problem σ) (bt : BTree σ) (s : State σ) :
    (bt.store P s).1.incumbent = bt.incumbent ∧ (bt.store P s).1.options = bt.options := by
  have h : (bt.allocate s).incumbent = bt.incumbent ∧ (bt.allocate s).options = bt.options := by
    unfold BTree.allocate; split_ifs <;> exact ⟨rfl, rfl⟩
  unfold BTree.store
  split_ifs
  · exact h
  · unfold andThen
    rcases saveStateForExploration_cases P ((bt.allocate s).countStored s.depth.toNat)
      bt.heap.length with h1 | ⟨f, h1⟩
    · split <;> (rw [h1]; exact h)
    · split <;> (rw [h1]; exact h)

/-- How `store` ends for a state whose depth is not negative: the state has the
next cell of the heap, is counted as stored and is handed to the frontier;
true is returned when the frontier took it. -/
theorem store_effect (P : Problem σ) (bt : BTree σ) (s : State σ) (hd : 0 ≤ s.depth) :
    (bt.store P s).2 ≠ .ok false ∧
    (bt.store P s).1.heap = bt.heap ++ [s] ∧
    (bt.store P s).1.tStats.statesStoredInTree = bt.tStats.statesStoredInTree + 1 ∧
    ∃ b0 : BTree σ, b0.frontier = bt.frontier ∧ b0.heap = bt.heap ++ [s] ∧
      bt.store P s = andThen (b0.saveStateForExploration P bt.heap.length)
        (fun b _ => (b, .ok true)) := by
  have hh : ((bt.allocate s).countStored s.depth.toNat).heap = bt.heap ++ [s] := by
    unfold BTree.allocate; split_ifs <;> rfl
  have hf : ((bt.allocate s).countStored s.depth.toNat).frontier = bt.frontier := by
    unfold BTree.allocate; split_ifs <;> rfl
  have hc : ((bt.allocate s).countStored s.depth.toNat).tStats.statesStoredInTree
      = bt.tStats.statesStoredInTree + 1 := by
    unfold BTree.allocate; split_ifs <;> rfl
  have hst : bt.store P s
      = andThen (((bt.allocate s).countStored s.depth.toNat).saveStateForExploration P
          bt.heap.length) (fun b _ => (b, .ok true)) := by
    unfold BTree.store
    rw [if_neg (not_lt.mpr hd)]
  refine ⟨?_, ?_, ?_, _, hf, hh, hst⟩
  · rw [hst]; unfold andThen; split <;> intro h <;> cases h
  · rw [hst]; unfold andThen
    rcases saveStateForExploration_cases P ((bt.allocate s).countStored s.depth.toNat)
      bt.heap.length with h1 | ⟨f, h1⟩
    · split <;> (rw [h1]; exact hh)
    · split <;> (rw [h1]; exact hh)
  · rw [hst]; unfold andThen
    rcases saveStateForExploration_cases P ((bt.allocate s).countStored s.depth.toNat)
      bt.heap.length with h1 | ⟨f, h1⟩
    · split <;> (rw [h1]; exact hc)
    · split <;> (rw [h1]; exact hc)

/-- The global bounds after `saveBestState`: the best-seen bound moves to the
objective value of the state exactly when that value improves on it by more
than `eps`. -/
theorem saveBestState_bounds (bt : BTree σ) (s : State σ) (t : Bool) :
    (bt.saveBestState s t).1.globalUpperBound
      = (if bt.problemType = MIN ∧ s.objValue < bt.globalUpperBound - eps
         then s.objValue else bt.globalUpperBound) ∧
    (bt.saveBestState s t).1.globalLowerBound
      = (if bt.problemType = MAX ∧ s.objValue > bt.globalLowerBound + eps
         then s.objValue else bt.globalLowerBound) := by
  have he := eps_pos
  have hmm := MIN_ne_MAX
  unfold BTree.saveBestState
  dsimp only
  by_cases h1 : (bt.problemType = MIN ∧ |s.objValue - bt.globalUpperBound| ≤ eps) ∨
      (bt.problemType = MAX ∧ |s.objValue - bt.globalLowerBound| ≤ eps)
  · rw [if_pos h1]
    have hU : ¬ (bt.problemType = MIN ∧ s.objValue < bt.globalUpperBound - eps) := by
      rintro ⟨ht, hlt⟩
      rcases h1 with ⟨_, h⟩ | ⟨h, _⟩
      · have := (abs_le.mp h).1; linarith
      · exact hmm (ht.symm.trans h)
    have hL : ¬ (bt.problemType = MAX ∧ s.objValue > bt.globalLowerBound + eps) := by
      rintro ⟨ht, hlt⟩
      rcases h1 with ⟨h, _⟩ | ⟨_, h⟩
      · exact hmm (h.symm.trans ht)
      · have := (abs_le.mp h).2; linarith
    rw [if_neg hU, if_neg hL]
    split_ifs <;> exact ⟨rfl, rfl⟩
  · rw [if_neg h1]
    by_cases h2 : (bt.problemType = MIN ∧ s.objValue < bt.globalUpperBound - eps) ∨
        (bt.problemType = MAX ∧ s.objValue > bt.globalLowerBound + eps)
    · rw [if_pos h2]
      by_cases ht : bt.problemType = MIN
      · have hU : bt.problemType = MIN ∧ s.objValue < bt.globalUpperBound - eps := by
          rcases h2 with h | ⟨h, _⟩
          · exact h
          · exact absurd (ht.symm.trans h) hmm
        have hL : ¬ (bt.problemType = MAX ∧ s.objValue > bt.globalLowerBound + eps) :=
          fun h => hmm (ht.symm.trans h.1)
        rw [if_pos hU, if_neg hL]
        simp only [ht, if_true]
        split_ifs <;> exact ⟨rfl, rfl⟩
      · have hL : bt.problemType = MAX ∧ s.objValue > bt.globalLowerBound + eps := by
          rcases h2 with ⟨h, _⟩ | h
          · exact absurd h ht
          · exact h
        have hU : ¬ (bt.problemType = MIN ∧ s.objValue < bt.globalUpperBound - eps) :=
          fun h => ht h.1
        rw [if_pos hL, if_neg hU]
        simp only [ht, if_false]
        split_ifs <;> exact ⟨rfl, rfl⟩
    · rw [if_neg h2]
      rw [if_neg (fun h => h2 (Or.inl h)), if_neg (fun h => h2 (Or.inr h))]
      exact ⟨rfl, rfl⟩

/-- The global bounds at the bounds test of `processState`: those of before,
but for the best-seen bound when `saveNonTerm` is set and the objective value
of the state improves on it by more than `eps`. -/
theorem uptoBounds_bounds (P : Problem σ) (bt : BTree σ) (s : State σ) :
    (bt.uptoBounds P s).1.globalUpperBound
      = (if bt.saveNonTerm = true ∧ bt.problemType = MIN ∧
            s.objValue < bt.globalUpperBound - eps
         then s.objValue else bt.globalUpperBound) ∧
    (bt.uptoBounds P s).1.globalLowerBound
      = (if bt.saveNonTerm = true ∧ bt.problemType = MAX ∧
            s.objValue > bt.globalLowerBound + eps
         then s.objValue else bt.globalLowerBound) := by
  have h0 := (uptoBounds_frame P bt s).2.2
  have hU : (bt.uptoBounds P s).1.globalUpperBound = (bt.uptoDominance s).1.globalUpperBound :=
    congrArg (fun x => x.2.1) h0
  have hL : (bt.uptoBounds P s).1.globalLowerBound = (bt.uptoDominance s).1.globalLowerBound :=
    congrArg (fun x => x.1) h0
  rw [hU, hL]
  have ha : ((bt.assignID s).countIdentified s.depth.toNat).incumbent = bt.incumbent ∧
      ((bt.assignID s).countIdentified s.depth.toNat).options = bt.options := by
    unfold BTree.assignID; split_ifs <;> exact ⟨rfl, rfl⟩
  have haU : ((bt.assignID s).countIdentified s.depth.toNat).globalUpperBound
      = bt.globalUpperBound := congrArg (fun x => x.2.1) ha.1
  have haL : ((bt.assignID s).countIdentified s.depth.toNat).globalLowerBound
      = bt.globalLowerBound := congrArg (fun x => x.1) ha.1
  have haT : ((bt.assignID s).countIdentified s.depth.toNat).problemType = bt.problemType :=
    congrArg Options.problemType ha.2
  have haS : ((bt.assignID s).countIdentified s.depth.toNat).saveNonTerm = bt.saveNonTerm :=
    congrArg Options.saveNonTerm ha.2
  unfold BTree.uptoDominance
  rw [haS]
  by_cases hs : bt.saveNonTerm = true
  · rw [if_pos hs]
    have h := saveBestState_bounds ((bt.assignID s).countIdentified s.depth.toNat)
      { s with id := bt.nextNodeID } true
    rw [haU, haL, haT] at h
    rw [h.1, h.2]
    simp only [hs, true_and]
  · rw [if_neg hs]
    rw [if_neg (fun h => hs h.1), if_neg (fun h => hs h.1)]
    exact ⟨haU, haL⟩

/-- What `processState` does with a root that is not terminal and survives the
dominance and the bounds test. -/
theorem processState_root (P : Problem σ) (bt : BTree σ) (s : State σ)
    (hd : 0 ≤ s.depth) (hterm : P.isTerminalState { s with id := bt.nextNodeID } = false)
    (hsave : (bt.uptoDominance s).2 = .ok ())
    (hdom : bt.useDom = true →
      ((bt.uptoDominance s).1.applyDominanceRules P { s with id := bt.nextNodeID }).2.dominated
        = false)
    (hbnd : (bt.uptoBounds P s).1.stateExceedsBounds (bt.uptoBounds P s).2 = false) :
    bt.processState P s true =
      if ((bt.uptoBounds P s).1.updateRootBound (bt.uptoBounds P s).2).gapClosed then
        ((bt.uptoBounds P s).1.updateRootBound (bt.uptoBounds P s).2, .ok false)
      else ((bt.uptoBounds P s).1.updateRootBound (bt.uptoBounds P s).2).store P
        (bt.uptoBounds P s).2 := by
  rw [processState_at_bounds P bt s true hd hterm hsave hdom, hbnd]
  simp only [Bool.false_eq_true, if_false, if_true]

/-- The global bounds and the options after `processState` on such a root are
those the root branch left. -/
theorem processState_root_frame (P : Problem σ) (bt : BTree σ) (s : State σ)
    (hd : 0 ≤ s.depth) (hterm : P.isTerminalState { s with id := bt.nextNodeID } = false)
    (hsave : (bt.uptoDominance s).2 = .ok ())
    (hdom : bt.useDom = true →
      ((bt.uptoDominance s).1.applyDominanceRules P { s with id := bt.nextNodeID }).2.dominated
        = false)
    (hbnd : (bt.uptoBounds P s).1.stateExceedsBounds (bt.uptoBounds P s).2 = false) :
    (bt.processState P s true).1.incumbent
      = ((bt.uptoBounds P s).1.updateRootBound (bt.uptoBounds P s).2).incumbent ∧
    (bt.processState P s true).1.options = bt.options := by
  rw [processState_root P bt s hd hterm hsave hdom hbnd]
  have ho : ((bt.uptoBounds P s).1.updateRootBound (bt.uptoBounds P s).2).options = bt.options :=
    (updateRootBound_options _ _).trans (uptoBounds_frame P bt s).2.1
  split_ifs
  · exact ⟨rfl, ho⟩
  · exact ⟨(store_frame P _ _).1, (store_frame P _ _).2.trans ho⟩

end Root

section RootClaims

variable {σ : Type}

/-- C12 as stated fails: with `saveNonTerm` set, `processState(s, true)` on a
root that is not terminal and survives the dominance and the bounds test (it is
stored and true is returned) moves, in a MIN problem, not only the lower bound
(to the root's lower bound 1) but also the upper bound, from the initial
`DBL_MAX` to the root's objective value 3: line 195 hands the root to
`saveBestState` before the tests. -/
theorem root_call_moves_best_seen_bound :
    savingEngine.problemType = MIN ∧
    sampleProblem.isTerminalState valuedRoot = false ∧
    (savingEngine.processState sampleProblem valuedRoot true).2 = .ok true ∧
    (savingEngine.processState sampleProblem valuedRoot true).1.tStats.statesStoredInTree = 1 ∧
    (savingEngine.processState sampleProblem valuedRoot true).1.globalLowerBound = 1 ∧
    savingEngine.globalUpperBound = dblMax ∧
    (savingEngine.processState sampleProblem valuedRoot true).1.globalUpperBound = 3 := by
  refine ⟨by decide!, by decide!, by decide!, by decide!, by decide!, by decide!, by decide!⟩

/-- C12 (amended): for a root `s` that is not terminal and survives the
dominance and the bounds test, `processState(s, true)` sets the slack-side
global bound from `s` as it is after `computeBounds` (MIN: the lower bound
becomes the lower bound of `s`; MAX: the upper bound becomes the upper bound
of `s`) and leaves the other global bound as the `saveNonTerm` step left it:
unchanged, unless `saveNonTerm` is set and the objective value of `s` improves
on it by more than `eps`, in which case it is that value.  It then returns
false without storing `s` (frontier, heap size, dominance index and the
counter of stored states are as before) if and only if the problem is integral
and `ceil` of the lower bound equals `floor` of the upper bound, or the two
bounds differ by less than `eps`; otherwise `s` gets the next cell of the
heap, is counted as stored and is handed to `saveStateForExploration` of the
frontier, and true is returned when that call returns. -/
theorem root_sets_slack_bound (P : Problem σ) (bt : BTree σ) (s : State σ)
    (hd : 0 ≤ s.depth) (hd2 : 0 ≤ (bt.uptoBounds P s).2.depth)
    (hterm : P.isTerminalState { s with id := bt.nextNodeID } = false)
    (hsave : (bt.uptoDominance s).2 = .ok ())
    (hdom : bt.useDom = true →
      ((bt.uptoDominance s).1.applyDominanceRules P { s with id := bt.nextNodeID }).2.dominated
        = false)
    (hbnd : (bt.uptoBounds P s).1.stateExceedsBounds (bt.uptoBounds P s).2 = false) :
    (bt.problemType = MIN →
      (bt.processState P s true).1.globalLowerBound = (bt.uptoBounds P s).2.lowerBound ∧
      (bt.processState P s true).1.globalUpperBound
        = (if bt.saveNonTerm = true ∧ s.objValue < bt.globalUpperBound - eps
           then s.objValue else bt.globalUpperBound)) ∧
    (bt.problemType = MAX →
      (bt.processState P s true).1.globalUpperBound = (bt.uptoBounds P s).2.upperBound ∧
      (bt.processState P s true).1.globalLowerBound
        = (if bt.saveNonTerm = true ∧ s.objValue > bt.globalLowerBound + eps
           then s.objValue else bt.globalLowerBound)) ∧
    ((bt.processState P s true).2 = .ok false ↔
      (bt.isOptIntegral = true ∧
        ⌈(bt.processState P s true).1.globalLowerBound⌉
          = ⌊(bt.processState P s true).1.globalUpperBound⌋) ∨
      |(bt.processState P s true).1.globalLowerBound
        - (bt.processState P s true).1.globalUpperBound| < eps) ∧
    ((bt.processState P s true).2 = .ok false →
      (bt.processState P s true).1.frontier = bt.frontier ∧
      (bt.processState P s true).1.heap.length = bt.heap.length ∧
      (bt.processState P s true).1.domClasses = bt.domClasses ∧
      (bt.processState P s true).1.tStats.statesStoredInTree = bt.tStats.statesStoredInTree) ∧
    ((bt.processState P s true).2 ≠ .ok false →
      (bt.processState P s true).1.heap.length = bt.heap.length + 1 ∧
      (bt.processState P s true).1.heap[bt.heap.length]? = some (bt.uptoBounds P s).2 ∧
      (bt.processState P s true).1.tStats.statesStoredInTree
        = bt.tStats.statesStoredInTree + 1 ∧
      ∃ b0 : BTree σ, b0.frontier = bt.frontier ∧
        b0.heap[bt.heap.length]? = some (bt.uptoBounds P s).2 ∧
        (bt.processState P s true).1 = (b0.saveStateForExploration P bt.heap.length).1 ∧
        ((b0.saveStateForExploration P bt.heap.length).2 = .ok () →
          (bt.processState P s true).2 = .ok true)) := by
  have hps := processState_root P bt s hd hterm hsave hdom hbnd
  have hfr := processState_root_frame P bt s hd hterm hsave hdom hbnd
  have hB := uptoBounds_frame P bt s
  have hbb := uptoBounds_bounds P bt s
  have hBs := storage_fields hB.1
  have hUs := storage_fields (updateRootBound_storage (bt.uptoBounds P s).1 (bt.uptoBounds P s).2)
  have hBt : (bt.uptoBounds P s).1.problemType = bt.problemType :=
    congrArg Options.problemType hB.2.1
  have hrL : (bt.processState P s true).1.globalLowerBound
      = ((bt.uptoBounds P s).1.updateRootBound (bt.uptoBounds P s).2).globalLowerBound :=
    congrArg (fun x => x.1) hfr.1
  have hrU : (bt.processState P s true).1.globalUpperBound
      = ((bt.uptoBounds P s).1.updateRootBound (bt.uptoBounds P s).2).globalUpperBound :=
    congrArg (fun x => x.2.1) hfr.1
  have hrI : (bt.processState P s true).1.isOptIntegral = bt.isOptIntegral :=
    congrArg Options.isOptIntegral hfr.2
  have hUI : ((bt.uptoBounds P s).1.updateRootBound (bt.uptoBounds P s).2).isOptIntegral
      = bt.isOptIntegral :=
    congrArg Options.isOptIntegral ((updateRootBound_options _ _).trans hB.2.1)
  have hgap : ((bt.uptoBounds P s).1.updateRootBound (bt.uptoBounds P s).2).gapClosed = true ↔
      ((bt.isOptIntegral = true ∧
        ⌈(bt.processState P s true).1.globalLowerBound⌉
          = ⌊(bt.processState P s true).1.globalUpperBound⌋) ∨
      |(bt.processState P s true).1.globalLowerBound
        - (bt.processState P s true).1.globalUpperBound| < eps) := by
    rw [hrL, hrU, ← hUI]
    simp only [BTree.gapClosed, decide_eq_true_eq]
  have hse := store_effect P ((bt.uptoBounds P s).1.updateRootBound (bt.uptoBounds P s).2)
    (bt.uptoBounds P s).2 hd2
  have hlen : ((bt.uptoBounds P s).1.updateRootBound (bt.uptoBounds P s).2).heap.length
      = bt.heap.length := hUs.2.2.1.trans hBs.2.2.1
  refine ⟨?_, ?_, ?_, ?_, ?_⟩
  · intro ht
    rw [hrL, hrU]
    unfold BTree.updateRootBound
    rw [hBt, if_pos ht]
    refine ⟨rfl, ?_⟩
    show (bt.uptoBounds P s).1.globalUpperBound = _
    rw [hbb.1]
    simp only [ht, true_and]
  · intro ht
    have hne : ¬ bt.problemType = MIN := fun h => MIN_ne_MAX (h.symm.trans ht)
    rw [hrL, hrU]
    unfold BTree.updateRootBound
    rw [hBt, if_neg hne]
    refine ⟨rfl, ?_⟩
    show (bt.uptoBounds P s).1.globalLowerBound = _
    rw [hbb.2]
    simp only [ht, true_and]
  · rw [← hgap]
    constructor
    · intro h
      by_contra hg
      rw [hps, if_neg hg] at h
      exact hse.1 h
    · intro hg
      rw [hps, if_pos hg]
  · intro h
    have hg : ((bt.uptoBounds P s).1.updateRootBound (bt.uptoBounds P s).2).gapClosed = true := by
      by_contra hg
      rw [hps, if_neg hg] at h
      exact hse.1 h
    rw [hps, if_pos hg]
    exact ⟨hUs.1.trans hBs.1, hlen, hUs.2.1.trans hBs.2.1, hUs.2.2.2.2.2.trans hBs.2.2.2.2.2⟩
  · intro h
    have hg : ¬ ((bt.uptoBounds P s).1.updateRootBound (bt.uptoBounds P s).2).gapClosed = true := by
      intro hg
      rw [hps, if_pos hg] at h
      exact h rfl
    rw [hps, if_neg hg]
    obtain ⟨_, hheap, hcnt, b0, hb0f, hb0h, hst⟩ := hse
    refine ⟨?_, ?_, ?_, b0, ?_, ?_, ?_, ?_⟩
    · rw [hheap, List.length_append, hlen]; rfl
    · rw [hheap, ← hlen]; simp
    · rw [hcnt, hUs.2.2.2.2.2, hBs.2.2.2.2.2]
    · exact hb0f.trans (hUs.1.trans hBs.1)
    · rw [hb0h, ← hlen]; simp
    · rw [hst, hlen]; unfold andThen; split <;> rfl
    · intro hok
      rw [hst, hlen]; unfold andThen; rw [hok]

theorem root_sets_slack_bound_witness :
    (0 : Int) ≤ valuedRoot.depth ∧
    sampleProblem.isTerminalState { valuedRoot with id := savingEngine.nextNodeID } = false ∧
    (savingEngine.uptoDominance valuedRoot).2 = .ok () ∧
    (savingEngine.uptoBounds sampleProblem valuedRoot).1.stateExceedsBounds
      (savingEngine.uptoBounds sampleProblem valuedRoot).2 = false ∧
    (savingEngine.processState sampleProblem valuedRoot true).1.globalLowerBound = 1 ∧
    (savingEngine.processState sampleProblem valuedRoot true).1.globalUpperBound = 3 ∧
    (savingEngine.processState sampleProblem valuedRoot true).2 ≠ .ok false ∧
    (savingEngine.processState sampleProblem valuedRoot true).1.heap.length = 1 :=
  have h1 : (0 : Int) ≤ valuedRoot.depth := by decide
  have h2 : sampleProblem.isTerminalState { valuedRoot with id := savingEngine.nextNodeID }
      = false := by decide!
  have h3 : (savingEngine.uptoDominance valuedRoot).2 = .ok () := by decide!
  have h4 : (savingEngine.uptoBounds sampleProblem valuedRoot).1.stateExceedsBounds
      (savingEngine.uptoBounds sampleProblem valuedRoot).2 = false := by decide!
  have hne : (savingEngine.processState sampleProblem valuedRoot true).2 ≠ .ok false := by
    decide!
  have t := root_sets_slack_bound sampleProblem savingEngine valuedRoot h1 (by decide!) h2 h3
    (fun h => absurd h (by decide!)) h4
  ⟨h1, h2, h3, h4, (t.1 (by decide!)).1.trans (by decide!),
    (t.1 (by decide!)).2.trans (by decide!), hne, (t.2.2.2.2 hne).1⟩

/-! ## A root whose bounds meet -/

/-- C13 as stated fails: on a fresh MIN engine, a root whose lower bound equals
its upper bound (both 5) after `computeBounds` is stored by
`processState(root, true)`, the frontier is not empty afterwards, and the
following `explore()` runs an iteration that explores the root.  The root
branch compares the global bounds, and the global upper bound is still
`DBL_MAX`: the upper bound of the root is never read. -/
theorem tight_root_is_stored :
    (BTree.new MIN false DFSTree.frontier : BTree Node).isEmpty = true ∧
    sampleProblem.isTerminalState tightRoot = false ∧
    (sampleProblem.computeBounds tightRoot
        (BTree.new MIN false DFSTree.frontier : BTree Node).view).lowerBound = 5 ∧
    (sampleProblem.computeBounds tightRoot
        (BTree.new MIN false DFSTree.frontier : BTree Node).view).upperBound = 5 ∧
    (rootedEngine tightRoot).tStats.statesStoredInTree = 1 ∧
    (rootedEngine tightRoot).isEmpty = false ∧
    ((rootedEngine tightRoot).explore sampleProblem Clock.zero 5).2 = .ok true ∧
    ((rootedEngine tightRoot).explore sampleProblem Clock.zero 5).1.tStats.statesExplored = 1 := by
  refine ⟨by decide!, by decide!, by decide!, by decide!, by decide!, by decide!, by decide!,
    by decide!⟩

theorem exploreLoop_empty (P : Problem σ) (clk : Clock) (fuel i : Nat)
    (bt : BTree σ) (fin : Bool) (h : bt.isEmpty = true) :
    BTree.exploreLoop P clk fuel i bt fin = (bt, .ok fin) := by
  cases fuel <;> simp [BTree.exploreLoop, h]

theorem andThen_of_error {α β : Type} {r : BTree σ × Except Exn α} {e : Exn}
    (k : BTree σ → α → BTree σ × Except Exn β) (h : r.2 = .error e) :
    andThen r k = (r.1, .error e) := by
  unfold andThen; rw [h]

/-- The part of `processState` after the `saveNonTerm` step does not store a
state the bounds test prunes. -/
theorem dominanceAndStore_pruned (P : Problem σ) (b : BTree σ) (s : State σ) (isRoot : Bool)
    (hbnd : (if b.useDom then (b.applyDominanceRules P s).1 else b).stateExceedsBounds
        (if (if b.useDom then (b.applyDominanceRules P s).1 else b).stateComputesBounds
         then (if b.useDom then (b.applyDominanceRules P s).2 else s)
         else P.computeBounds (if b.useDom then (b.applyDominanceRules P s).2 else s)
           (if b.useDom then (b.applyDominanceRules P s).1 else b).view) = true) :
    (b.dominanceAndStore P s isRoot).1.frontier = b.frontier ∧
    (b.dominanceAndStore P s isRoot).1.heap.length = b.heap.length ∧
    (b.dominanceAndStore P s isRoot).1.domClasses = b.domClasses ∧
    (b.dominanceAndStore P s isRoot).1.tStats.statesStoredInTree
      = b.tStats.statesStoredInTree := by
  have hst := storage_fields (applyDominanceRules_storage P b s)
  unfold BTree.dominanceAndStore
  by_cases hu : b.useDom = true
  · simp only [hu, if_true] at hbnd
    rw [if_pos hu]
    split_ifs
    · exact ⟨hst.1, hst.2.2.1, hst.2.1, hst.2.2.2.2.2⟩
    · unfold BTree.boundAndStore
      dsimp only
      rw [if_pos hbnd]
      exact ⟨hst.1, hst.2.2.1, hst.2.1, hst.2.2.2.2.2⟩
  · have hu1 : b.useDom = false := by simpa using hu
    simp only [hu1, Bool.false_eq_true, if_false] at hbnd
    rw [if_neg hu]
    unfold BTree.boundAndStore
    dsimp only
    rw [if_pos hbnd]
    exact ⟨rfl, rfl, rfl, rfl⟩

/-- A call of `processState` does not store a state the bounds test prunes. -/
theorem processState_pruned (P : Problem σ) (bt : BTree σ) (s : State σ) (isRoot : Bool)
    (hd : 0 ≤ s.depth)
    (hbnd : (bt.uptoBounds P s).1.stateExceedsBounds (bt.uptoBounds P s).2 = true) :
    (bt.processState P s isRoot).1.frontier = bt.frontier ∧
    (bt.processState P s isRoot).1.heap.length = bt.heap.length ∧
    (bt.processState P s isRoot).1.domClasses = bt.domClasses ∧
    (bt.processState P s isRoot).1.tStats.statesStoredInTree = bt.tStats.statesStoredInTree := by
  have key : ∀ b : BTree σ, b.storage = bt.storage →
      b.frontier = bt.frontier ∧ b.heap.length = bt.heap.length ∧
        b.domClasses = bt.domClasses ∧
        b.tStats.statesStoredInTree = bt.tStats.statesStoredInTree := by
    intro b h
    have := storage_fields h
    exact ⟨this.1, this.2.2.1, this.2.1, this.2.2.2.2.2⟩
  have hid : ((bt.assignID s).countIdentified s.depth.toNat).storage = bt.storage := by
    unfold BTree.assignID; split_ifs <;> rfl
  have hud := uptoDominance_frame bt s
  generalize hr : bt.processState P s isRoot = r
  unfold BTree.processState at hr
  rw [identify_ok bt s hd, andThen_ok] at hr
  by_cases ht : P.isTerminalState { s with id := bt.nextNodeID } = true
  · simp only [ht, if_true] at hr
    have h1 := (processTerminalState_storage ((bt.assignID s).countIdentified s.depth.toNat)
      { s with id := bt.nextNodeID } true).trans hid
    cases h2 : (((bt.assignID s).countIdentified s.depth.toNat).processTerminalState
        { s with id := bt.nextNodeID } true).2 with
    | error e => rw [andThen_of_error _ h2] at hr; subst hr; exact key _ h1
    | ok a => rw [andThen_of_ok _ h2] at hr; subst hr; exact key _ h1
  · simp only [ht, Bool.false_eq_true, if_false] at hr
    change andThen (bt.uptoDominance s)
      (fun bt2 _ => bt2.dominanceAndStore P { s with id := bt.nextNodeID } isRoot) = r at hr
    cases h2 : (bt.uptoDominance s).2 with
    | error e => rw [andThen_of_error _ h2] at hr; subst hr; exact key _ hud.1
    | ok a =>
      rw [andThen_of_ok _ h2] at hr
      subst hr
      have h3 := dominanceAndStore_pruned P (bt.uptoDominance s).1 { s with id := bt.nextNodeID }
        isRoot (by
          unfold BTree.uptoBounds at hbnd
          dsimp only at hbnd
          by_cases hu : (bt.uptoDominance s).1.useDom = true
          · simp only [hu, if_true] at hbnd ⊢
            exact hbnd
          · have hu1 : (bt.uptoDominance s).1.useDom = false := by simpa using hu
            simp only [hu1, Bool.false_eq_true, if_false] at hbnd ⊢
            exact hbnd)
      have h4 := key _ hud.1
      exact ⟨h3.1.trans h4.1, h3.2.1.trans h4.2.1, h3.2.2.1.trans h4.2.2.1,
        h3.2.2.2.trans h4.2.2.2⟩

/-- C13 (amended): for a MIN problem, if the lower bound of the root equals
its upper bound exactly after `computeBounds` and the global upper bound is
not above that value (it was seeded with it, by `setGlobalUB` or by a
heuristic incumbent), then `processState(root, true)` does not store the root:
the frontier, the size of the heap, the dominance index and the counter of
stored states are as before, so the frontier stays empty, and a following
`explore()` returns without executing an iteration of its loop. -/
theorem seeded_tight_root_not_stored (P : Problem σ) (bt : BTree σ) (s : State σ)
    (hmin : bt.problemType = MIN) (hd : 0 ≤ s.depth)
    (heq : (bt.uptoBounds P s).2.lowerBound = (bt.uptoBounds P s).2.upperBound)
    (hseed : bt.globalUpperBound ≤ (bt.uptoBounds P s).2.upperBound)
    (hempty : bt.isEmpty = true) :
    (bt.processState P s true).1.frontier = bt.frontier ∧
    (bt.processState P s true).1.heap.length = bt.heap.length ∧
    (bt.processState P s true).1.domClasses = bt.domClasses ∧
    (bt.processState P s true).1.tStats.statesStoredInTree = bt.tStats.statesStoredInTree ∧
    (bt.processState P s true).1.isEmpty = true ∧
    ∀ (clk : Clock) (fuel : Nat),
      (bt.processState P s true).1.explore P clk fuel
        = ((bt.processState P s true).1.startClock clk, .ok true) := by
  have he := eps_pos
  have hB := uptoBounds_frame P bt s
  have hbb := (uptoBounds_bounds P bt s).1
  have hBt : (bt.uptoBounds P s).1.problemType = bt.problemType :=
    congrArg Options.problemType hB.2.1
  have hle : (bt.uptoBounds P s).1.globalUpperBound ≤ bt.globalUpperBound := by
    rw [hbb]
    split_ifs with h
    · linarith [h.2.2]
    · exact le_refl _
  have hbnd : (bt.uptoBounds P s).1.stateExceedsBounds (bt.uptoBounds P s).2 = true := by
    simp only [BTree.stateExceedsBounds, decide_eq_true_eq]
    left
    exact ⟨hBt.trans hmin, by rw [heq]; linarith⟩
  have h := processState_pruned P bt s true hd hbnd
  have hem : (bt.processState P s true).1.isEmpty = true := by
    unfold BTree.isEmpty at hempty ⊢
    rw [h.1]; exact hempty
  refine ⟨h.1, h.2.1, h.2.2.1, h.2.2.2, hem, ?_⟩
  intro clk fuel
  exact exploreLoop_empty P clk fuel 0 _ true hem

theorem seeded_tight_root_not_stored_witness :
    seededTight.problemType = MIN ∧ (0 : Int) ≤ tightRoot.depth ∧
    (seededTight.uptoBounds sampleProblem tightRoot).2.lowerBound
      = (seededTight.uptoBounds sampleProblem tightRoot).2.upperBound ∧
    seededTight.globalUpperBound ≤ (seededTight.uptoBounds sampleProblem tightRoot).2.upperBound ∧
    seededTight.isEmpty = true ∧
    (seededTight.processState sampleProblem tightRoot true).1.isEmpty = true ∧
    ((seededTight.processState sampleProblem tightRoot true).1.explore sampleProblem
      Clock.zero 5).1.tStats.statesExplored = 0 :=
  have h1 : seededTight.problemType = MIN := by decide!
  have h2 : (0 : Int) ≤ tightRoot.depth := by decide
  have h3 : (seededTight.uptoBounds sampleProblem tightRoot).2.lowerBound
      = (seededTight.uptoBounds sampleProblem tightRoot).2.upperBound := by decide!
  have h4 : seededTight.globalUpperBound
      ≤ (seededTight.uptoBounds sampleProblem tightRoot).2.upperBound := by decide!
  have h5 : seededTight.isEmpty = true := by decide!
  have t := seeded_tight_root_not_stored sampleProblem seededTight tightRoot h1 h2 h3 h4 h5
  ⟨h1, h2, h3, h4, h5, t.2.2.2.2.1,
    (congrArg (fun r => r.1.tStats.statesExplored) (t.2.2.2.2.2 Clock.zero 5)).trans
      (by decide!)⟩

end RootClaims

/-! ## The tolerance and the first bounds -/

section Constants

variable {σ : Type}

/-- C29 as stated fails: the tolerance is not 1e-5.  A state whose lower bound
is 5e-5 below the global upper bound is pruned by bounds, which a tolerance of
1e-5 would not do. -/
theorem eps_is_not_1e5 :
    eps ≠ 1 / 100000 ∧
    (sampleEngine MIN 0 1).stateExceedsBounds (sampleState 0 (1 - 5 / 100000) 1) = true ∧
    ¬ ((1 : ℚ) - 5 / 100000 ≥ 1 - 1 / 100000) := by
  refine ⟨by norm_num [eps], by decide!, by norm_num⟩

/-- C29 (amended): the tolerance `eps` of the engine is `10e-05`, that is
1e-4, and it is the tolerance of the bounds test, of the test for a tie and
for a strict improvement in `saveBestState`, of the gap test at the root and
of the test that a time limit is set. -/
theorem tolerance_is_1e4 (bt : BTree σ) (s : State σ) (t : Bool) (now : ℚ) :
    eps = 1 / 10000 ∧
    (bt.stateExceedsBounds s = true ↔
      (bt.problemType = MIN ∧ s.lowerBound ≥ bt.globalUpperBound - 1 / 10000) ∨
      (bt.problemType = MAX ∧ s.upperBound ≤ bt.globalLowerBound + 1 / 10000)) ∧
    (bt.saveBestState s t).1.globalUpperBound
      = (if bt.problemType = MIN ∧ s.objValue < bt.globalUpperBound - 1 / 10000
         then s.objValue else bt.globalUpperBound) ∧
    (bt.saveBestState s t).1.globalLowerBound
      = (if bt.problemType = MAX ∧ s.objValue > bt.globalLowerBound + 1 / 10000
         then s.objValue else bt.globalLowerBound) ∧
    ((bt.saveBestState s true).1.tStats.numOptimalTerminalStatesIdentified
        = bt.tStats.numOptimalTerminalStatesIdentified + 1 ∧
      (bt.saveBestState s true).1.incumbent.1 = bt.globalLowerBound ∧
      (bt.saveBestState s true).1.incumbent.2.1 = bt.globalUpperBound ↔
      ((bt.problemType = MIN ∧ |s.objValue - bt.globalUpperBound| ≤ 1 / 10000) ∨
       (bt.problemType = MAX ∧ |s.objValue - bt.globalLowerBound| ≤ 1 / 10000))) ∧
    (bt.gapClosed = true ↔
      (bt.isOptIntegral = true ∧ ⌈bt.globalLowerBound⌉ = ⌊bt.globalUpperBound⌋) ∨
      |bt.globalLowerBound - bt.globalUpperBound| < 1 / 10000) ∧
    (bt.withinLimits now = true ↔
      (bt.nodeLimit = 0 ∨ bt.tStats.statesExplored < bt.nodeLimit) ∧
      (bt.timeLimit < 1 / 10000 ∨ now - bt.runTimeStart < bt.timeLimit) ∧
      (bt.stopAtFirstImprov = false ∨ bt.tStats.timesBestStateWasUpdated = 0) ∧
      bt.globalLowerBound < bt.globalUpperBound) := by
  have he : eps = 1 / 10000 := by norm_num [eps]
  have hb := saveBestState_bounds bt s t
  rw [he] at hb
  refine ⟨he, ?_, hb.1, hb.2, ?_, ?_, ?_⟩
  · simp only [BTree.stateExceedsBounds, decide_eq_true_eq, he]
  · have hpos : (0 : ℚ) < 1 / 10000 := by norm_num
    have hmm := MIN_ne_MAX
    unfold BTree.saveBestState BTree.incumbent
    dsimp only
    rw [he]
    by_cases h1 : (bt.problemType = MIN ∧ |s.objValue - bt.globalUpperBound| ≤ 1 / 10000) ∨
        (bt.problemType = MAX ∧ |s.objValue - bt.globalLowerBound| ≤ 1 / 10000)
    · rw [if_pos h1]
      simp only [h1, iff_true]
      split_ifs <;> exact ⟨rfl, rfl, rfl⟩
    · rw [if_neg h1]
      simp only [h1, iff_false]
      by_cases h2 : (bt.problemType = MIN ∧ s.objValue < bt.globalUpperBound - 1 / 10000) ∨
          (bt.problemType = MAX ∧ s.objValue > bt.globalLowerBound + 1 / 10000)
      · rw [if_pos h2]
        rintro ⟨_, hL, hU⟩
        by_cases ht : bt.problemType = MIN
        · have hlt : s.objValue < bt.globalUpperBound - 1 / 10000 := by
            rcases h2 with h | h
            · exact h.2
            · exact absurd (ht.symm.trans h.1) hmm
          simp only [ht, if_true] at hU
          split_ifs at hU <;> (simp only at hU; linarith)
        · have hlt : s.objValue > bt.globalLowerBound + 1 / 10000 := by
            rcases h2 with h | h
            · exact absurd h.1 ht
            · exact h.2
          simp only [ht, if_false] at hL
          split_ifs at hL <;> (simp only at hL; linarith)
      · rw [if_neg h2]
        rintro ⟨hc, _, _⟩
        simp only at hc
        omega
  · simp only [BTree.gapClosed, decide_eq_true_eq, he]
  · simp only [BTree.withinLimits, decide_eq_true_eq, he]

/-- C30, the code at a failing input: the constructor sets the global lower
bound to `numeric_limits<double>::min()`, the smallest positive normalised
double, not to minus infinity.  On a fresh MAX engine the first incumbent
candidate, of objective value -1, is therefore not a strict improvement
(`-1 > DBL_MIN + eps` is false): no incumbent is kept and the bound stays
where it was; and a state with the finite upper bound 0 is pruned by bounds
before any incumbent exists. -/
theorem fresh_max_engine_ignores_candidate :
    (BTree.new MAX false DFSTree.frontier : BTree Node).globalLowerBound = dblMin ∧
    0 < dblMin ∧
    ((BTree.new MAX false DFSTree.frontier).processHeuristicState
      (sampleState (-1) (-1) (-1))).2 = .ok () ∧
    ((BTree.new MAX false DFSTree.frontier).processHeuristicState
      (sampleState (-1) (-1) (-1))).1.bestState = none ∧
    ((BTree.new MAX false DFSTree.frontier).processHeuristicState
      (sampleState (-1) (-1) (-1))).1.globalLowerBound = dblMin ∧
    (BTree.new MAX false DFSTree.frontier : BTree Node).bestState = none ∧
    (BTree.new MAX false DFSTree.frontier : BTree Node).stateExceedsBounds
      (sampleState 0 0 0) = true := by
  refine ⟨rfl, by norm_num [dblMin], by decide!, by decide!, by decide!, rfl, by decide!⟩

end Constants

/-! ## The CBFS frontier: pushing -/

/-- C22: in the STANDARD and RANDOM_FROM_TOP_K modes, `saveStateForExploration`
of a state at depth `level` (not negative) appends the state to the queue of
that level (the vector of levels grows to hold it) and leaves the other
queues alone; the list `nonEmptyLevelSPQs` changes if and only if that queue
was empty before, and then the level is appended to the back of the list when
`level = lastLevelExplored` and put at its front otherwise.  Nothing else
changes. -/
theorem cbfs_push_standard (c : CBFSData) (p : Ptr) (level : Int)
    (hsel : c.selectionMethod = STANDARD ∨ c.selectionMethod = RANDOM_FROM_TOP_K)
    (hl : 0 ≤ level) :
    ∃ c1, CBFSTree.saveStateForExploration c p level = .ok c1 ∧
      levelQ c1.unexploredStates level.toNat = levelQ c.unexploredStates level.toNat ++ [p] ∧
      (∀ l, l ≠ level.toNat → levelQ c1.unexploredStates l = levelQ c.unexploredStates l) ∧
      c1.unexploredStates.length = max c.unexploredStates.length (level.toNat + 1) ∧
      c1.nonEmptyLevelSPQs
        = (if levelQ c.unexploredStates level.toNat = [] then
             (if level = c.lastLevelExplored then c.nonEmptyLevelSPQs ++ [level.toNat]
              else level.toNat :: c.nonEmptyLevelSPQs)
           else c.nonEmptyLevelSPQs) ∧
      (c1.nonEmptyLevelSPQs ≠ c.nonEmptyLevelSPQs ↔ levelQ c.unexploredStates level.toNat = []) ∧
      c1.selectionMethod = c.selectionMethod ∧ c1.numToSelect = c.numToSelect ∧
      c1.numExploredAtCurLevel = c.numExploredAtCurLevel ∧
      c1.lastLevelExplored = c.lastLevelExplored ∧ c1.draws = c.draws := by
  have hne : c.selectionMethod ≠ K_BEST_AT_LEVEL := by
    rcases hsel with h | h <;> rw [h] <;> decide
  have hlen := growLevels_length c.unexploredStates level.toNat
  have hq : levelQ ((growLevels c.unexploredStates level.toNat).set level.toNat
      (SPQ.push (levelQ (growLevels c.unexploredStates level.toNat) level.toNat) p)) level.toNat
      = levelQ c.unexploredStates level.toNat ++ [p] := by
    rw [levelQ_set_self _ _ _ hlen, growLevels_levelQ]; rfl
  have ho : ∀ l, l ≠ level.toNat →
      levelQ ((growLevels c.unexploredStates level.toNat).set level.toNat
        (SPQ.push (levelQ (growLevels c.unexploredStates level.toNat) level.toNat) p)) l
      = levelQ c.unexploredStates l := by
    intro l hl'
    rw [levelQ_set_ne _ _ _ _ hl', growLevels_levelQ]
  have hsz : ((growLevels c.unexploredStates level.toNat).set level.toNat
      (SPQ.push (levelQ (growLevels c.unexploredStates level.toNat) level.toNat) p)).length
      = max c.unexploredStates.length (level.toNat + 1) := by
    rw [List.length_set]
    unfold growLevels
    rw [List.length_append, List.length_replicate]
    omega
  have hiso : (levelQ (growLevels c.unexploredStates level.toNat) level.toNat).isEmpty = true ↔
      levelQ c.unexploredStates level.toNat = [] := by
    rw [growLevels_levelQ, List.isEmpty_iff]
  unfold CBFSTree.saveStateForExploration
  rw [if_neg (not_lt.mpr hl)]
  dsimp only
  by_cases hE : levelQ c.unexploredStates level.toNat = []
  · rw [if_pos (hiso.mpr hE)]
    by_cases hlast : level = c.lastLevelExplored
    · rw [if_pos hlast]
      refine ⟨_, rfl, hq, ho, hsz, ?_, ?_, rfl, rfl, rfl, rfl, rfl⟩
      · rw [if_pos hE, if_pos hlast]
      · simp only [hE, iff_true]
        intro h
        have := congrArg List.length h
        simp at this
    · rw [if_neg hlast, if_pos (Or.inl hne)]
      refine ⟨_, rfl, hq, ho, hsz, ?_, ?_, rfl, rfl, rfl, rfl, rfl⟩
      · rw [if_pos hE, if_neg hlast]
      · simp only [hE, iff_true]
        intro h
        have := congrArg List.length h
        simp at this
  · rw [if_neg (fun h => hE (hiso.mp h))]
    refine ⟨_, rfl, hq, ho, hsz, ?_, ?_, rfl, rfl, rfl, rfl, rfl⟩
    · rw [if_neg hE]
    · simp only [hE, iff_false, ne_eq, not_not]

theorem cbfs_push_standard_witness :
    (0 : Int) ≤ 2 ∧
    (∃ c1, CBFSTree.saveStateForExploration
        { unexploredStates := [[], [4]], nonEmptyLevelSPQs := [1], selectionMethod := STANDARD,
          numToSelect := 1, numExploredAtCurLevel := 0, lastLevelExplored := 1, draws := [] }
        7 2 = .ok c1 ∧ c1.nonEmptyLevelSPQs = [2, 1] ∧ levelQ c1.unexploredStates 2 = [7]) :=
  have t := cbfs_push_standard
    { unexploredStates := [[], [4]], nonEmptyLevelSPQs := [1], selectionMethod := STANDARD,
      numToSelect := 1, numExploredAtCurLevel := 0, lastLevelExplored := 1, draws := [] }
    7 2 (Or.inl rfl) (by decide)
  ⟨by decide, t.imp (fun _ h => ⟨h.1, h.2.2.2.2.1.trans (by decide), h.2.1.trans (by decide)⟩)⟩

/-! ## The CBFS frontier: popping -/

section CBFSPops

theorem mem_flatten_of_levelQ {qs : List SPQ} {l : Nat} {p : Ptr} (h : p ∈ levelQ qs l) :
    p ∈ qs.flatten := by
  have hl : l < qs.length := lt_length_of_levelQ_ne (List.ne_nil_of_mem h)
  exact (flatten_perm_levelQ qs l hl).symm.subset (List.mem_append_left _ h)

theorem mem_pop {lt : Ptr → Ptr → Bool} {q : SPQ} {p : Ptr} (h : p ∈ SPQ.pop lt q) : p ∈ q := by
  unfold SPQ.pop at h
  split at h
  · exact h
  · exact List.mem_of_mem_erase h

theorem pop_length {lt : Ptr → Ptr → Bool} {q : SPQ} {t : Ptr} (h : SPQ.top lt q = some t) :
    (SPQ.pop lt q).length + 1 = q.length := by
  have := (pop_perm h).length_eq
  simp only [List.length_cons] at this
  omega

/-- A pop of `getNextStateStandard` when the top of the front level is not
dominated. -/
theorem standard_pop (lt : Ptr → Ptr → Bool) (dom : Ptr → Bool) (depth : Ptr → Int)
    (c : CBFSData) (lvl : Nat) (rest : List Nat) (t : Ptr)
    (hL : c.nonEmptyLevelSPQs = lvl :: rest)
    (ht : SPQ.top lt (levelQ c.unexploredStates lvl) = some t) (hd : dom t = false) :
    CBFSTree.getNextStateStandard lt dom depth c
      = .ok ⟨t, { c with unexploredStates :=
                           c.unexploredStates.set lvl (SPQ.pop lt (levelQ c.unexploredStates lvl)),
                         nonEmptyLevelSPQs :=
                           if SPQ.pop lt (levelQ c.unexploredStates lvl) = [] then rest
                           else rest ++ [lvl],
                         lastLevelExplored := depth t }, 0⟩ := by
  have hlen : lvl < c.unexploredStates.length :=
    lt_length_of_levelQ_ne (List.ne_nil_of_mem (top_mem ht))
  unfold CBFSTree.getNextStateStandard
  rw [hL]
  simp only [CBFSTree.popLevel, ht, CBFSTree.standardLoop, hd, Bool.false_eq_true, if_false,
    levelQ_set_self _ _ _ hlen, List.isEmpty_iff]
  split_ifs <;> rfl

theorem standard_pop_levelQ (qs : List SPQ) (lvl l : Nat) (q : SPQ) (h : lvl < qs.length) :
    levelQ (qs.set lvl q) l = if l = lvl then q else levelQ qs l := by
  split_ifs with hl
  · rw [hl]; exact levelQ_set_self qs lvl q h
  · exact levelQ_set_ne qs lvl l q hl

/-- C21: the STANDARD pop of CBFS is a round-robin over the active depths.
With no dominated state in the frontier and nothing pushed in between, the
first `k` pops (for `k` up to the number of levels in `nonEmptyLevelSPQs`) take
one state each from the first `k` levels of the list, in the order of the
list: the state that `top()` of the level's queue returns, which no state of
the level is above.  Each of these levels loses that state and no other level
changes; after the pops the levels not yet served are at the front of the
list, in their order, and behind them the served levels that still hold a
state, in the order in which they were served: a served level that is empty is
dropped.  So no level is popped a second time before every other level of the
list has been popped once.  What is assumed of the frontier holds again after
the pops. -/
theorem cbfs_standard_round_robin (lt : Ptr → Ptr → Bool) (dom : Ptr → Bool)
    (depth : Ptr → Int)
    (hirr : ∀ a, lt a a = false)
    (htr : ∀ a b c, lt a b = true → lt b c = true → lt a c = true)
    (k : Nat) (c : CBFSData)
    (hsel : c.selectionMethod = STANDARD)
    (hnd : c.nonEmptyLevelSPQs.Nodup)
    (hL : ∀ l ∈ c.nonEmptyLevelSPQs, levelQ c.unexploredStates l ≠ [])
    (hdom : ∀ p ∈ c.unexploredStates.flatten, dom p = false)
    (hk : k ≤ c.nonEmptyLevelSPQs.length) :
    ∃ ps c1, CBFSTree.pops lt dom depth k c = .ok (ps, c1) ∧ ps.length = k ∧
      (∀ lp ∈ (c.nonEmptyLevelSPQs.take k).zip ps,
        SPQ.top lt (levelQ c.unexploredStates lp.1) = some lp.2 ∧
        ∀ x ∈ levelQ c.unexploredStates lp.1, lt lp.2 x = false) ∧
      (∀ l, levelQ c1.unexploredStates l
        = if l ∈ c.nonEmptyLevelSPQs.take k then SPQ.pop lt (levelQ c.unexploredStates l)
          else levelQ c.unexploredStates l) ∧
      c1.nonEmptyLevelSPQs
        = c.nonEmptyLevelSPQs.drop k ++
          (c.nonEmptyLevelSPQs.take k).filter
            (fun l => decide (SPQ.pop lt (levelQ c.unexploredStates l) ≠ [])) ∧
      c1.selectionMethod = STANDARD ∧ c1.nonEmptyLevelSPQs.Nodup ∧
      (∀ l ∈ c1.nonEmptyLevelSPQs, levelQ c1.unexploredStates l ≠ []) ∧
      (∀ p ∈ c1.unexploredStates.flatten, dom p = false) := by
  induction k generalizing c with
  | zero =>
    refine ⟨[], c, rfl, rfl, ?_, ?_, ?_, hsel, hnd, hL, hdom⟩
    · intro lp h; simp at h
    · intro l; simp
    · simp
  | succ k ih =>
    obtain ⟨lvl, rest, hLeq⟩ : ∃ lvl rest, c.nonEmptyLevelSPQs = lvl :: rest := by
      cases hc : c.nonEmptyLevelSPQs with
      | nil => rw [hc] at hk; simp at hk
      | cons a b => exact ⟨a, b, rfl⟩
    rw [hLeq] at hk hnd
    have hk1 : k ≤ rest.length := by simpa using hk
    have hq : levelQ c.unexploredStates lvl ≠ [] := hL lvl (by rw [hLeq]; simp)
    obtain ⟨t, ht⟩ := @top_isSome lt _ hq
    have hd : dom t = false := hdom t (mem_flatten_of_levelQ (top_mem ht))
    have hlen : lvl < c.unexploredStates.length := lt_length_of_levelQ_ne hq
    have hget := standard_pop lt dom depth c lvl rest t hLeq ht hd
    have hnr : lvl ∉ rest := (List.nodup_cons.mp hnd).1
    have hndr : rest.Nodup := (List.nodup_cons.mp hnd).2
    generalize hc1 : ({ c with
        unexploredStates :=
          c.unexploredStates.set lvl (SPQ.pop lt (levelQ c.unexploredStates lvl)),
        nonEmptyLevelSPQs :=
          if SPQ.pop lt (levelQ c.unexploredStates lvl) = [] then rest else rest ++ [lvl],
        lastLevelExplored := depth t } : CBFSData) = c1 at hget
    have hU : c1.unexploredStates
        = c.unexploredStates.set lvl (SPQ.pop lt (levelQ c.unexploredStates lvl)) := by
      rw [← hc1]
    have hL1 : c1.nonEmptyLevelSPQs
        = if SPQ.pop lt (levelQ c.unexploredStates lvl) = [] then rest else rest ++ [lvl] := by
      rw [← hc1]
    have hS1 : c1.selectionMethod = STANDARD := by rw [← hc1]; exact hsel
    have hlv1 : ∀ l, levelQ c1.unexploredStates l
        = if l = lvl then SPQ.pop lt (levelQ c.unexploredStates lvl)
          else levelQ c.unexploredStates l := by
      intro l; rw [hU]; exact standard_pop_levelQ _ _ _ _ hlen
    have hnd1 : c1.nonEmptyLevelSPQs.Nodup := by
      rw [hL1]
      split_ifs
      · exact hndr
      · exact List.Nodup.append hndr (List.nodup_singleton _) (by simpa using hnr)
    have hLL1 : ∀ l ∈ c1.nonEmptyLevelSPQs, levelQ c1.unexploredStates l ≠ [] := by
      intro l hl
      rw [hlv1]
      rw [hL1] at hl
      by_cases hll : l = lvl
      · rw [if_pos hll]
        intro hp
        rw [if_pos hp] at hl
        exact hnr (hll ▸ hl)
      · rw [if_neg hll]
        apply hL
        rw [hLeq]
        split_ifs at hl
        · exact List.mem_cons_of_mem _ hl
        · rcases List.mem_append.mp hl with h | h
          · exact List.mem_cons_of_mem _ h
          · exact absurd (List.mem_singleton.mp h) hll
    have hdom1 : ∀ p ∈ c1.unexploredStates.flatten, dom p = false := by
      intro p hp
      apply hdom
      rw [hU] at hp
      exact (cbfs_flatten_after_pop c.unexploredStates lvl t _ hlen (pop_perm ht)).symm.subset
        (List.mem_cons_of_mem _ hp)
    have hk2 : k ≤ c1.nonEmptyLevelSPQs.length := by
      rw [hL1]; split_ifs
      · exact hk1
      · rw [List.length_append]; omega
    obtain ⟨ps, c2, hps, hpl, hF, hlv, hLc, hinv⟩ := ih c1 hS1 hnd1 hLL1 hdom1 hk2
    have htake : c1.nonEmptyLevelSPQs.take k = rest.take k := by
      rw [hL1]; split_ifs
      · rfl
      · exact List.take_append_of_le_length hk1
    have hdrop : c1.nonEmptyLevelSPQs.drop k
        = rest.drop k ++ (if SPQ.pop lt (levelQ c.unexploredStates lvl) = [] then []
                          else [lvl]) := by
      rw [hL1]; split_ifs
      · simp
      · exact List.drop_append_of_le_length hk1
    have hne_of_mem : ∀ l ∈ rest.take k, l ≠ lvl := by
      intro l hl hll
      exact hnr (hll ▸ List.mem_of_mem_take hl)
    refine ⟨t :: ps, c2, ?_, ?_, ?_, ?_, ?_, hinv⟩
    · unfold CBFSTree.pops CBFSTree.getNextState
      rw [if_pos hsel, hget]
      simp only [hps]
    · simp [hpl]
    · intro lp hlp
      rw [hLeq, List.take_succ_cons, List.zip_cons_cons] at hlp
      rcases List.mem_cons.mp hlp with h | h
      · rw [h]; exact ⟨ht, top_max hirr htr ht⟩
      · have hmem : lp.1 ∈ rest.take k := by
          have := (List.of_mem_zip (show (lp.1, lp.2) ∈ (rest.take k).zip ps from h)).1
          exact this
        have h1 := hF lp (by rw [htake]; exact h)
        rw [hlv1, if_neg (hne_of_mem _ hmem)] at h1
        exact h1
    · intro l
      rw [hlv l, htake, hLeq, List.take_succ_cons]
      by_cases hm : l ∈ rest.take k
      · rw [if_pos hm, if_pos (List.mem_cons_of_mem _ hm), hlv1, if_neg (hne_of_mem _ hm)]
      · rw [if_neg hm, hlv1]
        by_cases hll : l = lvl
        · rw [if_pos hll, if_pos (by rw [hll]; exact List.mem_cons_self _ _), hll]
        · rw [if_neg hll, if_neg (by
            intro h
            rcases List.mem_cons.mp h with h | h
            · exact hll h
            · exact hm h)]
    · rw [hLc, hdrop, htake, hLeq, List.drop_succ_cons, List.take_succ_cons, List.filter_cons]
      have hfilt : (rest.take k).filter
            (fun l => decide (SPQ.pop lt (levelQ c1.unexploredStates l) ≠ []))
          = (rest.take k).filter
            (fun l => decide (SPQ.pop lt (levelQ c.unexploredStates l) ≠ [])) := by
        apply List.filter_congr
        intro l hl
        rw [hlv1, if_neg (hne_of_mem _ hl)]
      rw [hfilt]
      by_cases hp : SPQ.pop lt (levelQ c.unexploredStates lvl) = []
      · simp [hp]
      · simp [hp]

theorem cbfs_standard_round_robin_witness :
    ∃ ps c1, CBFSTree.pops (fun x y => decide (x < y)) (fun _ => false) (fun _ => 0) 2
        { unexploredStates := [[1, 5], [], [3]], nonEmptyLevelSPQs := [2, 0],
          selectionMethod := STANDARD, numToSelect := 1, numExploredAtCurLevel := 0,
          lastLevelExplored := -1, draws := [] } = .ok (ps, c1) ∧ ps.length = 2 ∧
      c1.nonEmptyLevelSPQs = [0] :=
  have t := cbfs_standard_round_robin (fun x y => decide (x < y)) (fun _ => false) (fun _ => 0)
    (fun a => by simp)
    (fun a b c hab hbc => by
      simp only [decide_eq_true_eq] at hab hbc ⊢
      exact lt_trans hab hbc) 2
    { unexploredStates := [[1, 5], [], [3]], nonEmptyLevelSPQs := [2, 0],
      selectionMethod := STANDARD, numToSelect := 1, numExploredAtCurLevel := 0,
      lastLevelExplored := -1, draws := [] }
    rfl (by decide) (by decide) (by intro p _; rfl) (by decide)
  t.imp (fun _ h => h.imp (fun _ h2 => ⟨h2.1, h2.2.1, h2.2.2.2.2.1.trans (by decide)⟩))

end CBFSPops

section KBest

theorem takeBest_acc (lt : Ptr → Ptr → Bool) : ∀ (k : Nat) (q : SPQ) (acc : List Ptr),
    CBFSTree.takeBest lt k q acc
      = (acc ++ (CBFSTree.takeBest lt k q []).1, (CBFSTree.takeBest lt k q []).2) := by
  intro k
  induction k with
  | zero => intro q acc; simp [CBFSTree.takeBest]
  | succ k ih =>
    intro q acc
    unfold CBFSTree.takeBest
    cases h : SPQ.top lt q with
    | none => simp
    | some t =>
      simp only
      rw [ih (SPQ.pop lt q) (acc ++ [t]), ih (SPQ.pop lt q) ([] ++ [t])]
      simp

theorem takeBest_succ (lt : Ptr → Ptr → Bool) (k : Nat) (q : SPQ) (t : Ptr)
    (h : SPQ.top lt q = some t) :
    CBFSTree.takeBest lt (k + 1) q []
      = (t :: (CBFSTree.takeBest lt k (SPQ.pop lt q) []).1,
         (CBFSTree.takeBest lt k (SPQ.pop lt q) []).2) := by
  have : CBFSTree.takeBest lt (k + 1) q [] = CBFSTree.takeBest lt k (SPQ.pop lt q) ([] ++ [t]) := by
    rw [CBFSTree.takeBest, h]
  rw [this, takeBest_acc]
  rfl

/-- The states `takeBest` extracts come out best first. -/
theorem takeBest_sorted (lt : Ptr → Ptr → Bool) (hirr : ∀ a, lt a a = false)
    (htr : ∀ a b c, lt a b = true → lt b c = true → lt a c = true) :
    ∀ (k : Nat) (q : SPQ), k ≤ q.length →
      (CBFSTree.takeBest lt k q []).1.length = k ∧
      q.Perm ((CBFSTree.takeBest lt k q []).1 ++ (CBFSTree.takeBest lt k q []).2) ∧
      (CBFSTree.takeBest lt k q []).1.Pairwise (fun a b => lt a b = false) ∧
      ∀ a ∈ (CBFSTree.takeBest lt k q []).1, ∀ x ∈ (CBFSTree.takeBest lt k q []).2,
        lt a x = false := by
  intro k
  induction k with
  | zero =>
    intro q _
    simp [CBFSTree.takeBest]
  | succ k ih =>
    intro q hk
    have hq : q ≠ [] := by intro h; rw [h] at hk; simp at hk
    obtain ⟨t, ht⟩ := @top_isSome lt _ hq
    have hl := pop_length ht
    obtain ⟨h1, h2, h3, h4⟩ := ih (SPQ.pop lt q) (by omega)
    have hmax := top_max hirr htr ht
    have hsub : ∀ x, x ∈ (CBFSTree.takeBest lt k (SPQ.pop lt q) []).1 ++
        (CBFSTree.takeBest lt k (SPQ.pop lt q) []).2 → x ∈ q := by
      intro x hx
      exact (pop_perm ht).symm.subset (List.mem_cons_of_mem _ (h2.symm.subset hx))
    rw [takeBest_succ lt k q t ht]
    refine ⟨by simp [h1], ?_, ?_, ?_⟩
    · exact (pop_perm ht).trans (List.Perm.cons t h2)
    · rw [List.pairwise_cons]
      exact ⟨fun x hx => hmax x (hsub x (List.mem_append_left _ hx)), h3⟩
    · intro a ha x hx
      rcases List.mem_cons.mp ha with h | h
      · rw [h]; exact hmax x (hsub x (List.mem_append_right _ hx))
      · exact h4 a h x hx

/-- A pop of `getNextStateFromCurLevel` when the top of the front level is not
dominated. -/
theorem curLevel_pop (lt : Ptr → Ptr → Bool) (dom : Ptr → Bool) (depth : Ptr → Int)
    (c : CBFSData) (lvl : Nat) (rest : List Nat) (t : Ptr)
    (hL : c.nonEmptyLevelSPQs = lvl :: rest)
    (ht : SPQ.top lt (levelQ c.unexploredStates lvl) = some t) (hd : dom t = false) :
    CBFSTree.getNextStateFromCurLevel lt dom depth c
      = .ok ⟨t, { c with
          unexploredStates :=
            c.unexploredStates.set lvl (SPQ.pop lt (levelQ c.unexploredStates lvl)),
          nonEmptyLevelSPQs :=
            if SPQ.pop lt (levelQ c.unexploredStates lvl) = [] then rest
            else if c.numExploredAtCurLevel + 1 ≥ c.numToSelect then rest ++ [lvl]
            else lvl :: rest,
          numExploredAtCurLevel :=
            if SPQ.pop lt (levelQ c.unexploredStates lvl) = [] then 0
            else if c.numExploredAtCurLevel + 1 ≥ c.numToSelect then 0
            else c.numExploredAtCurLevel + 1,
          lastLevelExplored := depth t }, 0⟩ := by
  have hlen : lvl < c.unexploredStates.length :=
    lt_length_of_levelQ_ne (List.ne_nil_of_mem (top_mem ht))
  unfold CBFSTree.getNextStateFromCurLevel
  rw [hL]
  simp only [CBFSTree.popLevel, ht, CBFSTree.curLevelLoop, hd, Bool.false_eq_true, if_false,
    levelQ_set_self _ _ _ hlen, List.isEmpty_iff, CBFSTree.levelThreshold, hL, List.tail_cons]
  split_ifs <;> rfl

theorem getNextState_kbest (lt : Ptr → Ptr → Bool) (dom : Ptr → Bool) (depth : Ptr → Int)
    (c : CBFSData) (hsel : c.selectionMethod = K_BEST_AT_LEVEL) :
    CBFSTree.getNextState lt dom depth c = CBFSTree.getNextStateFromCurLevel lt dom depth c := by
  have h1 : K_BEST_AT_LEVEL ≠ STANDARD := by decide
  have h2 : K_BEST_AT_LEVEL ≠ RANDOM_FROM_TOP_K := by decide
  unfold CBFSTree.getNextState
  rw [if_neg (by rw [hsel]; exact h1), if_neg (by rw [hsel]; exact h2), if_pos hsel]

/-- A run of pops of `getNextStateFromCurLevel` on the front level, from a
counter `numExploredAtCurLevel` that leaves room for `n + 1` more pops, when
the level holds at least `n + 1` states and the run ends with the quota or
with the level. -/
theorem curLevel_run (lt : Ptr → Ptr → Bool) (dom : Ptr → Bool) (depth : Ptr → Int)
    (lvl : Nat) (rest : List Nat) :
    ∀ (n : Nat) (c : CBFSData),
      c.selectionMethod = K_BEST_AT_LEVEL →
      c.nonEmptyLevelSPQs = lvl :: rest →
      (∀ p ∈ levelQ c.unexploredStates lvl, dom p = false) →
      n + 1 ≤ (levelQ c.unexploredStates lvl).length →
      c.numExploredAtCurLevel + ((n + 1 : Nat) : Int) ≤ c.numToSelect →
      (n + 1 = (levelQ c.unexploredStates lvl).length ∨
        c.numExploredAtCurLevel + ((n + 1 : Nat) : Int) = c.numToSelect) →
      ∃ c1, CBFSTree.pops lt dom depth (n + 1) c
          = .ok ((CBFSTree.takeBest lt (n + 1) (levelQ c.unexploredStates lvl) []).1, c1) ∧
        c1.unexploredStates = c.unexploredStates.set lvl
          (CBFSTree.takeBest lt (n + 1) (levelQ c.unexploredStates lvl) []).2 ∧
        c1.numExploredAtCurLevel = 0 ∧
        c1.nonEmptyLevelSPQs
          = (if (CBFSTree.takeBest lt (n + 1) (levelQ c.unexploredStates lvl) []).2 = []
             then rest else rest ++ [lvl]) ∧
        c1.selectionMethod = c.selectionMethod ∧ c1.numToSelect = c.numToSelect ∧
        c1.draws = c.draws := by
  intro n
  induction n with
  | zero =>
    intro c hsel hL hdom hm hq hend
    have hne : levelQ c.unexploredStates lvl ≠ [] := by
      intro h; rw [h] at hm; simp at hm
    obtain ⟨t, ht⟩ := @top_isSome lt _ hne
    have hd := hdom t (top_mem ht)
    have hpop := curLevel_pop lt dom depth c lvl rest t hL ht hd
    have hl := pop_length ht
    have hK : K_BEST_AT_LEVEL ≠ STANDARD ∧ K_BEST_AT_LEVEL ≠ RANDOM_FROM_TOP_K := by
      constructor <;> decide
    have htb : CBFSTree.takeBest lt (0 + 1) (levelQ c.unexploredStates lvl) []
        = ([t], SPQ.pop lt (levelQ c.unexploredStates lvl)) := by
      rw [takeBest_succ lt 0 _ t ht]; rfl
    rw [htb]
    have hcnt : (if SPQ.pop lt (levelQ c.unexploredStates lvl) = [] then (0 : Int)
        else if c.numExploredAtCurLevel + 1 ≥ c.numToSelect then 0
        else c.numExploredAtCurLevel + 1) = 0 := by
      split_ifs with h1 h2
      · rfl
      · rfl
      · exfalso
        rcases hend with he | he
        · apply h1
          apply List.eq_nil_of_length_eq_zero
          omega
        · apply h2
          simp only [Nat.cast_add, Nat.cast_zero, Nat.cast_one, zero_add] at he
          omega
    have hLn : (if SPQ.pop lt (levelQ c.unexploredStates lvl) = [] then rest
        else if c.numExploredAtCurLevel + 1 ≥ c.numToSelect then rest ++ [lvl]
        else lvl :: rest)
        = (if SPQ.pop lt (levelQ c.unexploredStates lvl) = [] then rest else rest ++ [lvl]) := by
      split_ifs with h1 h2
      · rfl
      · rfl
      · exfalso
        rcases hend with he | he
        · apply h1
          apply List.eq_nil_of_length_eq_zero
          omega
        · apply h2
          simp only [Nat.cast_add, Nat.cast_zero, Nat.cast_one, zero_add] at he
          omega
    rw [hcnt, hLn] at hpop
    have hget := (getNextState_kbest lt dom depth c hsel).trans hpop
    refine ⟨{ c with
        unexploredStates :=
          c.unexploredStates.set lvl (SPQ.pop lt (levelQ c.unexploredStates lvl)),
        nonEmptyLevelSPQs :=
          if SPQ.pop lt (levelQ c.unexploredStates lvl) = [] then rest else rest ++ [lvl],
        numExploredAtCurLevel := 0,
        lastLevelExplored := depth t }, ?_, rfl, rfl, rfl, rfl, rfl, rfl⟩
    unfold CBFSTree.pops
    rw [hget]
    simp only [CBFSTree.pops]
  | succ n ih =>
    intro c hsel hL hdom hm hq hend
    have hne : levelQ c.unexploredStates lvl ≠ [] := by
      intro h; rw [h] at hm; simp at hm
    obtain ⟨t, ht⟩ := @top_isSome lt _ hne
    have hd := hdom t (top_mem ht)
    have hpop := curLevel_pop lt dom depth c lvl rest t hL ht hd
    have hl := pop_length ht
    have hlen : lvl < c.unexploredStates.length := lt_length_of_levelQ_ne hne
    have hK : K_BEST_AT_LEVEL ≠ STANDARD ∧ K_BEST_AT_LEVEL ≠ RANDOM_FROM_TOP_K := by
      constructor <;> decide
    have hpne : SPQ.pop lt (levelQ c.unexploredStates lvl) ≠ [] := by
      intro h
      rw [h] at hl
      simp at hl
      omega
    have hquota : ¬ c.numExploredAtCurLevel + 1 ≥ c.numToSelect := by
      push_cast at hq
      omega
    rw [if_neg hpne, if_neg hquota, if_neg hpne, if_neg hquota] at hpop
    generalize hc1 : ({ c with
        unexploredStates :=
          c.unexploredStates.set lvl (SPQ.pop lt (levelQ c.unexploredStates lvl)),
        nonEmptyLevelSPQs := lvl :: rest,
        numExploredAtCurLevel := c.numExploredAtCurLevel + 1,
        lastLevelExplored := depth t } : CBFSData) = c1 at hpop
    have hU : c1.unexploredStates
        = c.unexploredStates.set lvl (SPQ.pop lt (levelQ c.unexploredStates lvl)) := by
      rw [← hc1]
    have hq1 : levelQ c1.unexploredStates lvl = SPQ.pop lt (levelQ c.unexploredStates lvl) := by
      rw [hU]; exact levelQ_set_self _ _ _ hlen
    have hcnt1 : c1.numExploredAtCurLevel = c.numExploredAtCurLevel + 1 := by rw [← hc1]
    have hk1 : c1.numToSelect = c.numToSelect := by rw [← hc1]
    have hs1 : c1.selectionMethod = c.selectionMethod := by rw [← hc1]
    have hd1 : c1.draws = c.draws := by rw [← hc1]
    have hL1 : c1.nonEmptyLevelSPQs = lvl :: rest := by rw [← hc1]
    obtain ⟨c2, hps, hU2, hcnt2, hL2, hs2, hk2, hd2⟩ := ih c1 (hs1.trans hsel) hL1
      (by rw [hq1]; intro p hp; exact hdom p (mem_pop hp))
      (by rw [hq1]; omega)
      (by rw [hcnt1, hk1]; push_cast at hq ⊢; omega)
      (by
        rw [hq1, hcnt1, hk1]
        rcases hend with he | he
        · left; omega
        · right; push_cast at he ⊢; omega)
    rw [hq1] at hps hU2 hL2
    have hget := (getNextState_kbest lt dom depth c hsel).trans hpop
    rw [takeBest_succ lt (n + 1) _ t ht]
    refine ⟨c2, ?_, ?_, hcnt2, hL2, hs2.trans hs1, hk2.trans hk1, hd2.trans hd1⟩
    · rw [CBFSTree.pops, hget]
      simp only [hps]
    · rw [hU2, hU, List.set_set]

/-- C23: the K_BEST_AT_LEVEL pop of CBFS.  With `k = numToSelect >= 1`, a front
level that holds `m >= 1` states none of which is dominated, the counter
`numExploredAtCurLevel` at 0 and nothing pushed in between, the next
`min(k, m)` calls of `getNextState` return states of that level, best first:
the states `top(); pop()` takes from its queue one after the other.  After the
last of them the queue of the level holds the remaining states and no other
queue has changed, the counter is 0 again, and the level has left the front of
`nonEmptyLevelSPQs`: it is at the back of the list when it still holds a
state, and not in the list when it is empty. -/
theorem cbfs_k_best_at_level (lt : Ptr → Ptr → Bool) (dom : Ptr → Bool) (depth : Ptr → Int)
    (hirr : ∀ a, lt a a = false)
    (htr : ∀ a b c, lt a b = true → lt b c = true → lt a c = true)
    (c : CBFSData) (lvl : Nat) (rest : List Nat)
    (hsel : c.selectionMethod = K_BEST_AT_LEVEL) (hk : 1 ≤ c.numToSelect)
    (hL : c.nonEmptyLevelSPQs = lvl :: rest) (hcnt : c.numExploredAtCurLevel = 0)
    (hne : levelQ c.unexploredStates lvl ≠ [])
    (hdom : ∀ p ∈ levelQ c.unexploredStates lvl, dom p = false) :
    ∃ ps remaining c1,
      CBFSTree.pops lt dom depth
        (min c.numToSelect.toNat (levelQ c.unexploredStates lvl).length) c = .ok (ps, c1) ∧
      ps.length = min c.numToSelect.toNat (levelQ c.unexploredStates lvl).length ∧
      (levelQ c.unexploredStates lvl).Perm (ps ++ remaining) ∧
      ps.Pairwise (fun a b => lt a b = false) ∧
      (∀ a ∈ ps, ∀ x ∈ remaining, lt a x = false) ∧
      levelQ c1.unexploredStates lvl = remaining ∧
      (∀ l, l ≠ lvl → levelQ c1.unexploredStates l = levelQ c.unexploredStates l) ∧
      c1.numExploredAtCurLevel = 0 ∧
      c1.nonEmptyLevelSPQs = (if remaining = [] then rest else rest ++ [lvl]) := by
  have hm : 1 ≤ (levelQ c.unexploredStates lvl).length :=
    Nat.one_le_iff_ne_zero.mpr (fun h => hne (List.eq_nil_of_length_eq_zero h))
  have hlen : lvl < c.unexploredStates.length := lt_length_of_levelQ_ne hne
  obtain ⟨n, hn⟩ : ∃ n, min c.numToSelect.toNat (levelQ c.unexploredStates lvl).length = n + 1 :=
    ⟨min c.numToSelect.toNat (levelQ c.unexploredStates lvl).length - 1, by omega⟩
  rw [hn]
  obtain ⟨c1, hps, hU, hc0, hL1, _, _, _⟩ := curLevel_run lt dom depth lvl rest n c hsel hL hdom
    (by omega) (by rw [hcnt]; omega) (by rw [hcnt]; omega)
  obtain ⟨h1, h2, h3, h4⟩ := takeBest_sorted lt hirr htr (n + 1) (levelQ c.unexploredStates lvl)
    (by omega)
  refine ⟨_, _, c1, hps, h1, h2, h3, h4, ?_, ?_, hc0, hL1⟩
  · rw [hU]; exact levelQ_set_self _ _ _ hlen
  · intro l hl
    rw [hU]; exact levelQ_set_ne _ _ _ _ hl

theorem cbfs_k_best_at_level_witness :
    ∃ ps remaining c1,
      CBFSTree.pops (fun x y => decide (x < y)) (fun _ => false) (fun _ => 0) 2
        { unexploredStates := [[], [4, 9, 6], [2]], nonEmptyLevelSPQs := [1, 2],
          selectionMethod := K_BEST_AT_LEVEL, numToSelect := 2, numExploredAtCurLevel := 0,
          lastLevelExplored := -1, draws := [] } = .ok (ps, c1) ∧
      [4, 9, 6].Perm (ps ++ remaining) ∧ c1.numExploredAtCurLevel = 0 ∧
      c1.nonEmptyLevelSPQs = (if remaining = [] then [2] else [2] ++ [1]) :=
  have t := cbfs_k_best_at_level (fun x y => decide (x < y)) (fun _ => false) (fun _ => 0)
    (fun a => by simp)
    (fun a b c hab hbc => by
      simp only [decide_eq_true_eq] at hab hbc ⊢
      exact lt_trans hab hbc)
    { unexploredStates := [[], [4, 9, 6], [2]], nonEmptyLevelSPQs := [1, 2],
      selectionMethod := K_BEST_AT_LEVEL, numToSelect := 2, numExploredAtCurLevel := 0,
      lastLevelExplored := -1, draws := [] } 1 [2]
    rfl (by decide) rfl rfl (by decide) (by intro p _; rfl)
  t.imp (fun _ h => h.imp (fun _ h1 => h1.imp (fun _ h2 =>
    ⟨h2.1, h2.2.2.1, h2.2.2.2.2.2.2.2.1, h2.2.2.2.2.2.2.2.2⟩)))

end KBest

/-! ## The CDBFS frontier -/

section CDBFS

/-- The cyclic scan of `CDBFSTree::getNextState` stops at the first level that
is not empty. -/
theorem scan_first (qs : List SPQ) :
    ∀ (k cur : Nat), cur < qs.length →
      (∃ j, j < k ∧ levelQ qs ((cur + j) % qs.length) ≠ []) →
      ∃ j, j < k ∧ CDBFSTree.scan qs k cur = some ((cur + j) % qs.length) ∧
        levelQ qs ((cur + j) % qs.length) ≠ [] ∧
        ∀ i, i < j → levelQ qs ((cur + i) % qs.length) = [] := by
  intro k
  induction k with
  | zero => intro cur _ ⟨j, hj, _⟩; omega
  | succ k ih =>
    intro cur hcur ⟨j, hj, hne⟩
    have hmod : cur % qs.length = cur := Nat.mod_eq_of_lt hcur
    unfold CDBFSTree.scan
    by_cases he : (levelQ qs cur).isEmpty = true
    · rw [if_pos he]
      have hnext : (if cur ≥ qs.length - 1 then 0 else cur + 1) = (cur + 1) % qs.length := by
        split_ifs with h
        · have : cur + 1 = qs.length := by omega
          rw [this, Nat.mod_self]
        · rw [Nat.mod_eq_of_lt (by omega)]
      have hshift : ∀ i, ((cur + 1) % qs.length + i) % qs.length = (cur + (i + 1)) % qs.length := by
        intro i
        rw [Nat.add_mod, Nat.mod_mod, ← Nat.add_mod]
        congr 1
        omega
      have hj0 : j ≠ 0 := by
        intro h0
        rw [h0, Nat.add_zero, hmod] at hne
        exact hne (List.isEmpty_iff.mp he)
      obtain ⟨j', hj', hscan, hne', hall⟩ := ih ((cur + 1) % qs.length)
        (Nat.mod_lt _ (by omega)) ⟨j - 1, by omega, by
          rw [hshift]
          rw [show j - 1 + 1 = j by omega]
          exact hne⟩
      refine ⟨j' + 1, by omega, ?_, ?_, ?_⟩
      · rw [hnext, hscan, hshift]
      · rw [← hshift]; exact hne'
      · intro i hi
        cases i with
        | zero => rw [Nat.add_zero, hmod]; exact List.isEmpty_iff.mp he
        | succ i => rw [← hshift]; exact hall i (by omega)
    · rw [if_neg he]
      refine ⟨0, by omega, ?_, ?_, ?_⟩
      · rw [Nat.add_zero, hmod]
      · rw [Nat.add_zero, hmod]
        intro h; exact he (List.isEmpty_iff.mpr h)
      · intro i hi; omega

theorem cyclic_reach (n cur l : Nat) (hcur : cur < n) (hl : l < n) :
    ∃ j, j < n ∧ (cur + j) % n = l := by
  by_cases h : cur ≤ l
  · exact ⟨l - cur, by omega, by rw [show cur + (l - cur) = l by omega, Nat.mod_eq_of_lt hl]⟩
  · refine ⟨l + n - cur, by omega, ?_⟩
    rw [show cur + (l + n - cur) = l + n by omega, Nat.add_mod_right, Nat.mod_eq_of_lt hl]

/-- A new dive of CDBFS once `lastDiveLevel` holds -1 or a depth.  When
`nextBest` is null and the frontier is not empty, `getNextState` scans the
levels in cyclic order from level `(lastDiveLevel + 1) mod size`: it passes the
`j` empty levels it meets first and stops at the first level `lvl` whose queue
is not empty.  When the top `t` of that queue is not dominated it returns `t`,
which it takes out of the queue, counts one state less, and sets
`lastDiveLevel` and `lastLevelExplored` to the depth of `t`, which is `lvl`
when every state waits in the queue of its depth. -/
theorem cdbfs_new_dive (lt : Ptr → Ptr → Bool) (dom : Ptr → Bool) (depth : Ptr → Int)
    (c : CDBFSData)
    (hwf : Frontier.WF depth (.cdbfs c))
    (hnb : c.nextBest = none) (hne : CDBFSTree.isEmpty c = false)
    (hlo : -1 ≤ c.lastDiveLevel) (hhi : c.lastDiveLevel < 2 ^ 31 - 1)
    (hdepth : ∀ l, ∀ p ∈ levelQ c.unexploredStates l, depth p = (l : Int)) :
    ∃ j lvl t, j < c.unexploredStates.length ∧
      lvl = ((c.lastDiveLevel + 1).toNat % c.unexploredStates.length + j)
              % c.unexploredStates.length ∧
      (∀ i, i < j →
        levelQ c.unexploredStates
          (((c.lastDiveLevel + 1).toNat % c.unexploredStates.length + i)
            % c.unexploredStates.length) = []) ∧
      SPQ.top lt (levelQ c.unexploredStates lvl) = some t ∧
      depth t = (lvl : Int) ∧
      (dom t = false →
        CDBFSTree.getNextState lt dom depth c
          = .ok ⟨t, { c with
              unexploredStates :=
                c.unexploredStates.set lvl (SPQ.pop lt (levelQ c.unexploredStates lvl)),
              numUnexploredStates := c.numUnexploredStates - 1,
              lastDiveLevel := (lvl : Int), lastLevelExplored := (lvl : Int) }, 0⟩) := by
  obtain ⟨hcount, _⟩ := hwf
  have hflat : c.unexploredStates.flatten ≠ [] := by
    intro h
    rw [hnb, h] at hcount
    simp only [Option.toList, List.append_nil, List.length_nil, Nat.cast_zero] at hcount
    simp [CDBFSTree.isEmpty, hcount] at hne
  obtain ⟨l0, hl0⟩ := exists_levelQ_ne c.unexploredStates hflat
  have hl0lt : l0 < c.unexploredStates.length := lt_length_of_levelQ_ne hl0
  have hpos : 0 < c.unexploredStates.length := by omega
  have hstart : CDBFSTree.nextLevel c.lastDiveLevel c.unexploredStates.length
      = (c.lastDiveLevel + 1).toNat % c.unexploredStates.length := by
    unfold CDBFSTree.nextLevel
    have h1 : (c.lastDiveLevel + 1 + 2 ^ 31) % 2 ^ 32 = c.lastDiveLevel + 1 + 2 ^ 31 :=
      Int.emod_eq_of_lt (by omega) (by omega)
    rw [h1, Int.add_sub_cancel, Int.emod_eq_of_lt (by omega) (by omega)]
  have hcur : (c.lastDiveLevel + 1).toNat % c.unexploredStates.length
      < c.unexploredStates.length := Nat.mod_lt _ hpos
  obtain ⟨j0, hj0, hj0eq⟩ := cyclic_reach c.unexploredStates.length _ l0 hcur hl0lt
  obtain ⟨j, hj, hscan, hnej, hall⟩ := scan_first c.unexploredStates
    (c.unexploredStates.length + 1) _ hcur ⟨j0, by omega, by rw [hj0eq]; exact hl0⟩
  have hjlt : j < c.unexploredStates.length := by
    by_contra hge
    have := hall j0 (by omega)
    rw [hj0eq] at this
    exact hl0 this
  obtain ⟨t, ht⟩ := @top_isSome lt _ hnej
  have hdt := hdepth _ t (top_mem ht)
  refine ⟨j, _, t, hjlt, rfl, hall, ht, hdt, ?_⟩
  intro hd
  unfold CDBFSTree.getNextState
  rw [hnb]
  simp only
  rw [if_neg (by omega), hstart, hscan]
  simp only [ht]
  rw [cdbfs_skipDominated_of_not_dom _ _ _ _ _ _ _ hd, hdt]

theorem cdbfs_new_dive_witness :
    ∃ j lvl t, j < 3 ∧ SPQ.top (fun x y => decide (x < y)) (levelQ [[], [8], [5]] lvl) = some t ∧
      (if t = 8 then (1 : Int) else 2) = (lvl : Int) :=
  have hwf : Frontier.WF (fun p => if p = 8 then (1 : Int) else 2)
      (.cdbfs { unexploredStates := [[], [8], [5]], nonEmptyLevelSPQs := [], nextBest := none,
                lastDiveLevel := 2, lastLevelExplored := 2, numUnexploredStates := 2 }) :=
    ⟨by decide, fun nb h => by cases h⟩
  have hdepth : ∀ l, ∀ p ∈ levelQ [[], [8], [5]] l,
      (fun p => if p = 8 then (1 : Int) else 2) p = (l : Int) := by
    intro l p hp
    match l with
    | 0 => simp [levelQ] at hp
    | 1 => simp [levelQ] at hp; simp [hp]
    | 2 => simp [levelQ] at hp; simp [hp]
    | n + 3 => simp [levelQ] at hp
  (cdbfs_new_dive (fun x y => decide (x < y)) (fun _ => false)
    (fun p => if p = 8 then (1 : Int) else 2)
    { unexploredStates := [[], [8], [5]], nonEmptyLevelSPQs := [], nextBest := none,
      lastDiveLevel := 2, lastLevelExplored := 2, numUnexploredStates := 2 }
    hwf rfl (by decide) (by decide) (by decide) hdepth).imp
    (fun _ h => h.imp (fun _ h2 => h2.imp (fun _ h3 => ⟨h3.1, h3.2.2.2.1, h3.2.2.2.2.1⟩)))

theorem levelQ_push (qs : List SPQ) (lv l : Nat) (p : Ptr) (h : lv < qs.length) :
    levelQ (qs.set lv (SPQ.push (levelQ qs lv) p)) l
      = levelQ qs l ++ (if l = lv then [p] else []) := by
  rw [standard_pop_levelQ _ _ _ _ h]
  split_ifs with hl
  · rw [hl]; rfl
  · simp

/-- A push onto a CDBFS frontier whose `nextBest` is of lower priority than
the pushed state. -/
theorem cdbfs_save_replace (prio : Ptr → ℚ) (depth : Ptr → Int) (c : CDBFSData) (nb p : Ptr)
    (hnb : c.nextBest = some nb) (hd0 : 0 ≤ depth nb)
    (hdlen : (depth nb).toNat < c.unexploredStates.length)
    (hp : 0 ≤ depth p ∧ depth p ≠ c.lastLevelExplored) (hlt : prio nb < prio p) :
    ∃ c0, CDBFSTree.saveStateForExploration prio depth c p (depth p) = .ok c0 ∧
      c0.nextBest = some p ∧
      (∀ l, levelQ c0.unexploredStates l
        = levelQ c.unexploredStates l ++ (if l = (depth nb).toNat then [nb] else [])) ∧
      (depth p).toNat < c0.unexploredStates.length ∧
      c0.numUnexploredStates = c.numUnexploredStates + 1 ∧
      c0.lastLevelExplored = c.lastLevelExplored ∧ c0.lastDiveLevel = c.lastDiveLevel ∧
      c0.nonEmptyLevelSPQs = c.nonEmptyLevelSPQs := by
  have hgl := growLevels_length c.unexploredStates (depth p).toNat
  have hge := growLevels_length_ge c.unexploredStates (depth p).toNat
  refine ⟨{ c with
      numUnexploredStates := c.numUnexploredStates + 1,
      unexploredStates :=
        (growLevels c.unexploredStates (depth p).toNat).set (depth nb).toNat
          (SPQ.push (levelQ (growLevels c.unexploredStates (depth p).toNat)
            (depth nb).toNat) nb),
      nextBest := some p }, ?_, rfl, ?_, ?_, rfl, rfl, rfl, rfl⟩
  · unfold CDBFSTree.saveStateForExploration
    rw [if_neg (not_lt.mpr hp.1)]
    simp only [hnb]
    rw [if_neg hp.2, if_pos hlt, if_neg (by
      intro h
      rcases h with h | h
      · omega
      · omega)]
  · intro l
    simp only
    rw [levelQ_push _ _ _ _ (lt_of_lt_of_le hdlen hge), growLevels_levelQ]
  · simp only [List.length_set]; exact hgl

/-- A push onto a CDBFS frontier whose `nextBest` is not of lower priority than
the pushed state. -/
theorem cdbfs_save_keep (prio : Ptr → ℚ) (depth : Ptr → Int) (c : CDBFSData) (nb p : Ptr)
    (hnb : c.nextBest = some nb)
    (hp : 0 ≤ depth p ∧ depth p ≠ c.lastLevelExplored) (hlt : ¬ prio nb < prio p) :
    ∃ c0, CDBFSTree.saveStateForExploration prio depth c p (depth p) = .ok c0 ∧
      c0.nextBest = some nb ∧
      (∀ l, levelQ c0.unexploredStates l
        = levelQ c.unexploredStates l ++ (if l = (depth p).toNat then [p] else [])) ∧
      c.unexploredStates.length ≤ c0.unexploredStates.length ∧
      c0.numUnexploredStates = c.numUnexploredStates + 1 ∧
      c0.lastLevelExplored = c.lastLevelExplored ∧ c0.lastDiveLevel = c.lastDiveLevel ∧
      c0.nonEmptyLevelSPQs = c.nonEmptyLevelSPQs := by
  have hgl := growLevels_length c.unexploredStates (depth p).toNat
  have hge := growLevels_length_ge c.unexploredStates (depth p).toNat
  refine ⟨{ c with
      numUnexploredStates := c.numUnexploredStates + 1,
      unexploredStates :=
        (growLevels c.unexploredStates (depth p).toNat).set (depth p).toNat
          (SPQ.push (levelQ (growLevels c.unexploredStates (depth p).toNat)
            (depth p).toNat) p) }, ?_, hnb, ?_, ?_, rfl, rfl, rfl, rfl⟩
  · unfold CDBFSTree.saveStateForExploration
    rw [if_neg (not_lt.mpr hp.1)]
    simp only [hnb]
    rw [if_neg hp.2, if_neg hlt]
  · intro l
    simp only
    rw [levelQ_push _ _ _ _ hgl, growLevels_levelQ]
  · simp only [List.length_set]; exact hge

/-- Pushes onto a CDBFS frontier whose `nextBest` is taken: the slot ends with
the state of greatest priority (the earliest among equals) of `nextBest` and
the pushed states, and the others are in the queues of their depths. -/
theorem pushes_from_best (prio : Ptr → ℚ) (depth : Ptr → Int) :
    ∀ (ps : List Ptr) (c : CDBFSData) (nb : Ptr),
      c.nextBest = some nb → 0 ≤ depth nb → (depth nb).toNat < c.unexploredStates.length →
      (∀ p ∈ ps, 0 ≤ depth p ∧ depth p ≠ c.lastLevelExplored) →
      ∃ c1 before b after, CDBFSTree.pushes prio depth c ps = .ok c1 ∧
        nb :: ps = before ++ b :: after ∧
        (∀ x ∈ before, prio x < prio b) ∧ (∀ x ∈ after, prio x ≤ prio b) ∧
        c1.nextBest = some b ∧
        (∀ l, (levelQ c1.unexploredStates l).Perm
          (levelQ c.unexploredStates l ++
            (before ++ after).filter (fun x => decide ((depth x).toNat = l)))) ∧
        c1.numUnexploredStates = c.numUnexploredStates + (ps.length : Int) ∧
        c1.lastLevelExplored = c.lastLevelExplored ∧ c1.lastDiveLevel = c.lastDiveLevel ∧
        c1.nonEmptyLevelSPQs = c.nonEmptyLevelSPQs := by
  intro ps
  induction ps with
  | nil =>
    intro c nb hnb _ _ _
    refine ⟨c, [], nb, [], rfl, rfl, ?_, ?_, hnb, ?_, ?_, rfl, rfl, rfl⟩
    · intro x hx; cases hx
    · intro x hx; cases hx
    · intro l; simp
    · simp
  | cons p ps ih =>
    intro c nb hnb hd0 hdlen hps
    have hp := hps p (List.mem_cons_self _ _)
    by_cases hlt : prio nb < prio p
    · -- the new state takes the slot, the old one goes to the queue of its depth
      obtain ⟨c0, hsave, h0nb, h0q, h0len, h0num, h0ll, h0ld, h0nl⟩ :=
        cdbfs_save_replace prio depth c nb p hnb hd0 hdlen hp hlt
      obtain ⟨c1, before, b, after, hpush, hsplit, hbef, haft, hnb1, hq, hnum, hll, hld, hnl⟩ :=
        ih c0 p h0nb hp.1 h0len
          (fun x hx => by rw [h0ll]; exact hps x (List.mem_cons_of_mem _ hx))
      have hpb : prio p ≤ prio b := by
        cases before with
        | nil =>
          simp only [List.nil_append, List.cons.injEq] at hsplit
          rw [hsplit.1]
        | cons a bs =>
          simp only [List.cons_append, List.cons.injEq] at hsplit
          rw [hsplit.1]
          exact le_of_lt (hbef a (List.mem_cons_self _ _))
      refine ⟨c1, nb :: before, b, after, ?_, ?_, ?_, haft, hnb1, ?_, ?_,
        hll.trans h0ll, hld.trans h0ld, hnl.trans h0nl⟩
      · rw [CDBFSTree.pushes, hsave]; exact hpush
      · rw [hsplit]; rfl
      · intro x hx
        rcases List.mem_cons.mp hx with h | h
        · rw [h]; exact lt_of_lt_of_le hlt hpb
        · exact hbef x h
      · intro l
        refine (hq l).trans ?_
        rw [h0q]
        simp only [List.cons_append, List.filter_cons]
        by_cases hl : l = (depth nb).toNat
        · rw [if_pos hl, if_pos (by simp [hl] : decide ((depth nb).toNat = l) = true)]
          rw [List.append_assoc]
          exact List.Perm.append_left _ (by simp)
        · rw [if_neg hl, if_neg (by simp; exact fun h => hl h.symm :
            ¬ decide ((depth nb).toNat = l) = true)]
          simp
      · rw [hnum, h0num]; simp only [List.length_cons]; push_cast; ring
    · -- the new state goes to the queue of its depth
      obtain ⟨c0, hsave, h0nb, h0q, h0len, h0num, h0ll, h0ld, h0nl⟩ :=
        cdbfs_save_keep prio depth c nb p hnb hp hlt
      obtain ⟨c1, before, b, after, hpush, hsplit, hbef, haft, hnb1, hq, hnum, hll, hld, hnl⟩ :=
        ih c0 nb h0nb hd0 (lt_of_lt_of_le hdlen h0len)
          (fun x hx => by rw [h0ll]; exact hps x (List.mem_cons_of_mem _ hx))
      cases before with
      | nil =>
        simp only [List.nil_append, List.cons.injEq] at hsplit
        refine ⟨c1, [], b, p :: after, ?_, ?_, ?_, ?_, hnb1, ?_, ?_,
          hll.trans h0ll, hld.trans h0ld, hnl.trans h0nl⟩
        · rw [CDBFSTree.pushes, hsave]; exact hpush
        · rw [← hsplit.1, hsplit.2]; rfl
        · intro x hx; cases hx
        · intro x hx
          rcases List.mem_cons.mp hx with h | h
          · rw [h, ← hsplit.1]; exact not_lt.mp hlt
          · exact haft x h
        · intro l
          refine (hq l).trans ?_
          rw [h0q, List.nil_append, List.nil_append, List.filter_cons]
          by_cases hl : l = (depth p).toNat
          · rw [if_pos hl, if_pos (by simp [hl] : decide ((depth p).toNat = l) = true),
              List.append_assoc]
            rfl
          · rw [if_neg hl, if_neg (by simp; exact fun h => hl h.symm :
              ¬ decide ((depth p).toNat = l) = true)]
            simp
        · rw [hnum, h0num]; simp only [List.length_cons]; push_cast; ring
      | cons a bs =>
        simp only [List.cons_append, List.cons.injEq] at hsplit
        refine ⟨c1, nb :: p :: bs, b, after, ?_, ?_, ?_, haft, hnb1, ?_, ?_,
          hll.trans h0ll, hld.trans h0ld, hnl.trans h0nl⟩
        · rw [CDBFSTree.pushes, hsave]; exact hpush
        · rw [hsplit.2]; rfl
        · intro x hx
          have hnbb : prio nb < prio b := by
            rw [hsplit.1]; exact hbef a (List.mem_cons_self _ _)
          rcases List.mem_cons.mp hx with h | h
          · rw [h]; exact hnbb
          · rcases List.mem_cons.mp h with h | h
            · rw [h]; exact lt_of_le_of_lt (not_lt.mp hlt) hnbb
            · exact hbef x (List.mem_cons_of_mem _ h)
        · intro l
          refine (hq l).trans ?_
          rw [h0q]
          simp only [List.cons_append, List.filter_cons]
          rw [← hsplit.1]
          by_cases hl : l = (depth p).toNat
          · rw [if_pos hl, if_pos (by simp [hl] : decide ((depth p).toNat = l) = true)]
            rw [List.append_assoc]
            apply List.Perm.append_left
            split_ifs
            · simpa using List.Perm.swap nb p _
            · simp
          · rw [if_neg hl, if_neg (by simp; exact fun h => hl h.symm :
              ¬ decide ((depth p).toNat = l) = true)]
            simp
        · rw [hnum, h0num]; simp only [List.length_cons]; push_cast; ring

/-- C26: continuing a dive of CDBFS.  When `nextBest` is null and the states
of the list `ps` (not empty), all at a depth that is not negative and differs
from `lastLevelExplored`, are pushed in the order of the list, then `nextBest`
holds the pushed state `b` of greatest priority, the earliest pushed among
those of that priority: the states pushed before `b` have a strictly lower
priority and those pushed after it have no higher one.  Every other pushed
state is in the queue of its depth, next to what that queue held, all the
pushed states are counted, and the next `getNextState` returns `b` (whatever
its dominated flag), clears `nextBest`, counts one state less and sets
`lastLevelExplored` to the depth of `b`. -/
theorem cdbfs_dive_continuation (prio : Ptr → ℚ) (lt : Ptr → Ptr → Bool) (dom : Ptr → Bool)
    (depth : Ptr → Int) (c : CDBFSData) (ps : List Ptr)
    (hnb : c.nextBest = none) (hne : ps ≠ [])
    (hps : ∀ p ∈ ps, 0 ≤ depth p ∧ depth p ≠ c.lastLevelExplored) :
    ∃ c1 before b after, CDBFSTree.pushes prio depth c ps = .ok c1 ∧
      ps = before ++ b :: after ∧
      (∀ x ∈ before, prio x < prio b) ∧ (∀ x ∈ after, prio x ≤ prio b) ∧
      c1.nextBest = some b ∧
      (∀ l, (levelQ c1.unexploredStates l).Perm
        (levelQ c.unexploredStates l ++
          (before ++ after).filter (fun x => decide ((depth x).toNat = l)))) ∧
      c1.numUnexploredStates = c.numUnexploredStates + (ps.length : Int) ∧
      CDBFSTree.getNextState lt dom depth c1
        = .ok ⟨b, { c1 with nextBest := none, lastLevelExplored := depth b,
                            numUnexploredStates := c1.numUnexploredStates - 1 }, 0⟩ := by
  cases ps with
  | nil => exact absurd rfl hne
  | cons p ps =>
    have hp := hps p (List.mem_cons_self _ _)
    have hgl := growLevels_length c.unexploredStates (depth p).toNat
    have hsave : CDBFSTree.saveStateForExploration prio depth c p (depth p)
        = .ok { c with numUnexploredStates := c.numUnexploredStates + 1,
                       unexploredStates := growLevels c.unexploredStates (depth p).toNat,
                       nextBest := some p } := by
      unfold CDBFSTree.saveStateForExploration
      rw [if_neg (not_lt.mpr hp.1)]
      simp only [hnb]
      rw [if_neg hp.2]
    obtain ⟨c1, before, b, after, hpush, hsplit, hbef, haft, hnb1, hq, hnum, _, _, _⟩ :=
      pushes_from_best prio depth ps
        { c with numUnexploredStates := c.numUnexploredStates + 1,
                 unexploredStates := growLevels c.unexploredStates (depth p).toNat,
                 nextBest := some p } p rfl hp.1 hgl
        (fun x hx => hps x (List.mem_cons_of_mem _ hx))
    refine ⟨c1, before, b, after, ?_, hsplit, hbef, haft, hnb1, ?_, ?_, ?_⟩
    · rw [CDBFSTree.pushes, hsave]; exact hpush
    · intro l
      have := hq l
      simp only [growLevels_levelQ] at this
      exact this
    · rw [hnum]; simp only [List.length_cons]; push_cast; ring
    · unfold CDBFSTree.getNextState
      rw [hnb1]

theorem cdbfs_dive_continuation_witness :
    ∃ c1 before b after,
      CDBFSTree.pushes (fun p => if p = 2 then 7 else 4) (fun _ => 1)
        { unexploredStates := [[]], nonEmptyLevelSPQs := [], nextBest := none,
          lastDiveLevel := 0, lastLevelExplored := 0, numUnexploredStates := 0 }
        [1, 2, 3] = .ok c1 ∧
      [1, 2, 3] = before ++ b :: after ∧ c1.nextBest = some b ∧ c1.numUnexploredStates = 3 :=
  (cdbfs_dive_continuation (fun p => if p = 2 then 7 else 4) (fun x y => decide (x < y))
    (fun _ => false) (fun _ => 1)
    { unexploredStates := [[]], nonEmptyLevelSPQs := [], nextBest := none,
      lastDiveLevel := 0, lastLevelExplored := 0, numUnexploredStates := 0 }
    [1, 2, 3] rfl (by decide)
    (fun _ _ => ⟨show (0 : Int) ≤ 1 by decide, show (1 : Int) ≠ 0 by decide⟩)).imp
    (fun _ h => h.imp (fun _ h1 => h1.imp (fun _ h2 => h2.imp (fun _ h3 =>
      ⟨h3.1, h3.2.1, h3.2.2.2.2.1, h3.2.2.2.2.2.2.1⟩))))

end CDBFS

/-! ## The random selection of CBFS -/

/-- C24, the code at two failing inputs.  A level holds the states 1 to 5, best
first.  With `numToSelect = 1` and the states 1, 2 and 3 dominated,
`getNextState` returns state 4 and leaves the queue of the level empty, and the
frontier with it: state 5, which is not dominated and was not returned, is in
no queue any more.  With `numToSelect = 3`, the states 2 and 3 dominated and
the draws 1/2, 1/2 and 0, it returns state 1 and leaves the queue holding
state 4 twice and state 5 not at all.  The vector `bestAtLevel` keeps stale
cells behind `numStates` after `std::remove`, and `push_back` appends behind
them. -/
theorem random_top_k_loses_states :
    (CBFSTree.getNextState smallerFirst (fun p => decide (p ≤ 3)) (fun _ => 0)
      (fiveStates 1 [1 / 2, 1 / 2, 1 / 2, 1 / 2, 1 / 2])).toOption.map
        (fun r => (r.next, r.rest.unexploredStates, CBFSTree.isEmpty r.rest))
      = some (4, [[]], true) ∧
    (CBFSTree.getNextState smallerFirst (fun p => decide (p = 2 ∨ p = 3)) (fun _ => 0)
      (fiveStates 3 [1 / 2, 1 / 2, 0])).toOption.map
        (fun r => (r.next, r.rest.unexploredStates, CBFSTree.isEmpty r.rest))
      = some (1, [[4, 4]], false) := by
  refine ⟨by decide!, by decide!⟩

/-! ## Lazy dominance filtering -/

section Lazy

theorem dfs_dominated_result (dom : Ptr → Bool) :
    ∀ (xs : List Ptr) (cur : Ptr) (n : Nat),
      dom (DFSTree.skipDominated dom cur xs n).next = true →
      (DFSTree.skipDominated dom cur xs n).rest = [] ∧ ∀ x ∈ cur :: xs, dom x = true := by
  intro xs
  induction xs with
  | nil =>
    intro cur n h
    unfold DFSTree.skipDominated at h ⊢
    exact ⟨rfl, by simpa using h⟩
  | cons x xs ih =>
    intro cur n h
    unfold DFSTree.skipDominated at h ⊢
    by_cases hd : dom cur = true
    · rw [if_pos hd] at h ⊢
      obtain ⟨h1, h2⟩ := ih x (n + 1) h
      refine ⟨h1, ?_⟩
      intro y hy
      rcases List.mem_cons.mp hy with hy | hy
      · rw [hy]; exact hd
      · exact h2 y hy
    · rw [if_neg hd] at h
      exact absurd h hd

theorem brfs_dominated_result (dom : Ptr → Bool) :
    ∀ (xs : List Ptr) (cur : Ptr) (n : Nat),
      dom (BrFSTree.skipDominated dom cur xs n).next = true →
      (BrFSTree.skipDominated dom cur xs n).rest = [] ∧ ∀ x ∈ cur :: xs, dom x = true := by
  intro xs
  induction xs with
  | nil =>
    intro cur n h
    unfold BrFSTree.skipDominated at h ⊢
    exact ⟨rfl, by simpa using h⟩
  | cons x xs ih =>
    intro cur n h
    unfold BrFSTree.skipDominated at h ⊢
    by_cases hd : dom cur = true
    · rw [if_pos hd] at h ⊢
      obtain ⟨h1, h2⟩ := ih x (n + 1) h
      refine ⟨h1, ?_⟩
      intro y hy
      rcases List.mem_cons.mp hy with hy | hy
      · rw [hy]; exact hd
      · exact h2 y hy
    · rw [if_neg hd] at h
      exact absurd h hd

theorem bfs_dominated_result (lt : Ptr → Ptr → Bool) (dom : Ptr → Bool) :
    ∀ (k : Nat) (cur : Ptr) (q : SPQ) (n : Nat), q.length < k →
      dom (BFSTree.skipDominated lt dom k cur q n).next = true →
      (BFSTree.skipDominated lt dom k cur q n).rest = [] ∧ ∀ x ∈ cur :: q, dom x = true := by
  intro k
  induction k with
  | zero => intro cur q n hk; omega
  | succ k ih =>
    intro cur q n hk h
    unfold BFSTree.skipDominated at h ⊢
    by_cases hd : dom cur = true
    · rw [if_pos hd] at h ⊢
      cases ht : SPQ.top lt q with
      | none =>
        have hq : q = [] := top_eq_none.mp ht
        simp only [ht]
        rw [hq]
        exact ⟨rfl, by simpa using hd⟩
      | some t =>
        simp only [ht] at h ⊢
        have hl := pop_length ht
        obtain ⟨h1, h2⟩ := ih t (SPQ.pop lt q) (n + 1) (by omega) h
        refine ⟨h1, ?_⟩
        intro y hy
        rcases List.mem_cons.mp hy with hy | hy
        · rw [hy]; exact hd
        · exact h2 y ((pop_perm ht).subset hy)
    · rw [if_neg hd] at h
      exact absurd h hd

/-- The loop of a new dive of CDBFS returns a state of the level of the dive,
and a dominated one only when that level is exhausted. -/
theorem cdbfs_skipDominated_result (lt : Ptr → Ptr → Bool) (dom : Ptr → Bool)
    (depth : Ptr → Int) (lvl : Nat) :
    ∀ (k : Nat) (c : CDBFSData) (ns : Ptr),
      (levelQ c.unexploredStates lvl).length < k →
      ∃ r, CDBFSTree.skipDominated lt dom depth k c lvl ns = .ok r ∧
        (r.next = ns ∨ r.next ∈ levelQ c.unexploredStates lvl) ∧
        (dom r.next = true →
          levelQ r.rest.unexploredStates lvl = [] ∧ dom ns = true ∧
          ∀ x ∈ levelQ c.unexploredStates lvl, dom x = true) := by
  intro k
  induction k with
  | zero => intro c ns hk; omega
  | succ k ih =>
    intro c ns hk
    unfold CDBFSTree.skipDominated
    by_cases hd : dom ns = true
    · rw [if_pos hd]
      cases ht : SPQ.top lt (levelQ c.unexploredStates lvl) with
      | none =>
        have hq := top_eq_none.mp ht
        refine ⟨_, rfl, Or.inl rfl, fun _ => ⟨hq, hd, ?_⟩⟩
        rw [hq]; intro x hx; cases hx
      | some t =>
        simp only
        have hl := pop_length ht
        have hlen : lvl < c.unexploredStates.length :=
          lt_length_of_levelQ_ne (List.ne_nil_of_mem (top_mem ht))
        obtain ⟨r, hr, hmem, hprop⟩ := ih
          { c with unexploredStates :=
                     c.unexploredStates.set lvl (SPQ.pop lt (levelQ c.unexploredStates lvl)),
                   numUnexploredStates := c.numUnexploredStates - 1 } t
          (by simp only [levelQ_set_self _ _ _ hlen]; omega)
        simp only [levelQ_set_self _ _ _ hlen] at hmem hprop
        refine ⟨r, hr, Or.inr ?_, fun h => ?_⟩
        · rcases hmem with h | h
          · rw [h]; exact top_mem ht
          · exact mem_pop h
        · obtain ⟨h1, h2, h3⟩ := hprop h
          refine ⟨h1, hd, ?_⟩
          intro x hx
          rcases List.mem_cons.mp ((pop_perm ht).subset hx) with hx | hx
          · rw [hx]; exact h2
          · exact h3 x hx
    · rw [if_neg hd]
      exact ⟨_, rfl, Or.inl rfl, fun h => absurd h hd⟩

theorem totalSize_eq (qs : List SPQ) : totalSize qs = qs.flatten.length := by
  unfold totalSize
  rw [List.length_flatten]

theorem flatten_eq_nil_of_levels (qs : List SPQ) (h : ∀ l, levelQ qs l = []) :
    qs.flatten = [] := by
  by_contra hne
  obtain ⟨l, hl⟩ := exists_levelQ_ne qs hne
  exact hl (h l)

/-- The loop of `getNextStateStandard` returns, and a dominated state only when
every waiting state is dominated and the list of levels is left empty. -/
theorem standardLoop_result (lt : Ptr → Ptr → Bool) (dom : Ptr → Bool) (depth : Ptr → Int) :
    ∀ (k : Nat) (c : CBFSData) (lvl : Nat) (ns : Ptr),
      c.unexploredStates.flatten.length < k →
      c.nonEmptyLevelSPQs.Nodup → lvl ∉ c.nonEmptyLevelSPQs →
      (∀ l ∈ c.nonEmptyLevelSPQs, levelQ c.unexploredStates l ≠ []) →
      (∀ l, levelQ c.unexploredStates l ≠ [] → l ∈ c.nonEmptyLevelSPQs ∨ l = lvl) →
      ∃ r, CBFSTree.standardLoop lt dom depth k c lvl ns = .ok r ∧
        (dom r.next = true →
          r.rest.nonEmptyLevelSPQs = [] ∧ dom ns = true ∧
          ∀ p ∈ c.unexploredStates.flatten, dom p = true) := by
  intro k
  induction k with
  | zero => intro c lvl ns hk; omega
  | succ k ih =>
    intro c lvl ns hk hnd hlvl hL hall
    unfold CBFSTree.standardLoop
    by_cases hd : dom ns = true
    · rw [if_pos hd]
      by_cases he : (levelQ c.unexploredStates lvl).isEmpty = true
      · rw [if_pos he]
        have hqe : levelQ c.unexploredStates lvl = [] := List.isEmpty_iff.mp he
        cases hLc : c.nonEmptyLevelSPQs with
        | nil =>
          refine ⟨_, rfl, fun _ => ⟨rfl, hd, ?_⟩⟩
          have : c.unexploredStates.flatten = [] := by
            apply flatten_eq_nil_of_levels
            intro l
            by_contra hne
            rcases hall l hne with h | h
            · rw [hLc] at h; cases h
            · rw [h] at hne; exact hne hqe
          rw [this]; intro p hp; cases hp
        | cons l rest =>
          rw [hLc] at hnd hL hall
          have hql : levelQ c.unexploredStates l ≠ [] := hL l (List.mem_cons_self _ _)
          obtain ⟨t, ht⟩ := @top_isSome lt _ hql
          have hlen : l < c.unexploredStates.length := lt_length_of_levelQ_ne hql
          have hperm := cbfs_flatten_after_pop c.unexploredStates l t _ hlen (pop_perm ht)
          have hfl := hperm.length_eq
          simp only [List.length_cons] at hfl
          simp only [CBFSTree.popLevel, ht]
          obtain ⟨r, hr, hprop⟩ := ih
            { c with nonEmptyLevelSPQs := rest,
                     unexploredStates :=
                       c.unexploredStates.set l (SPQ.pop lt (levelQ c.unexploredStates l)) }
            l t (by simp only; omega) (List.nodup_cons.mp hnd).2 (List.nodup_cons.mp hnd).1
            (by
              intro l1 hl1
              simp only
              have hne1 : l1 ≠ l := fun h => (List.nodup_cons.mp hnd).1 (h ▸ hl1)
              rw [levelQ_set_ne _ _ _ _ hne1]
              exact hL l1 (List.mem_cons_of_mem _ hl1))
            (by
              intro l1 hl1
              simp only at hl1 ⊢
              by_cases h1 : l1 = l
              · exact Or.inr h1
              · rw [levelQ_set_ne _ _ _ _ h1] at hl1
                rcases hall l1 hl1 with h | h
                · rcases List.mem_cons.mp h with h | h
                  · exact absurd h h1
                  · exact Or.inl h
                · rw [h] at hl1; exact absurd hqe hl1)
          refine ⟨r, hr, fun h => ?_⟩
          obtain ⟨h1, h2, h3⟩ := hprop h
          refine ⟨h1, hd, ?_⟩
          intro p hp
          rcases List.mem_cons.mp (hperm.subset hp) with hp | hp
          · rw [hp]; exact h2
          · exact h3 p hp
      · rw [if_neg he]
        have hql : levelQ c.unexploredStates lvl ≠ [] := fun h => he (List.isEmpty_iff.mpr h)
        obtain ⟨t, ht⟩ := @top_isSome lt _ hql
        have hlen : lvl < c.unexploredStates.length := lt_length_of_levelQ_ne hql
        have hperm := cbfs_flatten_after_pop c.unexploredStates lvl t _ hlen (pop_perm ht)
        have hfl := hperm.length_eq
        simp only [List.length_cons] at hfl
        simp only [CBFSTree.popLevel, ht]
        obtain ⟨r, hr, hprop⟩ := ih
          { c with unexploredStates :=
                     c.unexploredStates.set lvl (SPQ.pop lt (levelQ c.unexploredStates lvl)) }
          lvl t (by simp only; omega) hnd hlvl
          (by
            intro l1 hl1
            simp only
            have hne1 : l1 ≠ lvl := fun h => hlvl (h ▸ hl1)
            rw [levelQ_set_ne _ _ _ _ hne1]
            exact hL l1 hl1)
          (by
            intro l1 hl1
            simp only at hl1 ⊢
            by_cases h1 : l1 = lvl
            · exact Or.inr h1
            · rw [levelQ_set_ne _ _ _ _ h1] at hl1
              exact hall l1 hl1)
        refine ⟨r, hr, fun h => ?_⟩
        obtain ⟨h1, h2, h3⟩ := hprop h
        refine ⟨h1, hd, ?_⟩
        intro p hp
        rcases List.mem_cons.mp (hperm.subset hp) with hp | hp
        · rw [hp]; exact h2
        · exact h3 p hp
    · rw [if_neg hd]
      exact ⟨_, rfl, fun h => absurd h hd⟩

/-- The function `getNextStateStandard` returns on a consistent frontier that is
not empty, and a dominated state only when every waiting state is dominated
and the frontier is left empty. -/
theorem getNextStateStandard_result (lt : Ptr → Ptr → Bool) (dom : Ptr → Bool)
    (depth : Ptr → Int) (c : CBFSData)
    (hnd : c.nonEmptyLevelSPQs.Nodup)
    (hiff : ∀ lvl, lvl ∈ c.nonEmptyLevelSPQs ↔ levelQ c.unexploredStates lvl ≠ [])
    (hne : c.nonEmptyLevelSPQs ≠ []) :
    ∃ r, CBFSTree.getNextStateStandard lt dom depth c = .ok r ∧
      (dom r.next = true →
        r.rest.nonEmptyLevelSPQs = [] ∧ ∀ p ∈ c.unexploredStates.flatten, dom p = true) := by
  unfold CBFSTree.getNextStateStandard
  cases hLc : c.nonEmptyLevelSPQs with
  | nil => exact absurd hLc hne
  | cons l rest =>
    rw [hLc] at hnd hiff
    have hql : levelQ c.unexploredStates l ≠ [] := (hiff l).mp (List.mem_cons_self _ _)
    obtain ⟨t, ht⟩ := @top_isSome lt _ hql
    have hlen : l < c.unexploredStates.length := lt_length_of_levelQ_ne hql
    have hperm := cbfs_flatten_after_pop c.unexploredStates l t _ hlen (pop_perm ht)
    have hfl := hperm.length_eq
    simp only [List.length_cons] at hfl
    simp only [CBFSTree.popLevel, ht]
    obtain ⟨r, hr, hprop⟩ := standardLoop_result lt dom depth
      (totalSize c.unexploredStates + 1)
      { c with nonEmptyLevelSPQs := rest,
               unexploredStates :=
                 c.unexploredStates.set l (SPQ.pop lt (levelQ c.unexploredStates l)) }
      l t (by simp only; rw [totalSize_eq]; omega) (List.nodup_cons.mp hnd).2
      (List.nodup_cons.mp hnd).1
      (by
        intro l1 hl1
        simp only
        have hne1 : l1 ≠ l := fun h => (List.nodup_cons.mp hnd).1 (h ▸ hl1)
        rw [levelQ_set_ne _ _ _ _ hne1]
        exact (hiff l1).mp (List.mem_cons_of_mem _ hl1))
      (by
        intro l1 hl1
        simp only at hl1 ⊢
        by_cases h1 : l1 = l
        · exact Or.inr h1
        · rw [levelQ_set_ne _ _ _ _ h1] at hl1
          rcases List.mem_cons.mp ((hiff l1).mpr hl1) with h | h
          · exact absurd h h1
          · exact Or.inl h)
    refine ⟨r, hr, fun h => ?_⟩
    obtain ⟨h1, h2, h3⟩ := hprop h
    refine ⟨h1, ?_⟩
    intro p hp
    rcases List.mem_cons.mp (hperm.subset hp) with hp | hp
    · rw [hp]; exact h2
    · exact h3 p hp

/-- The loop of `getNextStateFromCurLevel` returns, and a dominated state only
when every waiting state is dominated and the list of levels is left empty. -/
theorem curLevelLoop_result (lt : Ptr → Ptr → Bool) (dom : Ptr → Bool) (depth : Ptr → Int) :
    ∀ (k : Nat) (c : CBFSData) (lvl : Nat) (rest : List Nat) (ns : Ptr),
      c.unexploredStates.flatten.length < k →
      c.nonEmptyLevelSPQs = lvl :: rest → (lvl :: rest).Nodup →
      (∀ l ∈ rest, levelQ c.unexploredStates l ≠ []) →
      (∀ l, levelQ c.unexploredStates l ≠ [] → l ∈ lvl :: rest) →
      ∃ r, CBFSTree.curLevelLoop lt dom depth k c lvl ns = .ok r ∧
        (dom r.next = true →
          r.rest.nonEmptyLevelSPQs = [] ∧ dom ns = true ∧
          ∀ p ∈ c.unexploredStates.flatten, dom p = true) := by
  intro k
  induction k with
  | zero => intro c lvl rest ns hk; omega
  | succ k ih =>
    intro c lvl rest ns hk hLc hnd hL hall
    unfold CBFSTree.curLevelLoop
    by_cases hd : dom ns = true
    · rw [if_pos hd]
      by_cases he : (levelQ c.unexploredStates lvl).isEmpty = true
      · rw [if_pos he]
        have hqe : levelQ c.unexploredStates lvl = [] := List.isEmpty_iff.mp he
        simp only [hLc, List.tail_cons]
        cases rest with
        | nil =>
          refine ⟨_, rfl, fun _ => ⟨rfl, hd, ?_⟩⟩
          have : c.unexploredStates.flatten = [] := by
            apply flatten_eq_nil_of_levels
            intro l
            by_contra hne
            have := hall l hne
            simp only [List.mem_singleton] at this
            rw [this] at hne; exact hne hqe
          rw [this]; intro p hp; cases hp
        | cons l rest1 =>
          have hql : levelQ c.unexploredStates l ≠ [] := hL l (List.mem_cons_self _ _)
          obtain ⟨t, ht⟩ := @top_isSome lt _ hql
          have hlen : l < c.unexploredStates.length := lt_length_of_levelQ_ne hql
          have hperm := cbfs_flatten_after_pop c.unexploredStates l t _ hlen (pop_perm ht)
          have hfl := hperm.length_eq
          simp only [List.length_cons] at hfl
          have hnd1 : (l :: rest1).Nodup := (List.nodup_cons.mp hnd).2
          simp only [CBFSTree.popLevel, ht]
          obtain ⟨r, hr, hprop⟩ := ih
            { c with nonEmptyLevelSPQs := l :: rest1, numExploredAtCurLevel := 0,
                     unexploredStates :=
                       c.unexploredStates.set l (SPQ.pop lt (levelQ c.unexploredStates l)) }
            l rest1 t (by simp only; omega) rfl hnd1
            (by
              intro l1 hl1
              simp only
              have hne1 : l1 ≠ l := fun h => (List.nodup_cons.mp hnd1).1 (h ▸ hl1)
              rw [levelQ_set_ne _ _ _ _ hne1]
              exact hL l1 (List.mem_cons_of_mem _ hl1))
            (by
              intro l1 hl1
              simp only at hl1
              by_cases h1 : l1 = l
              · rw [h1]; exact List.mem_cons_self _ _
              · rw [levelQ_set_ne _ _ _ _ h1] at hl1
                rcases List.mem_cons.mp (hall l1 hl1) with h | h
                · rw [h] at hl1; exact absurd hqe hl1
                · exact h)
          refine ⟨r, hr, fun h => ?_⟩
          obtain ⟨h1, h2, h3⟩ := hprop h
          refine ⟨h1, hd, ?_⟩
          intro p hp
          rcases List.mem_cons.mp (hperm.subset hp) with hp | hp
          · rw [hp]; exact h2
          · exact h3 p hp
      · rw [if_neg he]
        have hql : levelQ c.unexploredStates lvl ≠ [] := fun h => he (List.isEmpty_iff.mpr h)
        obtain ⟨t, ht⟩ := @top_isSome lt _ hql
        have hlen : lvl < c.unexploredStates.length := lt_length_of_levelQ_ne hql
        have hperm := cbfs_flatten_after_pop c.unexploredStates lvl t _ hlen (pop_perm ht)
        have hfl := hperm.length_eq
        simp only [List.length_cons] at hfl
        simp only [CBFSTree.popLevel, ht]
        obtain ⟨r, hr, hprop⟩ := ih
          { c with unexploredStates :=
                     c.unexploredStates.set lvl (SPQ.pop lt (levelQ c.unexploredStates lvl)) }
          lvl rest t (by simp only; omega) hLc hnd
          (by
            intro l1 hl1
            simp only
            have hne1 : l1 ≠ lvl := fun h => (List.nodup_cons.mp hnd).1 (h ▸ hl1)
            rw [levelQ_set_ne _ _ _ _ hne1]
            exact hL l1 hl1)
          (by
            intro l1 hl1
            simp only at hl1
            by_cases h1 : l1 = lvl
            · rw [h1]; exact List.mem_cons_self _ _
            · rw [levelQ_set_ne _ _ _ _ h1] at hl1
              exact hall l1 hl1)
        refine ⟨r, hr, fun h => ?_⟩
        obtain ⟨h1, h2, h3⟩ := hprop h
        refine ⟨h1, hd, ?_⟩
        intro p hp
        rcases List.mem_cons.mp (hperm.subset hp) with hp | hp
        · rw [hp]; exact h2
        · exact h3 p hp
    · rw [if_neg hd]
      exact ⟨_, rfl, fun h => absurd h hd⟩

/-- The function `getNextStateFromCurLevel` returns on a consistent frontier
that is not empty, and a dominated state only when every waiting state is
dominated and the frontier is left empty. -/
theorem getNextStateFromCurLevel_result (lt : Ptr → Ptr → Bool) (dom : Ptr → Bool)
    (depth : Ptr → Int) (c : CBFSData)
    (hnd : c.nonEmptyLevelSPQs.Nodup)
    (hiff : ∀ lvl, lvl ∈ c.nonEmptyLevelSPQs ↔ levelQ c.unexploredStates lvl ≠ [])
    (hne : c.nonEmptyLevelSPQs ≠ []) :
    ∃ r, CBFSTree.getNextStateFromCurLevel lt dom depth c = .ok r ∧
      (dom r.next = true →
        r.rest.nonEmptyLevelSPQs = [] ∧ ∀ p ∈ c.unexploredStates.flatten, dom p = true) := by
  unfold CBFSTree.getNextStateFromCurLevel
  cases hLc : c.nonEmptyLevelSPQs with
  | nil => exact absurd hLc hne
  | cons l rest =>
    rw [hLc] at hnd hiff
    have hql : levelQ c.unexploredStates l ≠ [] := (hiff l).mp (List.mem_cons_self _ _)
    obtain ⟨t, ht⟩ := @top_isSome lt _ hql
    have hlen : l < c.unexploredStates.length := lt_length_of_levelQ_ne hql
    have hperm := cbfs_flatten_after_pop c.unexploredStates l t _ hlen (pop_perm ht)
    have hfl := hperm.length_eq
    simp only [List.length_cons] at hfl
    simp only [CBFSTree.popLevel, ht]
    obtain ⟨r, hr, hprop⟩ := curLevelLoop_result lt dom depth
      (totalSize c.unexploredStates + 1)
      { c with unexploredStates :=
                 c.unexploredStates.set l (SPQ.pop lt (levelQ c.unexploredStates l)) }
      l rest t (by simp only; rw [totalSize_eq]; omega) hLc hnd
      (by
        intro l1 hl1
        simp only
        have hne1 : l1 ≠ l := fun h => (List.nodup_cons.mp hnd).1 (h ▸ hl1)
        rw [levelQ_set_ne _ _ _ _ hne1]
        exact (hiff l1).mp (List.mem_cons_of_mem _ hl1))
      (by
        intro l1 hl1
        simp only at hl1
        by_cases h1 : l1 = l
        · rw [h1]; exact List.mem_cons_self _ _
        · rw [levelQ_set_ne _ _ _ _ h1] at hl1
          exact (hiff l1).mpr hl1)
    refine ⟨r, hr, fun h => ?_⟩
    obtain ⟨h1, h2, h3⟩ := hprop h
    refine ⟨h1, ?_⟩
    intro p hp
    rcases List.mem_cons.mp (hperm.subset hp) with hp | hp
    · rw [hp]; exact h2
    · exact h3 p hp

theorem vectorRemove_length (v : List Ptr) (x : Ptr) : (vectorRemove v x).length = v.length := by
  unfold vectorRemove
  have h := List.length_filter_le (fun y => y != x) v
  simp only [List.length_append, List.length_drop]
  omega

theorem vectorAt_draw (v : List Ptr) (d : ℚ) (m : Int) (h0 : 0 ≤ d) (h1 : d < 1)
    (hm0 : 0 ≤ m) (hm : m ≤ v.length) (hv : v ≠ []) :
    ∃ x, vectorAt v (truncate (d * (m : ℚ))) = some x := by
  by_cases hz : m = 0
  · rw [hz]
    have : truncate (d * ((0 : Int) : ℚ)) = 0 := by simp [truncate]
    rw [this]
    obtain ⟨x, hx, _⟩ := @vectorAt_mem v 0 (le_refl _) (by
      have := List.length_pos.mpr hv
      simpa using this)
    exact ⟨x, hx⟩
  · have hpos : 0 < m.toNat := by omega
    have hcast : ((m.toNat : Nat) : Int) = m := Int.toNat_of_nonneg hm0
    obtain ⟨hi0, hi1⟩ := truncate_draw d m.toNat h0 h1 hpos
    rw [hcast] at hi0 hi1
    obtain ⟨x, hx, _⟩ := @vectorAt_mem v _ hi0 (by omega)
    exact ⟨x, hx⟩

/-- The loop of `getNextStateRandomFromTopK` returns when the calls of
`getNextState` it makes do, and a dominated state only with the list of levels
left empty. -/
theorem randomLoop_result (lt : Ptr → Ptr → Bool) (dom : Ptr → Bool) (depth : Ptr → Int)
    (restart : CBFSData → Nat → Except Exn (Popped CBFSData)) (B lvl : Nat)
    (hrestart : ∀ (c1 : CBFSData) (n1 : Nat), c1.unexploredStates.flatten.length ≤ B →
      c1.nonEmptyLevelSPQs ≠ [] → c1.nonEmptyLevelSPQs.Nodup →
      (∀ l ∈ c1.nonEmptyLevelSPQs, levelQ c1.unexploredStates l ≠ []) →
      (∀ d ∈ c1.draws, 0 ≤ d ∧ d < 1) → 1 ≤ c1.numToSelect →
      ∃ r, restart c1 n1 = .ok r ∧ (dom r.next = true → r.rest.nonEmptyLevelSPQs = [])) :
    ∀ (k : Nat) (c : CBFSData) (best : List Ptr) (numStates : Int) (ns : Ptr) (n : Nat),
      numStates.toNat + (levelQ c.unexploredStates lvl).length < k →
      0 ≤ numStates → numStates ≤ best.length → best ≠ [] →
      c.unexploredStates.flatten.length ≤ B →
      c.nonEmptyLevelSPQs.Nodup →
      (∀ l ∈ c.nonEmptyLevelSPQs, levelQ c.unexploredStates l ≠ []) →
      lvl ∉ c.nonEmptyLevelSPQs →
      (∀ d ∈ c.draws, 0 ≤ d ∧ d < 1) → 1 ≤ c.numToSelect →
      ∃ r, CBFSTree.randomLoop lt dom depth restart k c lvl best numStates ns n = .ok r ∧
        (dom r.next = true → r.rest.nonEmptyLevelSPQs = []) := by
  intro k
  induction k with
  | zero => intro c best numStates ns n hk; omega
  | succ k ih =>
    intro c best numStates ns n hk h0 hle hbest hB hnd hL hlvl hdr hsel
    unfold CBFSTree.randomLoop
    by_cases hd : dom ns = true
    · rw [if_pos hd]
      by_cases hz : numStates = 0
      · by_cases hLe : c.nonEmptyLevelSPQs = []
        · rw [if_pos ⟨hz, by rw [hLe]; rfl⟩]
          exact ⟨_, rfl, fun _ => hLe⟩
        · rw [if_neg (by
            rintro ⟨_, h⟩
            exact hLe (List.isEmpty_iff.mp h)), if_pos hz]
          exact hrestart c (n + 1) hB hLe hnd hL hdr hsel
      · rw [if_neg (fun h => hz h.1), if_neg hz]
        cases ht : SPQ.top lt (levelQ c.unexploredStates lvl) with
        | none =>
          simp only [ht]
          obtain ⟨hd0, hd1, hd2, hd3, hd4, _, hd6⟩ := drand48_spec c hdr
          obtain ⟨ns2, hns2⟩ := vectorAt_draw (vectorRemove best ns) c.drand48.1 (numStates - 1)
            hd0 hd1 (by omega) (by rw [vectorRemove_length]; omega)
            (by
              intro h
              have := congrArg List.length h
              rw [vectorRemove_length] at this
              exact hbest (List.eq_nil_of_length_eq_zero this))
          rw [hns2]
          simp only
          exact ih c.drand48.2 _ _ ns2 n (by rw [hd3]; omega) (by omega)
            (by rw [vectorRemove_length]; omega)
            (by
              intro h
              have := congrArg List.length h
              rw [vectorRemove_length] at this
              exact hbest (List.eq_nil_of_length_eq_zero this))
            (by rw [hd3]; exact hB) (by rw [hd4]; exact hnd)
            (by rw [hd4, hd3]; exact hL) (by rw [hd4]; exact hlvl) hd2 (by rw [hd6]; exact hsel)
        | some t =>
          simp only [ht]
          have hql : levelQ c.unexploredStates lvl ≠ [] := List.ne_nil_of_mem (top_mem ht)
          have hlen : lvl < c.unexploredStates.length := lt_length_of_levelQ_ne hql
          have hperm := cbfs_flatten_after_pop c.unexploredStates lvl t _ hlen (pop_perm ht)
          have hfl := hperm.length_eq
          simp only [List.length_cons] at hfl
          have hpl := pop_length ht
          generalize hc1 : ({ c with
              unexploredStates :=
                c.unexploredStates.set lvl (SPQ.pop lt (levelQ c.unexploredStates lvl)) }
            : CBFSData) = c1
          have hU : c1.unexploredStates
              = c.unexploredStates.set lvl (SPQ.pop lt (levelQ c.unexploredStates lvl)) := by
            rw [← hc1]
          have hL1 : c1.nonEmptyLevelSPQs = c.nonEmptyLevelSPQs := by rw [← hc1]
          have hdr1 : ∀ d ∈ c1.draws, 0 ≤ d ∧ d < 1 := by rw [← hc1]; exact hdr
          have hsel1 : 1 ≤ c1.numToSelect := by rw [← hc1]; exact hsel
          obtain ⟨hd0, hd1, hd2, hd3, hd4, _, hd6⟩ := drand48_spec c1 hdr1
          have hbl : (vectorRemove (best ++ [t]) ns).length = best.length + 1 := by
            rw [vectorRemove_length, List.length_append, List.length_singleton]
          have hbne : vectorRemove (best ++ [t]) ns ≠ [] := by
            intro h
            have := congrArg List.length h
            rw [hbl] at this
            simp at this
          obtain ⟨ns2, hns2⟩ := vectorAt_draw (vectorRemove (best ++ [t]) ns) c1.drand48.1
            (numStates + 1 - 1) hd0 hd1 (by omega) (by rw [hbl]; push_cast; omega) hbne
          rw [hns2]
          simp only
          exact ih c1.drand48.2 _ _ ns2 (n + 1)
            (by
              rw [hd3, hU, levelQ_set_self _ _ _ hlen]
              have : (numStates + 1 - 1).toNat = numStates.toNat := by congr 1; omega
              rw [this]; omega)
            (by omega) (by rw [hbl]; push_cast; omega) hbne
            (by rw [hd3, hU]; omega) (by rw [hd4, hL1]; exact hnd)
            (by
              rw [hd4, hL1, hd3, hU]
              intro l hl
              have hne1 : l ≠ lvl := fun h => hlvl (h ▸ hl)
              rw [levelQ_set_ne _ _ _ _ hne1]
              exact hL l hl)
            (by rw [hd4, hL1]; exact hlvl) hd2 (by rw [hd6]; exact hsel1)
    · rw [if_neg hd]
      exact ⟨_, rfl, fun h => absurd h hd⟩

/-- The function `getNextStateRandomFromTopK` returns on a consistent frontier
that is not empty, and a dominated state only with the frontier left empty. -/
theorem randomFromTopK_result (lt : Ptr → Ptr → Bool) (dom : Ptr → Bool) (depth : Ptr → Int) :
    ∀ (k : Nat) (c : CBFSData) (n : Nat),
      c.unexploredStates.flatten.length < k →
      c.nonEmptyLevelSPQs ≠ [] → c.nonEmptyLevelSPQs.Nodup →
      (∀ l ∈ c.nonEmptyLevelSPQs, levelQ c.unexploredStates l ≠ []) →
      (∀ d ∈ c.draws, 0 ≤ d ∧ d < 1) → 1 ≤ c.numToSelect →
      ∃ r, CBFSTree.getNextStateRandomFromTopK lt dom depth k c n = .ok r ∧
        (dom r.next = true → r.rest.nonEmptyLevelSPQs = []) := by
  intro k
  induction k with
  | zero => intro c n hk; omega
  | succ k ih =>
    intro c n hk hne hnd hL hdr hsel
    cases hLc : c.nonEmptyLevelSPQs with
    | nil => exact absurd hLc hne
    | cons lvl rest =>
      rw [hLc] at hnd hL
      have hq : levelQ c.unexploredStates lvl ≠ [] := hL lvl (List.mem_cons_self _ _)
      have hlt := lt_length_of_levelQ_ne hq
      have hfl := (flatten_perm_levelQ c.unexploredStates lvl hlt).length_eq
      obtain ⟨taken, ht1, ht2, ht3⟩ :=
        takeBest_spec lt c.numToSelect.toNat (levelQ c.unexploredStates lvl) []
      have hkpos : 0 < c.numToSelect.toNat := by omega
      have htne : taken ≠ [] := ht3 hkpos hq
      have htlen : 0 < taken.length := List.length_pos.mpr htne
      rw [List.nil_append] at ht1
      have hql := ht2.length_eq
      unfold CBFSTree.getNextStateRandomFromTopK
      simp only [hLc, ht1]
      generalize (CBFSTree.takeBest lt c.numToSelect.toNat (levelQ c.unexploredStates lvl) []).2
        = q2 at ht2 hql ⊢
      have hfl2 := (flatten_set_perm c.unexploredStates lvl q2 hlt).length_eq
      simp only [List.length_append] at hfl hfl2 hql
      generalize hc1 :
        ({ c with nonEmptyLevelSPQs := rest, unexploredStates := c.unexploredStates.set lvl q2 }
          : CBFSData) = c1
      have hc1d : ∀ d ∈ c1.draws, 0 ≤ d ∧ d < 1 := by rw [← hc1]; exact hdr
      have hU : c1.unexploredStates = c.unexploredStates.set lvl q2 := by rw [← hc1]
      have hL1 : c1.nonEmptyLevelSPQs = rest := by rw [← hc1]
      have hs1 : c1.numToSelect = c.numToSelect := by rw [← hc1]
      obtain ⟨hd0, hd1, hd2, hd3, hd4, _, hd6⟩ := drand48_spec c1 hc1d
      obtain ⟨hi0, hi1⟩ := truncate_draw c1.drand48.1 taken.length hd0 hd1 htlen
      obtain ⟨ns, hns, _⟩ := vectorAt_mem hi0 hi1
      rw [hns]
      simp only
      exact randomLoop_result lt dom depth _ (c.unexploredStates.set lvl q2).flatten.length lvl
        (fun c2 n2 h1 h2 h3 h4 h5 h6 => ih c2 n2 (by omega) h2 h3 h4 h5 h6)
        (totalSize c.unexploredStates + 1) c1.drand48.2 taken _ ns n
        (by
          rw [hd3, hU, levelQ_set_self _ _ _ hlt, totalSize_eq]
          simp only [Int.toNat_ofNat]
          omega)
        (by omega) (le_refl _) htne (by rw [hd3, hU])
        (by rw [hd4, hL1]; exact (List.nodup_cons.mp hnd).2)
        (by
          rw [hd4, hL1, hd3, hU]
          intro l hl
          have hne1 : l ≠ lvl := fun h => (List.nodup_cons.mp hnd).1 (h ▸ hl)
          rw [levelQ_set_ne _ _ _ _ hne1]
          exact hL l (List.mem_cons_of_mem _ hl))
        (by rw [hd4, hL1]; exact (List.nodup_cons.mp hnd).1) hd2 (by rw [hd6, hs1]; exact hsel)

/-- The function `CBFSTree::getNextState` returns on a consistent frontier that
is not empty, and a dominated state only with the frontier left empty; in the
STANDARD and K_BEST_AT_LEVEL modes every state of the frontier is then
dominated. -/
theorem cbfs_getNextState_result (lt : Ptr → Ptr → Bool) (dom : Ptr → Bool)
    (depth : Ptr → Int) (c : CBFSData)
    (hwf : Frontier.WF depth (.cbfs c)) (hne : CBFSTree.isEmpty c = false) :
    ∃ r, CBFSTree.getNextState lt dom depth c = .ok r ∧
      (dom r.next = true →
        CBFSTree.isEmpty r.rest = true ∧
        (c.selectionMethod ≠ RANDOM_FROM_TOP_K →
          ∀ p ∈ c.unexploredStates.flatten, dom p = true)) := by
  obtain ⟨hsel, hk, hdr, hnd, hiff⟩ := hwf
  have hLne : c.nonEmptyLevelSPQs ≠ [] := by
    intro h
    simp [CBFSTree.isEmpty, h] at hne
  unfold CBFSTree.getNextState
  by_cases h1 : c.selectionMethod = STANDARD
  · rw [if_pos h1]
    obtain ⟨r, hr, hp⟩ := getNextStateStandard_result lt dom depth c hnd hiff hLne
    refine ⟨r, hr, fun h => ⟨?_, fun _ => (hp h).2⟩⟩
    simp [CBFSTree.isEmpty, (hp h).1]
  · rw [if_neg h1]
    by_cases h2 : c.selectionMethod = RANDOM_FROM_TOP_K
    · rw [if_pos h2]
      obtain ⟨r, hr, hp⟩ := randomFromTopK_result lt dom depth
        (totalSize c.unexploredStates + 1) c 0 (by rw [totalSize_eq]; omega) hLne hnd
        (fun l hl => (hiff l).mp hl) hdr hk
      refine ⟨r, hr, fun h => ⟨?_, fun h3 => absurd h2 h3⟩⟩
      simp [CBFSTree.isEmpty, hp h]
    · rw [if_neg h2]
      have h3 : c.selectionMethod = K_BEST_AT_LEVEL := by
        rcases hsel with h | h | h
        · exact absurd h h1
        · exact absurd h h2
        · exact h
      rw [if_pos h3]
      obtain ⟨r, hr, hp⟩ := getNextStateFromCurLevel_result lt dom depth c hnd hiff hLne
      refine ⟨r, hr, fun h => ⟨?_, fun _ => (hp h).2⟩⟩
      simp [CBFSTree.isEmpty, (hp h).1]

/-- The function `CDBFSTree::getNextState` returns on a consistent frontier
that is not empty; the state it returns is dominated only if it was `nextBest`
or if it was in the queue of the level of a new dive, all of whose states are
then dominated and which is left empty. -/
theorem cdbfs_getNextState_result (lt : Ptr → Ptr → Bool) (dom : Ptr → Bool)
    (depth : Ptr → Int) (c : CDBFSData)
    (hwf : Frontier.WF depth (.cdbfs c)) (hne : CDBFSTree.isEmpty c = false) :
    ∃ r, CDBFSTree.getNextState lt dom depth c = .ok r ∧
      (dom r.next = true →
        c.nextBest = some r.next ∨
        (c.nextBest = none ∧ ∃ lvl, r.next ∈ levelQ c.unexploredStates lvl ∧
          (∀ x ∈ levelQ c.unexploredStates lvl, dom x = true) ∧
          levelQ r.rest.unexploredStates lvl = [])) := by
  obtain ⟨hcount, _⟩ := hwf
  unfold CDBFSTree.getNextState
  cases hnb : c.nextBest with
  | some temp => exact ⟨_, rfl, fun _ => Or.inl rfl⟩
  | none =>
    simp only
    have hflat : c.unexploredStates.flatten ≠ [] := by
      intro h
      rw [hnb, h] at hcount
      simp only [Option.toList, List.append_nil, List.length_nil, Nat.cast_zero] at hcount
      simp [CDBFSTree.isEmpty, hcount] at hne
    obtain ⟨l0, hl0⟩ := exists_levelQ_ne c.unexploredStates hflat
    have hl0lt : l0 < c.unexploredStates.length := lt_length_of_levelQ_ne hl0
    have hpos : 0 < c.unexploredStates.length := by omega
    have hcur : CDBFSTree.nextLevel c.lastDiveLevel c.unexploredStates.length
        < c.unexploredStates.length := Nat.mod_lt _ hpos
    obtain ⟨j0, hj0, hj0eq⟩ := cyclic_reach c.unexploredStates.length _ l0 hcur hl0lt
    obtain ⟨j, hj, hscan, hnej, _⟩ := scan_first c.unexploredStates
      (c.unexploredStates.length + 1) _ hcur ⟨j0, by omega, by rw [hj0eq]; exact hl0⟩
    rw [if_neg (by omega), hscan]
    simp only
    obtain ⟨t, ht⟩ := @top_isSome lt _ hnej
    rw [ht]
    simp only
    generalize hlv : (CDBFSTree.nextLevel c.lastDiveLevel c.unexploredStates.length
      + j) % c.unexploredStates.length = lvl at ht hnej ⊢
    have hlen : lvl < c.unexploredStates.length := lt_length_of_levelQ_ne hnej
    have hpl := pop_length ht
    have hfl := (flatten_perm_levelQ c.unexploredStates lvl hlen).length_eq
    simp only [List.length_append] at hfl
    obtain ⟨r, hr, hmem, hprop⟩ := cdbfs_skipDominated_result lt dom depth lvl
      (totalSize c.unexploredStates + 1)
      { c with unexploredStates :=
                 c.unexploredStates.set lvl (SPQ.pop lt (levelQ c.unexploredStates lvl)),
               numUnexploredStates := c.numUnexploredStates - 1 } t
      (by simp only [levelQ_set_self _ _ _ hlen]; rw [totalSize_eq]; omega)
    simp only [levelQ_set_self _ _ _ hlen] at hmem hprop
    rw [hnb] at hr
    refine ⟨r, hr, fun h => Or.inr ⟨trivial, lvl, ?_, ?_, (hprop h).1⟩⟩
    · rcases hmem with h1 | h1
      · rw [h1]; exact top_mem ht
      · exact mem_pop h1
    · intro x hx
      rcases List.mem_cons.mp ((pop_perm ht).subset hx) with hx | hx
      · rw [hx]; exact (hprop h).2.1
      · exact (hprop h).2.2 x hx

/-- C27 as stated fails for CDBFS.  On a frontier built by pushing the states 7
(priority 2) and 8 (priority 1), both at depth 1, `nextBest` is state 7 and
state 8 waits in the queue of level 1.  With state 7 dominated,
`getNextState` returns state 7, whose flag is not tested, and the frontier is
not empty after the call: the live state 8 still waits.  And a new dive that
starts at level 0, whose only state 7 is dominated, returns state 7 although
the live state 8 waits in level 1. -/
theorem cdbfs_returns_dominated_state :
    ((CDBFSTree.pushes (fun p => if p = 7 then 2 else 1) (fun _ => 1)
        { unexploredStates := [], nonEmptyLevelSPQs := [], nextBest := none,
          lastDiveLevel := 0, lastLevelExplored := 0, numUnexploredStates := 0 }
        [7, 8]).toOption.bind
      (fun c => (CDBFSTree.getNextState smallerFirst (fun p => decide (p = 7)) (fun _ => 1)
        c).toOption)).map
        (fun r => (r.next, CDBFSTree.isEmpty r.rest, r.rest.unexploredStates))
      = some (7, false, [[], [8]]) ∧
    (CDBFSTree.getNextState smallerFirst (fun p => decide (p = 7))
        (fun p => if p = 7 then 0 else 1)
        { unexploredStates := [[7], [8]], nonEmptyLevelSPQs := [], nextBest := none,
          lastDiveLevel := 1, lastLevelExplored := 1, numUnexploredStates := 2 }).toOption.map
        (fun r => (r.next, CDBFSTree.isEmpty r.rest, r.rest.unexploredStates))
      = some (7, false, [[], [8]]) := by
  refine ⟨by decide!, by decide!⟩

theorem afterPop_isEmpty {σ : Type} (bt : BTree σ) (f : Frontier) (n : Nat) :
    (bt.afterPop f n).isEmpty = ({ bt with frontier := f } : BTree σ).isEmpty := rfl

/-- C27 (amended): lazy dominance filtering.  On a frontier that is consistent
and not empty, `getNextState` returns a state.  For DFS, BrFS, BFS and CBFS (in
each selection mode) the dominated flag of that state is set only if the
frontier is empty after the call; for DFS, BrFS, BFS and for CBFS in the
STANDARD and K_BEST_AT_LEVEL modes, every state that waited in the frontier is
then dominated, so that no live state was waiting.  CDBFS returns `nextBest`
without testing its flag, and a new dive discards dominated states of its own
level only: the state CDBFS returns is dominated only if it was `nextBest`, or
if it was in the queue of the level of a new dive, every state of which is
dominated and which is empty after the call. -/
theorem lazy_dominance_filtering {σ : Type} (P : Problem σ) (bt : BTree σ)
    (hwf : Frontier.WF bt.depthOf bt.frontier) (hne : bt.isEmpty = false) :
    ∃ p, (bt.getNextState P).2 = .ok p ∧
      (bt.isDom p = true →
        ((∀ c, bt.frontier ≠ .cdbfs c) →
          (bt.getNextState P).1.isEmpty = true ∧
          ((∀ c, bt.frontier = .cbfs c → c.selectionMethod ≠ RANDOM_FROM_TOP_K) →
            ∀ q ∈ Frontier.ptrs bt.frontier, bt.isDom q = true)) ∧
        (∀ c, bt.frontier = .cdbfs c →
          c.nextBest = some p ∨
          (c.nextBest = none ∧ ∃ lvl, p ∈ levelQ c.unexploredStates lvl ∧
            (∀ q ∈ levelQ c.unexploredStates lvl, bt.isDom q = true) ∧
            ∀ c1, (bt.getNextState P).1.frontier = .cdbfs c1 →
              levelQ c1.unexploredStates lvl = []))) := by
  cases hf : bt.frontier with
  | dfs st =>
    cases st with
    | nil => simp [BTree.isEmpty, hf] at hne
    | cons x xs =>
      refine ⟨(DFSTree.skipDominated bt.isDom x xs 0).next, ?_, fun hd => ⟨fun _ => ?_, ?_⟩⟩
      · simp only [BTree.getNextState, hf, DFSTree.getNextState]
      · obtain ⟨h1, h2⟩ := dfs_dominated_result bt.isDom xs x 0 hd
        refine ⟨?_, fun _ => h2⟩
        simp only [BTree.getNextState, hf, DFSTree.getNextState, afterPop_isEmpty, BTree.isEmpty,
          h1]
        rfl
      · intro c hc; cases hc
  | brfs st =>
    cases st with
    | nil => simp [BTree.isEmpty, hf] at hne
    | cons x xs =>
      refine ⟨(BrFSTree.skipDominated bt.isDom x xs 0).next, ?_, fun hd => ⟨fun _ => ?_, ?_⟩⟩
      · simp only [BTree.getNextState, hf, BrFSTree.getNextState]
      · obtain ⟨h1, h2⟩ := brfs_dominated_result bt.isDom xs x 0 hd
        refine ⟨?_, fun _ => h2⟩
        simp only [BTree.getNextState, hf, BrFSTree.getNextState, afterPop_isEmpty,
          BTree.isEmpty, h1]
        rfl
      · intro c hc; cases hc
  | bfs q =>
    have hq : q ≠ [] := by
      intro h
      simp [BTree.isEmpty, hf, h] at hne
    obtain ⟨t, ht⟩ := @top_isSome (bt.ltPtr P) _ hq
    have hl := pop_length ht
    refine ⟨(BFSTree.skipDominated (bt.ltPtr P) bt.isDom q.length t (SPQ.pop (bt.ltPtr P) q)
      0).next, ?_, fun hd => ⟨fun _ => ?_, ?_⟩⟩
    · simp only [BTree.getNextState, hf, BFSTree.getNextState, ht]
    · obtain ⟨h1, h2⟩ := bfs_dominated_result (bt.ltPtr P) bt.isDom q.length t
        (SPQ.pop (bt.ltPtr P) q) 0 (by omega) hd
      refine ⟨?_, fun _ x hx => h2 x ((pop_perm ht).subset hx)⟩
      simp only [BTree.getNextState, hf, BFSTree.getNextState, ht, afterPop_isEmpty,
        BTree.isEmpty, h1]
      rfl
    · intro c hc; cases hc
  | cbfs c =>
    rw [hf] at hwf
    have hne1 : CBFSTree.isEmpty c = false := by
      simpa [BTree.isEmpty, hf] using hne
    obtain ⟨r, hr, hp⟩ := cbfs_getNextState_result (bt.ltPtr P) bt.isDom bt.depthOf c hwf hne1
    refine ⟨r.next, ?_, fun hd => ⟨fun _ => ?_, ?_⟩⟩
    · simp only [BTree.getNextState, hf, hr]
    · refine ⟨?_, fun hsel => (hp hd).2 (hsel c rfl)⟩
      simp only [BTree.getNextState, hf, hr, afterPop_isEmpty, BTree.isEmpty]
      exact (hp hd).1
    · intro c1 hc; cases hc
  | cdbfs c =>
    rw [hf] at hwf
    have hne1 : CDBFSTree.isEmpty c = false := by
      simpa [BTree.isEmpty, hf] using hne
    obtain ⟨r, hr, hp⟩ := cdbfs_getNextState_result (bt.ltPtr P) bt.isDom bt.depthOf c hwf hne1
    refine ⟨r.next, ?_, fun hd => ⟨fun h => absurd rfl (h c), ?_⟩⟩
    · simp only [BTree.getNextState, hf, hr]
    · intro c0 hc0
      have hcc : c0 = c := by
        injection hc0 with h
        exact h.symm
      rw [hcc]
      rcases hp hd with h | ⟨h1, lvl, h2, h3, h4⟩
      · exact Or.inl h
      · refine Or.inr ⟨h1, lvl, h2, h3, ?_⟩
        intro c1 hc1
        simp only [BTree.getNextState, hf, hr, BTree.afterPop] at hc1
        injection hc1 with h5
        rw [← h5]; exact h4

theorem lazy_dominance_filtering_witness :
    (rootedEngine sampleRoot).isEmpty = false ∧
    ∃ p, ((rootedEngine sampleRoot).getNextState sampleProblem).2 = .ok p :=
  have h : (rootedEngine sampleRoot).isEmpty = false := by decide!
  have hfr : (rootedEngine sampleRoot).frontier = .dfs [0] := by decide!
  ⟨h, (lazy_dominance_filtering sampleProblem (rootedEngine sampleRoot)
    (by rw [hfr]; trivial) h).imp (fun _ hp => hp.1)⟩

end Lazy

/-! ## Dominance at insertion -/

section DominanceAtInsertion

variable {σ : Type}

theorem saveBestState_heap (bt : BTree σ) (s : State σ) (t : Bool) :
    (bt.saveBestState s t).1.heap = bt.heap := by
  unfold BTree.saveBestState
  dsimp only
  split_ifs <;> rfl

theorem uptoDominance_heap (bt : BTree σ) (s : State σ) :
    (bt.uptoDominance s).1.heap = bt.heap ∧
    (bt.uptoDominance s).1.domClasses = bt.domClasses := by
  have h1 : ((bt.assignID s).countIdentified s.depth.toNat).heap = bt.heap := by
    unfold BTree.assignID; split_ifs <;> rfl
  refine ⟨?_, (storage_fields (uptoDominance_frame bt s).1).2.1⟩
  unfold BTree.uptoDominance
  split_ifs
  · rw [saveBestState_heap]; exact h1
  · exact h1

/-- When the loop of `applyDominanceRules` leaves `s` not dominated, it has
handed every state of the class to `assessDominance`. -/
theorem assessCalls_all (P : Problem σ) :
    ∀ (cls : List Ptr) (s : State σ) (heap : List (State σ)),
      (∀ p ∈ cls, p < heap.length) →
      (BTree.assessLoop P s cls heap).1.dominated = false →
      BTree.assessCalls P s cls heap = cls := by
  intro cls
  induction cls with
  | nil => intro s heap _ _; rfl
  | cons p ps ih =>
    intro s heap hv hnd
    have hp : p < heap.length := hv p (List.mem_cons_self _ _)
    obtain ⟨o, ho⟩ : ∃ o, heap[p]? = some o := ⟨heap[p], List.getElem?_eq_getElem hp⟩
    unfold BTree.assessLoop at hnd
    unfold BTree.assessCalls
    simp only [ho] at hnd ⊢
    by_cases hd : (P.assessDominance s o).1.dominated = true
    · rw [if_pos hd] at hnd
      simp only at hnd
      rw [hd] at hnd
      cases hnd
    · rw [if_neg hd] at hnd ⊢
      rw [ih _ _ (by
        intro q hq
        rw [List.length_set]
        exact hv q (List.mem_cons_of_mem _ hq)) hnd]

theorem insertDomClass_lookup (classes : List (Int × List Ptr)) (key : Int) (p : Ptr) :
    (insertDomClass classes key p).lookup key = some ((classes.lookup key).getD [] ++ [p]) ∧
    ∀ k, k ≠ key → (insertDomClass classes key p).lookup k = classes.lookup k := by
  have hmap : ∀ (cl : List (Int × List Ptr)) (k : Int),
      (cl.map (fun kc => if kc.1 = key then (kc.1, kc.2 ++ [p]) else kc)).lookup k
        = if k = key then (cl.lookup k).map (fun c => c ++ [p]) else cl.lookup k := by
    intro cl k
    induction cl with
    | nil => simp
    | cons a cl ih =>
      obtain ⟨a1, a2⟩ := a
      rw [List.map_cons]
      by_cases ha : a1 = key
      · have e1 : (if (a1, a2).1 = key then ((a1, a2).1, (a1, a2).2 ++ [p]) else (a1, a2))
            = (a1, a2 ++ [p]) := if_pos ha
        rw [e1, List.lookup_cons, List.lookup_cons]
        by_cases hka : k = a1
        · have hb : (k == a1) = true := by simpa using hka
          rw [hb]
          simp only
          rw [if_pos (hka.trans ha)]
          rfl
        · have hb : (k == a1) = false := by simpa using hka
          rw [hb]
          exact ih
      · have e1 : (if (a1, a2).1 = key then ((a1, a2).1, (a1, a2).2 ++ [p]) else (a1, a2))
            = (a1, a2) := if_neg ha
        rw [e1, List.lookup_cons, List.lookup_cons]
        by_cases hka : k = a1
        · have hb : (k == a1) = true := by simpa using hka
          rw [hb]
          simp only
          rw [if_neg (fun h => ha (hka.symm.trans h))]
        · have hb : (k == a1) = false := by simpa using hka
          rw [hb]
          exact ih
  have happ : ∀ (cl : List (Int × List Ptr)) (k : Int),
      (cl ++ [(key, [p])]).lookup k
        = (cl.lookup k).orElse (fun _ => if k = key then some [p] else none) := by
    intro cl k
    induction cl with
    | nil =>
      rw [List.nil_append, List.lookup_cons]
      by_cases hk : k = key
      · have hb : (k == key) = true := by simpa using hk
        rw [hb]; simp [hk]
      · have hb : (k == key) = false := by simpa using hk
        rw [hb]; simp [hk]
    | cons a cl ih =>
      obtain ⟨a1, a2⟩ := a
      rw [List.cons_append, List.lookup_cons, List.lookup_cons]
      by_cases hka : k = a1
      · have hb : (k == a1) = true := by simpa using hka
        rw [hb]; rfl
      · have hb : (k == a1) = false := by simpa using hka
        rw [hb]
        exact ih
  unfold insertDomClass
  cases hl : classes.lookup key with
  | none =>
    simp only
    refine ⟨?_, fun k hk => ?_⟩
    · rw [happ, hl]; simp
    · rw [happ]
      cases classes.lookup k <;> simp [hk]
  | some c =>
    simp only
    refine ⟨?_, fun k hk => ?_⟩
    · rw [hmap, hl]; simp
    · rw [hmap, if_neg hk]

theorem processState_nonterminal (P : Problem σ) (bt : BTree σ) (s : State σ) (isRoot : Bool)
    (hd : 0 ≤ s.depth) (hterm : P.isTerminalState { s with id := bt.nextNodeID } = false) :
    bt.processState P s isRoot
      = andThen (bt.uptoDominance s)
          (fun b _ => b.dominanceAndStore P { s with id := bt.nextNodeID } isRoot) := by
  unfold BTree.processState
  rw [identify_ok bt s hd, andThen_ok]
  simp only [hterm, Bool.false_eq_true, if_false]
  rfl

theorem store_domClasses (P : Problem σ) (bt : BTree σ) (s : State σ) :
    (bt.store P s).1.domClasses = (bt.allocate s).domClasses := by
  unfold BTree.store
  split_ifs
  · rfl
  · unfold andThen
    rcases saveStateForExploration_cases P ((bt.allocate s).countStored s.depth.toNat)
      bt.heap.length with h1 | ⟨f, h1⟩
    · split <;> (rw [h1]; rfl)
    · split <;> (rw [h1]; rfl)

theorem store_true_depth (P : Problem σ) (bt : BTree σ) (s : State σ)
    (h : (bt.store P s).2 = .ok true) : 0 ≤ s.depth := by
  by_contra hneg
  unfold BTree.store at h
  rw [if_pos (not_le.mp hneg)] at h
  cases h

/-- C28 (amended): with `useDom` and `retainStates` both on, when
`processState` stores a state `s` that is not terminal (it returns true), the
loop of `applyDominanceRules` has handed to `s->assessDominance` every state
of the dominance class of the key of `s`, in the order of the class, and no
other state; `s` came out of the loop with its dominated flag clear, which is
when `processState` tests the flag; and the flag of the state that is stored
is clear when `computeBounds`, which runs between that test and the
insertion, does not touch it (or is not called, the state computing its own
bounds).  The
class of a key holds the states stored under that key: the stored state is
appended to the class of its key, and the class of no other key changes. -/
theorem dominance_checked_at_insertion (P : Problem σ) (bt : BTree σ) (s : State σ)
    (isRoot : Bool)
    (huse : bt.useDom = true) (hret : bt.retainStates = true)
    (hterm : P.isTerminalState { s with id := bt.nextNodeID } = false)
    (hvalid : ∀ p ∈ (bt.domClasses.lookup s.dominanceClassID).getD [], p < bt.heap.length)
    (hstored : (bt.processState P s isRoot).2 = .ok true) :
    BTree.assessCalls P { s with id := bt.nextNodeID }
        ((bt.domClasses.lookup s.dominanceClassID).getD []) bt.heap
      = (bt.domClasses.lookup s.dominanceClassID).getD [] ∧
    ((bt.uptoDominance s).1.applyDominanceRules P { s with id := bt.nextNodeID }).2.dominated
      = false ∧
    (bt.processState P s isRoot).1.heap[bt.heap.length]? = some (bt.uptoBounds P s).2 ∧
    ((bt.stateComputesBounds = true ∨ ∀ x v, (P.computeBounds x v).dominated = x.dominated) →
      (bt.uptoBounds P s).2.dominated = false) ∧
    (bt.processState P s isRoot).1.domClasses.lookup (bt.uptoBounds P s).2.dominanceClassID
      = some ((bt.domClasses.lookup (bt.uptoBounds P s).2.dominanceClassID).getD []
          ++ [bt.heap.length]) ∧
    (∀ k, k ≠ (bt.uptoBounds P s).2.dominanceClassID →
      (bt.processState P s isRoot).1.domClasses.lookup k = bt.domClasses.lookup k) := by
  have hd : 0 ≤ s.depth := by
    by_contra hneg
    unfold BTree.processState BTree.identify at hstored
    rw [if_pos (not_le.mp hneg)] at hstored
    simp only [andThen] at hstored
    cases hstored
  have h0 := processState_nonterminal P bt s isRoot hd hterm
  have hfr := uptoDominance_frame bt s
  have hud : (bt.uptoDominance s).1.useDom = true :=
    (congrArg Options.useDom hfr.2).trans huse
  have hhp := uptoDominance_heap bt s
  -- the `saveNonTerm` step did not throw
  have hsave : (bt.uptoDominance s).2 = .ok () := by
    cases h : (bt.uptoDominance s).2 with
    | ok u => rfl
    | error e =>
      rw [h0, andThen_of_error _ h] at hstored
      cases hstored
  -- the dominance test was passed
  have hdom : ((bt.uptoDominance s).1.applyDominanceRules P { s with id := bt.nextNodeID }).2.dominated
      = false := by
    by_contra hdm
    have hdm1 : ((bt.uptoDominance s).1.applyDominanceRules P
        { s with id := bt.nextNodeID }).2.dominated = true := by simpa using hdm
    rw [h0, andThen_of_ok _ hsave] at hstored
    simp only [BTree.dominanceAndStore, hud, if_true, BTree.stateIsDominated, hdm1] at hstored
    cases hstored
  have hcalls : BTree.assessCalls P { s with id := bt.nextNodeID }
      ((bt.domClasses.lookup s.dominanceClassID).getD []) bt.heap
      = (bt.domClasses.lookup s.dominanceClassID).getD [] := by
    apply assessCalls_all P _ _ _ hvalid
    have hd2 := hdom
    unfold BTree.applyDominanceRules at hd2
    rw [hhp.1, hhp.2] at hd2
    cases hl : bt.domClasses.lookup s.dominanceClassID with
    | none =>
      simp only [hl] at hd2
      exact hd2
    | some domC =>
      simp only [hl] at hd2
      exact hd2
  have hps := processState_at_bounds P bt s isRoot hd hterm hsave (fun _ => hdom)
  have hB := uptoBounds_frame P bt s
  have hBs := storage_fields hB.1
  have hBret : (bt.uptoBounds P s).1.retainStates = true :=
    (congrArg Options.retainStates hB.2.1).trans hret
  -- the state handed to `store`, and the engine that stores it
  obtain ⟨X, hXst, hXheap, hXdc, hXret⟩ : ∃ X : BTree σ,
      bt.processState P s isRoot = X.store P (bt.uptoBounds P s).2 ∧
      X.heap.length = bt.heap.length ∧ X.domClasses = bt.domClasses ∧
      X.retainStates = true := by
    rw [hps] at hstored ⊢
    by_cases hx : (bt.uptoBounds P s).1.stateExceedsBounds (bt.uptoBounds P s).2 = true
    · rw [if_pos hx] at hstored; cases hstored
    · rw [if_neg hx] at hstored ⊢
      by_cases hr : isRoot = true
      · rw [if_pos hr] at hstored ⊢
        by_cases hg : ((bt.uptoBounds P s).1.updateRootBound (bt.uptoBounds P s).2).gapClosed
            = true
        · rw [if_pos hg] at hstored; cases hstored
        · rw [if_neg hg]
          have hUs := storage_fields
            (updateRootBound_storage (bt.uptoBounds P s).1 (bt.uptoBounds P s).2)
          exact ⟨_, rfl, hUs.2.2.1.trans hBs.2.2.1, hUs.2.1.trans hBs.2.1,
            (congrArg Options.retainStates (updateRootBound_options _ _)).trans hBret⟩
      · rw [if_neg hr]
        exact ⟨_, rfl, hBs.2.2.1, hBs.2.1, hBret⟩
  have hd2 : 0 ≤ (bt.uptoBounds P s).2.depth :=
    store_true_depth P X _ (by rw [← hXst]; exact hstored)
  have hse := store_effect P X (bt.uptoBounds P s).2 hd2
  have hdc : (bt.processState P s isRoot).1.domClasses
      = insertDomClass bt.domClasses (bt.uptoBounds P s).2.dominanceClassID bt.heap.length := by
    rw [hXst, store_domClasses]
    unfold BTree.allocate
    rw [if_pos hXret]
    simp only [hXdc, hXheap]
  have hlk := insertDomClass_lookup bt.domClasses (bt.uptoBounds P s).2.dominanceClassID
    bt.heap.length
  refine ⟨hcalls, hdom, ?_, ?_, ?_, ?_⟩
  · rw [hXst, hse.2.1, ← hXheap]; simp
  · intro hcb
    unfold BTree.uptoBounds
    simp only [hud, if_true]
    have hsc : ((bt.uptoDominance s).1.applyDominanceRules P
        { s with id := bt.nextNodeID }).1.stateComputesBounds = bt.stateComputesBounds :=
      (congrArg Options.stateComputesBounds (applyDominanceRules_frame P _ _).1).trans
        (congrArg Options.stateComputesBounds hfr.2)
    rw [hsc]
    rcases hcb with h | h
    · rw [if_pos h]; exact hdom
    · split_ifs
      · exact hdom
      · rw [h]; exact hdom
  · rw [hdc]; exact hlk.1
  · intro k hk
    rw [hdc]; exact hlk.2 k hk

theorem dominance_checked_at_insertion_witness :
    dominanceEngine.useDom = true ∧ dominanceEngine.retainStates = true ∧
    (dominanceEngine.processState sampleProblem sampleInner false).2 = .ok true ∧
    BTree.assessCalls sampleProblem { sampleInner with id := dominanceEngine.nextNodeID } [0]
      dominanceEngine.heap = [0] ∧
    (dominanceEngine.processState sampleProblem sampleInner false).1.domClasses = [(1, [0, 1])] :=
  have h1 : dominanceEngine.useDom = true := by decide!
  have h2 : dominanceEngine.retainStates = true := by decide!
  have h3 : (dominanceEngine.processState sampleProblem sampleInner false).2 = .ok true := by
    decide!
  have hl : (dominanceEngine.domClasses.lookup sampleInner.dominanceClassID).getD [] = [0] := by
    decide!
  have hh : dominanceEngine.heap.length = 1 := by decide!
  have t := dominance_checked_at_insertion sampleProblem dominanceEngine sampleInner false h1 h2
    (by decide!)
    (by
      rw [hl, hh]
      intro p hp
      rw [List.mem_singleton.mp hp]
      decide) h3
  ⟨h1, h2, h3, by rw [← hl]; exact t.1, by decide!⟩

end DominanceAtInsertion

/-! ## The two bounds tests -/

section BoundsTests

variable {σ : Type}

/-- C37: in a MIN or a MAX engine, for every state `s`,
`attemptHeuristicCompletion(s)` is the negation of `stateExceedsBounds(s)`. -/
theorem heuristic_completion_negates_bounds_test (bt : BTree σ) (s : State σ)
    (h : bt.problemType = MIN ∨ bt.problemType = MAX) :
    bt.attemptHeuristicCompletion s = !bt.stateExceedsBounds s := by
  have h01 : MIN ≠ MAX := by decide
  have key : ((bt.problemType = MIN ∧ s.lowerBound < bt.globalUpperBound - eps) ∨
      (bt.problemType = MAX ∧ s.upperBound > bt.globalLowerBound + eps)) ↔
      ¬ ((bt.problemType = MIN ∧ s.lowerBound ≥ bt.globalUpperBound - eps) ∨
        (bt.problemType = MAX ∧ s.upperBound ≤ bt.globalLowerBound + eps)) := by
    rcases h with h | h
    · have h2 : ¬ bt.problemType = MAX := fun h3 => h01 (h.symm.trans h3)
      simp only [h, h01, true_and, false_and, or_false, ge_iff_le, not_le]
    · have h2 : ¬ bt.problemType = MIN := fun h3 => h01 (h3.symm.trans h)
      simp only [h, h01.symm, true_and, false_and, false_or, gt_iff_lt, not_le]
  unfold BTree.attemptHeuristicCompletion BTree.stateExceedsBounds
  rw [decide_eq_decide.mpr key, decide_not]

theorem heuristic_completion_negates_bounds_test_witness :
    (rootedEngine sampleRoot).attemptHeuristicCompletion sampleRoot
      = !(rootedEngine sampleRoot).stateExceedsBounds sampleRoot :=
  heuristic_completion_negates_bounds_test (rootedEngine sampleRoot) sampleRoot
    (Or.inl (by decide!))

/-- After the root bound update of a state that passed the bounds test, in a
MIN or a MAX engine that is not integral, the gap is wider than `eps`. -/
theorem updateRootBound_gap (b : BTree σ) (s : State σ) (hint : b.isOptIntegral = false)
    (hpt : b.problemType = MIN ∨ b.problemType = MAX)
    (hb : b.stateExceedsBounds s = false) :
    eps < |(b.updateRootBound s).globalLowerBound - (b.updateRootBound s).globalUpperBound| ∧
    (b.updateRootBound s).gapClosed = false := by
  have h01 : MIN ≠ MAX := by decide
  have he : (0 : ℚ) < eps := by unfold eps; norm_num
  have hgap : eps <
      |(b.updateRootBound s).globalLowerBound - (b.updateRootBound s).globalUpperBound| := by
    unfold BTree.stateExceedsBounds at hb
    simp only [decide_eq_false_iff_not, not_or, not_and, ge_iff_le, not_le] at hb
    unfold BTree.updateRootBound
    rcases hpt with h | h
    · have h1 := hb.1 h
      rw [if_pos h]
      dsimp only
      rw [abs_sub_comm, abs_of_pos (by linarith)]
      linarith
    · have h2 : ¬ b.problemType = MIN := fun h3 => h01 (h3.symm.trans h)
      have h1 := hb.2 h
      rw [if_neg h2]
      dsimp only
      rw [abs_sub_comm, abs_of_pos (by linarith)]
      linarith
  refine ⟨hgap, ?_⟩
  have hi : (b.updateRootBound s).isOptIntegral = false := by
    unfold BTree.updateRootBound; split_ifs <;> exact hint
  unfold BTree.gapClosed
  simp only [hi, Bool.false_eq_true, false_and, false_or, decide_eq_false_iff_not, not_lt]
  exact le_of_lt hgap

/-- The ways a call of `processState` goes for a state whose depth is not
negative: a terminal state; an exception from `saveBestState` (with
`saveNonTerm`); a state pruned by dominance; a state that reaches the bounds
test. -/
theorem processState_cases (P : Problem σ) (bt : BTree σ) (s : State σ) (isRoot : Bool)
    (hd : 0 ≤ s.depth) :
    (P.isTerminalState { s with id := bt.nextNodeID } = true ∧
      bt.processState P s isRoot
        = andThen (((bt.assignID s).countIdentified s.depth.toNat).processTerminalState
            { s with id := bt.nextNodeID } true) (fun b _ => (b, .ok true))) ∨
    (P.isTerminalState { s with id := bt.nextNodeID } = false ∧
      ∃ e, (bt.uptoDominance s).2 = .error e ∧
        bt.processState P s isRoot = ((bt.uptoDominance s).1, .error e)) ∨
    (P.isTerminalState { s with id := bt.nextNodeID } = false ∧
      (bt.uptoDominance s).2 = .ok () ∧ bt.useDom = true ∧
      ((bt.uptoDominance s).1.applyDominanceRules P { s with id := bt.nextNodeID }).2.dominated
        = true ∧
      bt.processState P s isRoot
        = (((bt.uptoDominance s).1.applyDominanceRules P
              { s with id := bt.nextNodeID }).1.countPrunedByDomBeforeInsertion, .ok false)) ∨
    (P.isTerminalState { s with id := bt.nextNodeID } = false ∧
      (bt.uptoDominance s).2 = .ok () ∧
      (bt.useDom = true →
        ((bt.uptoDominance s).1.applyDominanceRules P { s with id := bt.nextNodeID }).2.dominated
          = false) ∧
      bt.processState P s isRoot =
        if (bt.uptoBounds P s).1.stateExceedsBounds (bt.uptoBounds P s).2 then
          ((bt.uptoBounds P s).1.countPrunedByBoundsBeforeInsertion, .ok false)
        else if isRoot then
          if ((bt.uptoBounds P s).1.updateRootBound (bt.uptoBounds P s).2).gapClosed then
            ((bt.uptoBounds P s).1.updateRootBound (bt.uptoBounds P s).2, .ok false)
          else ((bt.uptoBounds P s).1.updateRootBound (bt.uptoBounds P s).2).store P
            (bt.uptoBounds P s).2
        else (bt.uptoBounds P s).1.store P (bt.uptoBounds P s).2) := by
  by_cases ht : P.isTerminalState { s with id := bt.nextNodeID } = true
  · left
    refine ⟨ht, ?_⟩
    unfold BTree.processState
    rw [identify_ok bt s hd, andThen_ok]
    simp only [ht, if_true]
  · right
    have ht1 : P.isTerminalState { s with id := bt.nextNodeID } = false := by simpa using ht
    have hp : bt.processState P s isRoot = andThen (bt.uptoDominance s)
        (fun bt2 _ => bt2.dominanceAndStore P { s with id := bt.nextNodeID } isRoot) := by
      unfold BTree.processState
      rw [identify_ok bt s hd, andThen_ok]
      simp only [ht1, Bool.false_eq_true, if_false]
      rfl
    cases h2 : (bt.uptoDominance s).2 with
    | error e =>
      left
      exact ⟨ht1, e, rfl, by rw [hp, andThen_of_error _ h2]⟩
    | ok a =>
      right
      have hud : (bt.uptoDominance s).1.useDom = bt.useDom :=
        congrArg Options.useDom (uptoDominance_frame bt s).2
      by_cases hdom : bt.useDom = true ∧
          ((bt.uptoDominance s).1.applyDominanceRules P
            { s with id := bt.nextNodeID }).2.dominated = true
      · left
        refine ⟨ht1, rfl, hdom.1, hdom.2, ?_⟩
        rw [hp, andThen_of_ok _ h2]
        unfold BTree.dominanceAndStore
        rw [if_pos (hud.trans hdom.1), if_pos (by unfold BTree.stateIsDominated; exact hdom.2)]
      · right
        have hnd : bt.useDom = true →
            ((bt.uptoDominance s).1.applyDominanceRules P
              { s with id := bt.nextNodeID }).2.dominated = false := by
          intro hu
          by_contra hc
          exact hdom ⟨hu, by simpa using hc⟩
        exact ⟨ht1, rfl, hnd, processState_at_bounds P bt s isRoot hd ht1 h2 hnd⟩

/-- C36: in a MIN or a MAX engine that is not integral, the root exit of
`processState` for a closed gap cannot be taken: when the root passes the
bounds test, the global bounds are more than `eps` apart after the root bound
update and the gap test fails; so `processState(root, true)` returns false
only when it pruned the root by dominance or by bounds. -/
theorem root_gap_exit_unreachable (P : Problem σ) (bt : BTree σ) (s : State σ)
    (hint : bt.isOptIntegral = false)
    (hpt : bt.problemType = MIN ∨ bt.problemType = MAX) :
    ((bt.uptoBounds P s).1.stateExceedsBounds (bt.uptoBounds P s).2 = false →
      eps < |((bt.uptoBounds P s).1.updateRootBound (bt.uptoBounds P s).2).globalLowerBound
              - ((bt.uptoBounds P s).1.updateRootBound (bt.uptoBounds P s).2).globalUpperBound| ∧
      ((bt.uptoBounds P s).1.updateRootBound (bt.uptoBounds P s).2).gapClosed = false) ∧
    ((bt.processState P s true).2 = .ok false →
      (bt.useDom = true ∧
        ((bt.uptoDominance s).1.applyDominanceRules P { s with id := bt.nextNodeID }).2.dominated
          = true ∧
        (bt.processState P s true).1
          = ((bt.uptoDominance s).1.applyDominanceRules P
              { s with id := bt.nextNodeID }).1.countPrunedByDomBeforeInsertion) ∨
      ((bt.uptoBounds P s).1.stateExceedsBounds (bt.uptoBounds P s).2 = true ∧
        (bt.processState P s true).1
          = (bt.uptoBounds P s).1.countPrunedByBoundsBeforeInsertion)) := by
  have hopt := (uptoBounds_frame P bt s).2.1
  have hint1 : (bt.uptoBounds P s).1.isOptIntegral = false :=
    (congrArg Options.isOptIntegral hopt).trans hint
  have hpt1 : (bt.uptoBounds P s).1.problemType = MIN ∨ (bt.uptoBounds P s).1.problemType = MAX := by
    have := congrArg Options.problemType hopt
    simp only [BTree.options] at this
    rw [this]; exact hpt
  have hgap := fun hb => updateRootBound_gap (bt.uptoBounds P s).1 (bt.uptoBounds P s).2 hint1 hpt1 hb
  refine ⟨hgap, fun h => ?_⟩
  by_cases hd : s.depth < 0
  · exfalso
    unfold BTree.processState BTree.identify andThen at h
    simp [hd] at h
  rcases processState_cases P bt s true (not_lt.mp hd) with
    ⟨_, hp⟩ | ⟨_, e, _, hp⟩ | ⟨_, _, hu, hdm, hp⟩ | ⟨_, _, _, hp⟩
  · exfalso
    rw [hp] at h
    unfold andThen at h
    split at h <;> simp at h
  · exfalso
    rw [hp] at h
    simp at h
  · left
    exact ⟨hu, hdm, by rw [hp]⟩
  · right
    by_cases hb : (bt.uptoBounds P s).1.stateExceedsBounds (bt.uptoBounds P s).2 = true
    · refine ⟨hb, ?_⟩
      rw [hp, if_pos hb]
    · exfalso
      have hb1 : (bt.uptoBounds P s).1.stateExceedsBounds (bt.uptoBounds P s).2 = false := by
        simpa using hb
      rw [hp, if_neg hb, if_pos rfl, (hgap hb1).2] at h
      simp only [Bool.false_eq_true, if_false] at h
      have hdepth : 0 ≤ (bt.uptoBounds P s).2.depth ∨ (bt.uptoBounds P s).2.depth < 0 :=
        le_or_lt _ _
      rcases hdepth with h0 | h0
      · exact (store_effect P _ _ h0).1 h
      · unfold BTree.store at h
        rw [if_pos h0] at h
        simp at h

theorem root_gap_exit_unreachable_witness :
    (BTree.new MIN false DFSTree.frontier : BTree Node).isOptIntegral = false ∧
    (((BTree.new MIN false DFSTree.frontier).uptoBounds sampleProblem
        sampleRoot).1.updateRootBound
      ((BTree.new MIN false DFSTree.frontier).uptoBounds sampleProblem
        sampleRoot).2).gapClosed = false :=
  ⟨rfl, ((root_gap_exit_unreachable sampleProblem (BTree.new MIN false DFSTree.frontier)
    sampleRoot rfl (Or.inl rfl)).1 (by decide!)).2⟩

end BoundsTests

/-! ## Deferral on a stack -/

section Deferral

variable {σ : Type}

/-- A call of `exploreNextState` on a DFS engine whose top state is deferred
and not dominated leaves the engine as it was. -/
theorem dfs_deferral_step (P : Problem σ) (bt : BTree σ) (p : Ptr) (st : List Ptr)
    (ns : State σ) (hf : bt.frontier = .dfs (p :: st)) (hns : bt.heap[p]? = some ns)
    (hnd : ns.dominated = false) (hdef : ns.timeToExplore > bt.tStats.statesExplored) :
    bt.exploreNextState P = (bt, .ok ()) := by
  have hdom : bt.isDom p = false := by
    unfold BTree.isDom; rw [hns]; exact hnd
  have hskip : DFSTree.skipDominated bt.isDom p st 0 = ⟨p, st, 0⟩ := by
    cases st with
    | nil => rfl
    | cons x xs => unfold DFSTree.skipDominated; rw [hdom]; rfl
  have hpop : bt.getNextState P = (bt.afterPop (.dfs st) 0, .ok p) := by
    unfold BTree.getNextState
    rw [hf]
    simp only [DFSTree.getNextState, hskip]
  unfold BTree.exploreNextState
  rw [hpop, andThen_ok]
  have hheap : (bt.afterPop (.dfs st) 0).heap[p]? = some ns := hns
  rw [hheap]
  dsimp only
  unfold BTree.exploreState
  have hdef2 : ns.timeToExplore > (bt.afterPop (.dfs st) 0).tStats.statesExplored := hdef
  rw [if_pos hdef2]
  unfold BTree.saveStateForExploration
  have hfr : (bt.afterPop (.dfs st) 0).frontier = .dfs st := rfl
  rw [hfr]
  dsimp only [DFSTree.saveStateForExploration]
  congr 1
  cases bt with
  | mk a1 a2 a3 a4 a5 a6 a7 a8 a9 a10 a11 a12 a13 a14 a15 a16 a17 a18 a19 a20 a21 a22 ts a24
      a25 a26 =>
    cases ts
    simp only at hf
    simp [BTree.afterPop, BTree.countPrunedByDomBeforeExploration, hf]

/-- An iteration of the loop of `explore` that defers the state on top of a DFS
stack, with the limits off and the progress test defined: only the total time
moves. -/
theorem dfs_deferral_iteration (P : Problem σ) (clk : Clock) (i : Nat) (bt : BTree σ)
    (fin : Bool) (p : Ptr) (st : List Ptr)
    (ns : State σ) (hf : bt.frontier = .dfs (p :: st)) (hns : bt.heap[p]? = some ns)
    (hnd : ns.dominated = false) (hdef : ns.timeToExplore > bt.tStats.statesExplored)
    (hk : bt.keepExploring = true) (hm : bt.mayContinue)
    (hp : bt.progressTestUndefined = false) :
    bt.iteration P clk i fin
      = ({ bt with tStats := { bt.tStats with
             totalTime := bt.tStats.totalTime + (clk.loopEnd i - clk.loopStart i) } },
         .ok fin) := by
  have hstep := dfs_deferral_step P bt p st ns hf hns hnd hdef
  have hm2 : (bt.addTime clk i false).mayContinue := hm
  have hw := withinLimits_of_mayContinue (bt.addTime clk i false) (clk.check i) hm2
  unfold BTree.iteration
  rw [hstep]
  simp only [ne_eq, not_true_eq_false, decide_False]
  rw [endIteration_defined _ _ _ _ _ hp]
  unfold BTree.afterIteration
  rw [hw, hk]
  rfl

/-- The same iteration when the progress test divides by zero: it ends there,
and only the total time has moved. -/
theorem dfs_deferral_iteration_undefined (P : Problem σ) (clk : Clock) (i : Nat) (bt : BTree σ)
    (fin : Bool) (p : Ptr) (st : List Ptr)
    (ns : State σ) (hf : bt.frontier = .dfs (p :: st)) (hns : bt.heap[p]? = some ns)
    (hnd : ns.dominated = false) (hdef : ns.timeToExplore > bt.tStats.statesExplored)
    (hp : bt.progressTestUndefined = true) :
    bt.iteration P clk i fin
      = ({ bt with tStats := { bt.tStats with
             totalTime := bt.tStats.totalTime + (clk.loopEnd i - clk.loopStart i) } },
         .error .undefined) := by
  have hstep := dfs_deferral_step P bt p st ns hf hns hnd hdef
  unfold BTree.iteration
  rw [hstep]
  simp only [ne_eq, not_true_eq_false, decide_False]
  rw [endIteration_undefined _ _ _ _ _ hp]
  rfl

/-- The loop of `explore` on a DFS engine whose top state is deferred and not
dominated, with the limits off, does not end: whatever the number of
iterations allowed, they are used up, and only the total time has moved;
unless the progress test divides by zero, which ends the first iteration. -/
theorem dfs_deferral_loop (P : Problem σ) (clk : Clock) (fin : Bool) (p : Ptr) (st : List Ptr)
    (ns : State σ) (hnd : ns.dominated = false) :
    ∀ (fuel i : Nat) (bt : BTree σ), bt.frontier = .dfs (p :: st) → bt.heap[p]? = some ns →
      ns.timeToExplore > bt.tStats.statesExplored → bt.keepExploring = true → bt.mayContinue →
      ∃ t, BTree.exploreLoop P clk fuel i bt fin
        = ({ bt with tStats := { bt.tStats with totalTime := t } },
           if bt.progressTestUndefined = true ∧ 0 < fuel then .error .undefined
           else .error .outOfFuel) := by
  intro fuel
  induction fuel with
  | zero =>
    intro i bt hf hns hdef hk hm
    refine ⟨bt.tStats.totalTime, ?_⟩
    unfold BTree.exploreLoop
    have he : bt.isEmpty = false := by unfold BTree.isEmpty; rw [hf]; rfl
    rw [if_pos (by rw [he, hk]; rfl), if_neg (fun h => absurd h.2 (lt_irrefl 0))]
  | succ fuel ih =>
    intro i bt hf hns hdef hk hm
    have he : bt.isEmpty = false := by unfold BTree.isEmpty; rw [hf]; rfl
    cases hp : bt.progressTestUndefined with
    | true =>
      have hit := dfs_deferral_iteration_undefined P clk i bt fin p st ns hf hns hnd hdef hp
      refine ⟨bt.tStats.totalTime + (clk.loopEnd i - clk.loopStart i), ?_⟩
      unfold BTree.exploreLoop
      rw [if_pos (by rw [he, hk]; rfl), hit, if_pos ⟨rfl, Nat.succ_pos fuel⟩]
    | false =>
      have hit := dfs_deferral_iteration P clk i bt fin p st ns hf hns hnd hdef hk hm hp
      obtain ⟨t, ht⟩ := ih (i + 1)
        { bt with tStats := { bt.tStats with
            totalTime := bt.tStats.totalTime + (clk.loopEnd i - clk.loopStart i) } }
        hf hns hdef hk hm
      rw [if_neg (fun h => absurd (hp.symm.trans h.1) (by decide))] at ht
      refine ⟨t, ?_⟩
      unfold BTree.exploreLoop
      rw [if_pos (by rw [he, hk]; rfl), hit, if_neg (fun h => absurd h.1 (by decide))]
      dsimp only
      rw [ht]

/-- C39: deferral makes no progress on a DFS frontier.  If the state on top of
the stack is not dominated and has `timeToExplore > statesExplored`, then
`exploreNextState` returns and leaves the whole engine as it was: frontier,
counters, global bounds, incumbent and everything else.  So when the search is
not stopped and its limits are off (among them the time limit), every
iteration of the loop of `explore` finds the same state on top again: for
every bound on the number of iterations the loop uses them all up, and the
engine is the one `explore` started with but for the total time.  (The one
other way out of the loop is the progress test `statesExplored % outputRate`
of an engine with `debug > 0` and `outputRate = 0`: there the first iteration
ends the run in a division by zero, the engine again being the one `explore`
started with but for the total time.) -/
theorem dfs_deferral_makes_no_progress (P : Problem σ) (bt : BTree σ) (p : Ptr)
    (st : List Ptr) (ns : State σ) (hf : bt.frontier = .dfs (p :: st))
    (hns : bt.heap[p]? = some ns) (hnd : ns.dominated = false)
    (hdef : ns.timeToExplore > bt.tStats.statesExplored) :
    bt.exploreNextState P = (bt, .ok ()) ∧
    (bt.keepExploring = true → bt.mayContinue →
      ∀ (clk : Clock) (fuel : Nat), ∃ t,
        bt.explore P clk fuel
          = ({ bt.startClock clk with
                tStats := { (bt.startClock clk).tStats with totalTime := t } },
             if bt.progressTestUndefined = true ∧ 0 < fuel then .error .undefined
             else .error .outOfFuel)) := by
  refine ⟨dfs_deferral_step P bt p st ns hf hns hnd hdef, fun hk hm clk fuel => ?_⟩
  unfold BTree.explore
  exact dfs_deferral_loop P clk true p st ns hnd fuel 0 (bt.startClock clk) hf hns hdef hk hm

theorem dfs_deferral_makes_no_progress_witness :
    (rootedEngine deferredRoot).exploreNextState sampleProblem
      = (rootedEngine deferredRoot, .ok ()) ∧
    ∃ t, (rootedEngine deferredRoot).explore sampleProblem Clock.zero 1000
      = ({ (rootedEngine deferredRoot).startClock Clock.zero with
            tStats := { ((rootedEngine deferredRoot).startClock Clock.zero).tStats with
                          totalTime := t } },
         .error .outOfFuel) :=
  have t := dfs_deferral_makes_no_progress sampleProblem (rootedEngine deferredRoot) 0 []
    { deferredRoot with id := 0 } (by decide!) (by decide!) rfl (by decide!)
  ⟨t.1, by
    obtain ⟨x, hx⟩ := t.2 (by decide!) (by unfold BTree.mayContinue; decide!) Clock.zero 1000
    rw [if_neg (fun h => absurd h.1 (by decide!))] at hx
    exact ⟨x, hx⟩⟩

end Deferral

/-! ## Properties kept by every call of `processState` -/

section Calls

variable {σ : Type} {P : Problem σ} {J : BTree σ → Prop}

theorem andThen_keeps {α β : Type} {r : BTree σ × Except Exn α}
    {k : BTree σ → α → BTree σ × Except Exn β}
    (h1 : J r.1) (h2 : ∀ bt a, J bt → J (k bt a).1) : J (andThen r k).1 := by
  unfold andThen
  split
  · exact h1
  · exact h2 _ _ h1

theorem processTerminalState_keeps (hJ : CallInvariant P J) (bt : BTree σ) (s : State σ)
    (t : Bool) (h : J bt) : J (bt.processTerminalState s t).1 :=
  hJ.saveBestState _ s t (hJ.countCandidate bt t h)

theorem boundAndStore_keeps (hJ : CallInvariant P J) (bt : BTree σ) (s : State σ)
    (isRoot : Bool) (h : J bt) : J (bt.boundAndStore P s isRoot).1 := by
  unfold BTree.boundAndStore
  dsimp only
  generalize (if bt.stateComputesBounds = true then s else P.computeBounds s bt.view) = s1
  split_ifs
  · exact hJ.prunedByBounds bt h
  · exact hJ.updateRootBound bt s1 h
  · exact hJ.store _ s1 (hJ.updateRootBound bt s1 h)
  · exact hJ.store bt s1 h

theorem dominanceAndStore_keeps (hJ : CallInvariant P J) (bt : BTree σ) (s : State σ)
    (isRoot : Bool) (h : J bt) : J (bt.dominanceAndStore P s isRoot).1 := by
  unfold BTree.dominanceAndStore
  split_ifs
  · exact hJ.prunedByDom _ (hJ.applyDominanceRules bt s h)
  · exact boundAndStore_keeps hJ _ _ _ (hJ.applyDominanceRules bt s h)
  · exact boundAndStore_keeps hJ _ _ _ h

/-- A call of `processState` keeps a property that each of its steps keeps,
whatever the outcome of the call. -/
theorem processState_keeps (hJ : CallInvariant P J) (bt : BTree σ) (s : State σ)
    (isRoot : Bool) (h : J bt) : J (bt.processState P s isRoot).1 := by
  unfold BTree.processState
  apply andThen_keeps (hJ.identify bt s h)
  intro b1 s1 h1
  split_ifs
  · apply andThen_keeps (processTerminalState_keeps hJ b1 s1 true h1)
    intro b _ hb; exact hb
  · apply andThen_keeps (hJ.saveBestState b1 s1 true h1)
    intro b _ hb; exact dominanceAndStore_keeps hJ b s1 isRoot hb
  · apply andThen_keeps h1
    intro b _ hb; exact dominanceAndStore_keeps hJ b s1 isRoot hb

theorem runAction_keeps (hJ : CallInvariant P J) (bt : BTree σ) (a : Action σ) (h : J bt) :
    J (bt.runAction P a).1 := by
  cases a with
  | abort => exact h
  | processState s r =>
    unfold BTree.runAction
    apply andThen_keeps (processState_keeps hJ bt s r h)
    intro b _ hb; exact hb
  | processHeuristicState s => exact processTerminalState_keeps hJ bt s false h

/-- The engine calls of a `branch` keep a property that each step of
`processState` keeps. -/
theorem runActions_keeps (hJ : CallInvariant P J) (acts : List (Action σ)) :
    ∀ bt : BTree σ, J bt → J (BTree.runActions P bt acts).1 := by
  induction acts with
  | nil => intro bt h; exact h
  | cons a rest ih =>
    intro bt h
    unfold BTree.runActions
    split
    · exact runAction_keeps hJ bt a h
    · exact ih _ (runAction_keeps hJ bt a h)

theorem allocate_explorationCounters (bt : BTree σ) (s : State σ) :
    (bt.allocate s).explorationCounters = bt.explorationCounters := by
  unfold BTree.allocate; split_ifs <;> rfl

/-- No step of `processState` touches the counters of `exploreNextState`. -/
theorem explorationCounters_kept (P : Problem σ) (c : Int × List Int × Int × Int) :
    CallInvariant P (fun b : BTree σ => b.explorationCounters = c) where
  identify bt s h := by
    rw [← h]; unfold BTree.identify BTree.assignID; split_ifs <;> rfl
  countCandidate bt t h := by
    rw [← h]; unfold BTree.countCandidate; split_ifs <;> rfl
  saveBestState bt s t h := by
    rw [← h]; unfold BTree.saveBestState; dsimp only; split_ifs <;> rfl
  applyDominanceRules bt s h := by
    rw [← h]; unfold BTree.applyDominanceRules; split <;> rfl
  prunedByDom bt h := h
  prunedByBounds bt h := h
  updateRootBound bt s h := by
    rw [← h]; unfold BTree.updateRootBound; split_ifs <;> rfl
  store bt s h := by
    rw [← h]
    unfold BTree.store
    split_ifs
    · exact allocate_explorationCounters bt s
    · unfold andThen
      rcases saveStateForExploration_cases P ((bt.allocate s).countStored s.depth.toNat)
        bt.heap.length with h1 | ⟨f, h1⟩
      · split <;> (rw [h1]; exact allocate_explorationCounters bt s)
      · split <;> (rw [h1]; exact allocate_explorationCounters bt s)

theorem bumpLevel_getD (v : List Int) (d : Nat) :
    (bumpLevel v d).getD d 0 = v.getD d 0 + 1 ∧
    ∀ l, l ≠ d → (bumpLevel v d).getD l 0 = v.getD l 0 := by
  have hlen : d < (v ++ List.replicate (d + 1 - v.length) (0 : Int)).length := by
    simp only [List.length_append, List.length_replicate]; omega
  have hw : ∀ l, (v ++ List.replicate (d + 1 - v.length) (0 : Int)).getD l 0 = v.getD l 0 := by
    intro l
    simp only [List.getD_eq_getElem?_getD]
    by_cases h : l < v.length
    · rw [List.getElem?_append_left h]
    · rw [List.getElem?_append_right (not_lt.mp h), List.getElem?_eq_none (not_lt.mp h)]
      by_cases h2 : l - v.length < d + 1 - v.length
      · simp [List.getElem?_replicate, h2]
      · simp [List.getElem?_replicate, h2]
  unfold bumpLevel
  dsimp only
  constructor
  · rw [hw d]
    simp only [List.getD_eq_getElem?_getD, List.getElem?_set_self hlen, Option.getD_some]
  · intro l hl
    rw [← hw l]
    simp only [List.getD_eq_getElem?_getD, List.getElem?_set_ne (Ne.symm hl)]

theorem labelExplored_tests (bt : BTree σ) (s : State σ) :
    bt.labelExplored.stateExceedsBounds s = bt.stateExceedsBounds s ∧
    bt.labelExplored.useFinalTests = bt.useFinalTests ∧
    bt.labelExplored.view = bt.view ∧
    bt.labelExplored.tStats = bt.tStats := by
  unfold BTree.labelExplored; split_ifs <;> exact ⟨rfl, rfl, rfl, rfl⟩

/-- The end of `exploreNextState` for a state at a depth that is not negative:
the state is counted as explored once, at its depth, and `branch` is called
once; the calls `branch` makes leave the counters of `exploreNextState`
alone. -/
theorem branchOn_counts (P : Problem σ) (bt : BTree σ) (ns : State σ) (hd : 0 ≤ ns.depth) :
    bt.branchOn P ns
      = BTree.runActions P (bt.countExplored ns.depth.toNat)
          (P.branch ns (bt.countExplored ns.depth.toNat).view) ∧
    (bt.branchOn P ns).1.explorationCounters
      = (bt.tStats.statesExplored + 1, bumpLevel bt.tStats.numExploredAtLevel ns.depth.toNat,
         bt.tStats.statesPrunedByDomBeforeExploration,
         bt.tStats.statesPrunedByBoundsBeforeExploration) := by
  have h : bt.branchOn P ns
      = BTree.runActions P (bt.countExplored ns.depth.toNat)
          (P.branch ns (bt.countExplored ns.depth.toNat).view) := by
    unfold BTree.branchOn
    rw [if_neg (not_lt.mpr hd)]
  refine ⟨h, ?_⟩
  rw [h]
  exact runActions_keeps (explorationCounters_kept P _) _ _ rfl

/-- C31: what `exploreNextState` does with the state `ns` that `getNextState`
popped (the counters are compared with the engine `bt1` the pop left).
Exactly one of four things happens.  (1) When `timeToExplore > statesExplored`
the state is deferred: it is pushed back and no counter changes.  Otherwise:
(2) when it is dominated, `statesPrunedByDomBeforeExploration` goes up by one
and nothing else is done; (3) when it is not dominated and exceeds the bounds,
`statesPrunedByBoundsBeforeExploration` goes up by one and nothing else is
done; (4) when it is neither and final tests are off, `branch` is called once,
and `statesExplored` and `numExploredAtLevel[depth]` each go up by exactly one
while the two pruning counters stay.  With final tests on, the final tests run
only on a state that survived the first test (in (2) and (3) they do not run),
and the test is repeated on the state `ns1` they leave: dominated, it is
counted as in (2); exceeding the bounds, as in (3); otherwise `ns1` is
explored as in (4). -/
theorem explore_next_state_four_ways (P : Problem σ) (bt bt1 : BTree σ) (p : Ptr)
    (ns : State σ) (hpop : bt.getNextState P = (bt1, .ok p)) (hns : bt1.heap[p]? = some ns) :
    (ns.timeToExplore > bt1.tStats.statesExplored →
      bt.exploreNextState P = bt1.saveStateForExploration P p ∧
      (bt.exploreNextState P).1.tStats = bt1.tStats) ∧
    (ns.timeToExplore ≤ bt1.tStats.statesExplored →
      (ns.dominated = true →
        bt.exploreNextState P
          = (bt1.labelExplored.countPrunedByDomBeforeExploration 1, .ok ())) ∧
      (ns.dominated = false → bt1.stateExceedsBounds ns = true →
        bt.exploreNextState P
          = (bt1.labelExplored.countPrunedByBoundsBeforeExploration, .ok ())) ∧
      (ns.dominated = false → bt1.stateExceedsBounds ns = false →
        bt1.useFinalTests = false → 0 ≤ ns.depth →
        bt.exploreNextState P
          = BTree.runActions P (bt1.labelExplored.countExplored ns.depth.toNat)
              (P.branch ns (bt1.labelExplored.countExplored ns.depth.toNat).view) ∧
        (bt.exploreNextState P).1.explorationCounters
          = (bt1.tStats.statesExplored + 1,
             bumpLevel bt1.tStats.numExploredAtLevel ns.depth.toNat,
             bt1.tStats.statesPrunedByDomBeforeExploration,
             bt1.tStats.statesPrunedByBoundsBeforeExploration) ∧
        (bt.exploreNextState P).1.tStats.numExploredAtLevel.getD ns.depth.toNat 0
          = bt1.tStats.numExploredAtLevel.getD ns.depth.toNat 0 + 1) ∧
      (ns.dominated = false → bt1.stateExceedsBounds ns = false →
        bt1.useFinalTests = true →
        ((P.applyFinalPruningTests ns bt1.view).dominated = true →
          bt.exploreNextState P
            = ((bt1.labelExplored.writeState p
                  (P.applyFinalPruningTests ns bt1.view)).countPrunedByDomBeforeExploration 1,
               .ok ())) ∧
        ((P.applyFinalPruningTests ns bt1.view).dominated = false →
          bt1.stateExceedsBounds (P.applyFinalPruningTests ns bt1.view) = true →
          bt.exploreNextState P
            = ((bt1.labelExplored.writeState p
                  (P.applyFinalPruningTests ns bt1.view)).countPrunedByBoundsBeforeExploration,
               .ok ())) ∧
        ((P.applyFinalPruningTests ns bt1.view).dominated = false →
          bt1.stateExceedsBounds (P.applyFinalPruningTests ns bt1.view) = false →
          0 ≤ (P.applyFinalPruningTests ns bt1.view).depth →
          bt.exploreNextState P
            = BTree.runActions P
                ((bt1.labelExplored.writeState p
                  (P.applyFinalPruningTests ns bt1.view)).countExplored
                    (P.applyFinalPruningTests ns bt1.view).depth.toNat)
                (P.branch (P.applyFinalPruningTests ns bt1.view)
                  ((bt1.labelExplored.writeState p
                    (P.applyFinalPruningTests ns bt1.view)).countExplored
                      (P.applyFinalPruningTests ns bt1.view).depth.toNat).view) ∧
          (bt.exploreNextState P).1.explorationCounters
            = (bt1.tStats.statesExplored + 1,
               bumpLevel bt1.tStats.numExploredAtLevel
                 (P.applyFinalPruningTests ns bt1.view).depth.toNat,
               bt1.tStats.statesPrunedByDomBeforeExploration,
               bt1.tStats.statesPrunedByBoundsBeforeExploration)))) := by
  have hex : bt.exploreNextState P = bt1.exploreState P p ns := by
    unfold BTree.exploreNextState
    rw [hpop, andThen_ok]
    simp only [hns]
  obtain ⟨hl1, hl2, hl3, hl4⟩ := labelExplored_tests bt1 ns
  rw [hex]
  refine ⟨fun hdef => ?_, fun hnot => ⟨fun hdom => ?_, fun hdom hexc => ?_,
    fun hdom hexc hfin hd => ?_, fun hdom hexc hfin => ?_⟩⟩
  · have h : bt1.exploreState P p ns = bt1.saveStateForExploration P p := by
      unfold BTree.exploreState
      rw [if_pos hdef]
    refine ⟨h, ?_⟩
    rw [h]
    rcases saveStateForExploration_cases P bt1 p with h1 | ⟨f, h1⟩ <;> rw [h1]
  · unfold BTree.exploreState
    rw [if_neg (not_lt.mpr hnot)]
    have hp : bt1.labelExplored.stateIsPrunable ns
        = (bt1.labelExplored.countPrunedByDomBeforeExploration 1, true) := by
      unfold BTree.stateIsPrunable BTree.stateIsDominated
      rw [if_pos hdom]
    rw [hp]
    simp only [if_true]
  · unfold BTree.exploreState
    rw [if_neg (not_lt.mpr hnot)]
    have hp : bt1.labelExplored.stateIsPrunable ns
        = (bt1.labelExplored.countPrunedByBoundsBeforeExploration, true) := by
      unfold BTree.stateIsPrunable BTree.stateIsDominated
      rw [hdom, hl1, hexc]
      simp only [Bool.false_eq_true, if_false, if_true]
    rw [hp]
    simp only [if_true]
  · have hp : bt1.labelExplored.stateIsPrunable ns = (bt1.labelExplored, false) := by
      unfold BTree.stateIsPrunable BTree.stateIsDominated
      rw [hdom, hl1, hexc]
      simp only [Bool.false_eq_true, if_false]
    have h : bt1.exploreState P p ns = bt1.labelExplored.branchOn P ns := by
      unfold BTree.exploreState
      rw [if_neg (not_lt.mpr hnot), hp]
      simp only [Bool.false_eq_true, if_false, hl2, hfin]
    have hb := branchOn_counts P bt1.labelExplored ns hd
    rw [hl4] at hb
    rw [h]
    refine ⟨hb.1, hb.2, ?_⟩
    have h5 := congrArg (fun x => x.2.1) hb.2
    simp only [BTree.explorationCounters] at h5
    rw [h5]
    exact (bumpLevel_getD _ _).1
  · have hp : bt1.labelExplored.stateIsPrunable ns = (bt1.labelExplored, false) := by
      unfold BTree.stateIsPrunable BTree.stateIsDominated
      rw [hdom, hl1, hexc]
      simp only [Bool.false_eq_true, if_false]
    have h : bt1.exploreState P p ns = bt1.labelExplored.finalTests P p ns := by
      unfold BTree.exploreState
      rw [if_neg (not_lt.mpr hnot), hp]
      simp only [Bool.false_eq_true, if_false, hl2, hfin, if_true]
    rw [h]
    unfold BTree.finalTests
    dsimp only
    rw [hl3]
    generalize P.applyFinalPruningTests ns bt1.view = ns1
    have hw1 : (bt1.labelExplored.writeState p ns1).stateExceedsBounds ns1
        = bt1.stateExceedsBounds ns1 := (labelExplored_tests bt1 ns1).1
    have hw2 : (bt1.labelExplored.writeState p ns1).tStats = bt1.tStats := hl4
    refine ⟨fun hdom1 => ?_, fun hdom1 hexc1 => ?_, fun hdom1 hexc1 hd1 => ?_⟩
    · have hp1 : (bt1.labelExplored.writeState p ns1).stateIsPrunable ns1
          = ((bt1.labelExplored.writeState p ns1).countPrunedByDomBeforeExploration 1, true) := by
        unfold BTree.stateIsPrunable BTree.stateIsDominated
        rw [if_pos hdom1]
      rw [hp1]
      simp only [if_true]
    · have hp1 : (bt1.labelExplored.writeState p ns1).stateIsPrunable ns1
          = ((bt1.labelExplored.writeState p ns1).countPrunedByBoundsBeforeExploration, true) := by
        unfold BTree.stateIsPrunable BTree.stateIsDominated
        rw [hdom1, hw1, hexc1]
        simp only [Bool.false_eq_true, if_false, if_true]
      rw [hp1]
      simp only [if_true]
    · have hp1 : (bt1.labelExplored.writeState p ns1).stateIsPrunable ns1
          = (bt1.labelExplored.writeState p ns1, false) := by
        unfold BTree.stateIsPrunable BTree.stateIsDominated
        rw [hdom1, hw1, hexc1]
        simp only [Bool.false_eq_true, if_false]
      rw [hp1]
      simp only [Bool.false_eq_true, if_false]
      have hb := branchOn_counts P (bt1.labelExplored.writeState p ns1) ns1 hd1
      rw [hw2] at hb
      exact hb

theorem explore_next_state_four_ways_witness :
    ((rootedEngine sampleRoot).getNextState sampleProblem).2 = .ok 0 ∧
    ((rootedEngine sampleRoot).exploreNextState sampleProblem).1.explorationCounters
      = (1, [1], 0, 0) :=
  have h1 : ((rootedEngine sampleRoot).getNextState sampleProblem).2 = .ok 0 := by decide!
  have t := explore_next_state_four_ways sampleProblem (rootedEngine sampleRoot)
    ((rootedEngine sampleRoot).getNextState sampleProblem).1 0 { sampleRoot with id := 0 }
    (Prod.ext rfl h1) (by decide!)
  ⟨h1, ((t.2 (by decide!)).2.2.1 rfl (by decide!) (by decide!) (by decide!)).2.1.trans
    (by decide!)⟩

end Calls

/-! ## The counters of `processState` -/

section InsertionCounters

variable {σ : Type}

theorem saveBestState_insertionCounters (bt : BTree σ) (s : State σ) (t : Bool) :
    (bt.saveBestState s t).1.insertionCounters = bt.insertionCounters := by
  unfold BTree.saveBestState
  dsimp only
  split_ifs <;> rfl

theorem identified_insertionCounters (bt : BTree σ) (s : State σ) :
    ((bt.assignID s).countIdentified s.depth.toNat).insertionCounters
      = (bt.tStats.statesIdentified + 1, bt.tStats.terminalStatesIdentified,
         bt.tStats.statesPrunedByDomBeforeInsertion, bt.tStats.statesPrunedByBoundsBeforeInsertion,
         bt.tStats.statesStoredInTree) := by
  unfold BTree.assignID; split_ifs <;> rfl

theorem uptoDominance_insertionCounters (bt : BTree σ) (s : State σ) :
    (bt.uptoDominance s).1.insertionCounters
      = (bt.tStats.statesIdentified + 1, bt.tStats.terminalStatesIdentified,
         bt.tStats.statesPrunedByDomBeforeInsertion, bt.tStats.statesPrunedByBoundsBeforeInsertion,
         bt.tStats.statesStoredInTree) := by
  unfold BTree.uptoDominance
  split_ifs
  · rw [saveBestState_insertionCounters]; exact identified_insertionCounters bt s
  · exact identified_insertionCounters bt s

theorem applyDominanceRules_insertionCounters (P : Problem σ) (bt : BTree σ) (s : State σ) :
    (bt.applyDominanceRules P s).1.insertionCounters = bt.insertionCounters := by
  unfold BTree.applyDominanceRules; split <;> rfl

theorem uptoBounds_insertionCounters (P : Problem σ) (bt : BTree σ) (s : State σ) :
    (bt.uptoBounds P s).1.insertionCounters
      = (bt.tStats.statesIdentified + 1, bt.tStats.terminalStatesIdentified,
         bt.tStats.statesPrunedByDomBeforeInsertion, bt.tStats.statesPrunedByBoundsBeforeInsertion,
         bt.tStats.statesStoredInTree) := by
  unfold BTree.uptoBounds
  dsimp only
  split_ifs
  · rw [applyDominanceRules_insertionCounters]; exact uptoDominance_insertionCounters bt s
  · exact uptoDominance_insertionCounters bt s

theorem updateRootBound_insertionCounters (bt : BTree σ) (s : State σ) :
    (bt.updateRootBound s).insertionCounters = bt.insertionCounters := by
  unfold BTree.updateRootBound; split_ifs <;> rfl

/-- A call of `store` that returns counts the state as stored and leaves the
other counters of `processState` alone. -/
theorem store_insertionCounters (P : Problem σ) (bt : BTree σ) (s : State σ) (r : Bool)
    (h : (bt.store P s).2 = .ok r) :
    (bt.store P s).1.insertionCounters
      = (bt.tStats.statesIdentified, bt.tStats.terminalStatesIdentified,
         bt.tStats.statesPrunedByDomBeforeInsertion, bt.tStats.statesPrunedByBoundsBeforeInsertion,
         bt.tStats.statesStoredInTree + 1) := by
  have ha : ((bt.allocate s).countStored s.depth.toNat).insertionCounters
      = (bt.tStats.statesIdentified, bt.tStats.terminalStatesIdentified,
         bt.tStats.statesPrunedByDomBeforeInsertion, bt.tStats.statesPrunedByBoundsBeforeInsertion,
         bt.tStats.statesStoredInTree + 1) := by
    unfold BTree.allocate; split_ifs <;> rfl
  unfold BTree.store at h ⊢
  by_cases hd : s.depth < 0
  · rw [if_pos hd] at h
    cases h
  · rw [if_neg hd]
    unfold andThen
    rcases saveStateForExploration_cases P ((bt.allocate s).countStored s.depth.toNat)
      bt.heap.length with h1 | ⟨f, h1⟩
    · split <;> (rw [h1]; exact ha)
    · split <;> (rw [h1]; exact ha)

theorem processState_ok_depth (P : Problem σ) (bt : BTree σ) (s : State σ) (isRoot r : Bool)
    (h : (bt.processState P s isRoot).2 = .ok r) : 0 ≤ s.depth := by
  by_contra hd
  unfold BTree.processState BTree.identify andThen at h
  simp [not_le.mp hd] at h

/-- What a call of `processState` that returns does to its counters: one more
state identified, and one more terminal state, or state pruned by dominance,
or state pruned by bounds, or state stored, or none of them when the call
left through the root exit for a closed gap. -/
theorem processState_insertionCounters (P : Problem σ) (bt : BTree σ) (s : State σ)
    (isRoot r : Bool) (h : (bt.processState P s isRoot).2 = .ok r) :
    (bt.closesGap P s isRoot = false ∧
      ((bt.processState P s isRoot).1.insertionCounters
          = (bt.tStats.statesIdentified + 1, bt.tStats.terminalStatesIdentified + 1,
             bt.tStats.statesPrunedByDomBeforeInsertion,
             bt.tStats.statesPrunedByBoundsBeforeInsertion, bt.tStats.statesStoredInTree) ∨
       (bt.processState P s isRoot).1.insertionCounters
          = (bt.tStats.statesIdentified + 1, bt.tStats.terminalStatesIdentified,
             bt.tStats.statesPrunedByDomBeforeInsertion + 1,
             bt.tStats.statesPrunedByBoundsBeforeInsertion, bt.tStats.statesStoredInTree) ∨
       (bt.processState P s isRoot).1.insertionCounters
          = (bt.tStats.statesIdentified + 1, bt.tStats.terminalStatesIdentified,
             bt.tStats.statesPrunedByDomBeforeInsertion,
             bt.tStats.statesPrunedByBoundsBeforeInsertion + 1, bt.tStats.statesStoredInTree) ∨
       (bt.processState P s isRoot).1.insertionCounters
          = (bt.tStats.statesIdentified + 1, bt.tStats.terminalStatesIdentified,
             bt.tStats.statesPrunedByDomBeforeInsertion,
             bt.tStats.statesPrunedByBoundsBeforeInsertion,
             bt.tStats.statesStoredInTree + 1))) ∨
    (bt.closesGap P s isRoot = true ∧ isRoot = true ∧ r = false ∧
      (bt.processState P s isRoot).1.insertionCounters
        = (bt.tStats.statesIdentified + 1, bt.tStats.terminalStatesIdentified,
           bt.tStats.statesPrunedByDomBeforeInsertion,
           bt.tStats.statesPrunedByBoundsBeforeInsertion, bt.tStats.statesStoredInTree)) := by
  have hd := processState_ok_depth P bt s isRoot r h
  have hub := uptoBounds_insertionCounters P bt s
  have hfld : ∀ {b : BTree σ} {c : Int × Int × Int × Int × Int}, b.insertionCounters = c →
      b.tStats.statesIdentified = c.1 ∧ b.tStats.terminalStatesIdentified = c.2.1 ∧
      b.tStats.statesPrunedByDomBeforeInsertion = c.2.2.1 ∧
      b.tStats.statesPrunedByBoundsBeforeInsertion = c.2.2.2.1 ∧
      b.tStats.statesStoredInTree = c.2.2.2.2 := fun hc =>
    ⟨congrArg (fun x => x.1) hc, congrArg (fun x => x.2.1) hc, congrArg (fun x => x.2.2.1) hc,
     congrArg (fun x => x.2.2.2.1) hc, congrArg (fun x => x.2.2.2.2) hc⟩
  rcases processState_cases P bt s isRoot hd with
    ⟨ht, hp⟩ | ⟨ht, e, he, hp⟩ | ⟨ht, hs, hu, hdm, hp⟩ | ⟨ht, hs, hnd, hp⟩
  · left
    refine ⟨by unfold BTree.closesGap; rw [ht]; simp, Or.inl ?_⟩
    rw [hp]
    have h1 : (((bt.assignID s).countIdentified s.depth.toNat).processTerminalState
        { s with id := bt.nextNodeID } true).1.insertionCounters
        = (bt.tStats.statesIdentified + 1, bt.tStats.terminalStatesIdentified + 1,
           bt.tStats.statesPrunedByDomBeforeInsertion,
           bt.tStats.statesPrunedByBoundsBeforeInsertion, bt.tStats.statesStoredInTree) := by
      unfold BTree.processTerminalState
      rw [saveBestState_insertionCounters]
      unfold BTree.assignID; split_ifs <;> rfl
    unfold andThen
    split <;> exact h1
  · exfalso
    rw [hp] at h
    cases h
  · left
    refine ⟨by unfold BTree.closesGap; rw [hu, hdm]; simp, Or.inr (Or.inl ?_)⟩
    rw [hp]
    have h1 := hfld (uptoDominance_insertionCounters bt s)
    have h2 := hfld (applyDominanceRules_insertionCounters P (bt.uptoDominance s).1
      { s with id := bt.nextNodeID })
    simp only [BTree.insertionCounters, BTree.countPrunedByDomBeforeInsertion]
    simp only [BTree.insertionCounters] at h1 h2
    rw [h2.1, h2.2.1, h2.2.2.1, h2.2.2.2.1, h2.2.2.2.2, h1.1, h1.2.1, h1.2.2.1, h1.2.2.2.1,
      h1.2.2.2.2]
  · have hcg : bt.closesGap P s isRoot
        = (isRoot && !((bt.uptoBounds P s).1.stateExceedsBounds (bt.uptoBounds P s).2) &&
            ((bt.uptoBounds P s).1.updateRootBound (bt.uptoBounds P s).2).gapClosed) := by
      unfold BTree.closesGap
      rw [ht, hs]
      have : (bt.useDom &&
          ((bt.uptoDominance s).1.applyDominanceRules P
            { s with id := bt.nextNodeID }).2.dominated) = false := by
        cases hu : bt.useDom with
        | false => rfl
        | true => rw [hnd hu]; rfl
      rw [this]
      simp [hd]
    have h1 := hfld hub
    simp only at h1
    by_cases hb : (bt.uptoBounds P s).1.stateExceedsBounds (bt.uptoBounds P s).2 = true
    · left
      refine ⟨by rw [hcg, hb]; simp, Or.inr (Or.inr (Or.inl ?_))⟩
      rw [hp, if_pos hb]
      simp only [BTree.insertionCounters, BTree.countPrunedByBoundsBeforeInsertion]
      rw [h1.1, h1.2.1, h1.2.2.1, h1.2.2.2.1, h1.2.2.2.2]
    · have hb1 : (bt.uptoBounds P s).1.stateExceedsBounds (bt.uptoBounds P s).2 = false := by
        simpa using hb
      rw [if_neg hb] at hp
      by_cases hr : isRoot = true
      · rw [if_pos hr] at hp
        by_cases hg : ((bt.uptoBounds P s).1.updateRootBound (bt.uptoBounds P s).2).gapClosed
            = true
        · right
          rw [if_pos hg] at hp
          refine ⟨by rw [hcg, hr, hb1, hg]; rfl, hr, ?_, ?_⟩
          · rw [hp] at h
            injection h with h
            exact h.symm
          · rw [hp, updateRootBound_insertionCounters]; exact hub
        · left
          rw [if_neg hg] at hp
          have hg1 : ((bt.uptoBounds P s).1.updateRootBound (bt.uptoBounds P s).2).gapClosed
              = false := by simpa using hg
          refine ⟨by rw [hcg, hg1]; simp, Or.inr (Or.inr (Or.inr ?_))⟩
          rw [hp] at h ⊢
          rw [store_insertionCounters P _ _ r h]
          have h2 := hfld (updateRootBound_insertionCounters (bt.uptoBounds P s).1
            (bt.uptoBounds P s).2)
          simp only [BTree.insertionCounters] at h2
          rw [h2.1, h2.2.1, h2.2.2.1, h2.2.2.2.1, h2.2.2.2.2, h1.1, h1.2.1, h1.2.2.1,
            h1.2.2.2.1, h1.2.2.2.2]
      · left
        rw [if_neg hr] at hp
        have hr1 : isRoot = false := by simpa using hr
        refine ⟨by rw [hcg, hr1]; rfl, Or.inr (Or.inr (Or.inr ?_))⟩
        rw [hp] at h ⊢
        rw [store_insertionCounters P _ _ r h]
        rw [h1.1, h1.2.1, h1.2.2.1, h1.2.2.2.1, h1.2.2.2.2]

theorem processTerminalState_heuristic_counters (bt : BTree σ) (s : State σ) :
    (bt.processHeuristicState s).1.insertionCounters = bt.insertionCounters := by
  unfold BTree.processHeuristicState BTree.processTerminalState
  rw [saveBestState_insertionCounters]
  rfl

/-- An engine call that returns moves the difference between the states
identified and the states counted as terminal, pruned before insertion or
stored by one when it is a root call that left through the exit for a closed
gap, and leaves it alone otherwise. -/
theorem runAction_deficit (P : Problem σ) (bt : BTree σ) (a : Action σ)
    (h : (bt.runAction P a).2 = .ok ()) :
    (bt.runAction P a).1.tStats.statesIdentified
        - ((bt.runAction P a).1.tStats.terminalStatesIdentified
            + (bt.runAction P a).1.tStats.statesPrunedByDomBeforeInsertion
            + (bt.runAction P a).1.tStats.statesPrunedByBoundsBeforeInsertion
            + (bt.runAction P a).1.tStats.statesStoredInTree)
      = bt.tStats.statesIdentified
        - (bt.tStats.terminalStatesIdentified + bt.tStats.statesPrunedByDomBeforeInsertion
            + bt.tStats.statesPrunedByBoundsBeforeInsertion + bt.tStats.statesStoredInTree)
        + (BTree.gapClosures P bt [a] : Int) := by
  have hfld : ∀ {b : BTree σ} {c : Int × Int × Int × Int × Int}, b.insertionCounters = c →
      b.tStats.statesIdentified = c.1 ∧ b.tStats.terminalStatesIdentified = c.2.1 ∧
      b.tStats.statesPrunedByDomBeforeInsertion = c.2.2.1 ∧
      b.tStats.statesPrunedByBoundsBeforeInsertion = c.2.2.2.1 ∧
      b.tStats.statesStoredInTree = c.2.2.2.2 := fun hc =>
    ⟨congrArg (fun x => x.1) hc, congrArg (fun x => x.2.1) hc, congrArg (fun x => x.2.2.1) hc,
     congrArg (fun x => x.2.2.2.1) hc, congrArg (fun x => x.2.2.2.2) hc⟩
  cases a with
  | abort => cases h
  | processHeuristicState s =>
    have h1 := hfld (processTerminalState_heuristic_counters bt s)
    simp only [BTree.insertionCounters] at h1
    simp only [BTree.runAction, BTree.gapClosures]
    rw [h1.1, h1.2.1, h1.2.2.1, h1.2.2.2.1, h1.2.2.2.2]
    simp
  | processState s isRoot =>
    have hrun : (bt.runAction P (.processState s isRoot)).1 = (bt.processState P s isRoot).1 := by
      simp only [BTree.runAction, andThen]
      split <;> rfl
    have hret : ∃ r, (bt.processState P s isRoot).2 = .ok r := by
      simp only [BTree.runAction, andThen] at h
      split at h
      · cases h
      · rename_i r hr; exact ⟨r, hr⟩
    obtain ⟨r, hr⟩ := hret
    rw [hrun]
    simp only [BTree.gapClosures]
    rcases processState_insertionCounters P bt s isRoot r hr with
      ⟨hg, h1 | h1 | h1 | h1⟩ | ⟨hg, _, _, h1⟩ <;>
    · have h2 := hfld h1
      simp only at h2
      rw [h2.1, h2.2.1, h2.2.2.1, h2.2.2.2.1, h2.2.2.2.2, hg]
      simp
      try ring

theorem gapClosures_cons (P : Problem σ) (bt : BTree σ) (a : Action σ)
    (rest : List (Action σ)) :
    BTree.gapClosures P bt (a :: rest)
      = BTree.gapClosures P bt [a] + BTree.gapClosures P (bt.runAction P a).1 rest := by
  simp only [BTree.gapClosures, Nat.add_zero]

theorem runActions_deficit (P : Problem σ) (calls : List (Action σ)) :
    ∀ bt : BTree σ, (BTree.runActions P bt calls).2 = .ok () →
      (BTree.runActions P bt calls).1.tStats.statesIdentified
          - ((BTree.runActions P bt calls).1.tStats.terminalStatesIdentified
              + (BTree.runActions P bt calls).1.tStats.statesPrunedByDomBeforeInsertion
              + (BTree.runActions P bt calls).1.tStats.statesPrunedByBoundsBeforeInsertion
              + (BTree.runActions P bt calls).1.tStats.statesStoredInTree)
        = bt.tStats.statesIdentified
          - (bt.tStats.terminalStatesIdentified + bt.tStats.statesPrunedByDomBeforeInsertion
              + bt.tStats.statesPrunedByBoundsBeforeInsertion + bt.tStats.statesStoredInTree)
          + (BTree.gapClosures P bt calls : Int) := by
  induction calls with
  | nil => intro bt _; simp [BTree.runActions, BTree.gapClosures]
  | cons a rest ih =>
    intro bt h
    have hok : (bt.runAction P a).2 = .ok () ∧
        BTree.runActions P bt (a :: rest) = BTree.runActions P (bt.runAction P a).1 rest := by
      cases hu : (bt.runAction P a).2 with
      | error e =>
        rw [BTree.runActions] at h
        simp only [hu] at h
        cases h
      | ok u =>
        refine ⟨rfl, ?_⟩
        rw [BTree.runActions]
        simp only [hu]
    rw [hok.2] at h ⊢
    rw [gapClosures_cons P bt a rest, ih _ h, runAction_deficit P bt a hok.1]
    push_cast
    ring

/-- C35: a call of `processState` that returns increases `statesIdentified` by
exactly one and exactly one of `terminalStatesIdentified`,
`statesPrunedByDomBeforeInsertion`, `statesPrunedByBoundsBeforeInsertion` and
`statesStoredInTree` by exactly one, the others staying as they were; the
exception is a root call that leaves through the exit for a closed gap, which
returns false and increases none of the four.  So after engine calls made one
after the other on a fresh engine, each of which returned, `statesIdentified`
is the sum of the four counters and of the number of root calls that closed
the gap. -/
theorem process_state_counts_each_state_once (P : Problem σ) :
    (∀ (bt : BTree σ) (s : State σ) (isRoot r : Bool),
      (bt.processState P s isRoot).2 = .ok r →
      (bt.closesGap P s isRoot = false ∧
        ((bt.processState P s isRoot).1.insertionCounters
            = (bt.tStats.statesIdentified + 1, bt.tStats.terminalStatesIdentified + 1,
               bt.tStats.statesPrunedByDomBeforeInsertion,
               bt.tStats.statesPrunedByBoundsBeforeInsertion, bt.tStats.statesStoredInTree) ∨
         (bt.processState P s isRoot).1.insertionCounters
            = (bt.tStats.statesIdentified + 1, bt.tStats.terminalStatesIdentified,
               bt.tStats.statesPrunedByDomBeforeInsertion + 1,
               bt.tStats.statesPrunedByBoundsBeforeInsertion, bt.tStats.statesStoredInTree) ∨
         (bt.processState P s isRoot).1.insertionCounters
            = (bt.tStats.statesIdentified + 1, bt.tStats.terminalStatesIdentified,
               bt.tStats.statesPrunedByDomBeforeInsertion,
               bt.tStats.statesPrunedByBoundsBeforeInsertion + 1,
               bt.tStats.statesStoredInTree) ∨
         (bt.processState P s isRoot).1.insertionCounters
            = (bt.tStats.statesIdentified + 1, bt.tStats.terminalStatesIdentified,
               bt.tStats.statesPrunedByDomBeforeInsertion,
               bt.tStats.statesPrunedByBoundsBeforeInsertion,
               bt.tStats.statesStoredInTree + 1))) ∨
      (bt.closesGap P s isRoot = true ∧ isRoot = true ∧ r = false ∧
        (bt.processState P s isRoot).1.insertionCounters
          = (bt.tStats.statesIdentified + 1, bt.tStats.terminalStatesIdentified,
             bt.tStats.statesPrunedByDomBeforeInsertion,
             bt.tStats.statesPrunedByBoundsBeforeInsertion, bt.tStats.statesStoredInTree))) ∧
    (∀ (t : Int) (i : Bool) (f : Frontier) (calls : List (Action σ)),
      (BTree.runActions P (BTree.new t i f) calls).2 = .ok () →
      (BTree.runActions P (BTree.new t i f) calls).1.tStats.statesIdentified
        = (BTree.runActions P (BTree.new t i f) calls).1.tStats.terminalStatesIdentified
          + (BTree.runActions P (BTree.new t i f) calls).1.tStats.statesPrunedByDomBeforeInsertion
          + (BTree.runActions P (BTree.new t i f)
              calls).1.tStats.statesPrunedByBoundsBeforeInsertion
          + (BTree.runActions P (BTree.new t i f) calls).1.tStats.statesStoredInTree
          + (BTree.gapClosures P (BTree.new t i f) calls : Int)) := by
  refine ⟨processState_insertionCounters P, fun t i f calls h => ?_⟩
  have h1 := runActions_deficit P calls (BTree.new t i f) h
  have h0 : (BTree.new t i f : BTree σ).tStats.statesIdentified
      - ((BTree.new t i f : BTree σ).tStats.terminalStatesIdentified
          + (BTree.new t i f : BTree σ).tStats.statesPrunedByDomBeforeInsertion
          + (BTree.new t i f : BTree σ).tStats.statesPrunedByBoundsBeforeInsertion
          + (BTree.new t i f : BTree σ).tStats.statesStoredInTree) = 0 := by
    simp [BTree.new, TreeStats.new]
  rw [h0] at h1
  linarith

theorem process_state_counts_each_state_once_witness :
    (BTree.runActions sampleProblem (BTree.new MIN true DFSTree.frontier) gapCalls).2 = .ok () ∧
    BTree.gapClosures sampleProblem (BTree.new MIN true DFSTree.frontier) gapCalls = 1 ∧
    (BTree.runActions sampleProblem (BTree.new MIN true DFSTree.frontier)
      gapCalls).1.tStats.statesIdentified = 1 :=
  have h : (BTree.runActions sampleProblem (BTree.new MIN true DFSTree.frontier) gapCalls).2
      = .ok () := by decide!
  ⟨h, by decide!,
    ((process_state_counts_each_state_once sampleProblem).2 MIN true DFSTree.frontier gapCalls
      h).trans (by decide!)⟩

end InsertionCounters

/-! ## The balance of the stored states -/

section Balance

variable {σ : Type}

/-- The pop of a stack discards dominated states only, and counts each of
them. -/
theorem dfs_skipDominated_gone (dom : Ptr → Bool) :
    ∀ (xs : List Ptr) (cur : Ptr) (n : Nat),
      ∃ gone : List Ptr,
        cur :: xs = gone ++ (DFSTree.skipDominated dom cur xs n).next
          :: (DFSTree.skipDominated dom cur xs n).rest ∧
        (∀ q ∈ gone, dom q = true) ∧
        (DFSTree.skipDominated dom cur xs n).pruned = n + gone.length := by
  intro xs
  induction xs with
  | nil => intro cur n; exact ⟨[], rfl, by simp, rfl⟩
  | cons x xs ih =>
    intro cur n
    unfold DFSTree.skipDominated
    by_cases hd : dom cur = true
    · rw [if_pos hd]
      obtain ⟨gone, h1, h2, h3⟩ := ih x (n + 1)
      refine ⟨cur :: gone, ?_, ?_, ?_⟩
      · rw [List.cons_append, ← h1]
      · intro q hq
        rcases List.mem_cons.mp hq with h | h
        · rw [h]; exact hd
        · exact h2 q h
      · rw [h3, List.length_cons]; omega
    · rw [if_neg hd]
      exact ⟨[], rfl, by simp, rfl⟩

theorem brfs_skipDominated_gone (dom : Ptr → Bool) :
    ∀ (xs : List Ptr) (cur : Ptr) (n : Nat),
      ∃ gone : List Ptr,
        cur :: xs = gone ++ (BrFSTree.skipDominated dom cur xs n).next
          :: (BrFSTree.skipDominated dom cur xs n).rest ∧
        (∀ q ∈ gone, dom q = true) ∧
        (BrFSTree.skipDominated dom cur xs n).pruned = n + gone.length := by
  intro xs
  induction xs with
  | nil => intro cur n; exact ⟨[], rfl, by simp, rfl⟩
  | cons x xs ih =>
    intro cur n
    unfold BrFSTree.skipDominated
    by_cases hd : dom cur = true
    · rw [if_pos hd]
      obtain ⟨gone, h1, h2, h3⟩ := ih x (n + 1)
      refine ⟨cur :: gone, ?_, ?_, ?_⟩
      · rw [List.cons_append, ← h1]
      · intro q hq
        rcases List.mem_cons.mp hq with h | h
        · rw [h]; exact hd
        · exact h2 q h
      · rw [h3, List.length_cons]; omega
    · rw [if_neg hd]
      exact ⟨[], rfl, by simp, rfl⟩

theorem bfs_skipDominated_gone (lt : Ptr → Ptr → Bool) (dom : Ptr → Bool) :
    ∀ (k : Nat) (cur : Ptr) (q : SPQ) (n : Nat),
      ∃ gone : List Ptr,
        (cur :: q).Perm (gone ++ (BFSTree.skipDominated lt dom k cur q n).next
          :: (BFSTree.skipDominated lt dom k cur q n).rest) ∧
        (∀ x ∈ gone, dom x = true) ∧
        (BFSTree.skipDominated lt dom k cur q n).pruned = n + gone.length := by
  intro k
  induction k with
  | zero => intro cur q n; exact ⟨[], List.Perm.refl _, by simp, rfl⟩
  | succ k ih =>
    intro cur q n
    unfold BFSTree.skipDominated
    by_cases hd : dom cur = true
    · rw [if_pos hd]
      cases ht : SPQ.top lt q with
      | none => exact ⟨[], List.Perm.refl _, by simp, rfl⟩
      | some t =>
        dsimp only
        obtain ⟨gone, h1, h2, h3⟩ := ih t (SPQ.pop lt q) (n + 1)
        refine ⟨cur :: gone, ?_, ?_, ?_⟩
        · rw [List.cons_append]
          exact List.Perm.cons cur ((pop_perm ht).trans h1)
        · intro x hx
          rcases List.mem_cons.mp hx with h | h
          · rw [h]; exact hd
          · exact h2 x h
        · rw [h3, List.length_cons]; omega
    · rw [if_neg hd]
      exact ⟨[], List.Perm.refl _, by simp, rfl⟩

/-- A pop on a DFS, BrFS or BFS engine: the states that left the frontier are
the state returned and dominated states, each of which was counted in
`statesPrunedByDomBeforeExploration`. -/
theorem getNextState_plain (P : Problem σ) (bt bt1 : BTree σ) (p : Ptr)
    (hpl : bt.frontier.plain) (hpop : bt.getNextState P = (bt1, .ok p)) :
    ∃ gone : List Ptr,
      (Frontier.ptrs bt.frontier).Perm (gone ++ p :: Frontier.ptrs bt1.frontier) ∧
      (∀ q ∈ gone, bt.isDom q = true) ∧
      bt1.frontier.plain ∧
      bt1 = bt.afterPop bt1.frontier gone.length := by
  unfold BTree.getNextState at hpop
  cases hf : bt.frontier with
  | dfs st =>
    rw [hf] at hpop
    cases st with
    | nil => simp [DFSTree.getNextState] at hpop
    | cons x xs =>
      simp only [DFSTree.getNextState, Prod.mk.injEq, Except.ok.injEq] at hpop
      obtain ⟨gone, h1, h2, h3⟩ := dfs_skipDominated_gone bt.isDom xs x 0
      rw [hpop.2] at h1
      refine ⟨gone, ?_, h2, ?_, ?_⟩
      · rw [← hpop.1]
        simp only [Frontier.ptrs, BTree.afterPop]
        rw [h1]
      · rw [← hpop.1]; trivial
      · rw [← hpop.1]
        simp only [BTree.afterPop, h3, Nat.zero_add]
  | brfs st =>
    rw [hf] at hpop
    cases st with
    | nil => simp [BrFSTree.getNextState] at hpop
    | cons x xs =>
      simp only [BrFSTree.getNextState, Prod.mk.injEq, Except.ok.injEq] at hpop
      obtain ⟨gone, h1, h2, h3⟩ := brfs_skipDominated_gone bt.isDom xs x 0
      rw [hpop.2] at h1
      refine ⟨gone, ?_, h2, ?_, ?_⟩
      · rw [← hpop.1]
        simp only [Frontier.ptrs, BTree.afterPop]
        rw [h1]
      · rw [← hpop.1]; trivial
      · rw [← hpop.1]
        simp only [BTree.afterPop, h3, Nat.zero_add]
  | bfs q =>
    rw [hf] at hpop
    simp only [BFSTree.getNextState] at hpop
    cases ht : SPQ.top (bt.ltPtr P) q with
    | none => simp [ht] at hpop
    | some t =>
      simp only [ht, Prod.mk.injEq, Except.ok.injEq] at hpop
      obtain ⟨gone, h1, h2, h3⟩ :=
        bfs_skipDominated_gone (bt.ltPtr P) bt.isDom q.length t (SPQ.pop (bt.ltPtr P) q) 0
      rw [hpop.2] at h1
      refine ⟨gone, ?_, h2, ?_, ?_⟩
      · rw [← hpop.1]
        simp only [Frontier.ptrs, BTree.afterPop]
        exact (pop_perm ht).trans h1
      · rw [← hpop.1]; trivial
      · rw [← hpop.1]
        simp only [BTree.afterPop, h3, Nat.zero_add]
  | cbfs c => rw [hf] at hpl; exact absurd hpl (by simp [Frontier.plain])
  | cdbfs c => rw [hf] at hpl; exact absurd hpl (by simp [Frontier.plain])

theorem getNextState_plain_error (P : Problem σ) (bt : BTree σ) (e : Exn)
    (hpl : bt.frontier.plain) (h : (bt.getNextState P).2 = .error e) :
    (bt.getNextState P).1 = bt := by
  unfold BTree.getNextState at h ⊢
  cases hf : bt.frontier with
  | dfs st =>
    rw [hf] at h
    cases st with
    | nil => rfl
    | cons x xs => simp [DFSTree.getNextState] at h
  | brfs st =>
    rw [hf] at h
    cases st with
    | nil => rfl
    | cons x xs => simp [BrFSTree.getNextState] at h
  | bfs q =>
    rw [hf] at h
    simp only [BFSTree.getNextState] at h ⊢
    cases ht : SPQ.top (bt.ltPtr P) q with
    | none => rfl
    | some t => simp [ht] at h
  | cbfs c => rw [hf] at hpl; exact absurd hpl (by simp [Frontier.plain])
  | cdbfs c => rw [hf] at hpl; exact absurd hpl (by simp [Frontier.plain])

/-- A push on a DFS, BrFS or BFS engine returns and adds one state to the
frontier. -/
theorem saveStateForExploration_plain (P : Problem σ) (bt : BTree σ) (p : Ptr)
    (h : bt.frontier.plain) :
    ∃ f, bt.saveStateForExploration P p = ({ bt with frontier := f }, .ok ()) ∧ f.plain ∧
      (Frontier.ptrs f).length = (Frontier.ptrs bt.frontier).length + 1 := by
  unfold BTree.saveStateForExploration
  cases hf : bt.frontier with
  | dfs st => exact ⟨_, rfl, trivial, by simp [Frontier.ptrs, DFSTree.saveStateForExploration]⟩
  | brfs st => exact ⟨_, rfl, trivial, by simp [Frontier.ptrs, BrFSTree.saveStateForExploration]⟩
  | bfs q =>
    exact ⟨_, rfl, trivial, by simp [Frontier.ptrs, BFSTree.saveStateForExploration, SPQ.push]⟩
  | cbfs c => rw [hf] at h; exact absurd h (by simp [Frontier.plain])
  | cdbfs c => rw [hf] at h; exact absurd h (by simp [Frontier.plain])

theorem allocate_balanced (bt : BTree σ) (s : State σ) (h : bt.Balanced) :
    (bt.allocate s).Balanced := by
  unfold BTree.allocate; split_ifs <;> exact h

/-- Every step of `processState` keeps the balance of the stored states of a
DFS, BrFS or BFS engine. -/
theorem balanced_kept (P : Problem σ) : CallInvariant P (fun b : BTree σ => b.Balanced) where
  identify bt s h := by
    unfold BTree.identify BTree.assignID; split_ifs <;> exact h
  countCandidate bt t h := by
    unfold BTree.countCandidate; split_ifs <;> exact h
  saveBestState bt s t h := by
    unfold BTree.saveBestState; dsimp only; split_ifs <;> exact h
  applyDominanceRules bt s h := by
    unfold BTree.applyDominanceRules; split <;> exact h
  prunedByDom bt h := h
  prunedByBounds bt h := h
  updateRootBound bt s h := by
    unfold BTree.updateRootBound; split_ifs <;> exact h
  store bt s h := by
    unfold BTree.store
    split_ifs
    · exact allocate_balanced bt s h
    · have ha := allocate_balanced bt s h
      have hpl : ((bt.allocate s).countStored s.depth.toNat).frontier.plain := ha.1
      obtain ⟨f, h1, h2, h3⟩ := saveStateForExploration_plain P
        ((bt.allocate s).countStored s.depth.toNat) bt.heap.length hpl
      rw [h1, andThen_ok]
      refine ⟨h2, ?_⟩
      have h4 := ha.2
      simp only [BTree.countStored] at h3 ⊢
      rw [h3, h4]
      push_cast
      ring

theorem stateIsPrunable_balance (bt : BTree σ) (s : State σ) (h : bt.BalancedButOne) :
    ((bt.stateIsPrunable s).2 = true → (bt.stateIsPrunable s).1.Balanced) ∧
    ((bt.stateIsPrunable s).2 = false → (bt.stateIsPrunable s).1 = bt) := by
  unfold BTree.stateIsPrunable
  split_ifs
  · refine ⟨fun _ => ⟨h.1, ?_⟩, fun hc => by cases hc⟩
    have h2 := h.2
    simp only [BTree.countPrunedByDomBeforeExploration] at h2 ⊢
    rw [h2]
    push_cast
    ring
  · refine ⟨fun _ => ⟨h.1, ?_⟩, fun hc => by cases hc⟩
    have h2 := h.2
    simp only [BTree.countPrunedByBoundsBeforeExploration] at h2 ⊢
    rw [h2]
    ring
  · exact ⟨fun hc => (by cases hc), fun _ => rfl⟩

theorem branchOn_balance (P : Problem σ) (bt : BTree σ) (ns : State σ)
    (h : bt.BalancedButOne) :
    (bt.branchOn P ns).1.Balanced ∨ (bt.branchOn P ns).2 = .error .undefined := by
  unfold BTree.branchOn
  split_ifs
  · exact Or.inr rfl
  · left
    apply runActions_keeps (balanced_kept P)
    refine ⟨h.1, ?_⟩
    have h2 := h.2
    simp only [BTree.countExplored] at h2 ⊢
    rw [h2]
    ring

theorem exploreState_balance (P : Problem σ) (bt : BTree σ) (p : Ptr) (ns : State σ)
    (h : bt.BalancedButOne) :
    (bt.exploreState P p ns).1.Balanced ∨ (bt.exploreState P p ns).2 = .error .undefined := by
  have hl : bt.labelExplored.BalancedButOne := by
    unfold BTree.labelExplored; split_ifs <;> exact h
  have hp := stateIsPrunable_balance bt.labelExplored ns hl
  unfold BTree.exploreState
  split_ifs with h1 h2 h3
  · left
    obtain ⟨f, e1, e2, e3⟩ := saveStateForExploration_plain P bt p h.1
    rw [e1]
    refine ⟨e2, ?_⟩
    have h4 := h.2
    simp only at e3 ⊢
    rw [e3, h4]
    push_cast
    ring
  · exact Or.inl (hp.1 h2)
  · have h2' : (bt.labelExplored.stateIsPrunable ns).2 = false := by simpa using h2
    rw [hp.2 h2']
    unfold BTree.finalTests
    dsimp only
    have hw : (bt.labelExplored.writeState p
        (P.applyFinalPruningTests ns bt.labelExplored.view)).BalancedButOne := hl
    have hq := stateIsPrunable_balance _ (P.applyFinalPruningTests ns bt.labelExplored.view) hw
    split_ifs with h4
    · exact Or.inl (hq.1 h4)
    · have h4' : ((bt.labelExplored.writeState p
          (P.applyFinalPruningTests ns bt.labelExplored.view)).stateIsPrunable
          (P.applyFinalPruningTests ns bt.labelExplored.view)).2 = false := by simpa using h4
      rw [hq.2 h4']
      exact branchOn_balance P _ _ hw
  · have h2' : (bt.labelExplored.stateIsPrunable ns).2 = false := by simpa using h2
    rw [hp.2 h2']
    exact branchOn_balance P _ _ hl

/-- C34: the balance of the stored states of a DFS, BrFS or BFS engine.  On a
fresh engine, and after every call of `processState` (whatever its outcome)
and every call of `exploreNextState` that returned or was ended by an abort
(any outcome but undefined behaviour) on an engine where it holds,
`statesStoredInTree` is the sum of `statesExplored`,
`statesPrunedByDomBeforeExploration`, `statesPrunedByBoundsBeforeExploration`
and the number of states in the frontier.  Every state a pop discards is
dominated and is counted exactly once: the frontier before the pop holds the
state returned, the states discarded and the states left, and
`statesPrunedByDomBeforeExploration` goes up by the number of states
discarded. -/
theorem stored_states_balance (P : Problem σ) :
    (∀ (t : Int) (i : Bool) (f : Frontier),
      f = DFSTree.frontier ∨ f = BrFSTree.frontier ∨ f = BFSTree.frontier →
      (BTree.new t i f : BTree σ).Balanced) ∧
    (∀ (bt : BTree σ) (s : State σ) (isRoot : Bool), bt.Balanced →
      (bt.processState P s isRoot).1.Balanced) ∧
    (∀ bt : BTree σ, bt.Balanced → (bt.exploreNextState P).2 ≠ .error .undefined →
      (bt.exploreNextState P).1.Balanced) ∧
    (∀ (bt bt1 : BTree σ) (p : Ptr), bt.frontier.plain → bt.getNextState P = (bt1, .ok p) →
      ∃ gone : List Ptr,
        (Frontier.ptrs bt.frontier).Perm (gone ++ p :: Frontier.ptrs bt1.frontier) ∧
        (∀ q ∈ gone, bt.isDom q = true) ∧
        bt1.tStats.statesPrunedByDomBeforeExploration
          = bt.tStats.statesPrunedByDomBeforeExploration + gone.length) := by
  refine ⟨?_, fun bt s r h => processState_keeps (balanced_kept P) bt s r h, ?_, ?_⟩
  · intro t i f hf
    rcases hf with h | h | h <;> rw [h] <;> exact ⟨trivial, rfl⟩
  · intro bt hB hne
    cases hpop : (bt.getNextState P).2 with
    | error e =>
      have hex : bt.exploreNextState P = ((bt.getNextState P).1, .error e) := by
        unfold BTree.exploreNextState
        exact andThen_of_error _ hpop
      rw [hex, getNextState_plain_error P bt e hB.1 hpop]
      exact hB
    | ok p =>
      obtain ⟨gone, h1, _, h3, h4⟩ := getNextState_plain P bt (bt.getNextState P).1 p hB.1
        (Prod.ext rfl hpop)
      have hB1 : (bt.getNextState P).1.BalancedButOne := by
        refine ⟨h3, ?_⟩
        have hlen := h1.length_eq
        simp only [List.length_append, List.length_cons] at hlen
        have h5 := congrArg (fun b => b.tStats) h4
        simp only [BTree.afterPop, BTree.countPrunedByDomBeforeExploration] at h5
        rw [h5]
        simp only
        have h6 := hB.2
        rw [h6, hlen]
        push_cast
        ring
      cases hh : (bt.getNextState P).1.heap[p]? with
      | none =>
        exfalso
        apply hne
        unfold BTree.exploreNextState
        rw [andThen_of_ok _ hpop]
        simp only [hh]
      | some ns =>
        have hex : bt.exploreNextState P = (bt.getNextState P).1.exploreState P p ns := by
          unfold BTree.exploreNextState
          rw [andThen_of_ok _ hpop]
          simp only [hh]
        rw [hex] at hne ⊢
        rcases exploreState_balance P (bt.getNextState P).1 p ns hB1 with h | h
        · exact h
        · exact absurd h hne
  · intro bt bt1 p hpl hpop
    obtain ⟨gone, h1, h2, _, h4⟩ := getNextState_plain P bt bt1 p hpl hpop
    refine ⟨gone, h1, h2, ?_⟩
    have h5 := congrArg (fun b => b.tStats.statesPrunedByDomBeforeExploration) h4
    simp only [BTree.afterPop, BTree.countPrunedByDomBeforeExploration] at h5
    exact h5

theorem stored_states_balance_witness :
    ((rootedEngine sampleRoot).exploreNextState sampleProblem).2 ≠ .error .undefined ∧
    ((rootedEngine sampleRoot).exploreNextState sampleProblem).1.Balanced :=
  have h : ((rootedEngine sampleRoot).exploreNextState sampleProblem).2 ≠ .error .undefined := by
    decide!
  ⟨h, (stored_states_balance sampleProblem).2.2.1 (rootedEngine sampleRoot)
    ((stored_states_balance sampleProblem).2.1 _ sampleRoot true
      ((stored_states_balance sampleProblem).1 MIN false DFSTree.frontier (Or.inl rfl))) h⟩

end Balance

/-! ## States that are not retained -/

section Unretained

variable {σ : Type}

/-- Every step of `processState` leaves the dominance index empty when states
are not retained. -/
theorem indexOff_kept (P : Problem σ) : CallInvariant P (fun b : BTree σ => b.indexOff) where
  identify bt s h := by
    unfold BTree.identify BTree.assignID; split_ifs <;> exact h
  countCandidate bt t h := by
    unfold BTree.countCandidate; split_ifs <;> exact h
  saveBestState bt s t h := by
    unfold BTree.saveBestState; dsimp only; split_ifs <;> exact h
  applyDominanceRules bt s h := by
    unfold BTree.applyDominanceRules; split <;> exact h
  prunedByDom bt h := h
  prunedByBounds bt h := h
  updateRootBound bt s h := by
    unfold BTree.updateRootBound; split_ifs <;> exact h
  store bt s h := by
    have ha : (bt.allocate s).indexOff := by
      unfold BTree.allocate
      rw [if_neg (by rw [h.1]; decide)]
      exact h
    unfold BTree.store
    split_ifs
    · exact ha
    · unfold andThen
      rcases saveStateForExploration_cases P ((bt.allocate s).countStored s.depth.toNat)
        bt.heap.length with h1 | ⟨f, h1⟩
      · split <;> (rw [h1]; exact ha)
      · split <;> (rw [h1]; exact ha)

theorem stateIsPrunable_indexOff (bt : BTree σ) (s : State σ) (h : bt.indexOff) :
    (bt.stateIsPrunable s).1.indexOff := by
  unfold BTree.stateIsPrunable; split_ifs <;> exact h

theorem branchOn_indexOff (P : Problem σ) (bt : BTree σ) (ns : State σ) (h : bt.indexOff) :
    (bt.branchOn P ns).1.indexOff := by
  unfold BTree.branchOn
  split_ifs
  · exact h
  · exact runActions_keeps (indexOff_kept P) _ _ h

theorem exploreState_indexOff (P : Problem σ) (bt : BTree σ) (p : Ptr) (ns : State σ)
    (h : bt.indexOff) : (bt.exploreState P p ns).1.indexOff := by
  have hl : bt.labelExplored.indexOff := by
    unfold BTree.labelExplored; split_ifs <;> exact h
  have hp := stateIsPrunable_indexOff bt.labelExplored ns hl
  unfold BTree.exploreState
  split_ifs
  · rcases saveStateForExploration_cases P bt p with h1 | ⟨f, h1⟩ <;> rw [h1] <;> exact h
  · exact hp
  · unfold BTree.finalTests
    dsimp only
    have hw : ∀ x : State σ,
        (((bt.labelExplored.stateIsPrunable ns).1.writeState p x).stateIsPrunable x).1.indexOff :=
      fun x => stateIsPrunable_indexOff _ x hp
    split_ifs
    · exact hw _
    · exact branchOn_indexOff P _ _ (hw _)
  · exact branchOn_indexOff P _ _ hp

theorem exploreNextState_indexOff (P : Problem σ) (bt : BTree σ) (h : bt.indexOff) :
    (bt.exploreNextState P).1.indexOff := by
  have hg : (bt.getNextState P).1.indexOff := by
    rcases getNextState_cases P bt with h1 | ⟨f, n, h1⟩ <;> rw [h1] <;> exact h
  unfold BTree.exploreNextState andThen
  split
  · exact hg
  · dsimp only
    split
    · exact hg
    · exact exploreState_indexOff P _ _ _ hg

theorem iteration_indexOff (P : Problem σ) (clk : Clock) (i : Nat) (bt : BTree σ) (fin : Bool)
    (h : bt.indexOff) : (bt.iteration P clk i fin).1.indexOff := by
  have he := exploreNextState_indexOff P bt h
  rcases iteration_cases P clk i bt fin with ⟨x, h1⟩ | ⟨u, h1⟩ | ⟨u, h1⟩ | ⟨u, k, h1⟩ <;>
    rw [h1] <;> exact he

theorem exploreLoop_indexOff (P : Problem σ) (clk : Clock) :
    ∀ (fuel i : Nat) (bt : BTree σ) (fin : Bool), bt.indexOff →
      (BTree.exploreLoop P clk fuel i bt fin).1.indexOff := by
  intro fuel
  induction fuel with
  | zero =>
    intro i bt fin h
    unfold BTree.exploreLoop
    split_ifs <;> exact h
  | succ fuel ih =>
    intro i bt fin h
    unfold BTree.exploreLoop
    have hi := iteration_indexOff P clk i bt fin h
    split_ifs
    · split
      · exact hi
      · exact ih _ _ _ hi
    · exact h

theorem applyDominanceRules_empty (P : Problem σ) (bt : BTree σ) (s : State σ)
    (h : bt.domClasses = []) : bt.applyDominanceRules P s = (bt, s) := by
  unfold BTree.applyDominanceRules
  rw [h]
  rfl

theorem andThen_congr_on {α β : Type} {J : BTree σ → Prop} {r : BTree σ × Except Exn α}
    {k k' : BTree σ → α → BTree σ × Except Exn β}
    (h1 : J r.1) (h2 : ∀ b a, J b → k b a = k' b a) : andThen r k = andThen r k' := by
  unfold andThen
  split
  · rfl
  · exact h2 _ _ h1

theorem dominanceAndStore_empty (P : Problem σ)
    (g : State σ → State σ → State σ × State σ) (bt : BTree σ) (s : State σ) (isRoot : Bool)
    (h : bt.domClasses = []) :
    bt.dominanceAndStore { P with assessDominance := g } s isRoot
      = bt.dominanceAndStore P s isRoot := by
  unfold BTree.dominanceAndStore
  rw [applyDominanceRules_empty P bt s h,
    applyDominanceRules_empty { P with assessDominance := g } bt s h]
  rfl

/-- With an empty dominance index, `processState` does not call
`assessDominance`: the call goes the same way whatever that function is. -/
theorem processState_empty_index (P : Problem σ)
    (g : State σ → State σ → State σ × State σ) (bt : BTree σ) (s : State σ) (isRoot : Bool)
    (h : bt.domClasses = []) :
    bt.processState { P with assessDominance := g } s isRoot = bt.processState P s isRoot := by
  have hid : (bt.identify s).1.domClasses = [] := by
    rw [← h]; unfold BTree.identify BTree.assignID; split_ifs <;> rfl
  unfold BTree.processState
  apply andThen_congr_on (J := fun b => b.domClasses = []) hid
  intro b1 s1 hb1
  dsimp only
  split_ifs
  · rfl
  · apply andThen_congr_on (J := fun b => b.domClasses = [])
    · rw [← hb1]; unfold BTree.saveBestState; dsimp only; split_ifs <;> rfl
    · intro b a hb; exact dominanceAndStore_empty P g b s1 isRoot hb
  · apply andThen_congr_on (J := fun b => b.domClasses = []) hb1
    intro b a hb; exact dominanceAndStore_empty P g b s1 isRoot hb

/-- A call of `processState` that returns and counts a state as pruned by
dominance found it dominated after the dominance rules, with dominance in
use. -/
theorem processState_dom_exit (P : Problem σ) (bt : BTree σ) (s : State σ) (isRoot r : Bool)
    (h : (bt.processState P s isRoot).2 = .ok r)
    (hpd : (bt.processState P s isRoot).1.tStats.statesPrunedByDomBeforeInsertion
      = bt.tStats.statesPrunedByDomBeforeInsertion + 1) :
    bt.useDom = true ∧
    ((bt.uptoDominance s).1.applyDominanceRules P { s with id := bt.nextNodeID }).2.dominated
      = true := by
  have hd := processState_ok_depth P bt s isRoot r h
  have hfld : ∀ {b : BTree σ} {c : Int × Int × Int × Int × Int}, b.insertionCounters = c →
      b.tStats.statesPrunedByDomBeforeInsertion = c.2.2.1 := fun hc =>
    congrArg (fun x => x.2.2.1) hc
  have hub := hfld (uptoBounds_insertionCounters P bt s)
  simp only at hub
  rcases processState_cases P bt s isRoot hd with
    ⟨ht, hp⟩ | ⟨ht, e, he, hp⟩ | ⟨ht, hs, hu, hdm, hp⟩ | ⟨ht, hs, hnd, hp⟩
  · exfalso
    have h1 : (((bt.assignID s).countIdentified s.depth.toNat).processTerminalState
        { s with id := bt.nextNodeID } true).1.tStats.statesPrunedByDomBeforeInsertion
        = bt.tStats.statesPrunedByDomBeforeInsertion := by
      have := storage_fields ((processTerminalState_storage
        ((bt.assignID s).countIdentified s.depth.toNat) { s with id := bt.nextNodeID } true).trans
        (show ((bt.assignID s).countIdentified s.depth.toNat).storage = bt.storage by
          unfold BTree.assignID; split_ifs <;> rfl))
      exact this.2.2.2.1
    rw [hp] at hpd
    unfold andThen at hpd
    split at hpd <;> (rw [h1] at hpd; omega)
  · exfalso
    rw [hp] at h
    cases h
  · exact ⟨hu, hdm⟩
  · exfalso
    rw [hp] at h hpd
    by_cases hb : (bt.uptoBounds P s).1.stateExceedsBounds (bt.uptoBounds P s).2 = true
    · rw [if_pos hb] at hpd
      simp only [BTree.countPrunedByBoundsBeforeInsertion] at hpd
      rw [hub] at hpd
      omega
    · rw [if_neg hb] at h hpd
      by_cases hr : isRoot = true
      · rw [if_pos hr] at h hpd
        have hur := hfld (updateRootBound_insertionCounters (bt.uptoBounds P s).1
          (bt.uptoBounds P s).2)
        simp only [BTree.insertionCounters] at hur
        by_cases hg : ((bt.uptoBounds P s).1.updateRootBound (bt.uptoBounds P s).2).gapClosed
            = true
        · rw [if_pos hg] at hpd
          simp only at hpd
          rw [hur, hub] at hpd
          omega
        · rw [if_neg hg] at h hpd
          have hst := hfld (store_insertionCounters P _ _ r h)
          simp only at hst
          rw [hst, hur, hub] at hpd
          omega
      · rw [if_neg hr] at h hpd
        have hst := hfld (store_insertionCounters P _ _ r h)
        simp only at hst
        rw [hst, hub] at hpd
        omega

/-- C38: with `retainStates` off the dominance index stays empty for ever.
Switching `retainStates` off on an engine whose index is empty (a fresh engine,
say) gives an engine with `retainStates` off and an empty index, and every
later call of `processState`, `processHeuristicState`, `explore`, `resetBest`,
a bound setter or an option setter other than `setRetainStates(true)` keeps
it so, whatever the outcome of the call.  On such an engine `useDom` has no
effect: `processState` calls `assessDominance` for no stored state (the call
goes the same way whatever `assessDominance` is, and the list of the states
handed to it is empty), and a call that returns counts the state as pruned by
dominance only if dominance is in use and the state arrived with its dominated
flag set. -/
theorem unretained_states_disable_dominance (P : Problem σ) :
    (∀ bt : BTree σ, bt.domClasses = [] → (bt.configure (.retainStates false)).indexOff) ∧
    (∀ bt : BTree σ, bt.indexOff →
      (∀ (s : State σ) (isRoot : Bool), (bt.processState P s isRoot).1.indexOff) ∧
      (∀ s : State σ, (bt.processHeuristicState s).1.indexOff) ∧
      (∀ (clk : Clock) (fuel : Nat), (bt.explore P clk fuel).1.indexOff) ∧
      bt.resetBest.indexOff ∧
      (∀ lb : ℚ, (bt.setGlobalLB lb).indexOff) ∧ (∀ ub : ℚ, (bt.setGlobalUB ub).indexOff) ∧
      (∀ o : Setting, o ≠ .retainStates true → (bt.configure o).indexOff)) ∧
    (∀ bt : BTree σ, bt.indexOff → ∀ (s : State σ) (isRoot : Bool),
      (∀ g : State σ → State σ → State σ × State σ,
        bt.processState { P with assessDominance := g } s isRoot = bt.processState P s isRoot) ∧
      BTree.assessCalls P { s with id := bt.nextNodeID }
        ((bt.domClasses.lookup s.dominanceClassID).getD []) bt.heap = [] ∧
      (∀ r : Bool, (bt.processState P s isRoot).2 = .ok r →
        (bt.processState P s isRoot).1.tStats.statesPrunedByDomBeforeInsertion
          = bt.tStats.statesPrunedByDomBeforeInsertion + 1 →
        bt.useDom = true ∧ s.dominated = true)) := by
  refine ⟨fun bt h => ⟨rfl, h⟩, fun bt h => ⟨?_, ?_, ?_, h, fun _ => h, fun _ => h, ?_⟩,
    fun bt h s isRoot => ⟨?_, ?_, ?_⟩⟩
  · intro s isRoot
    exact processState_keeps (indexOff_kept P) bt s isRoot h
  · intro s
    exact processTerminalState_keeps (indexOff_kept P) bt s false h
  · intro clk fuel
    unfold BTree.explore
    exact exploreLoop_indexOff P clk fuel 0 _ true h
  · intro o ho
    cases o with
    | retainStates b =>
      cases b with
      | true => exact absurd rfl ho
      | false => exact ⟨rfl, h.2⟩
    | _ => exact h
  · intro g
    exact processState_empty_index P g bt s isRoot h.2
  · rw [h.2]
    rfl
  · intro r hr hpd
    obtain ⟨hu, hdm⟩ := processState_dom_exit P bt s isRoot r hr hpd
    refine ⟨hu, ?_⟩
    have he : (bt.uptoDominance s).1.domClasses = [] := (uptoDominance_heap bt s).2.trans h.2
    rw [applyDominanceRules_empty P _ _ he] at hdm
    exact hdm

theorem unretained_states_disable_dominance_witness :
    ((BTree.new MIN false DFSTree.frontier : BTree Node).configure
      (.retainStates false)).indexOff ∧
    ((((BTree.new MIN false DFSTree.frontier : BTree Node).configure
      (.retainStates false)).processState sampleProblem sampleRoot true).1.explore sampleProblem
        Clock.zero 10).1.indexOff :=
  have h := (unretained_states_disable_dominance sampleProblem).1
    (BTree.new MIN false DFSTree.frontier) rfl
  ⟨h, ((unretained_states_disable_dominance sampleProblem).2.1 _
    (((unretained_states_disable_dominance sampleProblem).2.1 _ h).1 sampleRoot
      true)).2.2.1 Clock.zero 10⟩

end Unretained

/-! ## The counter of the CDBFS frontier -/

section CDBFSCount

theorem totalSize_growLevels (qs : List SPQ) (lv : Nat) :
    totalSize (growLevels qs lv) = totalSize qs := by
  rw [totalSize_eq, totalSize_eq, growLevels_flatten]

theorem totalSize_push (qs : List SPQ) (lv : Nat) (p : Ptr) (h : lv < qs.length) :
    totalSize (qs.set lv (SPQ.push (levelQ qs lv) p)) = totalSize qs + 1 := by
  rw [totalSize_eq, totalSize_eq, (flatten_push_perm qs lv p h).length_eq, List.length_cons]

theorem totalSize_pop (lt : Ptr → Ptr → Bool) (qs : List SPQ) (lvl : Nat) (t : Ptr)
    (h : SPQ.top lt (levelQ qs lvl) = some t) :
    totalSize qs = totalSize (qs.set lvl (SPQ.pop lt (levelQ qs lvl))) + 1 := by
  have hne : levelQ qs lvl ≠ [] := by
    intro he; rw [he] at h; simp [SPQ.top] at h
  have hlt : lvl < qs.length := lt_length_of_levelQ_ne hne
  rw [totalSize_eq, totalSize_eq,
    (cbfs_flatten_after_pop qs lvl t _ hlt (pop_perm h)).length_eq, List.length_cons]

/-- A push keeps the counter of a CDBFS frontier right. -/
theorem cdbfs_save_counted (prio : Ptr → ℚ) (depth : Ptr → Int) (c c1 : CDBFSData) (p : Ptr)
    (level : Int) (hc : c.counted)
    (h : CDBFSTree.saveStateForExploration prio depth c p level = .ok c1) : c1.counted := by
  unfold CDBFSData.counted at hc ⊢
  unfold CDBFSTree.saveStateForExploration at h
  by_cases hl : level < 0
  · rw [if_pos hl] at h; cases h
  rw [if_neg hl] at h
  dsimp only at h
  have hlt : level.toNat < (growLevels c.unexploredStates level.toNat).length :=
    growLevels_length _ _
  have hg := totalSize_growLevels c.unexploredStates level.toNat
  have hpush := totalSize_push (growLevels c.unexploredStates level.toNat) level.toNat p hlt
  by_cases h1 : level = c.lastLevelExplored
  · rw [if_pos h1] at h
    injection h with h
    rw [← h]
    simp only
    rw [hpush, hg, hc]
    push_cast
    ring
  · rw [if_neg h1] at h
    cases hnb : c.nextBest with
    | none =>
      rw [hnb] at hc
      simp only [hnb] at h
      injection h with h
      rw [← h]
      simp only [Option.isSome_some, if_true]
      rw [hg, hc]
      simp
    | some nb =>
      rw [hnb] at hc
      simp only [hnb] at h
      by_cases hp : prio nb < prio p
      · rw [if_pos hp] at h
        by_cases hbad : depth nb < 0 ∨
            (depth nb).toNat ≥ (growLevels c.unexploredStates level.toNat).length
        · rw [if_pos hbad] at h; cases h
        · rw [if_neg hbad] at h
          injection h with h
          rw [← h]
          simp only [Option.isSome_some, if_true]
          have hlt2 : (depth nb).toNat < (growLevels c.unexploredStates level.toNat).length := by
            have := (not_or.mp hbad).2
            omega
          rw [totalSize_push _ _ _ hlt2, hg, hc]
          simp only [Option.isSome_some, if_true]
          push_cast
          ring
      · rw [if_neg hp] at h
        injection h with h
        rw [← h]
        simp only [Option.isSome_some, if_true]
        rw [hpush, hg, hc]
        simp only [Option.isSome_some, if_true]
        push_cast
        ring

/-- The loop of a new dive keeps the counter of a CDBFS frontier right. -/
theorem cdbfs_skipDominated_counted (lt : Ptr → Ptr → Bool) (dom : Ptr → Bool)
    (depth : Ptr → Int) (lvl : Nat) :
    ∀ (k : Nat) (c : CDBFSData) (ns : Ptr) (r : Popped CDBFSData), c.counted →
      CDBFSTree.skipDominated lt dom depth k c lvl ns = .ok r → r.rest.counted := by
  intro k
  induction k with
  | zero => intro c ns r _ h; simp [CDBFSTree.skipDominated] at h
  | succ k ih =>
    intro c ns r hc h
    unfold CDBFSTree.skipDominated at h
    by_cases hd : dom ns = true
    · rw [if_pos hd] at h
      cases ht : SPQ.top lt (levelQ c.unexploredStates lvl) with
      | none =>
        simp only [ht] at h
        injection h with h
        rw [← h]
        exact hc
      | some t =>
        simp only [ht] at h
        refine ih _ t r ?_ h
        unfold CDBFSData.counted at hc ⊢
        simp only
        rw [hc, totalSize_pop lt c.unexploredStates lvl t ht]
        push_cast
        ring
    · rw [if_neg hd] at h
      injection h with h
      rw [← h]
      exact hc

/-- A pop keeps the counter of a CDBFS frontier right. -/
theorem cdbfs_getNextState_counted (lt : Ptr → Ptr → Bool) (dom : Ptr → Bool)
    (depth : Ptr → Int) (c : CDBFSData) (r : Popped CDBFSData) (hc : c.counted)
    (h : CDBFSTree.getNextState lt dom depth c = .ok r) : r.rest.counted := by
  unfold CDBFSTree.getNextState at h
  cases hnb : c.nextBest with
  | some temp =>
    simp only [hnb] at h
    injection h with h
    rw [← h]
    unfold CDBFSData.counted at hc ⊢
    rw [hnb] at hc
    simp only [Option.isSome_some, if_true] at hc
    simp only [Option.isSome_none, Bool.false_eq_true, if_false]
    rw [hc]
    ring
  | none =>
    simp only [hnb] at h
    unfold CDBFSData.counted at hc
    rw [hnb] at hc
    split_ifs at h
    split at h
    · cases h
    · rename_i lvl _
      split at h
      · cases h
      · rename_i ns hns
        refine cdbfs_skipDominated_counted lt dom depth lvl _ _ ns r ?_ h
        unfold CDBFSData.counted
        simp only
        rw [hc, totalSize_pop lt c.unexploredStates lvl ns hns]
        push_cast
        ring

/-- The counter of a reachable CDBFS frontier is right. -/
theorem cdbfs_reached_counted {c : CDBFSData} (h : CDBFSTree.Reached c) : c.counted := by
  induction h with
  | empty d l c hc =>
    unfold CDBFSTree.frontier at hc
    injection hc with hc
    rw [← hc]
    unfold CDBFSData.counted totalSize
    simp
  | push prio depth p level _ hs ih => exact cdbfs_save_counted prio depth _ _ p level ih hs
  | pop lt dom depth _ hg ih => exact cdbfs_getNextState_counted lt dom depth _ _ ih hg

/-- C40: the size invariant of CDBFS.  In every frontier reachable from an
empty CDBFS frontier by pushes and pops, `numUnexploredStates` is the total
number of states in the level queues, plus one when `nextBest` is not null.
Hence `isEmpty()` is exact: it is true exactly when no state waits.  And when
`getNextState` is called on a frontier that is not empty with `nextBest` null,
the cyclic scan stops at a level that is not empty after looking at no more
levels than there are (the same level with the one step more the loop is
allowed here), and `getNextState` returns. -/
theorem cdbfs_size_invariant {c : CDBFSData} (h : CDBFSTree.Reached c) :
    c.numUnexploredStates
      = (totalSize c.unexploredStates : Int) + (if c.nextBest.isSome then 1 else 0) ∧
    (CDBFSTree.isEmpty c = true ↔ Frontier.ptrs (.cdbfs c) = []) ∧
    (CDBFSTree.isEmpty c = false → c.nextBest = none →
      (∃ lvl, CDBFSTree.scan c.unexploredStates c.unexploredStates.length
          (CDBFSTree.nextLevel c.lastDiveLevel c.unexploredStates.length)
            = some lvl ∧
        CDBFSTree.scan c.unexploredStates (c.unexploredStates.length + 1)
          (CDBFSTree.nextLevel c.lastDiveLevel c.unexploredStates.length)
            = some lvl ∧
        levelQ c.unexploredStates lvl ≠ []) ∧
      ∀ (lt : Ptr → Ptr → Bool) (dom : Ptr → Bool) (depth : Ptr → Int),
        ∃ r, CDBFSTree.getNextState lt dom depth c = .ok r) := by
  have hc := cdbfs_reached_counted h
  have hlen : c.numUnexploredStates
      = ((c.nextBest.toList ++ c.unexploredStates.flatten).length : Int) := by
    unfold CDBFSData.counted at hc
    rw [hc, totalSize_eq]
    cases c.nextBest with
    | none => simp
    | some nb => simp
  refine ⟨hc, ?_, ?_⟩
  · unfold CDBFSTree.isEmpty
    simp only [Frontier.ptrs, beq_iff_eq]
    rw [hlen]
    constructor
    · intro h0
      exact List.length_eq_zero.mp (by exact_mod_cast h0)
    · intro h0
      rw [h0]; rfl
  · intro hne hnb
    have hflat : c.unexploredStates.flatten ≠ [] := by
      intro h0
      rw [hnb, h0] at hlen
      simp only [Option.toList, List.append_nil, List.length_nil, Nat.cast_zero] at hlen
      simp [CDBFSTree.isEmpty, hlen] at hne
    obtain ⟨l0, hl0⟩ := exists_levelQ_ne c.unexploredStates hflat
    have hl0lt : l0 < c.unexploredStates.length := lt_length_of_levelQ_ne hl0
    have hpos : 0 < c.unexploredStates.length := by omega
    have hcur : CDBFSTree.nextLevel c.lastDiveLevel c.unexploredStates.length
        < c.unexploredStates.length := Nat.mod_lt _ hpos
    obtain ⟨j0, hj0, hj0eq⟩ := cyclic_reach c.unexploredStates.length _ l0 hcur hl0lt
    obtain ⟨j, hj, hscan, hnej, hall⟩ := scan_first c.unexploredStates
      c.unexploredStates.length _ hcur ⟨j0, hj0, by rw [hj0eq]; exact hl0⟩
    obtain ⟨j', hj', hscan', hnej', hall'⟩ := scan_first c.unexploredStates
      (c.unexploredStates.length + 1) _ hcur ⟨j0, by omega, by rw [hj0eq]; exact hl0⟩
    have hjj : j = j' := by
      rcases Nat.lt_trichotomy j j' with hlt | heq | hgt
      · exact absurd (hall' j hlt) hnej
      · exact heq
      · exact absurd (hall j' hgt) hnej'
    refine ⟨⟨_, hscan, ?_, hnej⟩, fun lt dom depth => ?_⟩
    · rw [hscan', hjj]
    · obtain ⟨r, hr, _⟩ := cdbfs_getNextState_result lt dom depth c
        ⟨hlen, fun nb hnb' => by rw [hnb] at hnb'; cases hnb'⟩ hne
      exact ⟨r, hr⟩

theorem cdbfs_size_invariant_witness :
    CDBFSTree.saveStateForExploration (fun _ => 0) (fun _ => 1)
        { unexploredStates := [], nonEmptyLevelSPQs := [], nextBest := none,
          lastDiveLevel := -1, lastLevelExplored := -1, numUnexploredStates := 0 } 7 1
      = .ok { unexploredStates := [[], []], nonEmptyLevelSPQs := [], nextBest := some 7,
              lastDiveLevel := -1, lastLevelExplored := -1, numUnexploredStates := 1 } ∧
    CDBFSTree.isEmpty
      { unexploredStates := [[], []], nonEmptyLevelSPQs := [], nextBest := some 7,
        lastDiveLevel := -1, lastLevelExplored := -1, numUnexploredStates := 1 } = false ∧
    (1 : Int) = (totalSize [[], []] : Int) + (if (some 7 : Option Ptr).isSome then 1 else 0) :=
  have hs : CDBFSTree.saveStateForExploration (fun _ => 0) (fun _ => 1)
        { unexploredStates := [], nonEmptyLevelSPQs := [], nextBest := none,
          lastDiveLevel := -1, lastLevelExplored := -1, numUnexploredStates := 0 } 7 1
      = .ok { unexploredStates := [[], []], nonEmptyLevelSPQs := [], nextBest := some 7,
              lastDiveLevel := -1, lastLevelExplored := -1, numUnexploredStates := 1 } := by
    decide
  ⟨hs, by decide, (cdbfs_size_invariant
    (CDBFSTree.Reached.push (fun _ => 0) (fun _ => 1) 7 1
      (CDBFSTree.Reached.empty (-1) (-1) _ rfl) hs)).1⟩

end CDBFSCount

/-! ## The list of levels of the CBFS frontier -/

section CBFSList

theorem listedBut_of_listed (qs : List SPQ) (lvl : Nat) (rest : List Nat) (q' : SPQ)
    (hnd : (lvl :: rest).Nodup) (hiff : ∀ l, l ∈ lvl :: rest ↔ levelQ qs l ≠ []) :
    levelsListedBut rest (qs.set lvl q') lvl := by
  have hlt : lvl < qs.length := lt_length_of_levelQ_ne ((hiff lvl).mp (List.mem_cons_self _ _))
  refine ⟨(List.nodup_cons.mp hnd).2, (List.nodup_cons.mp hnd).1, by simpa using hlt, ?_⟩
  intro l
  by_cases hl : l = lvl
  · subst hl
    simp [(List.nodup_cons.mp hnd).1]
  · rw [levelQ_set_ne _ _ _ _ hl, ← hiff l]
    simp [hl]

theorem listedBut_set (L : List Nat) (qs : List SPQ) (lvl : Nat) (q' : SPQ)
    (h : levelsListedBut L qs lvl) : levelsListedBut L (qs.set lvl q') lvl := by
  obtain ⟨h1, h2, h3, h4⟩ := h
  refine ⟨h1, h2, by simpa using h3, ?_⟩
  intro l
  by_cases hl : l = lvl
  · subst hl
    simp [h2]
  · rw [levelQ_set_ne _ _ _ _ hl]
    exact h4 l

theorem listed_of_listedBut_empty (L : List Nat) (qs : List SPQ) (lvl : Nat)
    (h : levelsListedBut L qs lvl) (he : levelQ qs lvl = []) :
    L.Nodup ∧ ∀ l, l ∈ L ↔ levelQ qs l ≠ [] := by
  obtain ⟨h1, h2, h3, h4⟩ := h
  refine ⟨h1, fun l => ?_⟩
  rw [h4 l]
  constructor
  · exact fun h => h.1
  · intro h
    refine ⟨h, fun hl => ?_⟩
    rw [hl] at h
    exact h he

theorem listed_of_listedBut_back (L : List Nat) (qs : List SPQ) (lvl : Nat)
    (h : levelsListedBut L qs lvl) (hne : levelQ qs lvl ≠ []) :
    (L ++ [lvl]).Nodup ∧ ∀ l, l ∈ L ++ [lvl] ↔ levelQ qs l ≠ [] := by
  obtain ⟨h1, h2, h3, h4⟩ := h
  refine ⟨List.Nodup.append h1 (List.nodup_singleton _) (by simpa using h2), fun l => ?_⟩
  rw [List.mem_append, List.mem_singleton, h4 l]
  by_cases hl : l = lvl
  · subst hl
    simp [hne]
  · simp [hl]

theorem listed_of_listedBut_front (L : List Nat) (qs : List SPQ) (lvl : Nat)
    (h : levelsListedBut L qs lvl) (hne : levelQ qs lvl ≠ []) :
    (lvl :: L).Nodup ∧ ∀ l, l ∈ lvl :: L ↔ levelQ qs l ≠ [] := by
  obtain ⟨h1, h2, h3, h4⟩ := h
  refine ⟨List.nodup_cons.mpr ⟨h2, h1⟩, fun l => ?_⟩
  rw [List.mem_cons, h4 l]
  by_cases hl : l = lvl
  · subst hl
    simp [hne]
  · simp [hl]

/-- The loop of `getNextStateStandard` leaves the list of levels right. -/
theorem standardLoop_listed (lt : Ptr → Ptr → Bool) (dom : Ptr → Bool) (depth : Ptr → Int) :
    ∀ (k : Nat) (c : CBFSData) (lvl : Nat) (ns : Ptr) (r : Popped CBFSData),
      levelsListedBut c.nonEmptyLevelSPQs c.unexploredStates lvl →
      CBFSTree.standardLoop lt dom depth k c lvl ns = .ok r → r.rest.listed := by
  intro k
  induction k with
  | zero => intro c lvl ns r _ h; simp [CBFSTree.standardLoop] at h
  | succ k ih =>
    intro c lvl ns r hb h
    unfold CBFSTree.standardLoop at h
    by_cases hd : dom ns = true
    · rw [if_pos hd] at h
      by_cases he : (levelQ c.unexploredStates lvl).isEmpty = true
      · rw [if_pos he] at h
        have hqe : levelQ c.unexploredStates lvl = [] := List.isEmpty_iff.mp he
        have hl := listed_of_listedBut_empty _ _ _ hb hqe
        cases hLc : c.nonEmptyLevelSPQs with
        | nil =>
          simp only [hLc] at h
          injection h with h
          rw [← h]
          rw [hLc] at hl
          exact hl
        | cons l rest =>
          simp only [hLc] at h
          rw [hLc] at hl
          unfold CBFSTree.popLevel at h
          cases ht : SPQ.top lt (levelQ c.unexploredStates l) with
          | none => simp [ht] at h
          | some t =>
            simp only [ht] at h
            exact ih _ l t r (listedBut_of_listed _ _ _ _ hl.1 hl.2) h
      · rw [if_neg he] at h
        unfold CBFSTree.popLevel at h
        cases ht : SPQ.top lt (levelQ c.unexploredStates lvl) with
        | none => simp [ht] at h
        | some t =>
          simp only [ht] at h
          exact ih _ lvl t r (listedBut_set _ _ _ _ hb) h
    · rw [if_neg hd] at h
      dsimp only at h
      injection h with h
      rw [← h]
      by_cases he : (levelQ c.unexploredStates lvl).isEmpty = true
      · rw [if_pos he]
        exact listed_of_listedBut_empty _ _ _ hb (List.isEmpty_iff.mp he)
      · rw [if_neg he]
        exact listed_of_listedBut_back _ _ _ hb (fun h0 => he (List.isEmpty_iff.mpr h0))

theorem getNextStateStandard_listed (lt : Ptr → Ptr → Bool) (dom : Ptr → Bool)
    (depth : Ptr → Int) (c : CBFSData) (r : Popped CBFSData) (hc : c.listed)
    (h : CBFSTree.getNextStateStandard lt dom depth c = .ok r) : r.rest.listed := by
  unfold CBFSTree.getNextStateStandard at h
  cases hLc : c.nonEmptyLevelSPQs with
  | nil => simp [hLc] at h
  | cons lvl rest =>
    simp only [hLc] at h
    unfold CBFSTree.popLevel at h
    cases ht : SPQ.top lt (levelQ c.unexploredStates lvl) with
    | none => simp [ht] at h
    | some t =>
      simp only [ht] at h
      have hl := hc
      unfold CBFSData.listed at hl
      rw [hLc] at hl
      exact standardLoop_listed lt dom depth _ _ lvl t r
        (listedBut_of_listed _ _ _ _ hl.1 hl.2) h

/-- The loop of `getNextStateFromCurLevel` leaves the list of levels right. -/
theorem curLevelLoop_listed (lt : Ptr → Ptr → Bool) (dom : Ptr → Bool) (depth : Ptr → Int) :
    ∀ (k : Nat) (c : CBFSData) (lvl : Nat) (ns : Ptr) (r : Popped CBFSData) (rest : List Nat),
      c.nonEmptyLevelSPQs = lvl :: rest →
      levelsListedBut rest c.unexploredStates lvl →
      CBFSTree.curLevelLoop lt dom depth k c lvl ns = .ok r → r.rest.listed := by
  intro k
  induction k with
  | zero => intro c lvl ns r rest _ _ h; simp [CBFSTree.curLevelLoop] at h
  | succ k ih =>
    intro c lvl ns r rest hL hb h
    unfold CBFSTree.curLevelLoop at h
    by_cases hd : dom ns = true
    · rw [if_pos hd] at h
      by_cases he : (levelQ c.unexploredStates lvl).isEmpty = true
      · rw [if_pos he] at h
        have hqe : levelQ c.unexploredStates lvl = [] := List.isEmpty_iff.mp he
        have hl := listed_of_listedBut_empty _ _ _ hb hqe
        simp only [hL, List.tail_cons] at h
        cases hrest : rest with
        | nil =>
          simp only [hrest] at h
          injection h with h
          rw [← h]
          rw [hrest] at hl
          exact hl
        | cons l rest1 =>
          simp only [hrest] at h
          rw [hrest] at hl
          unfold CBFSTree.popLevel at h
          cases ht : SPQ.top lt (levelQ c.unexploredStates l) with
          | none => simp [ht] at h
          | some t =>
            simp only [ht] at h
            exact ih _ l t r rest1 rfl (listedBut_of_listed _ _ _ _ hl.1 hl.2) h
      · rw [if_neg he] at h
        unfold CBFSTree.popLevel at h
        cases ht : SPQ.top lt (levelQ c.unexploredStates lvl) with
        | none => simp [ht] at h
        | some t =>
          simp only [ht] at h
          exact ih
            { c with unexploredStates :=
                       c.unexploredStates.set lvl (SPQ.pop lt (levelQ c.unexploredStates lvl)) }
            lvl t r rest hL (listedBut_set _ _ _ _ hb) h
    · rw [if_neg hd] at h
      dsimp only at h
      injection h with h
      rw [← h]
      by_cases he : (levelQ c.unexploredStates lvl).isEmpty = true
      · rw [if_pos he]
        have := listed_of_listedBut_empty _ _ _ hb (List.isEmpty_iff.mp he)
        simp only [CBFSData.listed, hL, List.tail_cons]
        exact this
      · rw [if_neg he]
        have hne : levelQ c.unexploredStates lvl ≠ [] := fun h0 => he (List.isEmpty_iff.mpr h0)
        split_ifs
        · have := listed_of_listedBut_back _ _ _ hb hne
          simp only [CBFSData.listed, hL, List.tail_cons]
          exact this
        · have := listed_of_listedBut_front _ _ _ hb hne
          simp only [CBFSData.listed, hL]
          exact this

theorem getNextStateFromCurLevel_listed (lt : Ptr → Ptr → Bool) (dom : Ptr → Bool)
    (depth : Ptr → Int) (c : CBFSData) (r : Popped CBFSData) (hc : c.listed)
    (h : CBFSTree.getNextStateFromCurLevel lt dom depth c = .ok r) : r.rest.listed := by
  unfold CBFSTree.getNextStateFromCurLevel at h
  cases hLc : c.nonEmptyLevelSPQs with
  | nil => simp [hLc] at h
  | cons lvl rest =>
    simp only [hLc] at h
    unfold CBFSTree.popLevel at h
    cases ht : SPQ.top lt (levelQ c.unexploredStates lvl) with
    | none => simp [ht] at h
    | some t =>
      simp only [ht] at h
      have hl := hc
      unfold CBFSData.listed at hl
      rw [hLc] at hl
      exact curLevelLoop_listed lt dom depth _
        { c with unexploredStates :=
                   c.unexploredStates.set lvl (SPQ.pop lt (levelQ c.unexploredStates lvl)) }
        lvl t r rest hLc (listedBut_of_listed _ _ _ _ hl.1 hl.2) h

theorem drand48_levels (c : CBFSData) :
    c.drand48.2.nonEmptyLevelSPQs = c.nonEmptyLevelSPQs ∧
    c.drand48.2.unexploredStates = c.unexploredStates := by
  unfold CBFSData.drand48
  split <;> exact ⟨rfl, rfl⟩

theorem vectorAt_ne_nil {v : List Ptr} {i : Int} {x : Ptr} (h : vectorAt v i = some x) :
    v ≠ [] := by
  intro hv
  rw [hv] at h
  unfold vectorAt at h
  split_ifs at h
  simp at h

/-- The loop of `getNextStateRandomFromTopK` leaves the list of levels right,
when the call it makes to start over does. -/
theorem randomLoop_listed (lt : Ptr → Ptr → Bool) (dom : Ptr → Bool) (depth : Ptr → Int)
    (restart : CBFSData → Nat → Except Exn (Popped CBFSData))
    (hrestart : ∀ c n r, c.listed → restart c n = .ok r → r.rest.listed) :
    ∀ (k : Nat) (c : CBFSData) (lvl : Nat) (best : List Ptr) (numStates : Int) (ns : Ptr)
      (n : Nat) (r : Popped CBFSData),
      levelsListedBut c.nonEmptyLevelSPQs c.unexploredStates lvl →
      (levelQ c.unexploredStates lvl ≠ [] → numStates ≠ 0) →
      CBFSTree.randomLoop lt dom depth restart k c lvl best numStates ns n = .ok r →
      r.rest.listed := by
  intro k
  induction k with
  | zero => intro c lvl best numStates ns n r _ _ h; simp [CBFSTree.randomLoop] at h
  | succ k ih =>
    intro c lvl best numStates ns n r hb hnum h
    unfold CBFSTree.randomLoop at h
    by_cases hd : dom ns = true
    · rw [if_pos hd] at h
      by_cases h0 : numStates = 0
      · have hqe : levelQ c.unexploredStates lvl = [] := by
          by_contra hne
          exact hnum hne h0
        have hl := listed_of_listedBut_empty _ _ _ hb hqe
        by_cases hLe : c.nonEmptyLevelSPQs.isEmpty = true
        · rw [if_pos ⟨h0, hLe⟩] at h
          injection h with h
          rw [← h]
          exact hl
        · rw [if_neg (fun hc => hLe hc.2), if_pos h0] at h
          exact hrestart c (n + 1) r hl h
      · rw [if_neg (fun hc => h0 hc.1), if_neg h0] at h
        dsimp only at h
        cases ht : SPQ.top lt (levelQ c.unexploredStates lvl) with
        | none =>
          simp only [ht] at h
          split at h
          · cases h
          · have hdr := drand48_levels c
            refine ih _ lvl _ _ _ _ r ?_ ?_ h
            · rw [hdr.1, hdr.2]; exact hb
            · rw [hdr.2]
              intro hne
              exact absurd (top_eq_none.mp ht) hne
        | some t =>
          simp only [ht] at h
          split at h
          · cases h
          · have hdr := drand48_levels
              { c with unexploredStates :=
                         c.unexploredStates.set lvl (SPQ.pop lt (levelQ c.unexploredStates lvl)) }
            refine ih _ lvl _ _ _ _ r ?_ ?_ h
            · rw [hdr.1, hdr.2]; exact listedBut_set _ _ _ _ hb
            · intro _
              simpa using h0
    · rw [if_neg hd] at h
      dsimp only at h
      injection h with h
      rw [← h]
      have hb2 := listedBut_set _ _ lvl
        ((List.take (numStates - 1).toNat (vectorRemove best ns)).foldl SPQ.push
          (levelQ c.unexploredStates lvl)) hb
      have hq := levelQ_set_self c.unexploredStates lvl
        ((List.take (numStates - 1).toNat (vectorRemove best ns)).foldl SPQ.push
          (levelQ c.unexploredStates lvl)) hb.2.2.1
      by_cases he : ((List.take (numStates - 1).toNat (vectorRemove best ns)).foldl SPQ.push
          (levelQ c.unexploredStates lvl)).isEmpty = true
      · rw [if_pos he]
        exact listed_of_listedBut_empty _ _ _ hb2 (by rw [hq]; exact List.isEmpty_iff.mp he)
      · rw [if_neg he]
        exact listed_of_listedBut_back _ _ _ hb2
          (by rw [hq]; exact fun h0 => he (List.isEmpty_iff.mpr h0))

theorem randomFromTopK_listed (lt : Ptr → Ptr → Bool) (dom : Ptr → Bool) (depth : Ptr → Int) :
    ∀ (k : Nat) (c : CBFSData) (n : Nat) (r : Popped CBFSData), c.listed →
      CBFSTree.getNextStateRandomFromTopK lt dom depth k c n = .ok r → r.rest.listed := by
  intro k
  induction k with
  | zero => intro c n r _ h; simp [CBFSTree.getNextStateRandomFromTopK] at h
  | succ k ih =>
    intro c n r hc h
    unfold CBFSTree.getNextStateRandomFromTopK at h
    cases hLc : c.nonEmptyLevelSPQs with
    | nil => simp [hLc] at h
    | cons lvl rest =>
      simp only [hLc] at h
      split at h
      · cases h
      · rename_i ns hns
        have hl := hc
        unfold CBFSData.listed at hl
        rw [hLc] at hl
        have hdr := drand48_levels
          { c with nonEmptyLevelSPQs := rest,
                   unexploredStates := c.unexploredStates.set lvl
                     (CBFSTree.takeBest lt c.numToSelect.toNat
                       (levelQ c.unexploredStates lvl) []).2 }
        refine randomLoop_listed lt dom depth _ (fun c2 n2 r2 h1 h2 => ih c2 n2 r2 h1 h2)
          _ _ lvl _ _ ns n r ?_ ?_ h
        · rw [hdr.1, hdr.2]
          exact listedBut_of_listed _ _ _ _ hl.1 hl.2
        · intro _
          have := vectorAt_ne_nil hns
          intro h0
          apply this
          exact List.length_eq_zero.mp (by exact_mod_cast h0)

/-- A pop leaves the list of levels of a CBFS frontier right, in each of the
three modes. -/
theorem cbfs_getNextState_listed (lt : Ptr → Ptr → Bool) (dom : Ptr → Bool)
    (depth : Ptr → Int) (c : CBFSData) (r : Popped CBFSData) (hc : c.listed)
    (h : CBFSTree.getNextState lt dom depth c = .ok r) : r.rest.listed := by
  unfold CBFSTree.getNextState at h
  split_ifs at h
  · exact getNextStateStandard_listed lt dom depth c r hc h
  · exact randomFromTopK_listed lt dom depth _ c 0 r hc h
  · exact getNextStateFromCurLevel_listed lt dom depth c r hc h

/-- A push at a depth that is not negative onto a CBFS frontier whose list of
levels is right returns (the front of the list is read only when the list is
not empty) and leaves the list right. -/
theorem cbfs_save_listed (c : CBFSData) (p : Ptr) (level : Int) (hc : c.listed)
    (hlevel : 0 ≤ level) :
    ∃ c1, CBFSTree.saveStateForExploration c p level = .ok c1 ∧ c1.listed := by
  obtain ⟨hnd, hiff⟩ := hc
  unfold CBFSTree.saveStateForExploration
  rw [if_neg (not_lt.mpr hlevel)]
  dsimp only
  generalize hlv : level.toNat = lv
  generalize hqs : growLevels c.unexploredStates lv = qs
  have hlt : lv < qs.length := by rw [← hqs]; exact growLevels_length _ _
  have hlq : ∀ l, levelQ qs l = levelQ c.unexploredStates l := by
    intro l; rw [← hqs]; exact growLevels_levelQ _ _ _
  have hpne : SPQ.push (levelQ qs lv) p ≠ [] := by simp [SPQ.push]
  have hiff' : ∀ L' : List Nat, (∀ l, l ∈ L' ↔ (l = lv ∨ l ∈ c.nonEmptyLevelSPQs)) →
      ∀ l, l ∈ L' ↔ levelQ (qs.set lv (SPQ.push (levelQ qs lv) p)) l ≠ [] := by
    intro L' hL' l
    rw [hL' l]
    by_cases hl : l = lv
    · subst hl
      rw [levelQ_set_self _ _ _ hlt]
      simp [hpne]
    · rw [levelQ_set_ne _ _ _ _ hl, hlq, ← hiff l]
      simp [hl]
  by_cases hemp : levelQ qs lv = []
  · have hnotin : lv ∉ c.nonEmptyLevelSPQs := by
      rw [hiff lv, ← hlq lv, hemp]; simp
    simp only [hemp, List.isEmpty_nil, if_true]
    have hgen : ∀ L0 : List Nat, L0.Nodup → (∀ l, l ∈ L0 ↔ (l = lv ∨ l ∈ c.nonEmptyLevelSPQs)) →
        ∀ c1 : CBFSData, c1.unexploredStates = qs.set lv (SPQ.push [] p) →
        c1.nonEmptyLevelSPQs = L0 → c1.listed := by
      intro L0 hnd0 hL0 c1 e1 e2
      refine ⟨by rw [e2]; exact hnd0, ?_⟩
      rw [e1, e2]
      have := hiff' L0 hL0
      simpa [hemp] using this
    have hA := hgen (c.nonEmptyLevelSPQs ++ [lv])
      (List.Nodup.append hnd (List.nodup_singleton _) (by simpa using hnotin))
      (by intro l; simp [or_comm])
    have hB := hgen (lv :: c.nonEmptyLevelSPQs) (List.nodup_cons.mpr ⟨hnotin, hnd⟩)
      (by intro l; simp)
    have hC : ∀ prev rest, c.nonEmptyLevelSPQs = prev :: rest →
        (prev :: lv :: rest).Nodup ∧
          (∀ l, l ∈ prev :: lv :: rest ↔ (l = lv ∨ l ∈ c.nonEmptyLevelSPQs)) := by
      intro prev rest hL
      rw [hL] at hnd hnotin
      constructor
      · have h4 := List.nodup_cons.mp hnd
        simp only [List.mem_cons, not_or] at hnotin
        refine List.nodup_cons.mpr ⟨?_, List.nodup_cons.mpr ⟨hnotin.2, h4.2⟩⟩
        simp only [List.mem_cons, not_or]
        exact ⟨fun h => hnotin.1 h.symm, h4.1⟩
      · intro l; rw [hL]; simp; tauto
    by_cases h1 : level = c.lastLevelExplored
    · rw [if_pos h1]; exact ⟨_, rfl, hA _ rfl rfl⟩
    rw [if_neg h1]
    by_cases hpos : level > 0
    · rw [if_pos hpos]
      split
      · exact ⟨_, rfl, hB _ rfl rfl⟩
      · rename_i hnot
        have h3 := (not_or.mp (not_or.mp hnot).2).1
        have hne1 : lv - 1 ≠ lv := by omega
        rw [levelQ_set_ne _ _ _ _ hne1, hlq] at h3
        have hprev : levelQ c.unexploredStates (lv - 1) ≠ [] := by simpa using h3
        have hin : lv - 1 ∈ c.nonEmptyLevelSPQs := (hiff _).mpr hprev
        cases hL : c.nonEmptyLevelSPQs with
        | nil => rw [hL] at hin; simp at hin
        | cons prev rest =>
          exact ⟨_, rfl, hgen _ (hC prev rest hL).1 (hC prev rest hL).2 _ rfl rfl⟩
    · rw [if_neg hpos]
      split
      · exact ⟨_, rfl, hB _ rfl rfl⟩
      · rename_i hnot
        exact absurd rfl (not_or.mp (not_or.mp hnot).2).1
  · have hin : lv ∈ c.nonEmptyLevelSPQs := by rw [hiff lv, ← hlq lv]; exact hemp
    simp only [List.isEmpty_eq_true, hemp, if_false]
    refine ⟨_, rfl, hnd, ?_⟩
    apply hiff'
    intro l
    constructor
    · exact fun h => Or.inr h
    · rintro (h | h)
      · rw [h]; exact hin
      · exact h

theorem cbfs_save_level (c c1 : CBFSData) (p : Ptr) (level : Int)
    (h : CBFSTree.saveStateForExploration c p level = .ok c1) : 0 ≤ level := by
  by_contra hl
  unfold CBFSTree.saveStateForExploration at h
  rw [if_pos (not_le.mp hl)] at h
  cases h

/-- The list of levels of a reachable CBFS frontier is right. -/
theorem cbfs_reached_listed {c : CBFSData} (h : CBFSTree.Reached c) : c.listed := by
  induction h with
  | empty sel k draws c hc =>
    unfold CBFSTree.frontier at hc
    injection hc with hc
    rw [← hc]
    refine ⟨List.nodup_nil, fun l => ?_⟩
    simp [levelQ]
  | @push c c1 p level _ hs ih =>
    obtain ⟨c2, h2, hl⟩ := cbfs_save_listed c p level ih (cbfs_save_level c c1 p level hs)
    rw [hs] at h2
    injection h2 with h2
    rw [h2]
    exact hl
  | pop lt dom depth _ hg ih => exact cbfs_getNextState_listed lt dom depth _ _ ih hg

/-- C33: the list invariant of CBFS.  In every frontier reachable from an
empty CBFS frontier by pushes and pops (in each of the three modes, the
pushes of deferred states among them), the list `nonEmptyLevelSPQs` holds
exactly the levels whose queue is not empty, each once.  Hence `isEmpty()` is
true exactly when no state waits, and a push at a depth that is not negative
returns: the K_BEST_AT_LEVEL branch that reads the front of the list never
finds the list empty. -/
theorem cbfs_list_invariant {c : CBFSData} (h : CBFSTree.Reached c) :
    (c.nonEmptyLevelSPQs.Nodup ∧
      ∀ lvl, lvl ∈ c.nonEmptyLevelSPQs ↔ levelQ c.unexploredStates lvl ≠ []) ∧
    (CBFSTree.isEmpty c = true ↔ c.unexploredStates.flatten = []) ∧
    (∀ (p : Ptr) (level : Int), 0 ≤ level →
      ∃ c1, CBFSTree.saveStateForExploration c p level = .ok c1) := by
  have hl := cbfs_reached_listed h
  refine ⟨hl, ?_, fun p level hlevel => ?_⟩
  · unfold CBFSTree.isEmpty
    rw [List.isEmpty_iff]
    constructor
    · intro hL
      apply flatten_eq_nil_of_levels
      intro l
      by_contra hne
      have := (hl.2 l).mpr hne
      rw [hL] at this
      cases this
    · intro hf
      cases hL : c.nonEmptyLevelSPQs with
      | nil => rfl
      | cons l rest =>
        exfalso
        have hne := (hl.2 l).mp (by rw [hL]; exact List.mem_cons_self _ _)
        have hlt := lt_length_of_levelQ_ne hne
        have hperm := flatten_perm_levelQ c.unexploredStates l hlt
        rw [hf] at hperm
        have := hperm.length_eq
        simp only [List.length_nil, List.length_append] at this
        have hpos : 0 < (levelQ c.unexploredStates l).length := List.length_pos.mpr hne
        omega
  · obtain ⟨c1, h1, _⟩ := cbfs_save_listed c p level hl hlevel
    exact ⟨c1, h1⟩

theorem cbfs_list_invariant_witness :
    CBFSTree.saveStateForExploration
        { unexploredStates := [], nonEmptyLevelSPQs := [], selectionMethod := K_BEST_AT_LEVEL,
          numToSelect := 1, numExploredAtCurLevel := 0, lastLevelExplored := -1, draws := [] }
        7 1
      = .ok { unexploredStates := [[], [7]], nonEmptyLevelSPQs := [1],
              selectionMethod := K_BEST_AT_LEVEL, numToSelect := 1,
              numExploredAtCurLevel := 0, lastLevelExplored := -1, draws := [] } ∧
    CBFSTree.isEmpty
      { unexploredStates := [[], [7]], nonEmptyLevelSPQs := [1],
        selectionMethod := K_BEST_AT_LEVEL, numToSelect := 1,
        numExploredAtCurLevel := 0, lastLevelExplored := -1, draws := [] } = false ∧
    ([1] : List Nat).Nodup :=
  have hs : CBFSTree.saveStateForExploration
        { unexploredStates := [], nonEmptyLevelSPQs := [], selectionMethod := K_BEST_AT_LEVEL,
          numToSelect := 1, numExploredAtCurLevel := 0, lastLevelExplored := -1, draws := [] }
        7 1
      = .ok { unexploredStates := [[], [7]], nonEmptyLevelSPQs := [1],
              selectionMethod := K_BEST_AT_LEVEL, numToSelect := 1,
              numExploredAtCurLevel := 0, lastLevelExplored := -1, draws := [] } := by
    decide
  ⟨hs, by decide, (cbfs_list_invariant
    (CBFSTree.Reached.push 7 1 (CBFSTree.Reached.empty K_BEST_AT_LEVEL 1 [] _ rfl) hs)).1.1⟩

end CBFSList

/-! ## The K_BEST_AT_LEVEL push behind the front -/

section KBestPush

/-- C32 (the code at a failing input): a CBFS search in the K_BEST_AT_LEVEL
mode with `numToSelect = 1` on the tree `turnTree`.  After five iterations of
`explore` the sixth pops state 6, of depth 3: the queue of level 3 keeps state
7 and goes to the back of the list of levels, which is then `[2, 3]`, with
`numExploredAtCurLevel` back at 0.  The child of state 6, state 8 of depth 4,
is pushed next: the queue of level 4 was empty and 4 is not
`lastLevelExplored`; the front of the list is the queue of level 2, not the
queue of level 3; yet the queue of level 4 is inserted directly behind the
front, and the list is `[2, 4, 3]` after the sixth iteration. -/
theorem k_best_push_behind_other_front :
    ((turnEngine.explore sampleProblem Clock.zero 5).1.getNextState sampleProblem).2 = .ok 6 ∧
    ((turnEngine.explore sampleProblem Clock.zero 5).1.getNextState sampleProblem).1.frontier
      = .cbfs { unexploredStates := [[], [], [5], [7]], nonEmptyLevelSPQs := [2, 3],
                selectionMethod := K_BEST_AT_LEVEL, numToSelect := 1,
                numExploredAtCurLevel := 0, lastLevelExplored := 3, draws := [] } ∧
    CBFSTree.saveStateForExploration
        { unexploredStates := [[], [], [5], [7]], nonEmptyLevelSPQs := [2, 3],
          selectionMethod := K_BEST_AT_LEVEL, numToSelect := 1,
          numExploredAtCurLevel := 0, lastLevelExplored := 3, draws := [] } 8 4
      = .ok { unexploredStates := [[], [], [5], [7], [8]], nonEmptyLevelSPQs := [2, 4, 3],
              selectionMethod := K_BEST_AT_LEVEL, numToSelect := 1,
              numExploredAtCurLevel := 0, lastLevelExplored := 3, draws := [] } ∧
    (turnEngine.explore sampleProblem Clock.zero 6).1.frontier
      = .cbfs { unexploredStates := [[], [], [5], [7], [8]], nonEmptyLevelSPQs := [2, 4, 3],
                selectionMethod := K_BEST_AT_LEVEL, numToSelect := 1,
                numExploredAtCurLevel := 0, lastLevelExplored := 3, draws := [] } := by
  refine ⟨by decide!, by decide!, by decide, by decide!⟩

end KBestPush

/-! ## The ids in the order of the calls -/

section Ids
variable {σ : Type}

theorem countsFrom_append (l1 l2 : List Int) : ∀ a : Int, countsFrom a l1 →
    countsFrom (a + l1.length) l2 → countsFrom a (l1 ++ l2) := by
  induction l1 with
  | nil => intro a _ h2; simpa using h2
  | cons x xs ih =>
    intro a h1 h2
    refine ⟨h1.1, ih (a + 1) h1.2 ?_⟩
    have : a + 1 + (xs.length : Int) = a + ((x :: xs).length : Int) := by
      simp only [List.length_cons, Nat.cast_succ]; ring
    rw [this]
    exact h2

theorem countsFrom_get (l : List Int) : ∀ (a : Int), countsFrom a l → ∀ n : Nat,
    n < l.length → l[n]? = some (a + n) := by
  induction l with
  | nil => intro a _ n hn; simp at hn
  | cons x xs ih =>
    intro a h n hn
    cases n with
    | zero => simp [h.1]
    | succ m =>
      have := ih (a + 1) h.2 m (by simpa using hn)
      simp only [List.getElem?_cons_succ, this, Nat.cast_succ]
      congr 1
      ring

theorem countsFrom_range (l : List Int) (h : countsFrom 0 l) :
    l = (List.range l.length).map (fun n : Nat => (n : Int)) := by
  apply List.ext_getElem?
  intro n
  by_cases hn : n < l.length
  · rw [countsFrom_get l 0 h n hn]
    simp [hn]
  · have h1 : l.length ≤ n := not_lt.mp hn
    rw [List.getElem?_eq_none h1, List.getElem?_eq_none (by simpa using h1)]

theorem nextNodeID_of_essence {a b : BTree σ} (h : a.essence = b.essence) :
    a.nextNodeID = b.nextNodeID := congrArg (fun x => x.2.2.1) h

theorem idsOfActions_spec (P : Problem σ) (acts : List (Action σ)) :
    ∀ bt : BTree σ, countsFrom bt.nextNodeID (BTree.idsOfActions P bt acts) ∧
      (BTree.runActions P bt acts).1.nextNodeID
        = bt.nextNodeID + (BTree.idsOfActions P bt acts).length := by
  induction acts with
  | nil => intro bt; exact ⟨trivial, by simp [BTree.runActions, BTree.idsOfActions]⟩
  | cons a rest ih =>
    intro bt
    have h := runAction_nextNodeID P bt a
    have hi := ih (bt.runAction P a).1
    unfold BTree.idsOfActions BTree.runActions
    cases hr : (bt.runAction P a).2 with
    | error e =>
      dsimp only
      cases ha : a.isProcessState
      · rw [ha] at h
        simp only [Bool.false_eq_true, if_false, List.append_nil, List.length_nil, Nat.cast_zero,
          add_zero] at h ⊢
        exact ⟨trivial, h⟩
      · rw [ha] at h
        simp only [if_true, List.append_nil, List.length_singleton, Nat.cast_one] at h ⊢
        exact ⟨⟨rfl, trivial⟩, h⟩
    | ok u =>
      dsimp only
      cases ha : a.isProcessState
      · rw [ha] at h
        simp only [Bool.false_eq_true, if_false, add_zero, List.nil_append] at h ⊢
        rw [h] at hi
        exact hi
      · rw [ha] at h
        simp only [if_true, List.singleton_append, List.length_cons, Nat.cast_succ] at h ⊢
        rw [h] at hi
        refine ⟨⟨rfl, hi.1⟩, ?_⟩
        rw [hi.2]
        ring

theorem idsOfBranchOn_spec (P : Problem σ) (bt : BTree σ) (ns : State σ) :
    countsFrom bt.nextNodeID (bt.idsOfBranchOn P ns) ∧
    (bt.branchOn P ns).1.nextNodeID = bt.nextNodeID + (bt.idsOfBranchOn P ns).length := by
  unfold BTree.idsOfBranchOn BTree.branchOn
  split_ifs
  · exact ⟨trivial, by simp⟩
  · exact idsOfActions_spec P _ (bt.countExplored ns.depth.toNat)

theorem idsOfFinalTests_spec (P : Problem σ) (bt : BTree σ) (p : Ptr) (ns : State σ) :
    countsFrom bt.nextNodeID (bt.idsOfFinalTests P p ns) ∧
    (bt.finalTests P p ns).1.nextNodeID = bt.nextNodeID + (bt.idsOfFinalTests P p ns).length := by
  have h1 : ((bt.writeState p (P.applyFinalPruningTests ns bt.view)).stateIsPrunable
      (P.applyFinalPruningTests ns bt.view)).1.nextNodeID = bt.nextNodeID :=
    nextNodeID_of_essence (stateIsPrunable_essence _ _)
  unfold BTree.idsOfFinalTests BTree.finalTests
  dsimp only
  split_ifs
  · exact ⟨trivial, by simp [h1]⟩
  · have := idsOfBranchOn_spec P ((bt.writeState p (P.applyFinalPruningTests ns bt.view)).stateIsPrunable
      (P.applyFinalPruningTests ns bt.view)).1 (P.applyFinalPruningTests ns bt.view)
    rw [h1] at this
    exact this

theorem idsOfExploreState_spec (P : Problem σ) (bt : BTree σ) (p : Ptr) (ns : State σ) :
    countsFrom bt.nextNodeID (bt.idsOfExploreState P p ns) ∧
    (bt.exploreState P p ns).1.nextNodeID
      = bt.nextNodeID + (bt.idsOfExploreState P p ns).length := by
  have h1 : (bt.labelExplored.stateIsPrunable ns).1.nextNodeID = bt.nextNodeID :=
    (nextNodeID_of_essence (stateIsPrunable_essence _ _)).trans
      (nextNodeID_of_essence (labelExplored_essence bt))
  unfold BTree.idsOfExploreState BTree.exploreState
  split_ifs
  · exact ⟨trivial, by
      simp [nextNodeID_of_essence (saveStateForExploration_essence P bt p)]⟩
  · exact ⟨trivial, by simp [h1]⟩
  · have := idsOfFinalTests_spec P (bt.labelExplored.stateIsPrunable ns).1 p ns
    rw [h1] at this
    exact this
  · have := idsOfBranchOn_spec P (bt.labelExplored.stateIsPrunable ns).1 ns
    rw [h1] at this
    exact this

theorem idsOfExploreNextState_spec (P : Problem σ) (bt : BTree σ) :
    countsFrom bt.nextNodeID (bt.idsOfExploreNextState P) ∧
    (bt.exploreNextState P).1.nextNodeID
      = bt.nextNodeID + (bt.idsOfExploreNextState P).length := by
  have h1 : (bt.getNextState P).1.nextNodeID = bt.nextNodeID :=
    nextNodeID_of_essence (getNextState_essence P bt)
  unfold BTree.idsOfExploreNextState BTree.exploreNextState andThen
  cases hg : (bt.getNextState P).2 with
  | error e => exact ⟨trivial, by simp [h1]⟩
  | ok q =>
    dsimp only
    cases hh : (bt.getNextState P).1.heap[q]? with
    | none => exact ⟨trivial, by simp [h1]⟩
    | some ns =>
      have := idsOfExploreState_spec P (bt.getNextState P).1 q ns
      rw [h1] at this
      exact this

theorem iteration_nextNodeID (P : Problem σ) (clk : Clock) (i : Nat) (bt : BTree σ)
    (fin : Bool) :
    (bt.iteration P clk i fin).1.nextNodeID = (bt.exploreNextState P).1.nextNodeID := by
  rcases iteration_cases P clk i bt fin with ⟨x, h1⟩ | ⟨u, h1⟩ | ⟨u, h1⟩ | ⟨u, k, h1⟩ <;>
    rw [h1] <;> rfl

theorem idsOfLoop_spec (P : Problem σ) (clk : Clock) :
    ∀ (fuel i : Nat) (bt : BTree σ) (fin : Bool),
      countsFrom bt.nextNodeID (BTree.idsOfLoop P clk fuel i bt fin) ∧
      (BTree.exploreLoop P clk fuel i bt fin).1.nextNodeID
        = bt.nextNodeID + (BTree.idsOfLoop P clk fuel i bt fin).length := by
  intro fuel
  induction fuel with
  | zero =>
    intro i bt fin
    unfold BTree.idsOfLoop BTree.exploreLoop
    split_ifs <;> exact ⟨trivial, by simp⟩
  | succ fuel ih =>
    intro i bt fin
    have he := idsOfExploreNextState_spec P bt
    have hit := iteration_nextNodeID P clk i bt fin
    unfold BTree.idsOfLoop BTree.exploreLoop
    split_ifs
    · cases hr : (bt.iteration P clk i fin).2 with
      | error e =>
        dsimp only
        rw [List.append_nil, hit]
        exact he
      | ok f =>
        dsimp only
        have h2 := ih (i + 1) (bt.iteration P clk i fin).1 f
        rw [hit, he.2] at h2
        refine ⟨countsFrom_append _ _ _ he.1 h2.1, ?_⟩
        rw [h2.2, List.length_append]
        push_cast
        ring
    · exact ⟨trivial, by simp⟩

theorem idsOfCall_spec (P : Problem σ) (bt : BTree σ) (c : Call σ) :
    countsFrom bt.nextNodeID (bt.idsOfCall P c) ∧
    (bt.call P c).nextNodeID = bt.nextNodeID + (bt.idsOfCall P c).length := by
  cases c with
  | configure o => exact ⟨trivial, by cases o <;> simp [BTree.call, BTree.idsOfCall, BTree.configure]⟩
  | setGlobalLB lb => exact ⟨trivial, by simp [BTree.call, BTree.idsOfCall, BTree.setGlobalLB]⟩
  | setGlobalUB ub => exact ⟨trivial, by simp [BTree.call, BTree.idsOfCall, BTree.setGlobalUB]⟩
  | processState s r =>
    exact ⟨⟨rfl, trivial⟩, by
      simp only [BTree.call, BTree.idsOfCall, List.length_singleton, Nat.cast_one]
      exact processState_nextNodeID P bt s r⟩
  | processHeuristicState s =>
    exact ⟨trivial, by
      simp only [BTree.call, BTree.idsOfCall, List.length_nil, Nat.cast_zero, add_zero]
      exact processHeuristicState_nextNodeID bt s⟩
  | explore clk fuel => exact idsOfLoop_spec P clk fuel 0 (bt.startClock clk) true
  | resetBest => exact ⟨trivial, by simp [BTree.call, BTree.idsOfCall, BTree.resetBest]⟩

theorem idsOfSession_spec (P : Problem σ) (calls : List (Call σ)) :
    ∀ bt : BTree σ, countsFrom bt.nextNodeID (BTree.idsOfSession P bt calls) ∧
      (bt.session P calls).nextNodeID
        = bt.nextNodeID + (BTree.idsOfSession P bt calls).length := by
  induction calls with
  | nil => intro bt; exact ⟨trivial, by simp [BTree.session, BTree.idsOfSession]⟩
  | cons c cs ih =>
    intro bt
    have h1 := idsOfCall_spec P bt c
    have h2 := ih (bt.call P c)
    rw [h1.2] at h2
    unfold BTree.idsOfSession BTree.session
    rw [List.foldl_cons]
    refine ⟨countsFrom_append _ _ _ h1.1 h2.1, ?_⟩
    have h3 : (List.foldl (fun b c => b.call P c) (bt.call P c) cs).nextNodeID
        = ((bt.call P c).session P cs).nextNodeID := rfl
    rw [h3, h2.2, List.length_append]
    push_cast
    ring

/-- C3: a fresh engine starts at id 0; every call of `processState` stamps its
state with the current `nextNodeID` and moves `nextNodeID` up by one whatever
its outcome, and `processHeuristicState` leaves `nextNodeID` alone.  So in
every sequence of calls of the user on a fresh engine (option and bound
setters, `processState`, `processHeuristicState`, `explore`, `resetBest`), the
ids assigned by the calls of `processState`, those made by the user and those
made by the user's `branch` during `explore` alike, are 0, 1, 2, ... in the
order of the calls: the n-th call assigns id n, and after N calls the next id
is N. -/
theorem ids_in_call_order (P : Problem σ) :
    (∀ t i f, (BTree.new t i f : BTree σ).nextNodeID = 0) ∧
    (∀ (bt : BTree σ) (s : State σ) (isRoot : Bool),
      (bt.processState P s isRoot).1.nextNodeID = bt.nextNodeID + 1) ∧
    (∀ (bt : BTree σ) (s s1 : State σ), (bt.identify s).2 = .ok s1 →
      s1 = { s with id := bt.nextNodeID }) ∧
    (∀ (bt : BTree σ) (s : State σ),
      (bt.processHeuristicState s).1.nextNodeID = bt.nextNodeID) ∧
    (∀ t i f (calls : List (Action σ)) (s s1 : State σ),
      (((BTree.new t i f).runCalls P calls).identify s).2 = .ok s1 →
        s1.id = calls.countP Action.isProcessState) ∧
    (∀ t i f (calls : List (Action σ)) (s : State σ) (isRoot : Bool),
      (((BTree.new t i f).runCalls P calls).processState P s isRoot).1.nextNodeID
        = calls.countP Action.isProcessState + 1) ∧
    (∀ t i f (calls : List (Call σ)),
      BTree.idsOfSession P (BTree.new t i f) calls
        = (List.range (BTree.idsOfSession P (BTree.new t i f) calls).length).map
            (fun n : Nat => (n : Int)) ∧
      (∀ n : Nat, n < (BTree.idsOfSession P (BTree.new t i f) calls).length →
        (BTree.idsOfSession P (BTree.new t i f) calls)[n]? = some (n : Int)) ∧
      ((BTree.new t i f).session P calls).nextNodeID
        = (BTree.idsOfSession P (BTree.new t i f) calls).length) := by
  refine ⟨fun _ _ _ => rfl, processState_nextNodeID P, identify_id, processHeuristicState_nextNodeID,
    ?_, ?_, ?_⟩
  · intro t i f calls s s1 h
    rw [identify_id _ s s1 h]
    show ((BTree.new t i f).runCalls P calls).nextNodeID = _
    rw [runCalls_nextNodeID]
    simp [BTree.new]
  · intro t i f calls s isRoot
    rw [processState_nextNodeID, runCalls_nextNodeID]
    simp [BTree.new]
  intro t i f calls
  have h := idsOfSession_spec P calls (BTree.new t i f)
  have h0 : (BTree.new t i f : BTree σ).nextNodeID = 0 := rfl
  rw [h0] at h
  refine ⟨countsFrom_range _ h.1, ?_, by rw [h.2, zero_add]⟩
  intro n hn
  rw [countsFrom_get _ 0 h.1 n hn, zero_add]

theorem ids_in_call_order_witness :
    BTree.idsOfSession sampleProblem (BTree.new MIN false DFSTree.frontier)
        [Call.processState sampleRoot true, Call.processHeuristicState (sampleState 9 9 9),
         Call.explore Clock.zero 10, Call.processState sampleInner false]
      = [0, 1, 2, 3] ∧
    ((BTree.new MIN false DFSTree.frontier).session sampleProblem
        [Call.processState sampleRoot true, Call.processHeuristicState (sampleState 9 9 9),
         Call.explore Clock.zero 10, Call.processState sampleInner false]).nextNodeID = 4 :=
  have hl : (BTree.idsOfSession sampleProblem (BTree.new MIN false DFSTree.frontier)
        [Call.processState sampleRoot true, Call.processHeuristicState (sampleState 9 9 9),
         Call.explore Clock.zero 10, Call.processState sampleInner false]).length = 4 := by
    decide!
  have t := (ids_in_call_order sampleProblem).2.2.2.2.2.2 MIN false DFSTree.frontier
    [Call.processState sampleRoot true, Call.processHeuristicState (sampleState 9 9 9),
     Call.explore Clock.zero 10, Call.processState sampleInner false]
  ⟨t.1.trans (by rw [hl]; rfl), t.2.2.trans (by rw [hl]; rfl)⟩

end Ids

section ZeroRate

/-- C15 (the code at the failing input): on a fresh engine after
`setOutputRate(0)` and `processState(root, true)`, with `debug` at its default
1, the user's `branch` raises the abort signal in the first iteration of
`explore()`.  The handler catches it, and the progress test
`statesExplored % outputRate` that follows in the same iteration divides by
zero: `explore()` does not return, whatever the number of iterations allowed.
With the default `outputRate` the same call returns normally. -/
theorem abort_then_division_by_zero :
    zeroRateEngine.debug = 1 ∧ zeroRateEngine.outputRate = 0 ∧
    (zeroRateEngine.isEmpty = false ∧ zeroRateEngine.keepExploring = true) ∧
    ((zeroRateEngine.startClock Clock.zero).exploreNextState abortProblem).2
      = .error .abort ∧
    (zeroRateEngine.explore abortProblem Clock.zero 1).2 = .error .undefined ∧
    (zeroRateEngine.explore abortProblem Clock.zero 100).2 = .error .undefined ∧
    ((rootedEngine sampleRoot).explore abortProblem Clock.zero 1).2 = .ok false := by
  refine ⟨by decide!, by decide!, by decide!, by decide!, by decide!, by decide!, by decide!⟩

end ZeroRate

section FirstDive

/-- C25 (the code at the failing input): the constructor of `CDBFSTree` does
not initialise `lastDiveLevel`, and the dives that follow `nextBest` do not
write it, so the first new dive of a search reads what the memory held.  With
-2 there, after three explored states of the sample tree (the root, A and A1)
`nextBest` is null and three levels exist, with B waiting at depth 1 and A2 at
depth 2.  The level named by the claim is `(-2 + 1) mod 3 = 2`, which holds
A2; the code computes `(size_t)(-1) % 3 = 0`, finds level 0 empty and returns
B from level 1, so that the fourth explored state is at depth 1 and not at
depth 2.  With `INT_MAX` in `lastDiveLevel` and seven levels the sum overflows
and the scan starts at level 0 instead of level 2. -/
theorem cdbfs_first_dive_level :
    (diveEngine (-2) 3).frontier
      = .cdbfs { unexploredStates := [[], [2], [4]], nonEmptyLevelSPQs := [], nextBest := none,
                 lastDiveLevel := -2, lastLevelExplored := 2, numUnexploredStates := 2 } ∧
    ((diveEngine (-2) 3).heap[2]?).map (fun s => s.depth) = some 1 ∧
    ((diveEngine (-2) 3).heap[4]?).map (fun s => s.depth) = some 2 ∧
    ((-2 : Int) + 1) % 3 = 2 ∧
    CDBFSTree.nextLevel (-2) 3 = 0 ∧
    ((diveEngine (-2) 3).getNextState sampleProblem).2 = .ok 2 ∧
    (diveEngine (-2) 4).tStats.numExploredAtLevel = [1, 2, 1] ∧
    ((2147483647 : Int) + 1) % 7 = 2 ∧
    CDBFSTree.nextLevel 2147483647 7 = 0 := by
  refine ⟨by decide!, by decide!, by decide!, by decide, by decide, by decide!, by decide!,
    by decide, by decide⟩

end FirstDive

section Flag

/-- C28 as stated fails: with `useDom` and `retainStates` both on,
`processState` stores a state whose dominated flag is set.  The flag of the
sample state is clear when it is tested after the loop of
`applyDominanceRules`; the user's `computeBounds`, which the engine calls after
that test, sets it; and the engine stores the state without a second test. -/
theorem stored_state_flagged_by_computeBounds :
    dominanceEngine.useDom = true ∧ dominanceEngine.retainStates = true ∧
    flaggingProblem.isTerminalState sampleInner = false ∧
    ((dominanceEngine.uptoDominance sampleInner).1.applyDominanceRules flaggingProblem
      { sampleInner with id := dominanceEngine.nextNodeID }).2.dominated = false ∧
    (dominanceEngine.processState flaggingProblem sampleInner false).2 = .ok true ∧
    (dominanceEngine.processState flaggingProblem sampleInner false).1.frontier = .dfs [1, 0] ∧
    (dominanceEngine.processState flaggingProblem sampleInner false).1.domClasses
      = [(1, [0, 1])] ∧
    ((dominanceEngine.processState flaggingProblem sampleInner false).1.heap[1]?).map
      (fun s => s.dominated) = some true := by
  refine ⟨by decide!, by decide!, by decide!, by decide!, by decide!, by decide!, by decide!,
    by decide!⟩

end Flag

section NodeLimitReturn

/-- The call `processState(root, true)` on a fresh engine with node limit `n`,
for the root of a search tree with valid bounds: it returns, and either the
search it starts is sound, with the size of the tree as work, or the root was
not stored (it was pruned by its bound or closed the gap) and the frontier is
as the constructor left it. -/
theorem root_ready (pt : Int) (isInt : Bool) (f : Frontier) (n : Int)
    (ltS : State Node → State Node → Bool) (prio : State Node → ℚ)
    (t : Bool) (o l u : ℚ) (ch : Forest)
    (hpt : pt = MIN ∨ pt = MAX) (hf : Frontier.Fresh f)
    (hvalid : Forest.valid pt (.node t o l u ch .nil))
    (hroot : t = true → dblMin ≤ o ∧ o ≤ dblMax) :
    ∃ r, (((BTree.new pt isInt f).configure (.nodeLimit n)).processState (treeProblem ltS prio)
            (rootState t o l u ch) true).2 = .ok r ∧
      ((Sound pt (Forest.termObjs (.node t o l u ch .nil)) .nil
        (((BTree.new pt isInt f).configure (.nodeLimit n)).processState (treeProblem ltS prio)
            (rootState t o l u ch) true).1 ∧
        (((BTree.new pt isInt f).configure (.nodeLimit n)).processState (treeProblem ltS prio)
            (rootState t o l u ch) true).1.work ≤ Forest.size (.node t o l u ch .nil)) ∨
       (((BTree.new pt isInt f).configure (.nodeLimit n)).processState (treeProblem ltS prio)
            (rootState t o l u ch) true).1.frontier = f) := by
  have h3 : MIN ≠ MAX := by decide
  have h4 : MAX ≠ MIN := by decide
  have he := eps_pos
  obtain ⟨root, hr⟩ : ∃ root : State Node, root = rootState t o l u ch := ⟨_, rfl⟩
  obtain ⟨bt0, hb0⟩ : ∃ bt0 : BTree Node,
      bt0 = (BTree.new pt isInt f).configure (.nodeLimit n) := ⟨_, rfl⟩
  have hdata : root.data = ⟨t, ch⟩ := by subst hr; rfl
  have hd : 0 ≤ root.depth := by subst hr; exact le_refl _
  have hdom : root.dominated = false := by subst hr; rfl
  have htime : root.timeToExplore = 0 := by subst hr; rfl
  have ho : root.objValue = o := by subst hr; rfl
  have hl : root.lowerBound = l := by subst hr; rfl
  have hu : root.upperBound = u := by subst hr; rfl
  rw [← hr, ← hb0]
  have hc1 := core_identified bt0 root root.depth.toNat
  have hi1 := isOptIntegral_identified bt0 root root.depth.toNat
  obtain ⟨hf1, hseen1, hslack1, hbest1, htype1, hfr1⟩ := core_fields hc1
  have hseen0 : bt0.seen = seen0 pt := by rw [hb0]; rfl
  have hslack0 : bt0.slack = if pt = MIN then dblMin else dblMax := by rw [hb0]; rfl
  have hbest0 : bt0.bestState = none := by rw [hb0]; rfl
  have htype0 : bt0.problemType = pt := by rw [hb0]; rfl
  have hfr0 : bt0.frontier = f := by rw [hb0]; rfl
  have hint0 : bt0.isOptIntegral = isInt := by rw [hb0]; rfl
  have hf0 : bt0.frame
      = ((BTree.new pt isInt f).configure (.nodeLimit n) : BTree Node).frame := by rw [hb0]
  cases t with
  | true =>
    rw [processState_terminal ltS prio bt0 root true hd (by rw [hdata])]
    have hT : Forest.termObjs (.node true o l u ch .nil) = [o] := by simp [Forest.termObjs]
    rw [hT]
    have hs1 : Sound pt (Forest.termObjs (.node true o l u ch .nil)) (.node true o l u ch .nil)
        (((bt0.assignID root).countIdentified root.depth.toNat).countCandidate true) := by
      refine Sound.start isInt f n hpt (hf1.trans hf0) hf hvalid (hseen1.trans hseen0)
        (hbest1.trans hbest0) ?_
      intro x hx
      rw [hT, List.mem_singleton] at hx
      subst hx
      show sgn pt * ((bt0.assignID root).countIdentified root.depth.toNat).slack ≤ _
      rw [hslack1, hslack0]
      rcases hpt with rfl | rfl
      · simp only [sgn_MIN, if_true, one_mul]; exact (hroot rfl).1
      · simp only [sgn_MAX, h4, if_false]; linarith [(hroot rfl).2]
    rw [hT] at hs1
    obtain ⟨e1, e2, e3, e4⟩ := hs1.afterSaveBestState { root with id := bt0.nextNodeID } true
      (by simp [ho])
    rw [andThen_of_ok _ e1]
    refine ⟨true, rfl, Or.inl ⟨?_, ?_⟩⟩
    · refine e2.rem_change trivial (by simp [Forest.termObjs]) ?_
      intro x hx
      rw [hT, List.mem_singleton] at hx
      subst hx
      exact Or.inr (ho ▸ e4)
    · have : (((bt0.assignID root).countIdentified root.depth.toNat).countCandidate true).work
          = 0 := work_zero (by
        show Frontier.ptrs ((bt0.assignID root).countIdentified root.depth.toNat).frontier = []
        rw [hfr1, hfr0]; exact fresh_ptrs hf)
      show (BTree.saveBestState _ _ _).1.work ≤ _
      rw [work_of_frame e3, this]
      exact Nat.zero_le _
  | false =>
    rw [processState_inner ltS prio bt0 root true hd (by rw [hdata]) (by rw [hb0]; rfl)
      (by rw [hb0]; rfl)]
    unfold BTree.boundAndStore
    have hcb : (if ((bt0.assignID root).countIdentified root.depth.toNat).stateComputesBounds
          = true
        then ({ root with id := bt0.nextNodeID } : State Node)
        else (treeProblem ltS prio).computeBounds { root with id := bt0.nextNodeID }
          ((bt0.assignID root).countIdentified root.depth.toNat).view)
        = { root with id := bt0.nextNodeID } := by
      split_ifs <;> rfl
    simp only [hcb, if_true]
    have hval := hvalid
    simp only [Forest.valid, true_implies, and_true] at hval
    have hT : Forest.termObjs (.node false o l u ch .nil) = Forest.termObjs ch := by
      simp [Forest.termObjs]
    generalize hbt1 : (bt0.assignID root).countIdentified root.depth.toNat = bt1 at *
    generalize hroot1 : ({ root with id := bt0.nextNodeID } : State Node) = root1 at *
    have hb1 : root1.bound pt = if pt = MIN then l else u := by
      subst hroot1; simp only [State.bound, hl, hu]
    obtain ⟨g1, g2, g3, g4, g5⟩ := updateRootBound_sgn bt1 root1 pt hpt (htype1.trans htype0)
    by_cases hex : bt1.stateExceedsBounds root1 = true
    · simp only [hex, if_true]
      exact ⟨false, rfl, Or.inr (hfr1.trans hfr0)⟩
    by_cases hgc : (bt1.updateRootBound root1).gapClosed = true
    · simp only [hex, Bool.false_eq_true, if_false, hgc, if_true]
      refine ⟨false, rfl, Or.inr ?_⟩
      have := congrArg (fun x => x.2.2.2.2.2.2.2.2.1) g1
      exact this.trans (hfr1.trans hfr0)
    simp only [hex, Bool.false_eq_true, if_false, hgc]
    have hfr2 : (bt1.updateRootBound root1).frontier = f := by
      have := congrArg (fun x => x.2.2.2.2.2.2.2.2.1) g1
      exact this.trans (hfr1.trans hfr0)
    have hs2 : Sound pt (Forest.termObjs (.node false o l u ch .nil)) (.node false o l u ch .nil)
        (bt1.updateRootBound root1) := by
      refine Sound.start isInt f n hpt (g1.trans (hf1.trans hf0)) hf hvalid
        (g2.trans (hseen1.trans hseen0)) (g4.trans (hbest1.trans hbest0)) ?_
      intro x hx
      rw [hT] at hx
      rw [g3, hb1]
      exact bound_le_of_valid (hval.1 x hx)
    have hp2 : Frontier.ptrs (bt1.updateRootBound root1).frontier = [] := by
      rw [hfr2]; exact fresh_ptrs hf
    obtain ⟨b, hb1, hb2, hb3, hb4, hb5⟩ := store_sound (treeProblem ltS prio)
      (bt1.updateRootBound root1) root1 (by subst hroot1; exact hd) hs2.wf
      (by rw [hp2]; intro p hp; cases hp)
    rw [hb1]
    obtain ⟨k1, k2⟩ := hs2.push hb2 hb3 hb4 hb5 (by subst hroot1; exact hdata)
      (by subst hroot1; exact hdom) (by subst hroot1; exact htime) (by subst hroot1; exact hd)
      (by subst hroot1; exact hl) (by subst hroot1; exact hu)
    refine ⟨true, rfl, Or.inl ⟨k1, ?_⟩⟩
    rw [k2, work_zero hp2]
    simp only [Forest.size]
    omega

theorem prepared_of_fresh {σ : Type} (P : Problem σ) (pt : Int) (isInt : Bool) (f : Frontier)
    (hf : Frontier.Fresh f) : Prepared P (BTree.new pt isInt f) := by
  refine Prepared.fresh pt isInt f ?_
  rcases hf with h | h | h | ⟨sel, k, draws, h, -⟩ | h
  · exact Or.inl h
  · exact Or.inr (Or.inl h)
  · exact Or.inr (Or.inr (Or.inl h))
  · exact Or.inr (Or.inr (Or.inr (Or.inl ⟨sel, k, draws, h⟩)))
  · exact Or.inr (Or.inr (Or.inr (Or.inr h)))

/-- On a fresh engine with node limit `n`, `processState(root, true)` and
`explore()` return for every search tree with valid bounds, when the loop is
allowed as many iterations as the tree has nodes. -/
theorem tree_search_returns (pt : Int) (isInt : Bool) (f : Frontier) (n : Int)
    (ltS : State Node → State Node → Bool) (prio : State Node → ℚ) (clk : Clock) (fuel : Nat)
    (t : Bool) (o l u : ℚ) (ch : Forest)
    (hpt : pt = MIN ∨ pt = MAX) (hf : Frontier.Fresh f)
    (hvalid : Forest.valid pt (.node t o l u ch .nil))
    (hroot : t = true → dblMin ≤ o ∧ o ≤ dblMax)
    (hfuel : Forest.size (.node t o l u ch .nil) ≤ fuel) :
    (BTree.solve (treeProblem ltS prio) clk fuel
      ((BTree.new pt isInt f).configure (.nodeLimit n)) (rootState t o l u ch)).2 = .ok true ∧
    BTree.solve (treeProblem ltS prio) clk fuel
      ((BTree.new pt isInt f).configure (.nodeLimit n)) (rootState t o l u ch)
      = (((BTree.new pt isInt f).configure (.nodeLimit n)).processState (treeProblem ltS prio)
          (rootState t o l u ch) true).1.explore (treeProblem ltS prio) clk fuel := by
  obtain ⟨r, h1, h2⟩ := root_ready pt isInt f n ltS prio t o l u ch hpt hf hvalid hroot
  have hsolve : BTree.solve (treeProblem ltS prio) clk fuel
      ((BTree.new pt isInt f).configure (.nodeLimit n)) (rootState t o l u ch)
      = (((BTree.new pt isInt f).configure (.nodeLimit n)).processState (treeProblem ltS prio)
          (rootState t o l u ch) true).1.explore (treeProblem ltS prio) clk fuel := by
    unfold BTree.solve
    rw [andThen_of_ok _ h1]
  refine ⟨?_, hsolve⟩
  rw [hsolve]
  have hpt0 : (((BTree.new pt isInt f).configure (.nodeLimit n)).processState
      (treeProblem ltS prio) (rootState t o l u ch) true).1.progressTestUndefined = false :=
    (progressTest_of_options (processState_options _ _ _ _)).trans rfl
  generalize (((BTree.new pt isInt f).configure (.nodeLimit n)).processState
    (treeProblem ltS prio) (rootState t o l u ch) true).1 = bt1 at h2 hpt0 ⊢
  unfold BTree.explore
  rcases h2 with ⟨hs, hw⟩ | hfr
  · have hs3 : Sound pt (Forest.termObjs (.node t o l u ch .nil)) .nil (bt1.startClock clk) :=
      hs.of_core (show bt1.core = (bt1.startClock clk).core from rfl)
    have hw3 : (bt1.startClock clk).work = bt1.work := rfl
    exact (Sound.afterExploreLoop ltS prio clk fuel 0 _ hs3
      (by rw [hw3]; exact le_trans hw hfuel) hpt0).1
  · have hfr2 : (bt1.startClock clk).frontier = f := hfr
    have hemp : (bt1.startClock clk).isEmpty = true := by
      rw [isEmpty_iff _ (by rw [hfr2]; exact fresh_wf hf _), hfr2]
      exact fresh_ptrs hf
    rw [exploreLoop_empty _ _ _ _ _ _ hemp]

/-- C14 as stated fails: `explore()` need not return.  On a fresh DFS engine
with node limit 5 whose root has `timeToExplore = 3`, every iteration of the
loop defers the root again, no state is ever explored, and none of the tests
at the end of the iteration ends the loop: whatever the number of iterations
allowed, the loop uses them all up. -/
theorem node_limit_does_not_force_return :
    deferredLimited.nodeLimit = 5 ∧ deferredLimited.outputRate = 1000 ∧
    ¬ ∃ fuel : Nat,
      (deferredLimited.explore sampleProblem Clock.zero fuel).2 ≠ .error .outOfFuel := by
  refine ⟨by decide!, by decide!, ?_⟩
  rintro ⟨fuel, h⟩
  apply h
  obtain ⟨x, hx⟩ := dfs_deferral_loop sampleProblem Clock.zero true 0 []
    { deferredRoot with id := 0 } rfl fuel 0 (deferredLimited.startClock Clock.zero)
    (by decide!) (by decide!) (by decide!) (by decide!) (by unfold BTree.mayContinue; decide!)
  rw [if_neg (fun h => absurd h.1 (by decide!))] at hx
  unfold BTree.explore
  rw [hx]

/-- C14 (amended): on an engine that was freshly constructed and prepared
(options, bounds, `processState`, `processHeuristicState`) with
`nodeLimit = n > 0`, `explore()` never has more than `n` states explored,
whatever its outcome and however long it runs; and when it returns with
`finished` set (no abort) while a state still waits, the gap is open, the time
limit is disabled and `stopAtFirstImprov` is off, exactly `n` states are
explored.  On a fresh engine of any of the five tree classes with node limit
`n`, `processState(root, true)` and `explore()` do return for every search
tree with valid bounds (a terminal root having a value in [DBL_MIN, DBL_MAX]),
with `finished` set and at most `n` states explored, when the loop is allowed
as many iterations as the tree has nodes. -/
theorem node_limit_bounds_explored (n : Int) (hn : 0 < n) :
    (∀ (σ : Type) (P : Problem σ) (clk : Clock) (fuel : Nat) (bt : BTree σ),
      Prepared P bt → bt.nodeLimit = n →
      (bt.explore P clk fuel).1.tStats.statesExplored ≤ n ∧
      ((bt.explore P clk fuel).2 = .ok true →
        (bt.explore P clk fuel).1.isEmpty = false →
        (bt.explore P clk fuel).1.globalLowerBound
          < (bt.explore P clk fuel).1.globalUpperBound →
        bt.timeLimit < eps → bt.stopAtFirstImprov = false →
        (bt.explore P clk fuel).1.tStats.statesExplored = n)) ∧
    (∀ (probType : Int) (isIntProb : Bool) (f : Frontier)
        (ltS : State Node → State Node → Bool) (prio : State Node → ℚ) (clk : Clock)
        (fuel : Nat) (t : Bool) (o l u : ℚ) (ch : Forest),
      (probType = MIN ∨ probType = MAX) → Frontier.Fresh f →
      Forest.valid probType (.node t o l u ch .nil) →
      (t = true → dblMin ≤ o ∧ o ≤ dblMax) →
      Forest.size (.node t o l u ch .nil) ≤ fuel →
      (BTree.solve (treeProblem ltS prio) clk fuel
        ((BTree.new probType isIntProb f).configure (.nodeLimit n))
        (rootState t o l u ch)).2 = .ok true ∧
      (BTree.solve (treeProblem ltS prio) clk fuel
        ((BTree.new probType isIntProb f).configure (.nodeLimit n))
        (rootState t o l u ch)).1.tStats.statesExplored ≤ n) := by
  refine ⟨fun σ P clk fuel bt hprep hlim => nodeLimit_bound P clk fuel bt n hprep hn hlim, ?_⟩
  intro probType isIntProb f ltS prio clk fuel t o l u ch hpt hf hvalid hroot hfuel
  obtain ⟨h1, h2⟩ := tree_search_returns probType isIntProb f n ltS prio clk fuel t o l u ch
    hpt hf hvalid hroot hfuel
  refine ⟨h1, ?_⟩
  rw [h2]
  refine (nodeLimit_bound (treeProblem ltS prio) clk fuel _ n
    (Prepared.processState _ _ (Prepared.configure _ (prepared_of_fresh _ _ _ _ hf))) hn ?_).1
  exact (congrArg Options.nodeLimit (processState_options _ _ _ _)).trans rfl

theorem node_limit_bounds_explored_witness :
    (0 : Int) < 1 ∧
    Forest.valid MIN (.node false 0 0 10 diveTree .nil) ∧
    (BTree.solve sampleProblem Clock.zero 10
      ((BTree.new MIN false DFSTree.frontier).configure (.nodeLimit 1))
      (rootState false 0 0 10 diveTree)).2 = .ok true ∧
    (BTree.solve sampleProblem Clock.zero 10
      ((BTree.new MIN false DFSTree.frontier).configure (.nodeLimit 1))
      (rootState false 0 0 10 diveTree)).1.tStats.statesExplored ≤ 1 ∧
    (limitedDive.explore sampleProblem Clock.zero 10).2 = .ok true ∧
    (limitedDive.explore sampleProblem Clock.zero 10).1.isEmpty = false ∧
    (limitedDive.explore sampleProblem Clock.zero 10).1.globalLowerBound
      < (limitedDive.explore sampleProblem Clock.zero 10).1.globalUpperBound ∧
    (limitedDive.explore sampleProblem Clock.zero 10).1.tStats.statesExplored = 1 :=
  have hv : Forest.valid MIN (.node false 0 0 10 diveTree .nil) := by
    norm_num [Forest.valid, Forest.termObjs, diveTree]
  have t := node_limit_bounds_explored 1 (by decide)
  have t2 := t.2 MIN false DFSTree.frontier (fun _ _ => false) (fun _ => 0) Clock.zero 10
    false 0 0 10 diveTree (Or.inl rfl) (Or.inl rfl) hv (fun h => Bool.noConfusion h)
    (by decide)
  have hp : Prepared sampleProblem limitedDive :=
    Prepared.processState _ _ (Prepared.configure _ (Prepared.fresh MIN false _ (Or.inl rfl)))
  have h1 : (limitedDive.explore sampleProblem Clock.zero 10).2 = .ok true := by decide!
  have h2 : (limitedDive.explore sampleProblem Clock.zero 10).1.isEmpty = false := by decide!
  have h3 : (limitedDive.explore sampleProblem Clock.zero 10).1.globalLowerBound
      < (limitedDive.explore sampleProblem Clock.zero 10).1.globalUpperBound := by decide!
  ⟨by decide, hv, t2.1, t2.2, h1, h2, h3,
    (t.1 Node sampleProblem Clock.zero 10 limitedDive hp (by decide!)).2 h1 h2 h3 (by decide!)
      (by decide!)⟩

end NodeLimitReturn

end Basic

end BnB
